import Mathlib

/-!
# Harmony model checker (charm): verification development

Shallow embedding of parts of `hashtab.c` and `charm.c` and the
properties proved about them.  Machine words are natural numbers reduced
modulo `2 ^ 32` where the C code computes in `uint32_t` / `unsigned int`.

Layout: all definitions first (one section per source file), then the
lemmas and theorems.
-/

set_option autoImplicit false

namespace Harmony

/-! ## Definitions: hashtab.c -/

/-- Truncation to an unsigned 32-bit word. -/
def u32 (n : Nat) : Nat := n % 2 ^ 32

/-- A key is a sequence of bytes. -/
abbrev bytes := List (Fin 256)

/-- Little-endian read of a `uint16_t` at `key`. -/
def le16 (b0 b1 : Fin 256) : Nat := b0.val + 256 * b1.val

/-- Little-endian read of a `uint32_t` at `key`. -/
def le32 (b0 b1 b2 b3 : Fin 256) : Nat :=
  b0.val + 256 * b1.val + 65536 * b2.val + 16777216 * b3.val

/-- The value of `*key` (a plain, signed `char`) after the usual arithmetic
conversions to `uint32_t`: bytes from `0x80` on are sign-extended. -/
def schar32 (b : Fin 256) : Nat :=
  if b.val < 128 then b.val else 2 ^ 32 - 256 + b.val

/-- The `while (count >= 8)` loop of `meiyan`: consumes eight bytes per
round and returns the hash so far with the unread rest of the key. -/
def meiyan_loop (h : Nat) : bytes → Nat × bytes
  | b0 :: b1 :: b2 :: b3 :: b4 :: b5 :: b6 :: b7 :: rest =>
      meiyan_loop
        (u32 ((h ^^^ ((u32 (le32 b0 b1 b2 b3 <<< 5) ||| (le32 b0 b1 b2 b3 >>> 27))
          ^^^ le32 b4 b5 b6 b7)) * 0xad3e7)) rest
  | key => (h, key)

/-- The `tmp` step of `meiyan`: mixes in one `uint16_t` and advances `key`
by two bytes. -/
def meiyan_tmp (h : Nat) : bytes → Nat × bytes
  | b0 :: b1 :: rest => (u32 ((h ^^^ le16 b0 b1) * 0xad3e7), rest)
  | key => (h, key)

/-- The hash function `meiyan(key, count)` with `count = key.length`. -/
def meiyan (key : bytes) : Nat :=
  let r0 := meiyan_loop 0x811c9dc5 key
  let count := r0.2.length
  let r1 := if count &&& 4 ≠ 0 then meiyan_tmp (meiyan_tmp r0.1 r0.2).1 (meiyan_tmp r0.1 r0.2).2 else r0
  let r2 := if count &&& 2 ≠ 0 then meiyan_tmp r1.1 r1.2 else r1
  let h := if count &&& 1 ≠ 0 then
      (match r2.2 with
       | b :: _ => u32 ((r2.1 ^^^ schar32 b) * 0xad3e7)
       | [] => r2.1)
    else r2.1
  h ^^^ (h >>> 16)

/-- A `struct ht_node`.  `addr` is the address of the allocation (the
identity of the node), `size` the stored key length and `key` the key bytes
stored behind the value payload.  The `next` pointer is represented by the
position of the node in its chain. -/
structure ht_node where
  addr : Nat
  size : Nat
  key : bytes
deriving DecidableEq, Repr

/-- A `struct hashtab`.  `buckets[i]` is the chain hanging off bucket `i`, in
link order.  `nalloc` is the state of the allocator: the number of nodes
handed out so far, which is also the address of the next node (neither
`malloc` nor the per-worker allocator returns a live block twice). -/
structure hashtab where
  align16 : Bool
  value_size : Nat
  nbuckets : Nat
  buckets : List (List ht_node)
  nlocks : Nat
  nworkers : Nat
  counts : List Nat
  concurrent : Bool
  old_buckets : Option (List (List ht_node))
  old_nbuckets : Nat
  nobjects : Nat
  nalloc : Nat
deriving DecidableEq, Repr

/-- The function `ht_new`: the requested bucket count is overwritten with 1024. -/
def ht_new (value_size : Nat) (_nbuckets : Nat) (nworkers : Nat) (align16 : Bool) : hashtab :=
  { align16 := align16
    value_size := value_size
    nbuckets := 1024
    buckets := List.replicate 1024 []
    nlocks := u32 (nworkers * 64)
    nworkers := nworkers
    counts := List.replicate nworkers 0
    concurrent := false
    old_buckets := none
    old_nbuckets := 0
    nobjects := 0
    nalloc := 0 }

/-- The test `expected->size == size && memcmp(key of expected, key, size) == 0`. -/
def ht_match (expected : ht_node) (key : bytes) : Bool :=
  expected.size == key.length && expected.key.take key.length == key

/-- The search loop of `ht_find`: walks the chain and returns the first node
whose key matches. -/
def ht_search (key : bytes) : List ht_node → Option ht_node
  | [] => none
  | expected :: rest => if ht_match expected key then some expected else ht_search key rest

/-- The function `ht_find`, one call executed without interference.  `al` is
the worker index of the allocator, `none` for `al == NULL`.  The result is
the table afterwards, the node returned and `*is_new`; `none` stands for the
failed `assert(al != NULL)`.  Without interference the chain pointer reached
by the search is the `NULL` link at the end of the chain, so the
compare-and-swap succeeds at once and publishes the node there. -/
def ht_find (ht : hashtab) (al : Option Nat) (key : bytes) : Option (hashtab × ht_node × Bool) :=
  let hash := meiyan key % ht.nbuckets
  let chain := ht.buckets.getD hash []
  match ht_search key chain with
  | some expected => some (ht, expected, false)
  | none =>
    let desired : ht_node := { addr := ht.nalloc, size := key.length, key := key }
    let ht1 : hashtab :=
      { ht with buckets := ht.buckets.set hash (chain ++ [desired]), nalloc := ht.nalloc + 1 }
    if ht.concurrent then
      match al with
      | none => none
      | some worker =>
        some ({ ht1 with counts := ht1.counts.modify (fun c => c + 1) worker }, desired, true)
    else
      some (ht1, desired, true)

/-- The function `ht_insert`: `ht_find`, returning the value slot `&n[1]`
of the node, which is identified here with the node. -/
def ht_insert (ht : hashtab) (al : Option Nat) (key : bytes) : Option (hashtab × ht_node × Bool) :=
  ht_find ht al key

/-- One call of the table interface: `ht_find` or `ht_insert`, with the
allocator and the key. -/
inductive ht_call where
  | find (al : Option Nat) (key : bytes)
  | insert (al : Option Nat) (key : bytes)
deriving DecidableEq, Repr

/-- The key passed by a call. -/
def ht_call.key : ht_call → bytes
  | .find _ key => key
  | .insert _ key => key

/-- The allocator passed by a call. -/
def ht_call.al : ht_call → Option Nat
  | .find al _ => al
  | .insert al _ => al

/-- Executes one call. -/
def ht_exec (ht : hashtab) : ht_call → Option (hashtab × ht_node × Bool)
  | .find al key => ht_find ht al key
  | .insert al key => ht_insert ht al key

/-- Executes a sequence of calls one after another and collects the nodes
returned, in call order. -/
def ht_run (ht : hashtab) : List ht_call → Option (hashtab × List ht_node)
  | [] => some (ht, [])
  | c :: cs =>
    match ht_exec ht c with
    | none => none
    | some (ht1, n, _) =>
      match ht_run ht1 cs with
      | none => none
      | some (ht2, ns) => some (ht2, n :: ns)

/-- The function `ht_set_concurrent`. -/
def ht_set_concurrent (ht : hashtab) : Option hashtab :=
  if ht.concurrent then none else some { ht with concurrent := true }

/-- The function `ht_set_sequential`. -/
def ht_set_sequential (ht : hashtab) : Option hashtab :=
  if ht.concurrent then some { ht with concurrent := false } else none

/-- The inner loop of `ht_do_resize` for one old chain: every node is pushed
on the front of the new bucket selected by its key. -/
def ht_rehash_chain (nbuckets : Nat) (buckets : List (List ht_node)) :
    List ht_node → List (List ht_node)
  | [] => buckets
  | n :: rest =>
    let hash := meiyan (n.key.take n.size) % nbuckets
    ht_rehash_chain nbuckets (buckets.set hash (n :: buckets.getD hash [])) rest

/-- The outer loop of `ht_do_resize`: `count` old buckets starting at `i`. -/
def ht_rehash_range (nbuckets : Nat) (old_buckets : List (List ht_node)) :
    Nat → Nat → List (List ht_node) → List (List ht_node)
  | _, 0, buckets => buckets
  | i, count + 1, buckets =>
    ht_rehash_range nbuckets old_buckets (i + 1) count
      (ht_rehash_chain nbuckets buckets (old_buckets.getD i []))

/-- The function `ht_do_resize` for the old buckets `first .. last - 1`. -/
def ht_do_resize (ht : hashtab) (_old_nbuckets : Nat) (old_buckets : List (List ht_node))
    (first last : Nat) : hashtab :=
  { ht with buckets := ht_rehash_range ht.nbuckets old_buckets first (last - first) ht.buckets }

/-- The loop `for (i = first; i < last; i++) atomic_init(&ht->buckets[i], NULL)`
as one pass over the bucket array: the entry with index `i` (the list given
starts at index `i`) is emptied when `first <= i < last` and kept otherwise. -/
def ht_clear_range (first last : Nat) : Nat → List (List ht_node) → List (List ht_node)
  | _, [] => []
  | i, chain :: rest =>
    (if first ≤ i ∧ i < last then [] else chain) :: ht_clear_range first last (i + 1) rest

/-- The function `ht_make_stable` for one worker.  The stripe bounds are
computed in 64 bits and truncated to `unsigned int`. -/
def ht_make_stable (ht : hashtab) (worker : Nat) : Option hashtab :=
  if ht.concurrent then
    match ht.old_buckets with
    | some old_buckets =>
      let first := u32 (worker * ht.nbuckets % 2 ^ 64 / ht.nworkers)
      let last := u32 ((worker + 1) * ht.nbuckets % 2 ^ 64 / ht.nworkers)
      let ht1 : hashtab := { ht with buckets := ht_clear_range first last 0 ht.buckets }
      let first1 := u32 (worker * ht.old_nbuckets % 2 ^ 64 / ht.nworkers)
      let last1 := u32 ((worker + 1) * ht.old_nbuckets % 2 ^ 64 / ht.nworkers)
      some (ht_do_resize ht1 ht.old_nbuckets old_buckets first1 last1)
    | none => some ht
  else none

/-- The doubling loop of `ht_grow_prepare`:
`while (nbuckets < nobjects * 10) nbuckets *= 2`, in `unsigned int`
arithmetic; `none` when the fuel runs out. -/
def ht_grow_loop (nobjects : Nat) : Nat → Nat → Option Nat
  | 0, _ => none
  | fuel + 1, nbuckets =>
    if nbuckets < u32 (nobjects * 10) then ht_grow_loop nobjects fuel (u32 (nbuckets * 2))
    else some nbuckets

/-- The function `ht_grow_prepare`.  The counts are added to `nobjects` in
`unsigned int`, that is modulo `2 ^ 32`, and so are the products.  `none`: the
assertion fails or the doubling loop does not end.  The bucket array obtained
from `malloc` is not initialised by the code; the model gives it the most
favourable content, all `NULL`. -/
def ht_grow_prepare (ht : hashtab) : Option hashtab :=
  if ht.concurrent then
    let nobjects := u32 (ht.nobjects + (ht.counts.take ht.nworkers).sum)
    let counts := List.replicate (min ht.nworkers ht.counts.length) 0 ++ ht.counts.drop ht.nworkers
    let ht1 : hashtab := { ht with nobjects := nobjects, counts := counts }
    if ht1.nbuckets < u32 (nobjects * 2) then
      match ht_grow_loop nobjects 64 (u32 (ht1.nbuckets * 8)) with
      | none => none
      | some nbuckets =>
        some { ht1 with
          old_buckets := some ht1.buckets
          old_nbuckets := ht1.nbuckets
          nbuckets := nbuckets
          buckets := List.replicate nbuckets [] }
    else
      some { ht1 with old_buckets := none, old_nbuckets := 0 }
  else none

/-- Runs `ht_make_stable` for the workers `worker, worker + 1, ..`, `count`
of them, one after another. -/
def ht_make_stable_all (ht : hashtab) : Nat → Nat → Option hashtab
  | _, 0 => some ht
  | worker, count + 1 =>
    match ht_make_stable ht worker with
    | none => none
    | some ht1 => ht_make_stable_all ht1 (worker + 1) count

/-- Well-formedness of a table: the bucket array has `nbuckets > 0` entries,
every node stores `size` key bytes and hangs off the bucket selected by its
key, node addresses were handed out by the allocator, and no address occurs
twice. -/
def ht_wf (ht : hashtab) : Prop :=
  0 < ht.nbuckets ∧ ht.buckets.length = ht.nbuckets ∧
  (∀ i, i < ht.buckets.length → ∀ n ∈ ht.buckets.getD i [],
      n.key.length = n.size ∧ meiyan n.key % ht.nbuckets = i) ∧
  (∀ n ∈ ht.buckets.flatten, n.addr < ht.nalloc) ∧
  (ht.buckets.flatten.map ht_node.addr).Nodup

/-- The key number `i` of the growth scenario: the two bytes of `i`, low byte
first. -/
def ht_demo_key (i : Nat) : bytes := [Fin.ofNat (i % 256), Fin.ofNat (i / 256)]

/-- The growth scenario: worker 0 inserts the 513 keys `0 .. 512`. -/
def ht_demo_calls : List ht_call :=
  (List.range 513).map (fun i => ht_call.insert (some 0) (ht_demo_key i))

/-! ## Definitions: charm.c -/

/-- A value handle `hvalue_t`. -/
abbrev hvalue := Nat

/-- A `struct context`, restricted to the fields that charm.c reads or
writes.  `stack` is `ctx_stack(ctx)[0 .. sp - 1]`, so `sp = stack.length`;
`failure` is `ctx_failure(ctx)` and `trap_pc` is `ctx_trap_pc(ctx)`. -/
structure context where
  vars : hvalue
  pc : Nat
  atomic : Nat
  readonly : Nat
  atomicFlag : Bool
  interruptlevel : Bool
  stopped : Bool
  terminated : Bool
  failed : Bool
  extended : Bool
  trap_pc : hvalue
  trap_arg : hvalue
  failure : hvalue
  stack : List hvalue
deriving DecidableEq, Repr

/-- Modelled from the spec: adding `n` copies of a context handle to a bag, a
multiset of context handles with multiplicities (`context_add`,
`value_bag_add`).  The entries are kept ordered by handle, so that equal
multisets are equal lists. -/
def bag_add : List (hvalue × Nat) → hvalue → Nat → List (hvalue × Nat)
  | [], v, n => [(v, n)]
  | (u, m) :: rest, v, n =>
    if v = u then (u, m + n) :: rest
    else if v < u then (v, n) :: (u, m) :: rest
    else (u, m) :: bag_add rest v n

/-- Modelled from the spec: removing one copy of a context handle from a bag
(`context_remove`). -/
def bag_remove : List (hvalue × Nat) → hvalue → List (hvalue × Nat)
  | [], _ => []
  | (u, m) :: rest, v =>
    if v = u then (if m ≤ 1 then rest else (u, m - 1) :: rest)
    else (u, m) :: bag_remove rest v

/-- A `struct state`: shared variables, the `pre` snapshot, the choosing
context (0 if none), the bag of stopped contexts, the DFA state and the bag of
runnable contexts (`state_contexts` with `multiplicities`). -/
structure state where
  vars : hvalue
  pre : hvalue
  choosing : hvalue
  stopbag : List (hvalue × Nat)
  dfa_state : Nat
  bag : List (hvalue × Nat)
deriving DecidableEq, Repr

/-- The function `context_remove`. -/
def context_remove (sc : state) (ctx : hvalue) : state :=
  { sc with bag := bag_remove sc.bag ctx }

/-- The function `context_add`. -/
def context_add (sc : state) (ctx : hvalue) : state :=
  { sc with bag := bag_add sc.bag ctx 1 }

/-- A `struct instr`: the flags charm.c tests, whether `env` is `NULL`,
whether `oi->name` is "Frame", and the operation `oi->op` as a function of the
state and context it updates (the VM instructions are taken to be
deterministic). -/
structure instr where
  choose : Bool
  load : Bool
  store : Bool
  del : Bool
  print : Bool
  breakable : Bool
  atomicinc : Bool
  atomicdec : Bool
  retop : Bool
  setintlevel : Bool
  env_null : Bool
  frame : Bool
  op : state → context → state × context

/-- The collaborators of charm.c whose code is outside the files modelled:
interning of contexts and lists, the interrupt entry, and the inspection of
values. -/
structure collab where
  value_put_context : context → hvalue
  value_get_context : hvalue → context
  interrupt_invoke : context → context
  is_set : hvalue → Bool
  set_elems : hvalue → List hvalue
  is_global_addr : hvalue → Bool
  put_atom : String → hvalue
  value_put_list : List hvalue → hvalue
  VALUE_DICT : hvalue

/-- Modelled from the spec: `value_ctx_failure` marks the context failed and
records the reason. -/
def value_ctx_failure (cb : collab) (c : context) (msg : String) : context :=
  { c with failed := true, failure := cb.put_atom msg }

/-- A `struct invariant`. -/
structure invariant where
  pc : Nat
  pre : Bool
deriving DecidableEq, Repr

/-- The part of `struct global` used by the step executor: the code and the
registered invariants (`ninvs = invs.length`). -/
structure global where
  instrs : List instr
  invs : List invariant
  inv_pre : Bool

/-- A `struct access_info`. -/
structure access_info where
  multiplicity : Nat
  atomic : Nat
  pc : Nat
deriving DecidableEq, Repr

/-- A `struct edge`.  `src` and `dst` are node pointers (indices into the
node heap).  The print log is produced by the operations and not modelled. -/
structure edge where
  src : Nat
  dst : Nat
  ctx : hvalue
  choice : hvalue
  interrupt : Bool
  weight : Nat
  after : hvalue
  ai : List access_info
  nsteps : Nat
deriving DecidableEq, Repr

/-- A `struct node`.  `to_parent` is an edge pointer (index into the edge
heap), `bwd` and `fwd` the linked lists of edge pointers, head first.
`component` is the identifier of the strongly connected component, written
before the analysis; `final` is written by the analysis and `visited` by
`is_stuck`.  A new node is zeroed. -/
structure node where
  state : state
  id : Nat
  len : Nat
  steps : Nat
  to_parent : Option Nat
  bwd : List Nat
  fwd : List Nat
  component : Nat := 0
  final : Bool := false
  visited : Bool := false
deriving DecidableEq, Repr

/-- The failure types. -/
inductive fail_type where
  | FAIL_SAFETY
  | FAIL_BEHAVIOR
  | FAIL_INVARIANT
  | FAIL_TERMINATION
  | FAIL_BUSYWAIT
  | FAIL_RACE
deriving DecidableEq, Repr

/-- A `struct failure`. -/
structure failure where
  type : fail_type
  edge : Nat
  address : hvalue
deriving DecidableEq, Repr

/-- The memory a worker acts on in `onestep`: its own `struct worker` fields
together with the shared heap reached through `w->visited`.  `nodes` is the
node heap: node pointer `p` is `nodes[p]`, and the visited dictionary maps the
state of each node to it.  `edges` is the edge heap.  `queues[i]` is
`w->edges[i]`. -/
structure worker where
  index : Nat
  nworkers : Nat
  nodes : List node
  edges : List edge
  results : List Nat
  count : Nat
  enqueued : Nat
  dequeued : Nat
  queues : List (List Nat)
  failures : List failure
  inv_ctx : context
deriving DecidableEq, Repr

/-- The result of running code that may fail an assertion or run forever:
`diverge` when the fuel of the model ran out, `abort` for a failed `assert`,
`ret` for a normal return. -/
inductive outcome (α : Type) where
  | diverge
  | abort
  | ret (a : α)
deriving DecidableEq, Repr

/-- The value returned, if the computation returned. -/
def outcome.toOption {α : Type} : outcome α → Option α
  | .ret a => some a
  | _ => none

/-- The local variables of the main loop of `onestep`.  `infloop` is the
dictionary of the infinite-loop detector: the (context, state) pairs inserted
so far, `none` while it is `NULL`. -/
structure loop_state where
  ctx : context
  sc : state
  instrcnt : Nat
  as_state : Option state
  as_context : hvalue
  as_instrcnt : Nat
  infloop : Option (List (context × state))
  ai : List access_info

/-- The flags with which the main loop of `onestep` is left. -/
structure exit_flags where
  choosing : Bool := false
  rollback : Bool := false
  failure : Bool := false
  stopped : Bool := false
  terminated : Bool := false
  infinite_loop : Bool := false
deriving DecidableEq, Repr

/-- What one iteration of the main loop of `onestep` does: go round again,
fail an assertion, `return false`, or `break`. -/
inductive loop_step where
  | again (ls : loop_state)
  | abort
  | restart (ls : loop_state)
  | done (ls : loop_state) (fl : exit_flags)

/-- First part of an iteration of `onestep`: the instruction at `pc` is
executed (`none`: a failed assertion). -/
def onestep_exec (g : global) (cb : collab) (choice : hvalue) (multiplicity : Nat)
    (ls : loop_state) : Option loop_state :=
  match g.instrs[ls.ctx.pc]? with
  | none => none
  | some ins =>
    if ins.choose then
      if ls.ctx.stack.length = 0 ∨ choice = 0 then none
      else some { ls with ctx := { ls.ctx with
        stack := ls.ctx.stack.set (ls.ctx.stack.length - 1) choice
        pc := ls.ctx.pc + 1 } }
    else if ins.atomicinc then
      let ls1 : loop_state :=
        if ls.instrcnt = 0 then { ls with ctx := { ls.ctx with atomicFlag := true } }
        else if ls.ctx.atomic = 0 then
          { ls with
            as_state := some ls.sc
            as_context := cb.value_put_context ls.ctx
            as_instrcnt := ls.instrcnt }
        else ls
      some { ls1 with sc := (ins.op ls1.sc ls1.ctx).1, ctx := (ins.op ls1.sc ls1.ctx).2 }
    else if ins.atomicdec then
      let ls1 : loop_state :=
        { ls with sc := (ins.op ls.sc ls.ctx).1, ctx := (ins.op ls.sc ls.ctx).2 }
      some (if ls1.ctx.atomic = 0 then { ls1 with as_context := 0, as_instrcnt := 0 } else ls1)
    else
      let ai := if ins.load || ins.store || ins.del
        then { multiplicity := multiplicity, atomic := ls.ctx.atomic, pc := ls.ctx.pc } :: ls.ai
        else ls.ai
      some { ls with sc := (ins.op ls.sc ls.ctx).1, ctx := (ins.op ls.sc ls.ctx).2, ai := ai }

/-- The variable `breakable` of `onestep` when it is tested: whether the next
instruction ends the macrostep of a context whose `atomicFlag` is not set. -/
def onestep_breakable (cb : collab) (next_instr : instr) (ctx : context) : Bool :=
  let breakable0 := next_instr.breakable
  let breakable1 :=
    if next_instr.load ∧ next_instr.env_null then
      (if !cb.is_global_addr (ctx.stack.getD (ctx.stack.length - 1) 0) then false
       else breakable0)
    else breakable0
  if ctx.extended ∧ ctx.trap_pc ≠ 0 ∧ !ctx.interruptlevel then
    (if next_instr.retop ∧ ctx.stack.length = 1 then true
     else if next_instr.setintlevel then true
     else breakable1)
  else breakable1

/-- Last part of an iteration of `onestep`: the peek at the next instruction,
which decides whether the macrostep ends here. -/
def onestep_peek (cb : collab) (next_instr : instr) (ls : loop_state) : loop_step :=
  if next_instr.choose then
    if ls.ctx.stack.length = 0 then .abort
    else
      let s := ls.ctx.stack.getD (ls.ctx.stack.length - 1) 0
      if !cb.is_set s then
        .done { ls with
            ctx := value_ctx_failure cb ls.ctx "choose operation requires a set"
            instrcnt := ls.instrcnt + 1 }
          { failure := true }
      else if (cb.set_elems s).length = 0 then
        .done { ls with
            ctx := value_ctx_failure cb ls.ctx "choose operation requires a non-empty set"
            instrcnt := ls.instrcnt + 1 }
          { failure := true }
      else if ls.ctx.atomic > 0 ∧ !ls.ctx.atomicFlag then .done ls { rollback := true }
      else .done ls { choosing := true }
  else if !ls.ctx.atomicFlag then
    if onestep_breakable cb next_instr ls.ctx then
      if ls.ctx.atomic > 0 ∧ !ls.ctx.atomicFlag then .done ls { rollback := true }
      else .done ls {}
    else .again ls
  else .again ls

/-- Middle part of an iteration of `onestep`, reached when the macrostep
is not ended by the infinite-loop detector: the assertion that the
instruction moved `pc` away from `pc0`, then the peek at the next instruction. -/
def onestep_next (g : global) (cb : collab) (pc0 : Nat) (ls : loop_state) : loop_step :=
  if ls.ctx.pc = pc0 then .abort
  else
    match g.instrs[ls.ctx.pc]? with
    | none => .abort
    | some next_instr => onestep_peek cb next_instr ls

/-- One iteration of the main loop of `onestep`.  The once-a-second
statistics and the wall-clock timeout at the top of the loop, and the profile
counters, are left out.  The instruction counter is not wrapped at `2 ^ 32`. -/
def onestep_iter (g : global) (cb : collab) (choice : hvalue) (infloop_detect : Bool)
    (multiplicity : Nat) (ls : loop_state) : loop_step :=
  match onestep_exec g cb choice multiplicity ls with
  | none => .abort
  | some ls1 =>
    if ¬ (ls1.ctx.pc < g.instrs.length) then .abort
    else
      let ls2 : loop_state := { ls1 with instrcnt := ls1.instrcnt + 1 }
      if ls2.ctx.terminated then .done ls2 { terminated := true }
      else if ls2.ctx.failed then .done ls2 { failure := true }
      else if ls2.ctx.stopped then .done ls2 { stopped := true }
      else if infloop_detect ∨ ls2.instrcnt > 1000 then
        if (ls2.ctx, ls2.sc) ∈ ls2.infloop.getD [] then
          if infloop_detect then
            .done { ls2 with
                infloop := some (ls2.infloop.getD [])
                ctx := value_ctx_failure cb ls2.ctx "infinite loop" }
              { failure := true, infinite_loop := true }
          else .restart { ls2 with infloop := some (ls2.infloop.getD []) }
        else
          onestep_next g cb ls.ctx.pc
            { ls2 with infloop := some ((ls2.ctx, ls2.sc) :: ls2.infloop.getD []) }
      else onestep_next g cb ls.ctx.pc ls2

/-- The main loop of `onestep`; `none` when the fuel runs out before the loop
is left. -/
def onestep_loop (g : global) (cb : collab) (choice : hvalue) (infloop_detect : Bool)
    (multiplicity : Nat) : Nat → loop_state → Option loop_step
  | 0, _ => none
  | fuel + 1, ls =>
    match onestep_iter g cb choice infloop_detect multiplicity ls with
    | .again ls1 => onestep_loop g cb choice infloop_detect multiplicity fuel ls1
    | r => some r

/-- The local variables of `onestep` after `k` complete iterations of its
main loop, `none` if the loop was left before that. -/
def onestep_after (g : global) (cb : collab) (choice : hvalue) (infloop_detect : Bool)
    (multiplicity : Nat) : Nat → loop_state → Option loop_state
  | 0, ls => some ls
  | k + 1, ls =>
    match onestep_after g cb choice infloop_detect multiplicity k ls with
    | none => none
    | some l =>
      match onestep_iter g cb choice infloop_detect multiplicity l with
      | .again l1 => some l1
      | _ => none

/-- A `struct step`, restricted to the working context and the list of access
records collected so far. -/
structure step where
  ctx : context
  ai : List access_info
deriving DecidableEq, Repr

/-- The loop of `invariant_check`, with the state the operations act on. -/
def invariant_check_loop (g : global) : Nat → state → context → outcome (Bool × state × context)
  | 0, _, _ => .diverge
  | fuel + 1, sc, ctx =>
    if ctx.terminated then
      if ctx.stack.length = 1 then .ret (true, sc, { ctx with stack := ctx.stack.dropLast })
      else .abort
    else
      match g.instrs[ctx.pc]? with
      | none => .abort
      | some ins =>
        if (ins.op sc ctx).2.failed then
          .ret (false, (ins.op sc ctx).1, { (ins.op sc ctx).2 with stack := [] })
        else invariant_check_loop g fuel (ins.op sc ctx).1 (ins.op sc ctx).2

/-- The function `invariant_check`: runs the invariant code until the context
terminates; the result is `false` when an instruction fails and `true`
otherwise (the value left on the stack is popped and not looked at). -/
def invariant_check (g : global) (fuel : Nat) (sc : state) (ctx : context) :
    outcome (Bool × state × context) :=
  if ctx.failed ∨ ctx.stack.length ≠ 1 then .abort
  else invariant_check_loop g fuel sc ctx

/-- Lines 198-211 of `check_invariants`: one invariant is evaluated.  The
context of the invariant step is reset to start at the pc of the invariant
with the `(pre, post)` pair `args` on its stack; the code there has to start
with a `Frame` instruction.  The result is `b`, false when the evaluation
failed. -/
def check_invariants_eval (g : global) (cb : collab) (fuel : Nat) (args : hvalue)
    (inv : invariant) (sc : state) (ctx : context) : outcome (Bool × state × context) :=
  if ctx.stack.length ≠ 0 then .abort
  else if ((g.instrs[inv.pc]?).map instr.frame).getD false = false then .abort
  else
    match invariant_check g fuel sc
        { ctx with
          terminated := false
          failed := false
          failure := 0
          pc := inv.pc
          vars := cb.VALUE_DICT
          stack := ctx.stack ++ [args] } with
    | .diverge => .diverge
    | .abort => .abort
    | .ret (b, sc1, ctx1) => .ret (if ctx1.failed then false else b, sc1, ctx1)

/-- The loop `for (i = 0; i < global->ninvs; i++)` of `check_invariants` over
the invariants not yet visited.  `self_loop` is `node == before` and `args`
the interned `(pre, post)` pair. -/
def check_invariants_loop (g : global) (cb : collab) (fuel : Nat) (self_loop : Bool)
    (args : hvalue) : List invariant → state → context → outcome (Nat × state × context)
  | [], sc, ctx => .ret (0, sc, ctx)
  | inv :: rest, sc, ctx =>
    if !inv.pre ∧ !self_loop then
      check_invariants_loop g cb fuel self_loop args rest sc ctx
    else
      match check_invariants_eval g cb fuel args inv sc ctx with
      | .diverge => .diverge
      | .abort => .abort
      | .ret (b, sc1, ctx1) =>
        if !b then .ret (inv.pc, sc1, ctx1)
        else check_invariants_loop g cb fuel self_loop args rest sc1 ctx1

/-- Every invariant of the list that `check_invariants` evaluates holds: the
invariants are taken in order, those that do not use `pre` are skipped unless
`self_loop`, and each of the others evaluates to true.  The result is the
state and the context that the evaluations leave. -/
def invariants_hold (g : global) (cb : collab) (fuel : Nat) (self_loop : Bool)
    (args : hvalue) : List invariant → state → context → Option (state × context)
  | [], sc, ctx => some (sc, ctx)
  | inv :: rest, sc, ctx =>
    if !inv.pre ∧ !self_loop then invariants_hold g cb fuel self_loop args rest sc ctx
    else
      match check_invariants_eval g cb fuel args inv sc ctx with
      | .ret (true, sc1, ctx1) => invariants_hold g cb fuel self_loop args rest sc1 ctx1
      | _ => none

/-- The `(pre, post)` pair that `check_invariants` passes to the invariants. -/
def check_invariants_args (cb : collab) (node_state before_state : state) : hvalue :=
  cb.value_put_list
    [if before_state.pre = 0 then node_state.vars else before_state.pre, node_state.vars]

/-- The function `check_invariants(w, node, before, &w->inv_step)`.  The
operations act on the state of `node` in place. -/
def check_invariants (g : global) (cb : collab) (fuel : Nat) (w : worker)
    (node before : Nat) : outcome (Nat × worker) :=
  match w.nodes[node]?, w.nodes[before]? with
  | some n, some b =>
    if w.inv_ctx.stack.length ≠ 0 then .abort
    else
      match check_invariants_loop g cb fuel (node == before)
          (check_invariants_args cb n.state b.state) g.invs n.state w.inv_ctx with
      | .diverge => .diverge
      | .abort => .abort
      | .ret (r, sc1, ctx1) =>
        .ret (r, { w with inv_ctx := ctx1, nodes := w.nodes.set node { n with state := sc1 } })
  | _, _ => .abort

/-- Lines 511-530 of `onestep`: the old context leaves the bag and the
`after` context is stored in the state. -/
def onestep_place (inv_pre : Bool) (node_pre : hvalue) (sc : state) (ctx after : hvalue)
    (fl : exit_flags) : state :=
  let sc1 := context_remove sc ctx
  let sc2 : state :=
    if fl.choosing then
      { sc1 with choosing := after, pre := if inv_pre then node_pre else sc1.vars }
    else { sc1 with pre := sc1.vars }
  if fl.stopped then { sc2 with stopbag := bag_add sc2.stopbag after 1 }
  else if !fl.terminated then context_add sc2 after
  else sc2

/-- Line 533 of `onestep`: the weight of the step.  `to_parent_after` is
`node->to_parent->after`, `none` when `node->to_parent == NULL`. -/
def onestep_weight (to_parent_after : Option hvalue) (ctx : hvalue) : Nat :=
  match to_parent_after with
  | none => 0
  | some after => if ctx = after then 0 else 1

/-- The `after` field of the edge `node->to_parent`, `none` when
`node->to_parent == NULL`. -/
def to_parent_after (edges : List edge) (n : node) : Option hvalue :=
  n.to_parent.map (fun e => ((edges[e]?).map edge.after).getD 0)

/-- The path record of a node: `len`, `steps` and `to_parent`. -/
def path_record (n : node) : Nat × Nat × Option Nat := (n.len, n.steps, n.to_parent)

/-- Lines 556-573 of `onestep`: the path record of the destination.  For a
new node, `next` is the zeroed node; `parent` is the source node and `e` the
new edge.  Sums are taken in `unsigned int`. -/
def onestep_path (new : Bool) (parent : node) (weight instrcnt : Nat) (e : Nat)
    (next : node) : node :=
  if new then
    { next with
      len := u32 (parent.len + weight)
      steps := u32 (parent.steps + instrcnt)
      to_parent := some e }
  else if u32 (parent.len + weight) < next.len ∨
      (u32 (parent.len + weight) = next.len ∧ u32 (parent.steps + instrcnt) ≤ next.steps) then
    { next with
      len := u32 (parent.len + weight)
      steps := u32 (parent.steps + instrcnt)
      to_parent := some e }
  else next

/-- Modelled from the spec: the lookup half of `dict_find_lock(w->visited, ..)`,
which is not in the sources: the pointer of the node stored under the key
`sc`, if there is one. -/
def visited_lookup (sc : state) : List node → Nat → Option Nat
  | [], _ => none
  | n :: rest, i => if n.state = sc then some i else visited_lookup sc rest (i + 1)

/-- The node as `memset(next, 0, sizeof(*next))` and `next->state = state`
leave it. -/
def node_zero (sc : state) : node :=
  { state := sc, id := 0, len := 0, steps := 0, to_parent := none, bwd := [], fwd := [] }

/-- Lines 495-505 of `onestep`: the state in `sc` once a rollback has been
applied. -/
def exit_state (ls : loop_state) (fl : exit_flags) : state :=
  if fl.rollback then ls.as_state.getD ls.sc else ls.sc

/-- Lines 495-505 of `onestep`: the handle `after`. -/
def exit_after (cb : collab) (ls : loop_state) (fl : exit_flags) : hvalue :=
  if fl.rollback then ls.as_context else cb.value_put_context ls.ctx

/-- Lines 495-505 of `onestep`: the instruction count once a rollback has
been applied. -/
def exit_instrcnt (ls : loop_state) (fl : exit_flags) : Nat :=
  if fl.rollback then ls.as_instrcnt else ls.instrcnt

/-- What lines 511-594 of `onestep` produce: the worker memory, the pointer
`e` of the new edge, the pointer `next` of the destination, the flag `new`
and the state `sc` that was looked up. -/
structure commit where
  w : worker
  e : Nat
  next : Nat
  new : Bool
  sc : state

/-- Lines 511-594 of `onestep`: the new state is completed and looked up in
the visited dictionary, the edge is allocated and linked, the path record of
the destination is updated and a new destination is queued.  `parent` is the
source node `*node`. -/
def onestep_commit (g : global) (cb : collab) (w : worker) (node : Nat) (parent : Harmony.node)
    (ctx choice : hvalue) (interrupt : Bool) (ls : loop_state) (fl : exit_flags) : commit :=
  let after := exit_after cb ls fl
  let instrcnt := exit_instrcnt ls fl
  let sc := onestep_place g.inv_pre parent.state.pre (exit_state ls fl) ctx after fl
  let weight := onestep_weight (to_parent_after w.edges parent) ctx
  let e := w.edges.length
  let new := (visited_lookup sc w.nodes 0).isNone
  let next := (visited_lookup sc w.nodes 0).getD w.nodes.length
  let next_node := onestep_path new parent weight instrcnt e
    ((w.nodes[next]?).getD (node_zero sc))
  { w := { w with
      nodes :=
        if new then w.nodes ++ [{ next_node with bwd := e :: next_node.bwd }]
        else w.nodes.set next { next_node with bwd := e :: next_node.bwd }
      edges := w.edges ++
        [{ src := node, dst := next, ctx := ctx, choice := choice, interrupt := interrupt
           weight := weight, after := after, ai := ls.ai, nsteps := instrcnt }]
      queues := w.queues.modify (fun q => e :: q) (parent.id % w.nworkers)
      results := if new then next :: w.results else w.results
      count := if new then w.count + 1 else w.count
      enqueued := if new then w.enqueued + 1 else w.enqueued }
    e := e, next := next, new := new, sc := sc }

/-- Lines 596-619 of `onestep`: the failure of the macrostep is recorded, or
else the invariants are checked.  `address` holds the pc of the invariant
(`VALUE_TO_PC(inv)` in the code). -/
def onestep_report (fuel : Nat) (g : global) (cb : collab) (node : Nat) (fl : exit_flags)
    (c : commit) : outcome worker :=
  if fl.failure then
    .ret { c.w with failures :=
      { type := if fl.infinite_loop then .FAIL_TERMINATION else .FAIL_SAFETY
        edge := c.e, address := 0 } :: c.w.failures }
  else if c.sc.choosing = 0 ∧ g.invs.length ≠ 0 then
    match (if c.new then check_invariants g cb fuel c.w c.next c.next else .ret (0, c.w)) with
    | .diverge => .diverge
    | .abort => .abort
    | .ret (inv0, w2) =>
      match (if inv0 = 0 then check_invariants g cb fuel w2 c.next node
          else .ret (inv0, w2)) with
      | .diverge => .diverge
      | .abort => .abort
      | .ret (inv, w3) =>
        if inv ≠ 0 then
          .ret { w3 with failures :=
            { type := .FAIL_INVARIANT, edge := c.e, address := inv } :: w3.failures }
        else .ret w3
  else .ret c.w

/-- Lines 491-626 of `onestep`: what happens after the main loop was left by
`break`.  `ctx` is the handle of the context that took the step.  A rollback
without a snapshot reads the uninitialised buffer `as_state`; this undefined
behaviour is treated like a failed assertion. -/
def onestep_finish (fuel : Nat) (g : global) (cb : collab) (w : worker) (node : Nat)
    (ctx choice : hvalue) (interrupt : Bool) (ls : loop_state) (fl : exit_flags) :
    outcome (Bool × worker × step) :=
  match w.nodes[node]? with
  | none => .abort
  | some parent =>
    if fl.rollback ∧ ls.as_state = none then .abort
    else
      match onestep_report fuel g cb node fl
          (onestep_commit g cb w node parent ctx choice interrupt ls fl) with
      | .diverge => .diverge
      | .abort => .abort
      | .ret w1 => .ret (true, w1, { ctx := ls.ctx, ai := [] })

/-- The local variables of `onestep` when its main loop is entered. -/
def onestep_start (cb : collab) (sc : state) (st : step) (interrupt : Bool) : loop_state :=
  { ctx := if interrupt then cb.interrupt_invoke st.ctx else st.ctx
    sc := sc, instrcnt := 0, as_state := none, as_context := 0, as_instrcnt := 0
    infloop := none, ai := st.ai }

/-- The function `onestep`.  `sc` is the caller's copy of the state of `node`
and `st` the caller's `struct step` holding the copy of the context `ctx`.
The result is the value returned with the worker memory and the step
afterwards. -/
def onestep (fuel : Nat) (g : global) (cb : collab) (w : worker) (node : Nat) (sc : state)
    (ctx : hvalue) (st : step) (choice : hvalue) (interrupt infloop_detect : Bool)
    (multiplicity : Nat) : outcome (Bool × worker × step) :=
  if st.ctx.terminated ∨ st.ctx.failed then .abort
  else if interrupt ∧ (!st.ctx.extended ∨ st.ctx.trap_pc = 0) then .abort
  else
    match onestep_loop g cb choice infloop_detect multiplicity fuel
        (onestep_start cb sc st interrupt) with
    | none => .diverge
    | some (.again _) => .diverge
    | some .abort => .abort
    | some (.restart ls) => .ret (false, w, { ctx := ls.ctx, ai := ls.ai })
    | some (.done ls fl) => onestep_finish fuel g cb w node ctx choice interrupt ls fl

/-- The two workers hold the same edges and the same path records. -/
def same_graph (a b : worker) : Prop :=
  b.edges = a.edges ∧ b.nodes.map path_record = a.nodes.map path_record

/-- Sequencing of computations that may diverge or abort. -/
def outcome.bind {α β : Type} (x : outcome α) (f : α → outcome β) : outcome β :=
  match x with
  | .diverge => .diverge
  | .abort => .abort
  | .ret a => f a

/-- An attempt of `make_step`: `onestep` without infinite-loop detection and,
if that returns false, once more with detection, from the restored copies of
the state `sc` and of the context `cc`. -/
def make_step_try (fuel : Nat) (g : global) (cb : collab) (w : worker) (node : Nat)
    (sc sc_restored : state) (ctx : hvalue) (cc : context) (st : step) (choice : hvalue)
    (interrupt : Bool) (multiplicity : Nat) : outcome (worker × step) :=
  (onestep fuel g cb w node sc ctx st choice interrupt false multiplicity).bind fun r =>
    if r.1 then .ret (r.2.1, r.2.2)
    else
      (onestep fuel g cb r.2.1 node sc_restored ctx { r.2.2 with ctx := cc } choice interrupt
        true multiplicity).bind fun r1 => .ret (r1.2.1, r1.2.2)

/-- The function `make_step`: the step of context `ctx` from `node`, first
through the interrupt handler if the context can be interrupted, then without.
The copies of the state are taken from the node each time the code copies it. -/
def make_step (fuel : Nat) (g : global) (cb : collab) (w : worker) (node : Nat)
    (ctx choice : hvalue) (multiplicity : Nat) : outcome worker :=
  match w.nodes[node]? with
  | none => .abort
  | some n =>
    (if n.state.choosing = 0 ∧ (cb.value_get_context ctx).extended ∧
          (cb.value_get_context ctx).trap_pc ≠ 0 ∧ !(cb.value_get_context ctx).interruptlevel then
        make_step_try fuel g cb w node n.state n.state ctx (cb.value_get_context ctx)
          { ctx := cb.value_get_context ctx, ai := [] } choice true multiplicity
      else .ret (w, { ctx := cb.value_get_context ctx, ai := [] })).bind fun r =>
    match r.1.nodes[node]? with
    | none => .abort
    | some n1 =>
      (make_step_try fuel g cb r.1 node { n1.state with choosing := 0 } n1.state ctx
        (cb.value_get_context ctx) { r.2 with ctx := cb.value_get_context ctx } choice false
        multiplicity).bind fun r1 => .ret r1.1

/-- The loop of `do_work` over the choices of a choosing node, from index `i`. -/
def do_work_choices (fuel : Nat) (g : global) (cb : collab) (node : Nat) (vals : List hvalue) :
    Nat → Nat → worker → outcome worker
  | 0, _, _ => .diverge
  | k + 1, i, w =>
    if i < vals.length then
      match w.nodes[node]? with
      | none => .abort
      | some n =>
        (make_step fuel g cb w node n.state.choosing (vals.getD i 0) 1).bind fun w1 =>
          do_work_choices fuel g cb node vals k (i + 1) w1
    else .ret w

/-- The loop of `do_work` over the context bag of a node, from index `i`. -/
def do_work_bag (fuel : Nat) (g : global) (cb : collab) (node : Nat) :
    Nat → Nat → worker → outcome worker
  | 0, _, _ => .diverge
  | k + 1, i, w =>
    match w.nodes[node]? with
    | none => .abort
    | some n =>
      if i < n.state.bag.length then
        (make_step fuel g cb w node (n.state.bag.getD i (0, 0)).1 0
          (n.state.bag.getD i (0, 0)).2).bind fun w1 =>
          do_work_bag fuel g cb node k (i + 1) w1
      else .ret w

/-- The body of the loop `while (take > 0)` of `do_work`: all steps out of
one node. -/
def do_work_node (fuel : Nat) (g : global) (cb : collab) (w : worker) (node : Nat) :
    outcome worker :=
  match w.nodes[node]? with
  | none => .abort
  | some n =>
    if n.state.choosing ≠ 0 then
      if (cb.value_get_context n.state.choosing).stack.length = 0 then .abort
      else if !cb.is_set ((cb.value_get_context n.state.choosing).stack.getD
          ((cb.value_get_context n.state.choosing).stack.length - 1) 0) then .abort
      else if (cb.set_elems ((cb.value_get_context n.state.choosing).stack.getD
          ((cb.value_get_context n.state.choosing).stack.length - 1) 0)).length = 0 then .abort
      else
        do_work_choices fuel g cb node
          (cb.set_elems ((cb.value_get_context n.state.choosing).stack.getD
            ((cb.value_get_context n.state.choosing).stack.length - 1) 0))
          fuel 0 { w with dequeued := w.dequeued + 1 }
    else do_work_bag fuel g cb node fuel 0 { w with dequeued := w.dequeued + 1 }

/-- The loop `while (take > 0)` of `do_work`: the nodes with the ids
`start, start + 1, ..`, `take` of them. -/
def do_work_batch (fuel : Nat) (g : global) (cb : collab) (graph_nodes : List Nat) :
    Nat → Nat → worker → outcome worker
  | 0, _, w => .ret w
  | take + 1, start, w =>
    match graph_nodes[start]? with
    | none => .abort
    | some node =>
      (do_work_node fuel g cb w node).bind fun w1 =>
        do_work_batch fuel g cb graph_nodes take (start + 1) w1

/-- The size of the batch that `do_work` claims when `nleft` nodes are left. -/
def do_work_take (nworkers nleft : Nat) : Nat :=
  let take := nleft / nworkers / 2
  let take1 := if take < 100 then 100 else take
  if take1 > nleft then nleft else take1

/-- The memory of the exploration with a single worker: the worker, the
table `graph.nodes` (node pointer by id, `graph.size` is its length), the
cursor `todo`, the `goal`, the diameter and the global failure heap. -/
structure explorer where
  w : worker
  graph_nodes : List Nat
  todo : Nat
  goal : Nat
  diameter : Nat
  failures : List failure
deriving DecidableEq, Repr

/-- The function `do_work` run by the only worker: batches are claimed until
`todo` reaches `goal`. -/
def do_work (fuel : Nat) (g : global) (cb : collab) : Nat → explorer → outcome explorer
  | 0, _ => .diverge
  | k + 1, x =>
    if x.goal < x.todo then .abort
    else if x.goal - x.todo = 0 then .ret x
    else if x.graph_nodes.length < x.todo + do_work_take x.w.nworkers (x.goal - x.todo) then .abort
    else
      (do_work_batch fuel g cb x.graph_nodes (do_work_take x.w.nworkers (x.goal - x.todo))
        x.todo x.w).bind fun w1 =>
        do_work fuel g cb k
          { x with w := w1, todo := x.todo + do_work_take x.w.nworkers (x.goal - x.todo) }

/-- The loop of `worker` that moves the queued edges to the forward lists of
their source nodes. -/
def fix_forward (edges : List edge) : List Nat → List node → List node
  | [], nodes => nodes
  | e :: rest, nodes =>
    match edges[e]? with
    | none => fix_forward edges rest nodes
    | some ed => fix_forward edges rest (nodes.modify (fun n => { n with fwd := e :: n.fwd }) ed.src)

/-- The loop of `worker` that fills the graph table at the end of a layer:
the results get the ids `node_id, node_id + 1, ..` in list order. -/
def fill_graph : List Nat → Nat → List node → List node
  | [], _, nodes => nodes
  | p :: rest, node_id, nodes =>
    fill_graph rest (node_id + 1) (nodes.modify (fun n => { n with id := node_id }) p)

/-- One round of the main loop of `main` with a single worker: the worker's
`do_work`, the coordinator's bookkeeping between the middle and the end
barrier, and the worker's work after it.  The first component of the result
tells whether the main loop was left. -/
def epoch (fuel : Nat) (g : global) (cb : collab) (x : explorer) : outcome (Bool × explorer) :=
  (do_work fuel g cb fuel x).bind fun x1 =>
    let layer_done : Bool := x1.todo = x1.graph_nodes.length
    let failures := if layer_done then x1.w.failures ++ x1.failures else x1.failures
    let graph_nodes := if layer_done then x1.graph_nodes ++ x1.w.results else x1.graph_nodes
    let todo := if layer_done ∧ failures ≠ [] then graph_nodes.length else x1.todo
    let goal0 := if layer_done ∧ failures ≠ [] then graph_nodes.length else x1.goal
    let finished : Bool := layer_done ∧ todo = graph_nodes.length
    let goal :=
      if finished then goal0
      else if graph_nodes.length - todo > 1024 * x1.w.nworkers then todo + 1024 * x1.w.nworkers
      else graph_nodes.length
    let nodes1 := fix_forward x1.w.edges ((x1.w.queues.getD x1.w.index [])) x1.w.nodes
    let nodes2 := if layer_done then fill_graph x1.w.results x1.todo nodes1 else nodes1
    .ret (finished,
      { w := { x1.w with
          nodes := nodes2
          queues := x1.w.queues.set x1.w.index []
          results := if layer_done then [] else x1.w.results
          count := if layer_done then 0 else x1.w.count
          failures := if layer_done then [] else x1.w.failures }
        graph_nodes := graph_nodes
        todo := todo
        goal := goal
        diameter := if layer_done then x1.diameter + 1 else x1.diameter
        failures := failures })

/-- The main loop of `main` with a single worker, until it is left. -/
def explore (fuel : Nat) (g : global) (cb : collab) : Nat → explorer → outcome explorer
  | 0, _ => .diverge
  | k + 1, x =>
    (epoch fuel g cb x).bind fun r =>
      if r.1 then .ret r.2 else explore fuel g cb k r.2

/-- The local variables of the main loop of `twostep2`: the working context,
the copy of the state, the instruction counter, the dictionary of the
infinite-loop detector and the parameter `choice`, which the loop assigns. -/
structure replay_state where
  ctx : context
  sc : state
  instrcnt : Nat
  infloop : Option (List (context × state))
  choice : hvalue

/-- What one iteration of the main loop of `twostep2` does: go round again,
fail an assertion, or `break`. -/
inductive replay_step where
  | again (ts : replay_state)
  | abort
  | done (ts : replay_state)

/-- First part of an iteration of `twostep2`: the instruction at `pc` is
executed (`none`: a failed assertion or an access outside the code or the
stack).  The value read for a `Print` is only recorded in the microstep. -/
def twostep2_exec (g : global) (ts : replay_state) : Option replay_state :=
  match g.instrs[ts.ctx.pc]? with
  | none => none
  | some ins =>
    if ins.choose then
      if ts.choice = 0 ∨ ts.ctx.stack.length = 0 then none
      else some { ts with ctx := { ts.ctx with
        stack := ts.ctx.stack.set (ts.ctx.stack.length - 1) ts.choice
        pc := ts.ctx.pc + 1 } }
    else if ins.atomicinc then
      let c : context := if ts.instrcnt = 0 then { ts.ctx with atomicFlag := true } else ts.ctx
      some { ts with sc := (ins.op ts.sc c).1, ctx := (ins.op ts.sc c).2 }
    else some { ts with sc := (ins.op ts.sc ts.ctx).1, ctx := (ins.op ts.sc ts.ctx).2 }

/-- The infinite-loop detection of `twostep2`: unless the context terminated
or failed, the pair (context, state) is inserted in the dictionary, and the
context is marked failed if the pair was in it already. -/
def twostep2_detect (cb : collab) (ts : replay_state) : replay_state :=
  if !ts.ctx.terminated ∧ !ts.ctx.failed then
    if (ts.ctx, ts.sc) ∈ ts.infloop.getD [] then
      { ts with
        infloop := some (ts.infloop.getD [])
        ctx := value_ctx_failure cb ts.ctx "infinite loop" }
    else { ts with infloop := some ((ts.ctx, ts.sc) :: ts.infloop.getD []) }
  else ts

/-- Last part of an iteration of `twostep2`: the peek at the next
instruction.  A `Choose` from a set with one element does not end the replay;
its element becomes the choice. -/
def twostep2_peek (g : global) (cb : collab) (ts : replay_state) : replay_step :=
  match g.instrs[ts.ctx.pc]? with
  | none => .abort
  | some next_instr =>
    if next_instr.choose then
      if ts.ctx.stack.length = 0 then .abort
      else
        let s := ts.ctx.stack.getD (ts.ctx.stack.length - 1) 0
        if !cb.is_set s then
          .done { ts with ctx := value_ctx_failure cb ts.ctx "choose operation requires a set" }
        else if (cb.set_elems s).length = 0 then
          .done { ts with
            ctx := value_ctx_failure cb ts.ctx "choose operation requires a non-empty set" }
        else if (cb.set_elems s).length = 1 then
          .again { ts with choice := (cb.set_elems s).getD 0 0 }
        else .done ts
    else .again ts

/-- One iteration of the main loop of `twostep2`, without the microsteps it
records. -/
def twostep2_iter (g : global) (cb : collab) (nsteps : Nat) (ts : replay_state) : replay_step :=
  match twostep2_exec g ts with
  | none => .abort
  | some t1 =>
    let t2 := twostep2_detect cb t1
    if t2.ctx.terminated ∨ t2.ctx.failed ∨ t2.ctx.stopped then .done t2
    else
      let t3 : replay_state := { t2 with instrcnt := t2.instrcnt + 1 }
      if t3.instrcnt ≥ nsteps then .done t3
      else if t3.ctx.pc = ts.ctx.pc then .abort
      else twostep2_peek g cb t3

/-- The main loop of `twostep2`; `none` when the fuel runs out before the loop
is left. -/
def twostep2_loop (g : global) (cb : collab) (nsteps : Nat) :
    Nat → replay_state → Option replay_step
  | 0, _ => none
  | fuel + 1, ts =>
    match twostep2_iter g cb nsteps ts with
    | .again ts1 => twostep2_loop g cb nsteps fuel ts1
    | r => some r

/-- The local variables of `twostep2` when its main loop is entered. -/
def twostep2_start (cb : collab) (node_state : state) (ctx choice : hvalue) (interrupt : Bool) :
    replay_state :=
  { ctx := if interrupt then cb.interrupt_invoke (cb.value_get_context ctx)
      else cb.value_get_context ctx
    sc := { node_state with choosing := 0 }, instrcnt := 0, infloop := none, choice := choice }

/-- The function `twostep2`, reduced to the handle it stores in
`global->processes[pid]`: the interned context in which the replay of the
macrostep ends.  `node_state` is `node->state`. -/
def twostep2 (fuel : Nat) (g : global) (cb : collab) (node_state : state) (ctx choice : hvalue)
    (interrupt : Bool) (nsteps : Nat) : outcome hvalue :=
  if (cb.value_get_context ctx).terminated ∨ (cb.value_get_context ctx).failed then .abort
  else if interrupt ∧
      (!(cb.value_get_context ctx).extended ∨ (cb.value_get_context ctx).trap_pc = 0) then .abort
  else
    match twostep2_loop g cb nsteps fuel (twostep2_start cb node_state ctx choice interrupt) with
    | none => .diverge
    | some (.again _) => .diverge
    | some .abort => .abort
    | some (.done ts) => .ret (cb.value_put_context ts.ctx)

/-- The context is inside an atomic section that was entered lazily: the
macrostep is rolled back if it has to end here. -/
def lazy_atomic (c : context) : Prop := c.atomic > 0 ∧ c.atomicFlag = false

/-- The local variables of `twostep2` after `k` complete iterations of its
main loop, `none` if the loop was left before that. -/
def twostep2_after (g : global) (cb : collab) (nsteps : Nat) : Nat → replay_state →
    Option replay_state
  | 0, ts => some ts
  | k + 1, ts =>
    match twostep2_after g cb nsteps k ts with
    | none => none
    | some t =>
      match twostep2_iter g cb nsteps t with
      | .again t1 => some t1
      | _ => none

/-! ## Definitions: charm.c, analysis of the graph -/

/-- A `struct component` of `main`; `calloc` gives all fields zero. -/
structure component where
  good : Bool := false
  final : Bool := false
  all_same : Bool := false
  size : Nat := 0
  rep : Option Nat := none
deriving DecidableEq, Repr

/-- A `struct failure` as the analysis creates it: its edge is the
`to_parent` of a node, `NULL` for the initial node. -/
structure node_failure where
  type : fail_type
  edge : Option Nat
deriving DecidableEq, Repr

/-- The collaborators of the analysis whose code is outside the files
modelled: `value_state_all_eternal`, `value_ctx_all_eternal`, and
`dfa_is_final` of the behavior DFA (`none` when `global->dfa == NULL`). -/
structure analysis_collab where
  value_state_all_eternal : state → Bool
  value_ctx_all_eternal : List (hvalue × Nat) → Bool
  dfa_is_final : Option (Nat → Bool)

/-- The test `value_state_all_eternal(node->state) &&
value_ctx_all_eternal(node->state->stopbag)`. -/
def all_eternal (env : analysis_collab) (sc : state) : Bool :=
  env.value_state_all_eternal sc && env.value_ctx_all_eternal sc.stopbag

/-- The inner loop of the first pass of the analysis: whether some edge of
`node->fwd` leads to a node of another component.  The pointers of a graph
are valid; an invalid one counts as no such edge. -/
def has_exit (nodes : List node) (edges : List edge) (n : node) : Bool :=
  n.fwd.any (fun e =>
    match (edges[e]?).bind (fun ed => nodes[ed.dst]?) with
    | some d => d.component != n.component
    | none => false)

/-- The body of the first pass of the analysis for the node with pointer `p`
(`none`: an assertion fails or a pointer is invalid). -/
def analysis_mark_node (env : analysis_collab) (nodes : List node) (edges : List edge)
    (comps : List component) (p : Nat) : Option (List component) :=
  match nodes[p]? with
  | none => none
  | some n =>
    match comps[n.component]? with
    | none => none
    | some comp =>
      match (if comp.size = 0 then
          some { comp with rep := some p, all_same := all_eternal env n.state }
        else
          match comp.rep.bind (fun r => nodes[r]?) with
          | none => none
          | some r =>
            if n.state.vars ≠ r.state.vars ∨ !all_eternal env n.state then
              some { comp with all_same := false }
            else some comp) with
      | none => none
      | some comp1 =>
        some (comps.set n.component
          (if comp1.good then { comp1 with size := comp1.size + 1 }
           else { comp1 with size := comp1.size + 1, good := has_exit nodes edges n }))

/-- The first pass of the analysis over the nodes of the graph table. -/
def analysis_mark (env : analysis_collab) (nodes : List node) (edges : List edge) :
    List Nat → List component → Option (List component)
  | [], comps => some comps
  | p :: rest, comps =>
    match analysis_mark_node env nodes edges comps p with
    | none => none
    | some comps1 => analysis_mark env nodes edges rest comps1

/-- The second pass: a component that is not good and all-same becomes good and
final (`none`: the assertion `comp->size > 0` fails). -/
def analysis_finalize (comps : List component) : Option (List component) :=
  if comps.any (fun c => c.size = 0) then none
  else some (comps.map (fun c =>
    if !c.good ∧ c.all_same then { c with good := true, final := true } else c))

/-- The third pass: the nodes of final components are marked final, and with
a behavior DFA a Behavior failure is recorded for each of them whose DFA state
is not final.  Failures are listed last first. -/
def analysis_final_nodes (env : analysis_collab) (comps : List component) :
    List Nat → List node → List node_failure → Option (List node × List node_failure)
  | [], nodes, fs => some (nodes, fs)
  | p :: rest, nodes, fs =>
    match nodes[p]? with
    | none => none
    | some n =>
      match comps[n.component]? with
      | none => none
      | some comp =>
        if comp.final then
          analysis_final_nodes env comps rest (nodes.set p { n with final := true })
            (match env.dfa_is_final with
             | some is_final =>
               if !is_final n.state.dfa_state then ⟨.FAIL_BEHAVIOR, n.to_parent⟩ :: fs else fs
             | none => fs)
        else analysis_final_nodes env comps rest nodes fs

/-- The fourth pass: a Termination failure for every node of a component that
is not good. -/
def analysis_bad (comps : List component) (nodes : List node) :
    List Nat → List node_failure → Option (List node_failure)
  | [], fs => some fs
  | p :: rest, fs =>
    match nodes[p]? with
    | none => none
    | some n =>
      match comps[n.component]? with
      | none => none
      | some comp =>
        analysis_bad comps nodes rest
          (if !comp.good then ⟨.FAIL_TERMINATION, n.to_parent⟩ :: fs else fs)

/-- The results of `is_stuck`. -/
inductive busywait where
  | BW_ESCAPE
  | BW_RETURN
  | BW_VISITED
deriving DecidableEq, Repr

/-- The loop of `is_stuck` over the remaining edges of `node->fwd`; `result`
is the local variable, `recurse` the recursive call of `is_stuck` for the
destination and the `after` context of an edge. -/
def is_stuck_scan (edges : List edge) (recurse : Nat → hvalue → Option busywait)
    (start node : Nat) (ctx : hvalue) (change : Bool) :
    List Nat → busywait → Option busywait
  | [], result => some result
  | e :: rest, result =>
    match edges[e]? with
    | none => none
    | some ed =>
      if ed.ctx = ctx then
        if ed.dst = node then some .BW_ESCAPE
        else if ed.dst = start then
          if !change then some .BW_ESCAPE
          else is_stuck_scan edges recurse start node ctx change rest .BW_RETURN
        else
          match recurse ed.dst ed.after with
          | none => none
          | some .BW_ESCAPE => some .BW_ESCAPE
          | some .BW_RETURN =>
            is_stuck_scan edges recurse start node ctx change rest .BW_RETURN
          | some .BW_VISITED =>
            is_stuck_scan edges recurse start node ctx change rest result
      else is_stuck_scan edges recurse start node ctx change rest result

/-- The function `is_stuck`.  `visited` lists the nodes whose `visited` flag
is set: these are the nodes on the current recursion path, since every return
clears the flag that the call set.  `none`: the fuel ran out or a pointer is
invalid. -/
def is_stuck (nodes : List node) (edges : List edge) (start : Nat) :
    Nat → List Nat → Nat → hvalue → Bool → Option busywait
  | 0, _, _, _, _ => none
  | fuel + 1, visited, node, ctx, change =>
    match nodes[node]?, nodes[start]? with
    | some n, some s =>
      if n.component ≠ s.component then some .BW_ESCAPE
      else if node ∈ visited then some .BW_VISITED
      else
        is_stuck_scan edges
          (fun dst after => is_stuck nodes edges start fuel (node :: visited) dst after
            (change || (n.state.vars != s.state.vars)))
          start node ctx (change || (n.state.vars != s.state.vars)) n.fwd .BW_ESCAPE
    | _, _ => none

/-- The loop of `detect_busywait` over the contexts of the bag of `node`. -/
def detect_busywait_loop (fuel : Nat) (nodes : List node) (edges : List edge) (node : Nat)
    (to_parent : Option Nat) : List hvalue → List node_failure → Option (List node_failure)
  | [], fs => some fs
  | c :: rest, fs =>
    match is_stuck nodes edges node fuel [] node c false with
    | none => none
    | some r =>
      detect_busywait_loop fuel nodes edges node to_parent rest
        (if r = .BW_RETURN then ⟨.FAIL_BUSYWAIT, to_parent⟩ :: fs else fs)

/-- The function `detect_busywait`. -/
def detect_busywait (fuel : Nat) (nodes : List node) (edges : List edge)
    (fs : List node_failure) (node : Nat) : Option (List node_failure) :=
  match nodes[node]? with
  | none => none
  | some n =>
    detect_busywait_loop fuel nodes edges node n.to_parent (n.state.bag.map (fun x => x.1)) fs

/-- The last pass of the analysis: `detect_busywait` for every node of a
component with more than one node. -/
def analysis_busywait (fuel : Nat) (comps : List component) (nodes : List node)
    (edges : List edge) : List Nat → List node_failure → Option (List node_failure)
  | [], fs => some fs
  | p :: rest, fs =>
    match nodes[p]? with
    | none => none
    | some n =>
      match comps[n.component]? with
      | none => none
      | some comp =>
        if comp.size > 1 then
          match detect_busywait fuel nodes edges fs p with
          | none => none
          | some fs1 => analysis_busywait fuel comps nodes edges rest fs1
        else analysis_busywait fuel comps nodes edges rest fs

/-- Phase 3 of `main` once the components are known, for an empty failure
heap: the nodes and the failures afterwards.  `graph` is the table
`graph.nodes`, `cflag` the option that switches the busy-wait detection off.
The counter `nbad` is the number of failures that the fourth pass records on
the empty heap.  All `visited` flags are cleared before the busy-wait
detection, which is the empty list that `is_stuck` starts from. -/
def analysis (fuel : Nat) (env : analysis_collab) (nodes : List node) (edges : List edge)
    (graph : List Nat) (ncomponents : Nat) (cflag : Bool) :
    Option (List node × List node_failure) :=
  match analysis_mark env nodes edges graph (List.replicate ncomponents {}) with
  | none => none
  | some comps0 =>
    match analysis_finalize comps0 with
    | none => none
    | some comps =>
      match analysis_final_nodes env comps graph nodes [] with
      | none => none
      | some (nodes1, fs1) =>
        if fs1 = [] then
          match analysis_bad comps nodes1 graph [] with
          | none => none
          | some fs2 =>
            if fs2.length = 0 ∧ !cflag then
              match analysis_busywait fuel comps nodes1 edges graph fs2 with
              | none => none
              | some fs3 => some (nodes1, fs3)
            else some (nodes1, fs2)
        else some (nodes1, fs1)

/-- Whether the edge pointers `path` form a chain of edges of one thread
inside the component `comp`: the first edge is a forward edge of node `a` with
`ctx = c`, every following edge is a forward edge of the destination of the
previous one with `ctx` equal to its `after`, every destination is in the
component, and the chain ends in node `b`. -/
def thread_chain (nodes : List node) (edges : List edge) (comp : Nat) :
    Nat → hvalue → List Nat → Nat → Bool
  | a, _, [], b => a == b
  | a, c, e :: rest, b =>
    match nodes[a]?, edges[e]? with
    | some na, some ed =>
      decide (e ∈ na.fwd) && ed.ctx == c &&
        (((nodes[ed.dst]?).map node.component) == some comp) &&
        thread_chain nodes edges comp ed.dst ed.after rest b
    | _, _ => false

/-- The nodes that a chain starts from: the source of each of its edges. -/
def chain_sources (edges : List edge) : Nat → List Nat → List Nat
  | _, [] => []
  | a, e :: rest => a :: chain_sources edges (((edges[e]?).map edge.dst).getD 0) rest

/-- The component identifier of the node with pointer `q`. -/
def node_component (nodes : List node) (q : Nat) : Option Nat :=
  (nodes[q]?).map node.component

/-- The vars of the node with pointer `q`. -/
def node_vars (nodes : List node) (q : Nat) : Option hvalue :=
  (nodes[q]?).map (fun m => m.state.vars)

/-- Whether the node with pointer `q` has only eternal contexts. -/
def node_eternal (env : analysis_collab) (nodes : List node) (q : Nat) : Bool :=
  match nodes[q]? with
  | some m => all_eternal env m.state
  | none => false

/-- Whether the node with pointer `q` has an edge to another component. -/
def node_has_exit (nodes : List node) (edges : List edge) (q : Nat) : Bool :=
  match nodes[q]? with
  | some m => has_exit nodes edges m
  | none => false

/-- Summary of the first pass for one component: `c` is the component record
after the nodes `ms` of the component have been visited in this order. -/
def comp_sum (env : analysis_collab) (nodes : List node) (edges : List edge)
    (ms : List Nat) (c : component) : Prop :=
  c.size = ms.length ∧ c.final = false ∧
  c.good = ms.any (node_has_exit nodes edges) ∧
  c.rep = ms.head? ∧
  ∀ r, ms.head? = some r → c.all_same = ms.all (fun q =>
    decide (node_vars nodes q = node_vars nodes r) && node_eternal env nodes q)

/-- Invariant of the first pass: every component record summarises the nodes
of its component among the table entries `done` visited so far. -/
def mark_inv (env : analysis_collab) (nodes : List node) (edges : List edge)
    (ncomponents : Nat) (done : List Nat) (comps : List component) : Prop :=
  comps.length = ncomponents ∧
  ∀ k c, comps[k]? = some c →
    comp_sum env nodes edges (done.filter (fun q => node_component nodes q == some k)) c

/-- What the first pass leaves in `good` for the component `k`: whether the
inner loop finds an edge to another component at some node of the graph table
in component `k`. -/
def scan_has_exit (nodes : List node) (edges : List edge) (graph : List Nat)
    (k : Nat) : Bool :=
  graph.any (fun q =>
    match nodes[q]? with
    | some m => m.component == k && has_exit nodes edges m
    | none => false)

/-- What the first pass leaves in `all_same` for the component `k`: the test
of the pass holds at every node of the graph table in component `k`. -/
def scan_all_same (env : analysis_collab) (nodes : List node) (graph : List Nat)
    (k : Nat) : Bool :=
  graph.all (fun q =>
    match nodes[q]? with
    | some m =>
      m.component != k ||
        (all_eternal env m.state &&
          graph.all (fun q2 =>
            match nodes[q2]? with
            | some m2 => m2.component != k || m2.state.vars == m.state.vars
            | none => true))
    | none => true)

/-- Spec: the component `k` has an edge to a node of another component: some
node of the graph table is in component `k` and one of its forward edges leads
to a node whose component is not `k`. -/
def spec_component_has_exit (nodes : List node) (edges : List edge) (graph : List Nat)
    (k : Nat) : Prop :=
  ∃ q ∈ graph, ∃ m, nodes[q]? = some m ∧ m.component = k ∧
    ∃ e ∈ m.fwd, ∃ ed d, edges[e]? = some ed ∧ nodes[ed.dst]? = some d ∧ d.component ≠ k

/-- Spec: the component `k` is all-same: every node of the graph table in
component `k` has only eternal contexts in its bag and in its stopbag, and
every node of the component has the same vars. -/
def spec_component_all_same (env : analysis_collab) (nodes : List node) (graph : List Nat)
    (k : Nat) : Prop :=
  ∀ q ∈ graph, ∀ m, nodes[q]? = some m → m.component = k →
    env.value_state_all_eternal m.state = true ∧
    env.value_ctx_all_eternal m.state.stopbag = true ∧
    ∀ q2 ∈ graph, ∀ m2, nodes[q2]? = some m2 → m2.component = k →
      m2.state.vars = m.state.vars

/-- Spec: a component is final when it has no edge to a node of another
component and is all-same. -/
def spec_component_final (env : analysis_collab) (nodes : List node) (edges : List edge)
    (graph : List Nat) (k : Nat) : Prop :=
  ¬ spec_component_has_exit nodes edges graph k ∧ spec_component_all_same env nodes graph k

/-- The graph table and the components fit: every entry of the table points to
a node whose component identifier is below `ncomponents`, and every component
below `ncomponents` has a node in the table. -/
def analysis_wf (nodes : List node) (graph : List Nat) (ncomponents : Nat) : Prop :=
  (∀ p ∈ graph, ∃ n, nodes[p]? = some n ∧ n.component < ncomponents) ∧
  (∀ k, k < ncomponents → ∃ p ∈ graph, ∃ n, nodes[p]? = some n ∧ n.component = k)

/-- What the second pass leaves in `final` for the component `k`. -/
def scan_final (env : analysis_collab) (nodes : List node) (edges : List edge)
    (graph : List Nat) (k : Nat) : Bool :=
  !scan_has_exit nodes edges graph k && scan_all_same env nodes graph k

/-- Invariant of the third pass: the nodes of final components among the table
entries `done` are marked final, everything else is as in `nodes0`. -/
def final_inv (comps : List component) (nodes0 : List node) (done : List Nat)
    (nodes : List node) : Prop :=
  ∀ q, nodes[q]? = (nodes0[q]?).map (fun n =>
    if q ∈ done ∧ (comps[n.component]?).map component.final = some true then
      { n with final := true }
    else n)

/-- Whether the fourth pass records a failure for the table entry `p`. -/
def node_bad (comps : List component) (nodes : List node) (p : Nat) : Bool :=
  match nodes[p]? with
  | some n =>
    match comps[n.component]? with
    | some c => !c.good
    | none => false
  | none => false

/-- The `to_parent` of the node with pointer `p`. -/
def node_parent (nodes : List node) (p : Nat) : Option Nat :=
  (nodes[p]?).bind node.to_parent

/-- The Termination failures that the fourth pass records, last recorded
first: one for every entry of the graph table for whose component the passes
before found no exit and which they did not make final, with the `to_parent`
of the node as its edge. -/
def scan_termination_failures (env : analysis_collab) (nodes : List node) (edges : List edge)
    (graph : List Nat) : List node_failure :=
  ((graph.filter (fun p =>
      match nodes[p]? with
      | some n =>
        !scan_has_exit nodes edges graph n.component &&
          !scan_final env nodes edges graph n.component
      | none => false)).map
    (fun p => (⟨.FAIL_TERMINATION, node_parent nodes p⟩ : node_failure))).reverse

/-- Collaborators for the example graphs: a context is eternal when its value
is at least 100; no behavior DFA. -/
def analysis_demo_env : analysis_collab :=
  { value_state_all_eternal := fun sc => sc.bag.all (fun x => decide (100 ≤ x.1)),
    value_ctx_all_eternal := fun b => b.all (fun x => decide (100 ≤ x.1)),
    dfa_is_final := none }

/-- A state of the example graphs with the given vars and one context. -/
def analysis_demo_state (vars ctx : hvalue) : state :=
  { vars := vars, pre := 0, choosing := 0, stopbag := [], dfa_state := 0, bag := [(ctx, 1)] }

/-- An edge of the example graphs. -/
def analysis_demo_edge (src dst : Nat) (ctx after : hvalue) : edge :=
  { src := src, dst := dst, ctx := ctx, choice := 0, interrupt := false, weight := 0,
    after := after, ai := [], nsteps := 1 }

/-- The nodes of an example graph with three components: node 0 (component 2)
leads to the cycle of the nodes 1 and 2 (component 0, different vars) and to
node 3 (component 1), whose only thread is eternal and loops. -/
def analysis_demo_nodes : List node :=
  [ { state := analysis_demo_state 1 10, id := 0, len := 0, steps := 0, to_parent := none,
      bwd := [], fwd := [1, 0], component := 2 },
    { state := analysis_demo_state 2 11, id := 1, len := 1, steps := 1, to_parent := some 0,
      bwd := [3, 0], fwd := [2], component := 0 },
    { state := analysis_demo_state 3 12, id := 2, len := 2, steps := 2, to_parent := some 2,
      bwd := [2], fwd := [3], component := 0 },
    { state := analysis_demo_state 4 100, id := 3, len := 1, steps := 1, to_parent := some 1,
      bwd := [4, 1], fwd := [4], component := 1 } ]

/-- The edges of the example graph. -/
def analysis_demo_edges : List edge :=
  [ analysis_demo_edge 0 1 10 11, analysis_demo_edge 0 3 10 100, analysis_demo_edge 1 2 11 12,
    analysis_demo_edge 2 1 12 11, analysis_demo_edge 3 3 100 100 ]

/-- The pointers of the graph are valid: every forward edge of every node is
an edge whose destination is a node. -/
def graph_wf (nodes : List node) (edges : List edge) : Bool :=
  nodes.all (fun n => n.fwd.all (fun e =>
    match edges[e]? with
    | some ed => decide (ed.dst < nodes.length)
    | none => false))

/-- A state of the second example graph with the given vars and two
contexts. -/
def busywait_demo_state (vars ctx1 ctx2 : hvalue) : state :=
  { vars := vars, pre := 0, choosing := 0, stopbag := [], dfa_state := 0,
    bag := [(ctx1, 1), (ctx2, 1)] }

/-- The nodes of an example graph with two components.  In component 0 the
thread with context 120 alternates between node 0 (vars 1) and node 1 (vars 2);
the thread with context 30 leaves the component.  In component 1 the same
thread alternates between node 2 and node 3, which both have vars 3, and the
thread with context 101 has no edge. -/
def busywait_demo_nodes : List node :=
  [ { state := busywait_demo_state 1 120 30, id := 0, len := 0, steps := 0, to_parent := none,
      bwd := [1], fwd := [2, 0], component := 0 },
    { state := busywait_demo_state 2 121 30, id := 1, len := 1, steps := 1, to_parent := some 0,
      bwd := [0], fwd := [3, 1], component := 0 },
    { state := busywait_demo_state 3 120 101, id := 2, len := 1, steps := 1, to_parent := some 2,
      bwd := [5, 2], fwd := [4], component := 1 },
    { state := busywait_demo_state 3 121 101, id := 3, len := 2, steps := 2, to_parent := some 3,
      bwd := [4, 3], fwd := [5], component := 1 } ]

/-- The edges of the second example graph. -/
def busywait_demo_edges : List edge :=
  [ analysis_demo_edge 0 1 120 121, analysis_demo_edge 1 0 121 120,
    analysis_demo_edge 0 2 30 101, analysis_demo_edge 1 3 30 101,
    analysis_demo_edge 2 3 120 121, analysis_demo_edge 3 2 121 120 ]

/-! ## Definitions: a small program for the step executor -/

/-- A context at `pc` with everything else zero. -/
def demo_ctx (pc : Nat) : context :=
  { vars := 0, pc := pc, atomic := 0, readonly := 0, atomicFlag := false, interruptlevel := false,
    stopped := false, terminated := false, failed := false, extended := false, trap_pc := 0,
    trap_arg := 0, failure := 0, stack := [] }

/-- An instruction with no flag set. -/
def demo_instr (op : state → context → state × context) : instr :=
  { choose := false, load := false, store := false, del := false, print := false,
    breakable := false, atomicinc := false, atomicdec := false, retop := false,
    setintlevel := false, env_null := false, frame := false, op := op }

/-- `Store x v`: the shared variables are encoded as `x + 4 * y`. -/
def demo_store_x (v : Nat) : instr :=
  { demo_instr (fun sc c => ({ sc with vars := sc.vars / 4 * 4 + v }, { c with pc := c.pc + 1 }))
    with store := true, breakable := true }

/-- `Store y 1`. -/
def demo_store_y : instr :=
  { demo_instr (fun sc c => ({ sc with vars := sc.vars % 4 + 4 }, { c with pc := c.pc + 1 }))
    with store := true, breakable := true }

/-- An atomic `if x == 1: y = 1`. -/
def demo_cond_store_y : instr :=
  { demo_instr (fun sc c =>
      ({ sc with vars := if sc.vars % 4 = 1 then sc.vars % 4 + 4 else sc.vars },
        { c with pc := c.pc + 1 }))
    with store := true, breakable := true }

/-- `Jump t`. -/
def demo_jump (t : Nat) : instr := demo_instr (fun sc c => (sc, { c with pc := t }))

/-- `Spawn`: a thread starting at `pc` joins the bag (its handle is `pc + 1`). -/
def demo_spawn (pc : Nat) : instr :=
  demo_instr (fun sc c => (context_add sc (pc + 1), { c with pc := c.pc + 1 }))

/-- The end of a thread. -/
def demo_exit : instr := demo_instr (fun sc c => (sc, { c with terminated := true }))

/-- `Push v`. -/
def demo_push (v : hvalue) : instr :=
  demo_instr (fun sc c => (sc, { c with stack := c.stack ++ [v], pc := c.pc + 1 }))

/-- `Choose`: executed by the step executor itself, the operation is not
called. -/
def demo_choose : instr := { demo_instr (fun sc c => (sc, c)) with choose := true }

/-- `AtomicInc` (lazy): the atomic count goes up. -/
def demo_atomic_inc : instr :=
  { demo_instr (fun sc c => (sc, { c with atomic := c.atomic + 1, pc := c.pc + 1 }))
    with atomicinc := true }

/-- `AtomicDec`: the atomic count goes down; at 0 the `atomicFlag` is cleared. -/
def demo_atomic_dec : instr :=
  { demo_instr (fun sc c =>
      (sc, { c with
        atomic := c.atomic - 1
        atomicFlag := if c.atomic - 1 = 0 then false else c.atomicFlag
        pc := c.pc + 1 }))
    with atomicdec := true }

/-- The program: thread A (pc 0) loops over `x = 1; x = 2; y = 1`, thread B
(pc 4) loops over an atomic `if x == 1: y = 1`, and the initial thread (pc 6)
spawns A and B and ends.  Four more entry points: pc 9 pushes the set with
handle 50 and chooses from it, pc 12 is a loop that never reaches a
breakable instruction, pc 14 is a thread that ends at once, and pc 15 jumps
into an atomic section that starts with a store. -/
def demo_global : global :=
  { instrs := [demo_store_x 1, demo_store_x 2, demo_store_y, demo_jump 0,
      demo_cond_store_y, demo_jump 4, demo_spawn 0, demo_spawn 4, demo_exit,
      demo_push 50, demo_choose, demo_exit, demo_jump 13, demo_jump 12, demo_exit,
      demo_jump 16, demo_atomic_inc, demo_store_x 1, demo_atomic_dec, demo_exit]
    invs := [], inv_pre := false }

/-- Collaborators for the program: a context is interned as `pc + 1`, or as
`pc + 101` once terminated. -/
def demo_collab : collab :=
  { value_put_context := fun c => if c.terminated then c.pc + 101 else c.pc + 1
    value_get_context := fun h => demo_ctx (h - 1)
    interrupt_invoke := fun c => c
    is_set := fun v => v == 50
    set_elems := fun v => if v = 50 then [1, 2] else []
    is_global_addr := fun _ => true
    put_atom := fun _ => 0
    value_put_list := fun _ => 0
    VALUE_DICT := 0 }

/-- The memory with which `main` enters its main loop, for one worker: the
initial state holds the initial context `ictx` once, its node is the only
node, with id 0, and `goal = 1`. -/
def explore_init (cb : collab) (ictx : hvalue) (dfa_initial : Nat) : explorer :=
  { w := { index := 0, nworkers := 1
           nodes := [node_zero { vars := cb.VALUE_DICT, pre := 0, choosing := 0, stopbag := []
                                 dfa_state := dfa_initial, bag := [(ictx, 1)] }]
           edges := [], results := [], count := 0, enqueued := 0, dequeued := 0, queues := [[]]
           failures := []
           inv_ctx := { vars := cb.VALUE_DICT, pc := 0, atomic := 1, readonly := 1
                        atomicFlag := true, interruptlevel := false, stopped := false
                        terminated := false, failed := false, extended := false, trap_pc := 0
                        trap_arg := 0, failure := 0, stack := [] } }
    graph_nodes := [0], todo := 0, goal := 1, diameter := 0, failures := [] }

/-- The state of the initial node when the initial thread starts at `pc`. -/
def demo_state (pc : Nat) : state :=
  { vars := 0, pre := 0, choosing := 0, stopbag := [], dfa_state := 0, bag := [(pc + 1, 1)] }

/-- The `struct step` that `make_step` prepares for the thread at `pc`. -/
def demo_step (pc : Nat) : step := { ctx := demo_ctx pc, ai := [] }

/-- The call `onestep(w, node 0, sc, ctx, step, 0, false, infloop_detect, 1)`
for the initial node of the program whose initial thread starts at `pc`. -/
def demo_onestep (pc : Nat) (infloop_detect : Bool) : outcome (Bool × worker × step) :=
  onestep 2000 demo_global demo_collab (explore_init demo_collab (pc + 1) 0).w 0
    (demo_state pc) (pc + 1) (demo_step pc) 0 false infloop_detect 1

/-- `Frame`: the first instruction of the code of an invariant. -/
def demo_frame : instr :=
  { demo_instr (fun sc c => (sc, { c with pc := c.pc + 1 })) with frame := true }

/-- The rest of the code of the invariant `x != v`: the context fails if
`x == v` and terminates otherwise. -/
def demo_assert_x_ne (v : Nat) : instr :=
  demo_instr (fun sc c =>
    if sc.vars % 4 = v then (sc, { c with failed := true }) else (sc, { c with terminated := true }))

/-- A program with two invariants: `x != 2` at pc 1, which does not use `pre`,
and `x != 1` at pc 3, registered as using `pre`. -/
def demo_inv_global : global :=
  { instrs := [demo_exit, demo_frame, demo_assert_x_ne 2, demo_frame, demo_assert_x_ne 1]
    invs := [{ pc := 1, pre := false }, { pc := 3, pre := true }], inv_pre := true }

/-- A worker memory with two nodes: `x = 2` in node 0 and `x = 1` in node 1. -/
def demo_inv_worker : worker :=
  { (explore_init demo_collab 1 0).w with
    nodes := [node_zero { demo_state 0 with vars := 2 }, node_zero { demo_state 0 with vars := 1 }] }

/-- Whether `path` is a list of edge pointers leading from node `a` to node
`b` along recorded edges. -/
def is_path (edges : List edge) : Nat → Nat → List Nat → Bool
  | a, b, [] => a == b
  | a, b, e :: rest =>
    match edges[e]? with
    | none => false
    | some ed => ed.src == a && is_path edges ed.dst b rest

/-- The sum of the `weight` fields along a list of edge pointers. -/
def path_weight (edges : List edge) (path : List Nat) : Nat :=
  (path.map (fun e => ((edges[e]?).map edge.weight).getD 0)).sum

/-- The sum of the `nsteps` fields along a list of edge pointers. -/
def path_nsteps (edges : List edge) (path : List Nat) : Nat :=
  (path.map (fun e => ((edges[e]?).map edge.nsteps).getD 0)).sum

/-! ## Definitions: charm.c, failures and the error trace -/

/-- The conversion of an `unsigned int` to `int` on a two's complement
machine. -/
def int_of_u32 (x : Nat) : Int :=
  if x < 2 ^ 31 then (x : Int) else (x : Int) - 2 ^ 32

/-- The subtraction of two `unsigned int`, which wraps modulo `2 ^ 32`. -/
def u32_sub (a b : Nat) : Nat := (a + (2 ^ 32 - b % 2 ^ 32)) % 2 ^ 32

/-- The function `node_cmp`.  The fields `len`, `steps` and `id` are
`unsigned int` (charm.c prints them with `%u`): the difference is computed
modulo `2 ^ 32` and then converted to the `int` that is returned. -/
def node_cmp (node1 node2 : node) : Int :=
  if node1.len ≠ node2.len then int_of_u32 (u32_sub node1.len node2.len)
  else if node1.steps ≠ node2.steps then int_of_u32 (u32_sub node1.steps node2.steps)
  else int_of_u32 (u32_sub node1.id node2.id)

/-- The function `fail_cmp`: `node_cmp` on the destinations of the edges of
the two failures (`none`: a pointer is invalid). -/
def fail_cmp (nodes : List node) (edges : List edge) (fail1 fail2 : failure) : Option Int :=
  match (edges[fail1.edge]?).bind (fun e => nodes[e.dst]?),
      (edges[fail2.edge]?).bind (fun e => nodes[e.dst]?) with
  | some node1, some node2 => some (node_cmp node1 node2)
  | _, _ => none

/-- Spec: `(len, steps, id)` of `n1` is lexicographically less than that of
`n2`. -/
def spec_lex_lt (n1 n2 : node) : Prop :=
  n1.len < n2.len ∨ (n1.len = n2.len ∧
    (n1.steps < n2.steps ∨ (n1.steps = n2.steps ∧ n1.id < n2.id)))

/-- A node of the example for `node_cmp` with the given path record. -/
def cmp_demo_node (len steps id : Nat) : node :=
  { state := { vars := 0, pre := 0, choosing := 0, stopbag := [], dfa_state := 0, bag := [] },
    id := id, len := len, steps := steps, to_parent := none, bwd := [], fwd := [] }

/-- The array `args` of `check_invariants` before it is interned. -/
def invariant_pair (node_state before_state : state) : List hvalue :=
  [if before_state.pre = 0 then node_state.vars else before_state.pre, node_state.vars]

/-- The array `args` that `main` fills for the replay of the Invariant failure
`bad`: the vars of the source and of the destination of its edge (`none`: a
pointer is invalid). -/
def replay_invariant_pair (nodes : List node) (edges : List edge) (bad : failure) :
    Option (List hvalue) :=
  match edges[bad.edge]? with
  | none => none
  | some ed =>
    match nodes[ed.src]?, nodes[ed.dst]? with
    | some s, some d => some [s.state.vars, d.state.vars]
    | _, _ => none

/-- The context `inv_ctx` that `main` fabricates for the replay of the
Invariant failure `bad`; `calloc` zeroes the fields that are not assigned. -/
def replay_invariant_context (cb : collab) (nodes : List node) (edges : List edge)
    (bad : failure) : Option context :=
  (replay_invariant_pair nodes edges bad).map (fun args =>
    { vars := cb.VALUE_DICT, pc := bad.address, atomic := 1, readonly := 1, atomicFlag := true,
      interruptlevel := false, stopped := false, terminated := false, failed := false,
      extended := false, trap_pc := 0, trap_arg := 0, failure := 0,
      stack := [cb.value_put_list args] })

/-- The synthetic edge of the replay: a self-loop of the destination of the
edge of `bad`, taken by the fabricated context. -/
def replay_invariant_edge (cb : collab) (nodes : List node) (edges : List edge)
    (bad : failure) : Option edge :=
  match edges[bad.edge]?, replay_invariant_context cb nodes edges bad with
  | some ed, some inv_ctx =>
    some { src := ed.dst, dst := ed.dst, ctx := cb.value_put_context inv_ctx, choice := 0,
           interrupt := false, weight := 0, after := cb.value_put_context inv_ctx, ai := [],
           nsteps := 10000000 }
  | _, _ => none

/-- Collaborators that intern the pair `[pre, post]` as
`1000 + 16 * pre + post`. -/
def replay_demo_collab : collab :=
  { demo_collab with value_put_list := fun l => 1000 + 16 * l.getD 0 0 + l.getD 1 0 }

/-- The rest of the code of the invariant `pre.x != v`: it reads the pair on
top of the stack; the context fails if `x == v` in `pre` and terminates
otherwise. -/
def demo_assert_pre_x_ne (v : Nat) : instr :=
  demo_instr (fun sc c =>
    if (c.stack.getLastD 1000 - 1000) / 16 % 4 = v then (sc, { c with failed := true })
    else (sc, { c with terminated := true }))

/-- A program whose only thread stores `x = 1` and ends, with the invariant
`pre.x != 1` at pc 2. -/
def replay_demo_global : global :=
  { instrs := [demo_store_x 1, demo_exit, demo_frame, demo_assert_pre_x_ne 1]
    invs := [{ pc := 2, pre := true }], inv_pre := true }

/-- The call of `onestep` for the initial node of this program. -/
def replay_demo_onestep : outcome (Bool × worker × step) :=
  onestep 2000 replay_demo_global replay_demo_collab (explore_init replay_demo_collab 1 0).w 0
    (demo_state 0) 1 (demo_step 0) 0 false false 1

/-- A `struct microstep` as far as `path_trim` reads it: the copy of the
context after the instruction and the call stack (a pointer). -/
structure microstep where
  ctx : context
  cs : Nat
deriving DecidableEq, Repr

/-- A `struct macrostep` as `path_recompute` builds it: the thread, the handle
`ctx` of the context that took the step, the microsteps with their count, and
the copies of the tables of the contexts and call stacks of the processes. -/
structure macrostep where
  tid : Nat
  ctx : hvalue
  nmicrosteps : Nat
  microsteps : List microstep
  processes : List hvalue
  callstacks : List Nat
deriving DecidableEq, Repr

/-- The first loop of `path_trim`: `last[tid] = i` for the macrosteps from
index `i` on.  `last` has `nprocesses` entries (`none`: a write outside of
it). -/
def path_trim_last : List macrostep → Nat → List Nat → Option (List Nat)
  | [], _, last => some last
  | m :: rest, i, last =>
    if m.tid < last.length then path_trim_last rest (i + 1) (last.set m.tid i) else none

/-- The body of the second loop of `path_trim` for a thread whose entry of
`last` is `last_i` (`none`: a read outside of an array).  The tables
`processes` and `callstacks` of a macrostep have an entry for every process
that exists when it is recorded, hence for the thread of every earlier
macrostep, so the writes to them are inside the tables. -/
def path_trim_thread (g : global) (cb : collab) (last_i : Nat) (ms : List macrostep) :
    Option (List macrostep) :=
  if ms.length ≠ 0 ∧ last_i = ms.length - 1 then some ms
  else
    match ms[last_i]? with
    | none => none
    | some mac =>
      if mac.nmicrosteps = 0 then none
      else
        match mac.microsteps[mac.nmicrosteps - 1]?, mac.microsteps[0]? with
        | some ls, some first =>
          match g.instrs[(cb.value_get_context mac.ctx).pc]?, g.instrs[ls.ctx.pc]? with
          | some fi, some li =>
            if (fi.store || fi.load || fi.print) && (li.store || li.load || li.print) then
              some ((ms.set last_i { mac with nmicrosteps := 1 }).mapIdx (fun j m =>
                if last_i ≤ j then
                  { m with
                    processes := m.processes.set mac.tid (cb.value_put_context first.ctx)
                    callstacks := m.callstacks.set mac.tid first.cs }
                else m))
            else some ms
          | _, _ => none
        | _, _ => none

/-- The second loop of `path_trim` over the threads `i` still to visit. -/
def path_trim_loop (g : global) (cb : collab) (last : List Nat) :
    List Nat → List macrostep → Option (List macrostep)
  | [], ms => some ms
  | i :: rest, ms =>
    match last[i]? with
    | none => none
    | some last_i =>
      match path_trim_thread g cb last_i ms with
      | none => none
      | some ms1 => path_trim_loop g cb last rest ms1

/-- The function `path_trim` on the macrosteps of the trace: `last` is
`calloc`ed, and the second loop runs over the threads `1, ..., nprocesses - 1`. -/
def path_trim (g : global) (cb : collab) (nprocesses : Nat) (ms : List macrostep) :
    Option (List macrostep) :=
  match path_trim_last ms 0 (List.replicate nprocesses 0) with
  | none => none
  | some last => path_trim_loop g cb last (List.range' 1 (nprocesses - 1)) ms

/-- The index of the last macrostep of thread `t` in `ms`, if it has one. -/
def find_last (t : Nat) : List macrostep → Option Nat
  | [] => none
  | m :: rest =>
    match find_last t rest with
    | some k => some (k + 1)
    | none => if m.tid = t then some 0 else none

/-- Spec: whether a macrostep begins and ends on a load, store or print
instruction: the instruction at the pc of the context that takes the step, and
the instruction at the pc of the context saved by its last microstep. -/
def spec_begins_ends (g : global) (cb : collab) (m : macrostep) : Bool :=
  match m.microsteps[m.nmicrosteps - 1]?, g.instrs[(cb.value_get_context m.ctx).pc]? with
  | some ls, some fi =>
    match g.instrs[ls.ctx.pc]? with
    | some li => (fi.store || fi.load || fi.print) && (li.store || li.load || li.print)
    | none => false
  | _, _ => false

/-- What the two loops of `path_trim` compute for the macrostep `m` at index
`k`: whether some thread `i` with `1 ≤ i < nprocesses` has `last[i] = k` (the
index of its last macrostep, 0 while the thread has none), `k` is not the last
index of the trace, and `m` begins and ends on a load, store or print. -/
def last_trimmed (g : global) (cb : collab) (nprocesses : Nat) (ms : List macrostep)
    (k : Nat) (m : macrostep) : Bool :=
  (List.range' 1 (nprocesses - 1)).any (fun i => (find_last i ms).getD 0 == k) &&
    k != ms.length - 1 && spec_begins_ends g cb m

/-- The macrosteps are well formed: the thread of each is below `nprocesses`,
each has at least one microstep and not more than are stored, and every pc
that `path_trim` looks up is inside the code. -/
def trace_wf (g : global) (cb : collab) (nprocesses : Nat) (ms : List macrostep) : Bool :=
  ms.all (fun m =>
    decide (m.tid < nprocesses) && decide (0 < m.nmicrosteps) &&
      decide (m.nmicrosteps ≤ m.microsteps.length) &&
      decide ((cb.value_get_context m.ctx).pc < g.instrs.length) &&
      m.microsteps.all (fun mi => decide (mi.ctx.pc < g.instrs.length)))

/-- What `path_trim` reads of a macrostep and what the statement is about:
thread, context, count of microsteps and microsteps. -/
def macrostep_core (m : macrostep) : Nat × hvalue × Nat × List microstep :=
  (m.tid, m.ctx, m.nmicrosteps, m.microsteps)

/-- The core of a trimmed macrostep: the count of microsteps is 1. -/
def trim_core (c : Nat × hvalue × Nat × List microstep) : Nat × hvalue × Nat × List microstep :=
  (c.1, c.2.1, 1, c.2.2.2)

/-- Invariant of the second loop of `path_trim`: after the threads `done`, the
macrosteps `ms` are the original macrosteps `ms0` with those trimmed that a
thread of `done` points to. -/
def trim_inv (g : global) (cb : collab) (last : List Nat) (ms0 : List macrostep)
    (done : List Nat) (ms : List macrostep) : Prop :=
  ms.length = ms0.length ∧
  ∀ k, (ms[k]?).map macrostep_core = (ms0[k]?).map (fun m =>
    if (done.any (fun i => last[i]? == some k) && k != ms0.length - 1 &&
        spec_begins_ends g cb m) = true then trim_core (macrostep_core m)
    else macrostep_core m)

/-- A microstep of the example traces: the context after it is at `pc`. -/
def trim_demo_micro (pc : Nat) : microstep := { ctx := demo_ctx pc, cs := 0 }

/-- A macrostep of the example traces: thread `tid` starts from the context
with handle `ctx` and its microsteps end at the pcs `pcs`. -/
def trim_demo_macrostep (tid : Nat) (ctx : hvalue) (pcs : List Nat) (processes : List hvalue) :
    macrostep :=
  { tid := tid, ctx := ctx, nmicrosteps := pcs.length, microsteps := pcs.map trim_demo_micro,
    processes := processes, callstacks := processes.map (fun _ => 0) }

/-- A trace of the program of three threads: the initial thread spawns A and B
and ends; A runs `x = 1`, `x = 2` and `y = 1; jump`; B runs its atomic
statement and jumps. -/
def trim_demo_trace : List macrostep :=
  [ trim_demo_macrostep 0 7 [7, 8, 8] [109, 1, 5], trim_demo_macrostep 1 1 [1] [109, 2, 5],
    trim_demo_macrostep 1 2 [2] [109, 3, 5], trim_demo_macrostep 1 3 [3, 0] [109, 1, 5],
    trim_demo_macrostep 2 5 [5, 4] [109, 1, 5] ]

/-- A trace of two threads: thread 0 runs `y = 1; jump` from pc 2, then
thread 1 runs the atomic statement from pc 4 and jumps. -/
def trim_demo_trace_zero : List macrostep :=
  [ trim_demo_macrostep 0 3 [3, 0] [1, 5], trim_demo_macrostep 1 5 [5, 4] [1, 5] ]

/-- A trace with three processes of which process 2 takes no step: thread 0
runs `y = 1; jump` and `x = 1`, then thread 1 runs the atomic statement. -/
def trim_demo_trace_idle : List macrostep :=
  [ trim_demo_macrostep 0 3 [3, 0] [1, 5, 9], trim_demo_macrostep 0 1 [1] [2, 5, 9],
    trim_demo_macrostep 1 5 [5, 4] [2, 5, 9] ]

/-! ## Definitions: charm.c, replay of a step and trimming of the trace -/

/-- The state with the field `choosing` cleared, as `make_step` and `twostep2`
pass it on (`sc->choosing = 0`). -/
def clear_choosing (s : state) : state := { s with choosing := 0 }

/-- The local variables of the main loop of `onestep` with `choosing` cleared
in every copy of the state that they hold. -/
def loop_state_clear (ls : loop_state) : loop_state :=
  { ls with
    sc := clear_choosing ls.sc
    as_state := ls.as_state.map clear_choosing
    infloop := ls.infloop.map (fun l => l.map (fun p => (p.1, clear_choosing p.2))) }

/-- The outcome of an iteration with `choosing` cleared in the local variables. -/
def loop_step_clear : loop_step → loop_step
  | .again ls => .again (loop_state_clear ls)
  | .abort => .abort
  | .restart ls => .restart (loop_state_clear ls)
  | .done ls fl => .done (loop_state_clear ls) fl

/-- A program whose thread is at a `Choose` (pc 0) and then loops for ever
between two jumps (pc 1 and 2). -/
def retry_demo_global : global :=
  { instrs := [demo_choose, demo_jump 2, demo_jump 1], invs := [], inv_pre := false }

/-- Collaborators for the program with the `Choose`: a context is interned as
`pc + 1`, or as `pc + 101` once failed, and every context read back has the
set 50 on its stack. -/
def retry_demo_collab : collab :=
  { demo_collab with
    value_put_context := fun c => if c.failed then c.pc + 101 else c.pc + 1
    value_get_context := fun h => { demo_ctx (h - 1) with stack := [50] } }

/-- The state of a choosing node of the program with the `Choose`: the
context with handle 1 is about to choose. -/
def retry_demo_state : state :=
  { vars := 0, pre := 0, choosing := 1, stopbag := [], dfa_state := 0, bag := [(1, 1)] }

/-- The worker memory with the choosing node as the only node. -/
def retry_demo_worker : worker :=
  { (explore_init retry_demo_collab 1 0).w with nodes := [node_zero retry_demo_state] }

/-- Every copy of the state that the loop of `onestep` holds for the detector
has the value `x` in its field `choosing`. -/
def choosing_is (x : hvalue) (ls : loop_state) : Prop :=
  ls.sc.choosing = x ∧ ∀ p ∈ ls.infloop.getD [], p.2.choosing = x

/-- The constant `WALLOC_CHUNK`. -/
def WALLOC_CHUNK : Nat := 1024 * 1024

/-- The allocator fields of a `struct worker`.  A chunk obtained from `malloc`
is identified by its number; `alloc_buf` is the number of the current chunk
and `alloc_ptr` the offset of the bump pointer from its start.  `nchunks` is
the number of chunks that `malloc` has handed out, so that the next one is
fresh. -/
structure walloc_state where
  alloc_buf : Nat
  alloc_ptr : Nat
  allocated : Nat
  nchunks : Nat
deriving DecidableEq, Repr

/-- The block that `walloc` returns: a block of the system allocator, or the
block at `offset` in chunk `buf`, of `size` bytes (the size rounded up). -/
inductive walloc_block where
  | system (size : Nat)
  | chunk (buf offset size : Nat)
deriving DecidableEq, Repr

/-- The statement `size = (size + 0xF) & ~0xF` in `unsigned int`. -/
def align16 (size : Nat) : Nat := u32 (size + 0xF) / 16 * 16

/-- The function `walloc` for a request of `size` bytes (an `unsigned int`).
`allocated` is an `unsigned long`.  Zeroing the block is left out. -/
def walloc (s : walloc_state) (size : Nat) : walloc_block × walloc_state :=
  let s1 := { s with allocated := (s.allocated + size) % 2 ^ 64 }
  if size > WALLOC_CHUNK then (.system size, s1)
  else
    let s2 :=
      if s1.alloc_ptr + align16 size > WALLOC_CHUNK then
        { s1 with alloc_buf := s1.nchunks, alloc_ptr := 0, nchunks := s1.nchunks + 1 }
      else s1
    (.chunk s2.alloc_buf s2.alloc_ptr (align16 size),
      { s2 with alloc_ptr := s2.alloc_ptr + align16 size })

/-- The allocator fields as `main` initialises them: one chunk, the bump
pointer at its start. -/
def walloc_init : walloc_state := { alloc_buf := 0, alloc_ptr := 0, allocated := 0, nchunks := 1 }

/-- A run of `walloc` calls: the blocks returned, in order, and the state
afterwards. -/
def walloc_run : walloc_state → List Nat → List walloc_block × walloc_state
  | s, [] => ([], s)
  | s, size :: rest =>
    ((walloc s size).1 :: (walloc_run (walloc s size).2 rest).1,
      (walloc_run (walloc s size).2 rest).2)

/-- Whether the block `b` lies before the bump pointer of `s` or in an
earlier chunk. -/
def walloc_before (s : walloc_state) (b : walloc_block) : Prop :=
  match b with
  | .system _ => True
  | .chunk buf offset size =>
    buf < s.nchunks ∧ (buf = s.alloc_buf → offset + size ≤ s.alloc_ptr)

/-- Two blocks do not overlap: one of them comes from the system allocator,
or they are in different chunks, or the first ends before the second starts. -/
def walloc_disjoint (b1 b2 : walloc_block) : Prop :=
  match b1, b2 with
  | .chunk buf1 offset1 size1, .chunk buf2 offset2 _ =>
    buf1 ≠ buf2 ∨ offset1 + size1 ≤ offset2
  | _, _ => True

/-- The state of the allocator is well formed: the bump pointer is inside the
chunk at a multiple of 16, and the current chunk has been handed out. -/
def walloc_wf (s : walloc_state) : Prop :=
  s.alloc_ptr ≤ WALLOC_CHUNK ∧ s.alloc_ptr % 16 = 0 ∧ s.alloc_buf < s.nchunks

/-- A candidate for the path record of an already-seen node: the source node
of the new edge, the weight and the number of instructions of the step, and
the new edge. -/
structure path_candidate where
  parent : node
  weight : Nat
  instrcnt : Nat
  e : Nat
deriving DecidableEq, Repr

/-- The pair `(len, steps)` that `onestep` computes for a candidate, in
`unsigned int`. -/
def candidate_pair (c : path_candidate) : Nat × Nat :=
  (u32 (c.parent.len + c.weight), u32 (c.parent.steps + c.instrcnt))

/-- The pair `(len, steps)` of a node. -/
def node_pair (n : node) : Nat × Nat := (n.len, n.steps)

/-- The path update of `onestep` applied to an already-seen node for a list of
candidates, one after another. -/
def path_updates (next : node) (cs : List path_candidate) : node :=
  cs.foldl (fun n c => onestep_path false c.parent c.weight c.instrcnt c.e n) next

/-- Spec: the lexicographic order on pairs `(len, steps)`. -/
def lex_le (a b : Nat × Nat) : Prop := a.1 < b.1 ∨ (a.1 = b.1 ∧ a.2 ≤ b.2)

/-- Spec: the strict lexicographic order on pairs `(len, steps)`. -/
def lex_lt (a b : Nat × Nat) : Prop := a.1 < b.1 ∨ (a.1 = b.1 ∧ a.2 < b.2)

/-- The loop of `is_stuck` over the remaining edges of `node->fwd`, with the
node heap: `recurse` is the recursive call, which may write `visited` flags. -/
def is_stuck_mark_scan (edges : List edge)
    (recurse : List Harmony.node → Nat → hvalue → Option (busywait × List Harmony.node))
    (start node : Nat) (ctx : hvalue) (change : Bool) :
    List Nat → busywait → List Harmony.node → Option (busywait × List Harmony.node)
  | [], result, nodes => some (result, nodes)
  | e :: rest, result, nodes =>
    match edges[e]? with
    | none => none
    | some ed =>
      if ed.ctx = ctx then
        if ed.dst = node then some (.BW_ESCAPE, nodes)
        else if ed.dst = start then
          if !change then some (.BW_ESCAPE, nodes)
          else is_stuck_mark_scan edges recurse start node ctx change rest .BW_RETURN nodes
        else
          match recurse nodes ed.dst ed.after with
          | none => none
          | some (.BW_ESCAPE, nodes1) => some (.BW_ESCAPE, nodes1)
          | some (.BW_RETURN, nodes1) =>
            is_stuck_mark_scan edges recurse start node ctx change rest .BW_RETURN nodes1
          | some (.BW_VISITED, nodes1) =>
            is_stuck_mark_scan edges recurse start node ctx change rest result nodes1
      else is_stuck_mark_scan edges recurse start node ctx change rest result nodes

/-- The function `is_stuck` with the `visited` flags in the nodes: the result
and the node heap afterwards.  Every return after `node->visited = true`
executes `node->visited = false` first.  `none`: the fuel ran out or a
pointer is invalid. -/
def is_stuck_mark (edges : List edge) (start : Nat) :
    Nat → List node → Nat → hvalue → Bool → Option (busywait × List node)
  | 0, _, _, _, _ => none
  | fuel + 1, nodes, node, ctx, change =>
    match nodes[node]?, nodes[start]? with
    | some n, some s =>
      if n.component ≠ s.component then some (.BW_ESCAPE, nodes)
      else if n.visited then some (.BW_VISITED, nodes)
      else
        match is_stuck_mark_scan edges
            (fun nodes1 dst after => is_stuck_mark edges start fuel nodes1 dst after
              (change || (n.state.vars != s.state.vars)))
            start node ctx (change || (n.state.vars != s.state.vars)) n.fwd .BW_ESCAPE
            (nodes.set node { n with visited := true }) with
        | none => none
        | some (r, nodes2) =>
          some (r, nodes2.modify (fun m => { m with visited := false }) node)
    | _, _ => none

/-- The number of nodes whose `visited` flag is not set. -/
def unvisited (nodes : List node) : Nat := nodes.countP (fun n => !n.visited)

/-- What `is_stuck` reads of a node apart from the `visited` flag. -/
def node_skel (n : node) : Nat × hvalue × List Nat := (n.component, n.state.vars, n.fwd)

/-- The fields of a `struct worker` that the close of a layer uses: the list
`results` of new nodes (node pointers, head first), their number `count` and
the first id `node_id`. -/
structure layer_worker where
  results : List Nat
  count : Nat
  node_id : Nat
deriving DecidableEq, Repr

/-- The loop of `main` that gives every worker its first id:
`w->node_id = global->todo + total; total += w->count`.  The result is the
workers and the final `total`. -/
def assign_node_ids (todo : Nat) : List layer_worker → Nat → List layer_worker × Nat
  | [], total => ([], total)
  | w :: rest, total =>
    ({ w with node_id := todo + total } :: (assign_node_ids todo rest (total + w.count)).1,
      (assign_node_ids todo rest (total + w.count)).2)

/-- Modelled from the spec: `graph_add_multiple(&global->graph, total)`, which
is not in the sources, grows the graph table by `total` entries that are not
yet filled (`none`). -/
def graph_add_multiple (table : List (Option Nat)) (total : Nat) : List (Option Nat) :=
  table ++ List.replicate total none

/-- The loop of `worker` that fills the graph table, by the value of
`w->count`: the node heap and the table afterwards (`none`: the list ends
before `count` is 0, a pointer or an index is invalid, or the assertion
`w->results == NULL` fails). -/
def worker_fill : Nat → List Nat → Nat → List node → List (Option Nat) →
    Option (List node × List (Option Nat))
  | 0, results, _, nodes, table => if results = [] then some (nodes, table) else none
  | _ + 1, [], _, _, _ => none
  | count + 1, p :: rest, node_id, nodes, table =>
    if p < nodes.length ∧ node_id < table.length then
      worker_fill count rest (node_id + 1) (nodes.modify (fun n => { n with id := node_id }) p)
        (table.set node_id (some p))
    else none

/-- The workers fill the graph table, one after another. -/
def fill_all : List layer_worker → List node → List (Option Nat) →
    Option (List node × List (Option Nat))
  | [], nodes, table => some (nodes, table)
  | w :: rest, nodes, table =>
    match worker_fill w.count w.results w.node_id nodes table with
    | none => none
    | some r => fill_all rest r.1 r.2

/-- The close of a layer: the coordinator assigns the ids and grows the table,
then the workers fill it. -/
def layer_close (todo : Nat) (workers : List layer_worker) (nodes : List node)
    (table : List (Option Nat)) : Option (List node × List (Option Nat)) :=
  fill_all (assign_node_ids todo workers 0).1 nodes
    (graph_add_multiple table (assign_node_ids todo workers 0).2)

/-- The table with the entries `node_id, node_id + 1, ..` set to the nodes of
`results`. -/
def set_range : List (Option Nat) → Nat → List Nat → List (Option Nat)
  | table, _, [] => table
  | table, node_id, p :: rest => set_range (table.set node_id (some p)) (node_id + 1) rest

/-- Three workers at the close of a layer: two new nodes, none, one. -/
def layer_demo_workers : List layer_worker :=
  [⟨[3, 1], 2, 0⟩, ⟨[], 0, 0⟩, ⟨[2], 1, 0⟩]

/-! ## Definitions: dot.c -/

/-- A `struct dot_node_t`.  `fwd` is the array behind the pointer (`none` for
`NULL`) and `fwd_len` the number of forward edges.  The name is left out. -/
structure dot_node_t where
  fwd : Option (List Int)
  fwd_len : Nat
deriving DecidableEq, Repr

/-- A `struct dot_graph_t`: the initialised entries of `nodes` (`len` is their
number) and `_alloc_len`. -/
structure dot_graph_t where
  nodes : List dot_node_t
  alloc_len : Nat
deriving DecidableEq, Repr

/-- The search loop of `dot_graph_add_edge` over the entries `i, i + 1, ..`
below `fwd_len`: whether `to_idx` is among them (`none`: a read outside of
the array or through `NULL`). -/
def dot_fwd_search (fwd : Option (List Int)) (to_idx : Int) : Nat → Nat → Option Bool
  | 0, _ => some false
  | n + 1, i =>
    match fwd.bind (fun a => a[i]?) with
    | none => none
    | some x => if x = to_idx then some true else dot_fwd_search fwd to_idx n (i + 1)

/-- The function `dot_graph_add_edge` (`none`: a read or write outside of an
array).  `realloc` keeps the entries of the array and adds one
uninitialised entry, which the function then writes. -/
def dot_graph_add_edge (graph : dot_graph_t) (from_idx : Nat) (to_idx : Int) :
    Option dot_graph_t :=
  match graph.nodes[from_idx]? with
  | none => none
  | some from_node =>
    match dot_fwd_search from_node.fwd to_idx from_node.fwd_len 0 with
    | none => none
    | some true => some graph
    | some false =>
      let fwd : List Int :=
        match from_node.fwd with
        | some a => (a ++ List.replicate (from_node.fwd_len + 1 - a.length) 0).take
            (from_node.fwd_len + 1)
        | none => List.replicate (from_node.fwd_len + 1) 0
      some { graph with
        nodes := graph.nodes.set from_idx
          { fwd := some (fwd.set from_node.fwd_len to_idx), fwd_len := from_node.fwd_len + 1 } }

/-- The function `dot_graph_new_node` (`none`: the assertion fails). -/
def dot_graph_new_node (graph : dot_graph_t) : Option (Nat × dot_graph_t) :=
  if graph.nodes.length + 1 > graph.alloc_len then none
  else
    some (graph.nodes.length,
      { nodes := graph.nodes ++ [{ fwd := none, fwd_len := 0 }]
        alloc_len :=
          if graph.nodes.length + 1 = graph.alloc_len then 2 * (graph.nodes.length + 1)
          else graph.alloc_len })

/-- The forward list of a node: the first `fwd_len` entries of its array. -/
def dot_fwd_list (n : dot_node_t) : List Int := (n.fwd.getD []).take n.fwd_len

/-- A node as `dot_graph_new_node` and `dot_graph_add_edge` keep it: the array
has exactly `fwd_len` entries and is `NULL` if there is none. -/
def dot_node_wf (n : dot_node_t) : Prop :=
  match n.fwd with
  | none => n.fwd_len = 0
  | some a => a.length = n.fwd_len ∧ 0 < n.fwd_len

/-- A graph built by three calls of `dot_graph_new_node` and the edges
`0 -> 1`, `0 -> 2`, `1 -> 2`. -/
def dot_demo_graph : dot_graph_t :=
  { nodes := [{ fwd := some [1, 2], fwd_len := 2 }, { fwd := some [2], fwd_len := 1 },
      { fwd := none, fwd_len := 0 }]
    alloc_len := 4 }

/-! ## Definitions: hashdict.c -/

/-- A `struct keynode`: the key bytes stored behind the node (`len` is their
number) and the hash kept with them.  The value pointer is left out. -/
structure keynode where
  key : bytes
  hash : Nat
deriving DecidableEq, Repr

/-- A `struct dict_bucket`: the stable and the unstable chain in link order
(`last` is the last node of the unstable chain) and the count of unstable
nodes. -/
structure dict_bucket where
  stable : List keynode
  unstable : List keynode
  count : Nat
deriving DecidableEq, Repr

/-- A `struct dict`. -/
structure dict where
  length : Nat
  count : Nat
  table : List dict_bucket
  growth_threshold : Nat
  growth_factor : Nat
  concurrent : Bool
deriving DecidableEq, Repr

/-- The function `dict_new`. -/
def dict_new (initial_size : Nat) : dict :=
  { length := if initial_size = 0 then 1024 else initial_size
    count := 0
    table := List.replicate (if initial_size = 0 then 1024 else initial_size) ⟨[], [], 0⟩
    growth_threshold := 2
    growth_factor := 5
    concurrent := false }

/-- The function `dict_reinsert_when_resizing`: the node is pushed on the
stable chain of the bucket selected by its stored hash. -/
def dict_reinsert_when_resizing (length : Nat) (table : List dict_bucket) (k : keynode) :
    List dict_bucket :=
  table.modify (fun b => { b with stable := k :: b.stable }) (k.hash % length)

/-- The function `dict_resize`: a zeroed table of `newsize` buckets receives
the nodes of the stable chains, bucket by bucket and each chain in link
order (`none`: the assertion that no bucket has unstable nodes fails, or
`newsize` is 0). -/
def dict_resize (d : dict) (newsize : Nat) : Option dict :=
  if newsize = 0 ∨ d.table.any (fun b => b.unstable ≠ []) then none
  else
    some { d with
      length := newsize
      table := (d.table.map dict_bucket.stable).flatten.foldl
        (dict_reinsert_when_resizing newsize) (List.replicate newsize ⟨[], [], 0⟩) }

/-- The search loops of `dict_find_alloc`: the first node of the chain whose
key has the length and the bytes of `key`. -/
def dict_search (key : bytes) : List keynode → Option keynode
  | [] => none
  | k :: rest => if k.key = key then some k else dict_search key rest

/-- The function `dict_find_alloc`, with the dict after the call and the
node returned.  The test `(double) count / (double) length > growth_threshold`
is taken over the integers, and `length * growth_factor - 1` without overflow.
`none`: the fuel for the recursive call ran out, or an assertion of
`dict_resize` failed, or the table is empty. -/
def dict_find_alloc : Nat → dict → bytes → Option (dict × keynode)
  | 0, _, _ => none
  | fuel + 1, d, key =>
    if d.length = 0 then none
    else
      match d.table[meiyan key % d.length]? with
      | none => none
      | some db =>
        match dict_search key db.stable with
        | some k => some (d, k)
        | none =>
          match (if d.concurrent then dict_search key db.unstable else none) with
          | some k => some (d, k)
          | none =>
            if !d.concurrent ∧ db.stable = [] ∧ d.count > d.growth_threshold * d.length then
              match dict_resize d (d.length * d.growth_factor - 1) with
              | none => none
              | some d1 => dict_find_alloc fuel d1 key
            else if d.concurrent then
              some ({ d with table := (d.table.set (meiyan key % d.length)
                  { db with unstable := db.unstable ++ [⟨key, meiyan key⟩]
                            count := db.count + 1 }) },
                ⟨key, meiyan key⟩)
            else
              some ({ d with
                  table := (d.table.set (meiyan key % d.length)
                    { db with stable := ⟨key, meiyan key⟩ :: db.stable })
                  count := d.count + 1 },
                ⟨key, meiyan key⟩)

/-- The function `dict_insert`, which is `dict_find` (`dict_find_alloc` without
an allocator) in this version; the dict afterwards. -/
def dict_insert (fuel : Nat) (d : dict) (key : bytes) : Option dict :=
  (dict_find_alloc fuel d key).map (fun r => r.1)

/-- A run of `dict_insert` calls, one after another. -/
def dict_insert_all (fuel : Nat) : dict → List bytes → Option dict
  | d, [] => some d
  | d, key :: rest =>
    match dict_insert fuel d key with
    | none => none
    | some d1 => dict_insert_all fuel d1 rest

/-- A dict in sequential mode as the code keeps it: the table has `length > 0`
buckets and no bucket has unstable nodes. -/
def dict_wf_sequential (d : dict) : Prop :=
  d.concurrent = false ∧ 0 < d.length ∧ d.table.length = d.length ∧
  d.growth_threshold = 2 ∧ d.growth_factor = 5 ∧ ∀ b ∈ d.table, b.unstable = []

/-- A dict of 2 buckets with 5 keys, all of them in bucket 0. -/
def dict_demo : dict :=
  (dict_insert_all 5 (dict_new 2) [[0], [1], [2], [3], [12]]).getD (dict_new 2)

/-! ## Definitions: hashdict.c, invariants and the concurrent phase -/

/-- The nodes of a bucket: the stable chain followed by the unstable chain. -/
def bucket_nodes (b : dict_bucket) : List keynode := b.stable ++ b.unstable

/-- All nodes of a dict, bucket by bucket. -/
def dict_all (d : dict) : List keynode := (d.table.map bucket_nodes).flatten

/-- All keys stored in a dict. -/
def dict_keys (d : dict) : List bytes := (dict_all d).map keynode.key

/-- The shape that the code keeps of a dict: `length > 0` buckets; every node
carries the hash of its key and hangs off the bucket `hash % length`; no key
is stored twice; the count of a bucket is the number of its unstable nodes. -/
def dict_shape (d : dict) : Prop :=
  0 < d.length ∧ d.table.length = d.length ∧ d.growth_threshold = 2 ∧ d.growth_factor = 5 ∧
  (∀ (i : Nat) (b : dict_bucket), d.table[i]? = some b →
    ∀ k ∈ bucket_nodes b, k.hash = meiyan k.key ∧ k.hash % d.length = i) ∧
  (dict_keys d).Nodup ∧
  (∀ b ∈ d.table, b.count = b.unstable.length)

/-- A dict in sequential mode: its shape, no unstable node, and `count` is the
number of stored nodes. -/
def dict_inv_sequential (d : dict) : Prop :=
  dict_shape d ∧ d.concurrent = false ∧ (∀ b ∈ d.table, b.unstable = []) ∧
  d.count = (dict_all d).length

/-- The function `dict_set_concurrent` (`none`: the assertion fails). -/
def dict_set_concurrent (d : dict) : Option dict :=
  if d.concurrent then none else some { d with concurrent := true }

/-- The loop of `dict_make_stable` over `count` buckets from bucket `i` on,
with the table and the sum `n` so far: the unstable chain of a bucket that has
one goes in front of its stable chain (`none`: a bucket outside the table). -/
def dict_make_stable_loop : Nat → Nat → List dict_bucket → Nat → Option (List dict_bucket × Nat)
  | 0, _, table, n => some (table, n)
  | count + 1, i, table, n =>
    match table[i]? with
    | none => none
    | some db =>
      if db.unstable ≠ [] then
        dict_make_stable_loop count (i + 1)
          (table.set i { stable := db.unstable ++ db.stable, unstable := [], count := 0 })
          (n + db.count)
      else dict_make_stable_loop count (i + 1) table n

/-- The function `dict_make_stable`, with the dict after the call and the
number returned; the products are taken without overflow (`none`: the
assertion fails, `nworkers` is 0, or the buckets of the worker are not all in
the table). -/
def dict_make_stable (d : dict) (nworkers worker : Nat) : Option (dict × Nat) :=
  if !d.concurrent ∨ nworkers = 0 then none
  else
    let first := d.length * worker / nworkers
    let count := d.length * (worker + 1) / nworkers - first
    match dict_make_stable_loop count first d.table 0 with
    | none => none
    | some (table, n) => some ({ d with table := table }, n)

/-- The function `dict_set_sequential`.  The test on `(double) count /
(double) length` is taken over the integers and the products without
overflow (`none`: an assertion fails). -/
def dict_set_sequential (d : dict) (n : Nat) : Option dict :=
  if !d.concurrent then none
  else
    let d1 := { d with count := d.count + n }
    if d1.count > d1.growth_threshold * d1.length then
      let min := if d1.length * d1.growth_factor < d1.count then d1.count * 2
        else d1.length * d1.growth_factor
      match dict_resize d1 min with
      | none => none
      | some d2 => some { d2 with concurrent := false }
    else some { d1 with concurrent := false }

/-- The calls `dict_make_stable(dict, nworkers, w)` for the workers `w` of a
list, one after another, with the sum of the numbers returned. -/
def dict_make_stable_all (nworkers : Nat) : dict → List Nat → Option (dict × Nat)
  | d, [] => some (d, 0)
  | d, w :: ws =>
    match dict_make_stable d nworkers w with
    | none => none
    | some (d1, n) =>
      match dict_make_stable_all nworkers d1 ws with
      | none => none
      | some (d2, m) => some (d2, n + m)

/-- A concurrent phase of a dict: `dict_set_concurrent`, the insertions of
`ks` (each one under the lock of its bucket, here one after another),
`dict_make_stable` for the workers `ws`, and `dict_set_sequential` with the
sum of what they returned.  The dict at the end and the sum. -/
def dict_phase (d : dict) (ks : List bytes) (nworkers : Nat) (ws : List Nat) :
    Option (dict × Nat) :=
  match dict_set_concurrent d with
  | none => none
  | some d1 =>
    match dict_insert_all 1 d1 ks with
    | none => none
    | some d2 =>
      match dict_make_stable_all nworkers d2 ws with
      | none => none
      | some (d3, n) =>
        match dict_set_sequential d3 n with
        | none => none
        | some d4 => some (d4, n)

theorem ht_match_iff (n : ht_node) (key : bytes) (hn : n.key.length = n.size) :
    ht_match n key = true ↔ n.size = key.length ∧ n.key = key := by
  unfold ht_match
  simp only [Bool.and_eq_true, beq_iff_eq]
  constructor
  · rintro ⟨h1, h2⟩
    refine ⟨h1, ?_⟩
    rw [← h2, List.take_of_length_le]
    omega
  · rintro ⟨h1, h2⟩
    exact ⟨h1, by rw [h2, List.take_length]⟩

theorem ht_search_some (key : bytes) (chain : List ht_node) (n : ht_node)
    (h : ht_search key chain = some n) : n ∈ chain ∧ ht_match n key = true := by
  induction chain with
  | nil => simp [ht_search] at h
  | cons e rest ih =>
    unfold ht_search at h
    by_cases hm : ht_match e key = true
    · simp only [hm, if_true, Option.some.injEq] at h
      subst h
      exact ⟨List.mem_cons_self _ _, hm⟩
    · simp only [hm] at h
      exact ⟨List.mem_cons_of_mem _ (ih h).1, (ih h).2⟩

theorem ht_search_none (key : bytes) (chain : List ht_node) :
    ht_search key chain = none ↔ ∀ n ∈ chain, ht_match n key = false := by
  induction chain with
  | nil => simp [ht_search]
  | cons e rest ih =>
    unfold ht_search
    by_cases hm : ht_match e key = true
    · simp [hm]
    · simp only [hm, List.mem_cons, forall_eq_or_imp]
      simp only [Bool.not_eq_true] at hm
      simp [hm, ih]

theorem mem_flatten_of_mem_getD {α : Type} (l : List (List α)) (i : Nat) (x : α)
    (h : x ∈ l.getD i []) : x ∈ l.flatten := by
  by_cases hi : i < l.length
  · rw [List.getD_eq_getElem _ _ hi] at h
    exact List.mem_flatten.mpr ⟨l[i], List.getElem_mem hi, h⟩
  · rw [List.getD_eq_default _ _ (by omega)] at h
    simp at h

theorem mem_flatten_getD {α : Type} (l : List (List α)) (x : α) (h : x ∈ l.flatten) :
    ∃ i, i < l.length ∧ x ∈ l.getD i [] := by
  obtain ⟨c, hc, hx⟩ := List.mem_flatten.mp h
  obtain ⟨i, hi, rfl⟩ := List.getElem_of_mem hc
  exact ⟨i, hi, by rw [List.getD_eq_getElem _ _ hi]; exact hx⟩

theorem flatten_set_append_perm {α : Type} (l : List (List α)) (i : Nat) (d : α)
    (hi : i < l.length) :
    (l.set i (l.getD i [] ++ [d])).flatten.Perm (d :: l.flatten) := by
  induction l generalizing i with
  | nil => simp at hi
  | cons c rest ih =>
    cases i with
    | zero =>
      simp only [List.set_cons_zero, List.getD_cons_zero, List.flatten_cons, List.append_assoc]
      have : (c ++ ([d] ++ rest.flatten)).Perm (c ++ (rest.flatten ++ [d])) :=
        List.Perm.append_left c List.perm_append_comm
      refine this.trans ?_
      rw [← List.append_assoc]
      exact (List.perm_append_comm).trans (by simp)
    | succ j =>
      simp only [List.set_cons_succ, List.getD_cons_succ, List.flatten_cons]
      have h1 := ih j (by simpa using hi)
      exact (List.Perm.append_left c h1).trans List.perm_middle

theorem flatten_replicate_nil {α : Type} (k : Nat) :
    (List.replicate k ([] : List α)).flatten = [] := by
  induction k with
  | zero => rfl
  | succ k ih => simp [List.replicate_succ, ih]

theorem ht_new_wf (value_size nbuckets nworkers : Nat) (align16 : Bool) :
    ht_wf (ht_new value_size nbuckets nworkers align16) := by
  refine ⟨?_, ?_, ?_, ?_, ?_⟩
  · show 0 < 1024
    omega
  · show (List.replicate 1024 ([] : List ht_node)).length = 1024
    exact List.length_replicate _ _
  · intro i hi n hn
    have hi1 : i < (List.replicate 1024 ([] : List ht_node)).length := hi
    have hn1 : n ∈ (List.replicate 1024 ([] : List ht_node)).getD i [] := hn
    rw [List.getD_eq_getElem _ _ hi1, List.getElem_replicate] at hn1
    exact absurd hn1 (List.not_mem_nil n)
  · intro n hn
    have hn1 : n ∈ (List.replicate 1024 ([] : List ht_node)).flatten := hn
    rw [flatten_replicate_nil] at hn1
    exact absurd hn1 (List.not_mem_nil n)
  · show ((List.replicate 1024 ([] : List ht_node)).flatten.map ht_node.addr).Nodup
    rw [flatten_replicate_nil]
    exact List.nodup_nil

/-- A node whose key equals `key` can only hang off the bucket of `key`. -/
theorem ht_wf_match_bucket (ht : hashtab) (key : bytes) (hwf : ht_wf ht) (m : ht_node)
    (hm : m ∈ ht.buckets.flatten) (hk : m.size = key.length ∧ m.key = key) :
    m ∈ ht.buckets.getD (meiyan key % ht.nbuckets) [] ∧ ht_match m key = true := by
  obtain ⟨_, _, hpl, _, _⟩ := hwf
  obtain ⟨i, hi, hmi⟩ := mem_flatten_getD _ _ hm
  have h1 := hpl i hi m hmi
  have : meiyan key % ht.nbuckets = i := by rw [← hk.2]; exact h1.2
  rw [this]
  exact ⟨hmi, (ht_match_iff m key h1.1).mpr hk⟩

/-- The outcome of `ht_find` in terms of the search of the chain. -/
theorem ht_find_cases (ht : hashtab) (al : Option Nat) (key : bytes) :
    (∃ n, ht_search key (ht.buckets.getD (meiyan key % ht.nbuckets) []) = some n ∧
        ht_find ht al key = some (ht, n, false)) ∨
    (ht_search key (ht.buckets.getD (meiyan key % ht.nbuckets) []) = none ∧
      ((ht.concurrent = true ∧ al = none ∧ ht_find ht al key = none) ∨
      ∃ ht1, ht_find ht al key = some (ht1, ⟨ht.nalloc, key.length, key⟩, true) ∧
        ht1.buckets = ht.buckets.set (meiyan key % ht.nbuckets)
          (ht.buckets.getD (meiyan key % ht.nbuckets) [] ++ [⟨ht.nalloc, key.length, key⟩]) ∧
        ht1.nbuckets = ht.nbuckets ∧ ht1.nalloc = ht.nalloc + 1 ∧
        ht1.concurrent = ht.concurrent)) := by
  cases hs : ht_search key (ht.buckets.getD (meiyan key % ht.nbuckets) []) with
  | some n =>
    left
    refine ⟨n, rfl, ?_⟩
    unfold ht_find
    simp only [hs]
  | none =>
    right
    refine ⟨rfl, ?_⟩
    cases hc : ht.concurrent with
    | false =>
      right
      refine ⟨{ ht with
        buckets := ht.buckets.set (meiyan key % ht.nbuckets)
          (ht.buckets.getD (meiyan key % ht.nbuckets) [] ++ [⟨ht.nalloc, key.length, key⟩])
        nalloc := ht.nalloc + 1 }, ?_, rfl, rfl, rfl, hc⟩
      unfold ht_find
      simp only [hs, hc]
      rfl
    | true =>
      cases al with
      | none =>
        left
        refine ⟨rfl, rfl, ?_⟩
        unfold ht_find
        simp only [hs, hc]
        rfl
      | some w =>
        right
        refine ⟨{ ht with
          buckets := ht.buckets.set (meiyan key % ht.nbuckets)
            (ht.buckets.getD (meiyan key % ht.nbuckets) [] ++ [⟨ht.nalloc, key.length, key⟩])
          nalloc := ht.nalloc + 1
          counts := ht.counts.modify (fun c => c + 1) w }, ?_, rfl, rfl, rfl, hc⟩
        unfold ht_find
        simp only [hs, hc]
        rfl

/-- Well-formedness is preserved by `ht_find`. -/
theorem ht_find_wf (ht : hashtab) (al : Option Nat) (key : bytes) (hwf : ht_wf ht)
    (ht1 : hashtab) (n : ht_node) (b : Bool) (h : ht_find ht al key = some (ht1, n, b)) :
    ht_wf ht1 := by
  rcases ht_find_cases ht al key with ⟨m, _, hf⟩ | ⟨_, ⟨_, _, hf⟩ | ⟨ht2, hf, hb, hnb, hna, _⟩⟩
  · rw [hf] at h
    simp only [Option.some.injEq, Prod.mk.injEq] at h
    rw [← h.1]
    exact hwf
  · rw [hf] at h
    exact absurd h (by simp)
  · rw [hf] at h
    simp only [Option.some.injEq, Prod.mk.injEq] at h
    obtain ⟨rfl, _, _⟩ := h
    obtain ⟨hpos, hlen, hpl, hadr, hnd⟩ := hwf
    have hlt : meiyan key % ht.nbuckets < ht.buckets.length := by
      rw [hlen]; exact Nat.mod_lt _ hpos
    have hperm := flatten_set_append_perm ht.buckets (meiyan key % ht.nbuckets)
      (⟨ht.nalloc, key.length, key⟩ : ht_node) hlt
    refine ⟨by rw [hnb]; exact hpos, by rw [hb, hnb, List.length_set, hlen], ?_, ?_, ?_⟩
    · intro i hi m hm
      rw [hb, List.length_set] at hi
      rw [hb, List.getD_eq_getElem _ _ (by rw [List.length_set]; exact hi),
        List.getElem_set] at hm
      rw [hnb]
      split at hm
      · rename_i heq
        rcases List.mem_append.mp hm with hm1 | hm1
        · rw [← heq]
          exact hpl _ hlt m hm1
        · simp only [List.mem_singleton] at hm1
          subst hm1
          exact ⟨rfl, heq⟩
      · exact hpl i hi m (by rw [List.getD_eq_getElem _ _ hi]; exact hm)
    · intro m hm
      rw [hb] at hm
      rcases List.mem_cons.mp (hperm.mem_iff.mp hm) with hm1 | hm1
      · subst hm1; rw [hna]; exact Nat.lt_succ_self _
      · rw [hna]; exact Nat.lt_succ_of_lt (hadr m hm1)
    · rw [hb]
      refine ((hperm.map ht_node.addr).nodup_iff).mpr ?_
      simp only [List.map_cons, List.nodup_cons]
      refine ⟨?_, hnd⟩
      intro hmem
      obtain ⟨m, hm, hma⟩ := List.mem_map.mp hmem
      have := hadr m hm
      omega

theorem ht_search_append (key : bytes) (chain : List ht_node) (d m : ht_node)
    (h : ht_search key chain = some m) : ht_search key (chain ++ [d]) = some m := by
  induction chain with
  | nil => simp [ht_search] at h
  | cons e rest ih =>
    simp only [List.cons_append]
    unfold ht_search at h ⊢
    by_cases hm : ht_match e key = true
    · simpa [hm] using h
    · simp only [hm] at h ⊢
      exact ih h

theorem ht_search_append_new (key : bytes) (chain : List ht_node) (d : ht_node)
    (h : ht_search key chain = none) (hd : ht_match d key = true) :
    ht_search key (chain ++ [d]) = some d := by
  induction chain with
  | nil => simp [ht_search, hd]
  | cons e rest ih =>
    simp only [List.cons_append]
    unfold ht_search at h ⊢
    by_cases hm : ht_match e key = true
    · simp [hm] at h
    · simp only [hm] at h ⊢
      exact ih h

theorem getD_set_self {α : Type} (l : List α) (i : Nat) (x d : α) (hi : i < l.length) :
    (l.set i x).getD i d = x := by
  rw [List.getD_eq_getElem _ _ (by rw [List.length_set]; exact hi), List.getElem_set_self]

theorem getD_set_other {α : Type} (l : List α) (i j : Nat) (x d : α) (hij : i ≠ j) :
    (l.set i x).getD j d = l.getD j d := by
  simp only [List.getD_eq_getElem?_getD]
  rw [List.getElem?_set_ne hij]

/-- After `ht_find`, searching the table for the key finds the node returned. -/
theorem ht_find_then_search (ht : hashtab) (al : Option Nat) (key : bytes) (hwf : ht_wf ht)
    (ht1 : hashtab) (n : ht_node) (b : Bool) (h : ht_find ht al key = some (ht1, n, b)) :
    ht_search key (ht1.buckets.getD (meiyan key % ht1.nbuckets) []) = some n := by
  rcases ht_find_cases ht al key with ⟨m, hs, hf⟩ | ⟨hs, ⟨_, _, hf⟩ | ⟨ht2, hf, hb, hnb, _, _⟩⟩
  · rw [hf] at h
    simp only [Option.some.injEq, Prod.mk.injEq] at h
    obtain ⟨rfl, rfl, _⟩ := h
    exact hs
  · rw [hf] at h
    exact absurd h (by simp)
  · rw [hf] at h
    simp only [Option.some.injEq, Prod.mk.injEq] at h
    obtain ⟨rfl, rfl, _⟩ := h
    obtain ⟨hpos, hlen, _, _, _⟩ := hwf
    have hlt : meiyan key % ht.nbuckets < ht.buckets.length := by
      rw [hlen]; exact Nat.mod_lt _ hpos
    rw [hnb, hb, getD_set_self _ _ _ _ hlt]
    refine ht_search_append_new key _ _ hs ?_
    simp [ht_match]

/-- A successful search stays successful, with the same node, across `ht_find`. -/
theorem ht_find_search_stable (ht : hashtab) (al : Option Nat) (key : bytes)
    (ht1 : hashtab) (n : ht_node) (b : Bool) (h : ht_find ht al key = some (ht1, n, b))
    (key1 : bytes) (m : ht_node)
    (hm : ht_search key1 (ht.buckets.getD (meiyan key1 % ht.nbuckets) []) = some m) :
    ht_search key1 (ht1.buckets.getD (meiyan key1 % ht1.nbuckets) []) = some m := by
  rcases ht_find_cases ht al key with ⟨m1, hs, hf⟩ | ⟨hs, ⟨_, _, hf⟩ | ⟨ht2, hf, hb, hnb, _, _⟩⟩
  · rw [hf] at h
    simp only [Option.some.injEq, Prod.mk.injEq] at h
    obtain ⟨rfl, _, _⟩ := h
    exact hm
  · rw [hf] at h
    exact absurd h (by simp)
  · rw [hf] at h
    simp only [Option.some.injEq, Prod.mk.injEq] at h
    obtain ⟨rfl, _, _⟩ := h
    rw [hnb, hb]
    by_cases hidx : meiyan key % ht.nbuckets = meiyan key1 % ht.nbuckets
    · by_cases hlt : meiyan key % ht.nbuckets < ht.buckets.length
      · rw [← hidx, getD_set_self _ _ _ _ hlt]
        rw [← hidx] at hm
        exact ht_search_append key1 _ _ m hm
      · rw [List.set_eq_of_length_le (by omega)]
        exact hm
    · rw [getD_set_other _ _ _ _ _ hidx]
      exact hm

theorem ht_exec_eq (ht : hashtab) (c : ht_call) : ht_exec ht c = ht_find ht c.al c.key := by
  cases c <;> rfl

/-- The run of a call sequence on a well-formed table: it succeeds when no
call trips the allocator assertion, the final table is well-formed, and
every call's key is found in the final table at the node the call returned. -/
theorem ht_run_spec (calls : List ht_call) :
    ∀ (ht : hashtab), ht_wf ht → (ht.concurrent = true → ∀ c ∈ calls, c.al ≠ none) →
    ∃ ht1 nodes, ht_run ht calls = some (ht1, nodes) ∧ ht_wf ht1 ∧
      ht1.nbuckets = ht.nbuckets ∧ ht1.concurrent = ht.concurrent ∧
      nodes.length = calls.length ∧
      (∀ key m, ht_search key (ht.buckets.getD (meiyan key % ht.nbuckets) []) = some m →
        ht_search key (ht1.buckets.getD (meiyan key % ht1.nbuckets) []) = some m) ∧
      (∀ p ∈ calls.zip nodes,
        ht_search p.1.key (ht1.buckets.getD (meiyan p.1.key % ht1.nbuckets) []) = some p.2) := by
  induction calls with
  | nil =>
    intro ht hwf _
    exact ⟨ht, [], rfl, hwf, rfl, rfl, rfl, fun _ _ h => h, by simp⟩
  | cons c cs ih =>
    intro ht hwf hal
    have hex : ∃ ht2 n b, ht_find ht c.al c.key = some (ht2, n, b) ∧
        ht2.nbuckets = ht.nbuckets ∧ ht2.concurrent = ht.concurrent := by
      rcases ht_find_cases ht c.al c.key with ⟨m, _, hf⟩ | ⟨_, ⟨hc, ha, _⟩ | ⟨ht2, hf, _, hnb, _, hcc⟩⟩
      · exact ⟨ht, m, false, hf, rfl, rfl⟩
      · exact absurd ha (hal hc c (List.mem_cons_self _ _))
      · exact ⟨ht2, _, true, hf, hnb, hcc⟩
    obtain ⟨ht2, n, b, hf, hnb2, hcc2⟩ := hex
    have hwf2 := ht_find_wf ht c.al c.key hwf ht2 n b hf
    obtain ⟨ht3, ns, hrun, hwf3, hnb3, hcc3, hlen, hstab, hall⟩ :=
      ih ht2 hwf2 (fun hc c1 hc1 => hal (by rw [← hcc2]; exact hc) c1 (List.mem_cons_of_mem _ hc1))
    refine ⟨ht3, n :: ns, ?_, hwf3, by rw [hnb3, hnb2], by rw [hcc3, hcc2], by simp [hlen], ?_, ?_⟩
    · unfold ht_run
      rw [ht_exec_eq, hf]
      simp only [hrun]
    · intro key m hm
      exact hstab key m (ht_find_search_stable ht c.al c.key ht2 n b hf key m hm)
    · intro p hp
      simp only [List.zip_cons_cons, List.mem_cons] at hp
      rcases hp with rfl | hp
      · exact hstab _ _ (ht_find_then_search ht c.al c.key hwf ht2 n b hf)
      · exact hall p hp

/-- Two lists of the same length whose entries are equal at the same pairs of
positions have the same number of distinct entries. -/
theorem dedup_length_eq_of_pairs {α β : Type} [DecidableEq α] [DecidableEq β]
    (ps : List (α × β)) (h : ∀ p ∈ ps, ∀ q ∈ ps, (p.1 = q.1 ↔ p.2 = q.2)) :
    (ps.map Prod.fst).dedup.length = (ps.map Prod.snd).dedup.length := by
  induction ps with
  | nil => rfl
  | cons p ps ih =>
    have ih1 := ih (fun a ha b hb => h a (List.mem_cons_of_mem _ ha) b (List.mem_cons_of_mem _ hb))
    have hiff : p.1 ∈ ps.map Prod.fst ↔ p.2 ∈ ps.map Prod.snd := by
      constructor
      · intro hm
        obtain ⟨q, hq, hq1⟩ := List.mem_map.mp hm
        exact List.mem_map.mpr ⟨q, hq,
          ((h p (List.mem_cons_self _ _) q (List.mem_cons_of_mem _ hq)).mp hq1.symm).symm⟩
      · intro hm
        obtain ⟨q, hq, hq1⟩ := List.mem_map.mp hm
        exact List.mem_map.mpr ⟨q, hq,
          ((h p (List.mem_cons_self _ _) q (List.mem_cons_of_mem _ hq)).mpr hq1.symm).symm⟩
    simp only [List.map_cons]
    by_cases hm : p.1 ∈ ps.map Prod.fst
    · rw [List.dedup_cons_of_mem hm, List.dedup_cons_of_mem (hiff.mp hm)]
      exact ih1
    · rw [List.dedup_cons_of_not_mem hm, List.dedup_cons_of_not_mem (fun h2 => hm (hiff.mpr h2))]
      simp [ih1]

theorem ht_search_key_eq (ht : hashtab) (hwf : ht_wf ht) (key : bytes) (n : ht_node)
    (h : ht_search key (ht.buckets.getD (meiyan key % ht.nbuckets) []) = some n) :
    n ∈ ht.buckets.flatten ∧ n.size = key.length ∧ n.key = key := by
  obtain ⟨hmem, hmatch⟩ := ht_search_some _ _ _ h
  obtain ⟨hpos, hlen, hpl, _, _⟩ := hwf
  have hlt : meiyan key % ht.nbuckets < ht.buckets.length := by
    rw [hlen]; exact Nat.mod_lt _ hpos
  exact ⟨mem_flatten_of_mem_getD _ _ _ hmem,
    (ht_match_iff n key (hpl _ hlt n hmem).1).mp hmatch⟩

/-- In the zipped run, two calls got the same address exactly when their keys
are equal. -/
theorem ht_run_pairs (ht : hashtab) (calls : List ht_call) (hwf : ht_wf ht)
    (hal : ht.concurrent = true → ∀ c ∈ calls, c.al ≠ none) :
    ∃ ht1 nodes, ht_run ht calls = some (ht1, nodes) ∧ nodes.length = calls.length ∧
      ∀ p ∈ calls.zip nodes, ∀ q ∈ calls.zip nodes,
        (p.1.key = q.1.key ↔ p.2.addr = q.2.addr) := by
  obtain ⟨ht1, nodes, hrun, hwf1, _, _, hlen, _, hall⟩ := ht_run_spec calls ht hwf hal
  refine ⟨ht1, nodes, hrun, hlen, ?_⟩
  intro p hp q hq
  have h1 := hall p hp
  have h2 := hall q hq
  constructor
  · intro hk
    rw [hk, h2] at h1
    simp only [Option.some.injEq] at h1
    rw [h1]
  · intro ha
    obtain ⟨hm1, _, hk1⟩ := ht_search_key_eq ht1 hwf1 _ _ h1
    obtain ⟨hm2, _, hk2⟩ := ht_search_key_eq ht1 hwf1 _ _ h2
    have heq : p.2 = q.2 := List.inj_on_of_nodup_map hwf1.2.2.2.2 hm1 hm2 ha
    rw [← hk1, ← hk2, heq]

/-- C1: on a well-formed table (such as any table built by `ht_new` and
earlier calls), a sequence of `ht_find`/`ht_insert` calls executed one after
another succeeds (provided no call trips the allocator assertion of
concurrent mode) and returns one node per call; two calls return the same
node (address) if and only if their keys are equal, and the number of
distinct nodes returned equals the number of distinct keys passed. -/
theorem ht_same_slot_iff_same_key (ht : hashtab) (calls : List ht_call) (hwf : ht_wf ht)
    (hal : ht.concurrent = true → ∀ c ∈ calls, c.al ≠ none) :
    ∃ ht1 nodes, ht_run ht calls = some (ht1, nodes) ∧ nodes.length = calls.length ∧
      (∀ i j, i < calls.length → j < calls.length →
        ((nodes[i]?.map ht_node.addr = nodes[j]?.map ht_node.addr) ↔
          (calls[i]?.map ht_call.key = calls[j]?.map ht_call.key))) ∧
      (nodes.map ht_node.addr).dedup.length = (calls.map ht_call.key).dedup.length := by
  obtain ⟨ht1, nodes, hrun, hlen, hpairs⟩ := ht_run_pairs ht calls hwf hal
  refine ⟨ht1, nodes, hrun, hlen, ?_, ?_⟩
  · intro i j hi hj
    have hi1 : i < nodes.length := by omega
    have hj1 : j < nodes.length := by omega
    have hzi : i < (calls.zip nodes).length := by simp [List.length_zip]; omega
    have hzj : j < (calls.zip nodes).length := by simp [List.length_zip]; omega
    have hmi : (calls[i], nodes[i]) ∈ calls.zip nodes := by
      have := List.getElem_mem hzi
      rwa [List.getElem_zip] at this
    have hmj : (calls[j], nodes[j]) ∈ calls.zip nodes := by
      have := List.getElem_mem hzj
      rwa [List.getElem_zip] at this
    have := hpairs _ hmi _ hmj
    rw [List.getElem?_eq_getElem hi1, List.getElem?_eq_getElem hj1,
      List.getElem?_eq_getElem hi, List.getElem?_eq_getElem hj]
    simp only [Option.map_some', Option.some.injEq]
    exact this.symm
  · have h1 := dedup_length_eq_of_pairs
      ((calls.zip nodes).map (fun p => (p.1.key, p.2.addr))) (by
        intro p hp q hq
        obtain ⟨p1, hp1, rfl⟩ := List.mem_map.mp hp
        obtain ⟨q1, hq1, rfl⟩ := List.mem_map.mp hq
        exact hpairs p1 hp1 q1 hq1)
    have hf : ((calls.zip nodes).map (fun p => (p.1.key, p.2.addr))).map Prod.fst
        = calls.map ht_call.key := by
      rw [List.map_map]
      have : (Prod.fst ∘ fun p : ht_call × ht_node => (p.1.key, p.2.addr))
          = ht_call.key ∘ Prod.fst := rfl
      rw [this, ← List.map_map, List.map_fst_zip _ _ (by omega)]
    have hs : ((calls.zip nodes).map (fun p => (p.1.key, p.2.addr))).map Prod.snd
        = nodes.map ht_node.addr := by
      rw [List.map_map]
      have : (Prod.snd ∘ fun p : ht_call × ht_node => (p.1.key, p.2.addr))
          = ht_node.addr ∘ Prod.snd := rfl
      rw [this, ← List.map_map, List.map_snd_zip _ _ (by omega)]
    rw [hf, hs] at h1
    exact h1.symm

/-- C1, instance: three calls on a fresh table, the first and the third with
the same key. -/
theorem ht_same_slot_iff_same_key_witness :
    ht_wf (ht_new 8 0 2 false) ∧
    ((ht_new 8 0 2 false).concurrent = true →
      ∀ c ∈ [ht_call.insert none [1, 2], ht_call.find none [3], ht_call.insert none [1, 2]],
        c.al ≠ none) ∧
    ∃ ht1 nodes,
      ht_run (ht_new 8 0 2 false)
        [ht_call.insert none [1, 2], ht_call.find none [3], ht_call.insert none [1, 2]]
        = some (ht1, nodes) ∧
      nodes.length =
        [ht_call.insert none [1, 2], ht_call.find none [3], ht_call.insert none [1, 2]].length ∧
      (∀ i j,
        i < [ht_call.insert none [1, 2], ht_call.find none [3],
          ht_call.insert none [1, 2]].length →
        j < [ht_call.insert none [1, 2], ht_call.find none [3],
          ht_call.insert none [1, 2]].length →
        ((nodes[i]?.map ht_node.addr = nodes[j]?.map ht_node.addr) ↔
          ([ht_call.insert none [1, 2], ht_call.find none [3],
              ht_call.insert none [1, 2]][i]?.map ht_call.key =
            [ht_call.insert none [1, 2], ht_call.find none [3],
              ht_call.insert none [1, 2]][j]?.map ht_call.key))) ∧
      (nodes.map ht_node.addr).dedup.length =
        ([ht_call.insert none [1, 2], ht_call.find none [3],
          ht_call.insert none [1, 2]].map ht_call.key).dedup.length :=
  ⟨ht_new_wf 8 0 2 false, fun h => absurd h (by decide),
    ht_same_slot_iff_same_key (ht_new 8 0 2 false)
      [ht_call.insert none [1, 2], ht_call.find none [3], ht_call.insert none [1, 2]]
      (ht_new_wf 8 0 2 false) (fun h => absurd h (by decide))⟩

/-- C9: on a well-formed table `ht_find` returns (unless it trips the
allocator assertion of concurrent mode), and `*is_new` is true if and only
if no node with an equal key (same length, same bytes) was in the table
before the call.  When it is true, the node returned is fresh, holds a copy
of the key with `size` the key length, and the only change to the chains is
that this one node is appended to the chain of bucket
`hash(key) mod nbuckets`; when it is false the chains are unchanged. -/
theorem ht_find_is_new_iff (ht : hashtab) (al : Option Nat) (key : bytes)
    (hwf : ht_wf ht) (hal : ht.concurrent = true → al ≠ none) :
    ∃ ht1 n is_new, ht_find ht al key = some (ht1, n, is_new) ∧
      (is_new = true ↔ ∀ m ∈ ht.buckets.flatten, ¬ (m.size = key.length ∧ m.key = key)) ∧
      (is_new = true →
        n.size = key.length ∧ n.key = key ∧
        (∀ m ∈ ht.buckets.flatten, m.addr ≠ n.addr) ∧
        meiyan key % ht.nbuckets < ht.buckets.length ∧
        ht1.buckets = ht.buckets.set (meiyan key % ht.nbuckets)
          (ht.buckets.getD (meiyan key % ht.nbuckets) [] ++ [n]) ∧
        ht1.nbuckets = ht.nbuckets) ∧
      (is_new = false → ht1.buckets = ht.buckets ∧ ht1.nbuckets = ht.nbuckets) := by
  have hlt : meiyan key % ht.nbuckets < ht.buckets.length := by
    rw [hwf.2.1]; exact Nat.mod_lt _ hwf.1
  rcases ht_find_cases ht al key with ⟨m, hs, hf⟩ | ⟨hs, ⟨hc, ha, _⟩ | ⟨ht2, hf, hb, hnb, _, _⟩⟩
  · refine ⟨ht, m, false, hf, ?_, by simp, fun _ => ⟨rfl, rfl⟩⟩
    obtain ⟨hmem, hk⟩ := ht_search_key_eq ht hwf key m hs
    constructor
    · intro h; exact absurd h (by simp)
    · intro h; exact absurd hk (h m hmem)
  · exact absurd ha (hal hc)
  · refine ⟨ht2, _, true, hf, ?_, fun _ => ⟨rfl, rfl, ?_, hlt, hb, hnb⟩, by simp⟩
    · refine ⟨fun _ m hm hk => ?_, fun _ => rfl⟩
      have h1 := ht_wf_match_bucket ht key hwf m hm hk
      have h2 := (ht_search_none key _).mp hs m h1.1
      rw [h1.2] at h2
      exact absurd h2 (by simp)
    · intro m hm hma
      have := hwf.2.2.2.1 m hm
      simp only at hma
      omega

/-- C9, instance: looking up a two-byte key in a fresh table. -/
theorem ht_find_is_new_iff_witness :
    ht_wf (ht_new 8 0 2 false) ∧ ((ht_new 8 0 2 false).concurrent = true → (none : Option Nat) ≠ none) ∧
    ∃ ht1 n is_new, ht_find (ht_new 8 0 2 false) none [7, 9] = some (ht1, n, is_new) ∧
      (is_new = true ↔ ∀ m ∈ (ht_new 8 0 2 false).buckets.flatten,
        ¬ (m.size = ([7, 9] : bytes).length ∧ m.key = [7, 9])) ∧
      (is_new = true →
        n.size = ([7, 9] : bytes).length ∧ n.key = [7, 9] ∧
        (∀ m ∈ (ht_new 8 0 2 false).buckets.flatten, m.addr ≠ n.addr) ∧
        meiyan [7, 9] % (ht_new 8 0 2 false).nbuckets < (ht_new 8 0 2 false).buckets.length ∧
        ht1.buckets = (ht_new 8 0 2 false).buckets.set (meiyan [7, 9] % (ht_new 8 0 2 false).nbuckets)
          ((ht_new 8 0 2 false).buckets.getD (meiyan [7, 9] % (ht_new 8 0 2 false).nbuckets) [] ++ [n]) ∧
        ht1.nbuckets = (ht_new 8 0 2 false).nbuckets) ∧
      (is_new = false → ht1.buckets = (ht_new 8 0 2 false).buckets ∧
        ht1.nbuckets = (ht_new 8 0 2 false).nbuckets) :=
  ⟨ht_new_wf 8 0 2 false, fun h => absurd h (by decide),
    ht_find_is_new_iff (ht_new 8 0 2 false) none [7, 9] (ht_new_wf 8 0 2 false)
      (fun h => absurd h (by decide))⟩

/-! ### Growing the table: `ht_grow_prepare` and `ht_make_stable` -/

theorem ht_clear_range_length (first last : Nat) (buckets : List (List ht_node)) :
    ∀ i, (ht_clear_range first last i buckets).length = buckets.length := by
  induction buckets with
  | nil => intro i; rfl
  | cons c rest ih => intro i; simp [ht_clear_range, ih]

theorem ht_clear_range_getD (first last : Nat) (buckets : List (List ht_node)) :
    ∀ i j, first ≤ i + j → i + j < last →
      (ht_clear_range first last i buckets).getD j [] = [] := by
  induction buckets with
  | nil => intro i j _ _; rfl
  | cons c rest ih =>
    intro i j h1 h2
    cases j with
    | zero =>
      have : first ≤ i ∧ i < last := ⟨by omega, by omega⟩
      simp [ht_clear_range, this]
    | succ j =>
      simp only [ht_clear_range, List.getD_cons_succ]
      exact ih (i + 1) j (by omega) (by omega)

theorem getD_set_mem {α : Type} (l : List (List α)) (i j : Nat) (c : List α) (x : α)
    (h : x ∈ (l.set i c).getD j []) : x ∈ l.getD j [] ∨ (i = j ∧ x ∈ c) := by
  by_cases hij : i = j
  · subst hij
    by_cases hi : i < l.length
    · rw [getD_set_self _ _ _ _ hi] at h
      exact Or.inr ⟨rfl, h⟩
    · rw [List.set_eq_of_length_le (by omega)] at h
      exact Or.inl h
  · rw [getD_set_other _ _ _ _ _ hij] at h
    exact Or.inl h

theorem ht_rehash_chain_mem (nbuckets : Nat) (chain : List ht_node) :
    ∀ (buckets : List (List ht_node)) (j : Nat) (x : ht_node),
      x ∈ (ht_rehash_chain nbuckets buckets chain).getD j [] →
      x ∈ buckets.getD j [] ∨ x ∈ chain := by
  induction chain with
  | nil => intro buckets j x h; exact Or.inl h
  | cons n rest ih =>
    intro buckets j x h
    unfold ht_rehash_chain at h
    rcases ih _ j x h with h1 | h1
    · rcases getD_set_mem _ _ _ _ _ h1 with h2 | ⟨heq, h2⟩
      · exact Or.inl h2
      · rcases List.mem_cons.mp h2 with h3 | h3
        · exact Or.inr (by rw [h3]; exact List.mem_cons_self _ _)
        · rw [heq] at h3
          exact Or.inl h3
    · exact Or.inr (List.mem_cons_of_mem _ h1)

theorem ht_rehash_range_mem (nbuckets : Nat) (old_buckets : List (List ht_node)) (count : Nat) :
    ∀ (i : Nat) (buckets : List (List ht_node)) (j : Nat) (x : ht_node),
      x ∈ (ht_rehash_range nbuckets old_buckets i count buckets).getD j [] →
      x ∈ buckets.getD j [] ∨ ∃ t, i ≤ t ∧ t < i + count ∧ x ∈ old_buckets.getD t [] := by
  induction count with
  | zero => intro i buckets j x h; exact Or.inl h
  | succ count ih =>
    intro i buckets j x h
    unfold ht_rehash_range at h
    rcases ih (i + 1) _ j x h with h1 | ⟨t, ht1, ht2, hx⟩
    · rcases ht_rehash_chain_mem nbuckets _ _ j x h1 with h2 | h2
      · exact Or.inl h2
      · exact Or.inr ⟨i, le_refl _, by omega, h2⟩
    · exact Or.inr ⟨t, by omega, by omega, hx⟩

theorem ht_make_stable_eq (ht : hashtab) (old_buckets : List (List ht_node)) (worker : Nat)
    (hc : ht.concurrent = true) (hob : ht.old_buckets = some old_buckets) :
    ht_make_stable ht worker = some { ht with
      buckets := (ht_rehash_range ht.nbuckets old_buckets
        (u32 (worker * ht.old_nbuckets % 2 ^ 64 / ht.nworkers))
        (u32 ((worker + 1) * ht.old_nbuckets % 2 ^ 64 / ht.nworkers) -
          u32 (worker * ht.old_nbuckets % 2 ^ 64 / ht.nworkers))
        (ht_clear_range (u32 (worker * ht.nbuckets % 2 ^ 64 / ht.nworkers))
          (u32 ((worker + 1) * ht.nbuckets % 2 ^ 64 / ht.nworkers)) 0 ht.buckets)) } := by
  unfold ht_make_stable
  rw [if_pos hc, hob]
  rfl

theorem ht_make_stable_all_succ (ht : hashtab) (worker count : Nat) :
    ht_make_stable_all ht worker (count + 1) =
      (ht_make_stable ht worker).bind (fun ht1 => ht_make_stable_all ht1 (worker + 1) count) := by
  cases h : ht_make_stable ht worker with
  | none => rw [ht_make_stable_all, h]; rfl
  | some ht1 => rw [ht_make_stable_all, h]; rfl

/-- Two workers, 1024 old and 8192 new buckets: after `ht_make_stable` has run
for worker 0 and then for worker 1, the upper half of the new array holds only
nodes that came from the upper half of the old array. -/
theorem ht_make_stable_two (ht : hashtab) (old_buckets : List (List ht_node))
    (hc : ht.concurrent = true) (hob : ht.old_buckets = some old_buckets)
    (hnw : ht.nworkers = 2) (hnb : ht.nbuckets = 8192) (honb : ht.old_nbuckets = 1024) :
    ∃ ht1, ht_make_stable_all ht 0 2 = some ht1 ∧ ht1.nbuckets = 8192 ∧
      ht1.concurrent = true ∧ ht1.nalloc = ht.nalloc ∧
      ∀ j, 4096 ≤ j → j < 8192 → ∀ x ∈ ht1.buckets.getD j [],
        ∃ t, 512 ≤ t ∧ t < 1024 ∧ x ∈ old_buckets.getD t [] := by
  have e1 : u32 ((0 + 1) * 8192 % 2 ^ 64 / 2) = 4096 := by decide
  have e2 : u32 ((0 + 1 + 1) * 8192 % 2 ^ 64 / 2) = 8192 := by decide
  have f1 : u32 ((0 + 1) * 1024 % 2 ^ 64 / 2) = 512 := by decide
  have f2 : u32 ((0 + 1 + 1) * 1024 % 2 ^ 64 / 2) = 1024 := by decide
  obtain ⟨htA, hA⟩ : ∃ htA, ht_make_stable ht 0 = some htA := ⟨_, ht_make_stable_eq ht _ 0 hc hob⟩
  have hA1 := ht_make_stable_eq ht _ 0 hc hob
  rw [hA] at hA1
  simp only [Option.some.injEq] at hA1
  have hcA : htA.concurrent = true := by rw [hA1]; exact hc
  have hobA : htA.old_buckets = some old_buckets := by rw [hA1]; exact hob
  have hnwA : htA.nworkers = 2 := by rw [hA1]; exact hnw
  have hnbA : htA.nbuckets = 8192 := by rw [hA1]; exact hnb
  have honbA : htA.old_nbuckets = 1024 := by rw [hA1]; exact honb
  have hnaA : htA.nalloc = ht.nalloc := by rw [hA1]
  obtain ⟨htB, hB⟩ : ∃ htB, ht_make_stable htA (0 + 1) = some htB :=
    ⟨_, ht_make_stable_eq htA _ (0 + 1) hcA hobA⟩
  have hB1 := ht_make_stable_eq htA _ (0 + 1) hcA hobA
  rw [hB] at hB1
  simp only [Option.some.injEq] at hB1
  rw [hnwA, hnbA, honbA, e1, e2, f1, f2] at hB1
  refine ⟨htB, ?_, ?_, ?_, ?_, ?_⟩
  · show ht_make_stable_all ht 0 (1 + 1) = some htB
    rw [ht_make_stable_all_succ, hA]
    show ht_make_stable_all htA (0 + 1) (0 + 1) = some htB
    rw [ht_make_stable_all_succ, hB]
    rfl
  · rw [hB1]
  · rw [hB1]; exact hcA
  · rw [hB1]; exact hnaA
  · intro j hj1 hj2 x hx
    rw [hB1] at hx
    simp only at hx
    rcases ht_rehash_range_mem _ _ _ _ _ j x hx with h1 | ⟨t, ht1, ht2, hxt⟩
    · rw [ht_clear_range_getD 4096 8192 _ 0 j (by omega) (by omega)] at h1
      exact absurd h1 (List.not_mem_nil x)
    · exact ⟨t, ht1, by omega, hxt⟩

theorem sum_modify_succ (l : List Nat) :
    ∀ i, i < l.length → (l.modify (fun c => c + 1) i).sum = l.sum + 1 := by
  induction l with
  | nil => intro i hi; simp at hi
  | cons a rest ih =>
    intro i hi
    cases i with
    | zero => simp [List.modify, List.modifyTailIdx, List.modifyHead]; omega
    | succ i =>
      have := ih i (by simpa using hi)
      simp only [List.modify_succ_cons, List.sum_cons, this]
      omega

/-- An insertion of a key that the chain does not hold, in concurrent mode. -/
theorem ht_find_new (ht : hashtab) (w : Nat) (key : bytes) (hc : ht.concurrent = true)
    (hw : w < ht.counts.length)
    (hs : ht_search key (ht.buckets.getD (meiyan key % ht.nbuckets) []) = none) :
    ∃ ht1, ht_find ht (some w) key = some (ht1, ⟨ht.nalloc, key.length, key⟩, true) ∧
      ht1.counts.sum = ht.counts.sum + 1 ∧ ht1.counts.length = ht.counts.length ∧
      ht1.nobjects = ht.nobjects ∧ ht1.nworkers = ht.nworkers ∧
      ht1.nalloc = ht.nalloc + 1 ∧
      ht1.buckets = ht.buckets.set (meiyan key % ht.nbuckets)
        (ht.buckets.getD (meiyan key % ht.nbuckets) [] ++ [⟨ht.nalloc, key.length, key⟩]) := by
  refine ⟨{ ht with
      buckets := ht.buckets.set (meiyan key % ht.nbuckets)
        (ht.buckets.getD (meiyan key % ht.nbuckets) [] ++ [⟨ht.nalloc, key.length, key⟩])
      nalloc := ht.nalloc + 1
      counts := ht.counts.modify (fun c => c + 1) w }, ?_, sum_modify_succ _ _ hw,
      List.length_modify _ _ _, rfl, rfl, rfl, rfl⟩
  unfold ht_find
  simp only [hs, hc]
  rfl

/-- A run of insertions of pairwise different keys, none of them in the table,
by one worker in concurrent mode: every call adds a node and is counted. -/
theorem ht_run_fresh (w : Nat) (calls : List ht_call) :
    ∀ (ht : hashtab), ht_wf ht → ht.concurrent = true → w < ht.counts.length →
      (∀ c ∈ calls, c.al = some w) → (calls.map ht_call.key).Nodup →
      (∀ c ∈ calls, ∀ m ∈ ht.buckets.flatten, m.key ≠ c.key) →
      ∃ ht1 nodes, ht_run ht calls = some (ht1, nodes) ∧
        ht1.counts.sum = ht.counts.sum + calls.length ∧
        ht1.counts.length = ht.counts.length ∧ ht1.nobjects = ht.nobjects ∧
        ht1.nworkers = ht.nworkers ∧ ht1.nalloc = ht.nalloc + calls.length := by
  induction calls with
  | nil => intro ht _ _ _ _ _ _; exact ⟨ht, [], rfl, rfl, rfl, rfl, rfl, rfl⟩
  | cons c cs ih =>
    intro ht hwf hc hw hal hnd hfresh
    have hlt : meiyan c.key % ht.nbuckets < ht.buckets.length := by
      rw [hwf.2.1]; exact Nat.mod_lt _ hwf.1
    have hs : ht_search c.key (ht.buckets.getD (meiyan c.key % ht.nbuckets) []) = none := by
      refine (ht_search_none _ _).mpr (fun n hn => ?_)
      have hnf := mem_flatten_of_mem_getD _ _ _ hn
      have hne := hfresh c (List.mem_cons_self _ _) n hnf
      cases hmt : ht_match n c.key with
      | false => rfl
      | true =>
        exact absurd ((ht_match_iff n c.key (hwf.2.2.1 _ hlt n hn).1).mp hmt).2 hne
    obtain ⟨ht1, hf, hsum, hlen, hno, hnw, hna, hb⟩ := ht_find_new ht w c.key hc hw hs
    have hf1 : ht_find ht c.al c.key = some (ht1, ⟨ht.nalloc, c.key.length, c.key⟩, true) := by
      rw [hal c (List.mem_cons_self _ _)]; exact hf
    have hwf1 := ht_find_wf ht c.al c.key hwf ht1 _ _ hf1
    have hc1 : ht1.concurrent = true := by
      rcases ht_find_cases ht c.al c.key with ⟨m, hs1, _⟩ | ⟨_, ⟨_, _, hf2⟩ | ⟨ht2, hf2, _, _, _, hcc⟩⟩
      · rw [hs] at hs1; exact absurd hs1 (by simp)
      · rw [hf1] at hf2; exact absurd hf2 (by simp)
      · rw [hf1] at hf2
        simp only [Option.some.injEq, Prod.mk.injEq] at hf2
        rw [hf2.1, hcc]; exact hc
    simp only [List.map_cons, List.nodup_cons] at hnd
    have hfresh1 : ∀ c1 ∈ cs, ∀ m ∈ ht1.buckets.flatten, m.key ≠ c1.key := by
      intro c1 hc1m m hm
      rw [hb] at hm
      rcases List.mem_cons.mp ((flatten_set_append_perm _ _ _ hlt).mem_iff.mp hm) with h1 | h1
      · rw [h1]
        intro heq
        exact hnd.1 (List.mem_map.mpr ⟨c1, hc1m, heq.symm⟩)
      · exact hfresh c1 (List.mem_cons_of_mem _ hc1m) m h1
    obtain ⟨ht2, ns, hrun, hsum2, hlen2, hno2, hnw2, hna2⟩ :=
      ih ht1 hwf1 hc1 (by rw [hlen]; exact hw)
        (fun c1 h1 => hal c1 (List.mem_cons_of_mem _ h1)) hnd.2 hfresh1
    refine ⟨ht2, ⟨ht.nalloc, c.key.length, c.key⟩ :: ns, ?_, ?_, by rw [hlen2, hlen],
      by rw [hno2, hno], by rw [hnw2, hnw], ?_⟩
    · unfold ht_run
      rw [ht_exec_eq, hf1]
      simp only [hrun]
    · rw [hsum2, hsum, List.length_cons]; omega
    · rw [hna2, hna, List.length_cons]; omega

/-- The outcome of `ht_grow_prepare` once 513 insertions have been counted
for a table of 1024 buckets and two workers. -/
theorem ht_grow_prepare_demo (ht : hashtab) (hc : ht.concurrent = true)
    (hno : ht.nobjects = 0) (hnw : ht.nworkers = 2) (hlen : ht.counts.length = 2)
    (hsum : ht.counts.sum = 513) (hnb : ht.nbuckets = 1024) :
    ∃ ht1, ht_grow_prepare ht = some ht1 ∧ ht1.concurrent = true ∧
      ht1.old_buckets = some ht.buckets ∧ ht1.nworkers = 2 ∧ ht1.nbuckets = 8192 ∧
      ht1.old_nbuckets = 1024 ∧ ht1.nalloc = ht.nalloc ∧ ht1.nobjects = 513 ∧
      ht1.buckets = List.replicate 8192 [] := by
  have htake : (ht.counts.take 2).sum = 513 := by
    rw [List.take_of_length_le (by omega)]; exact hsum
  have h0 : u32 (0 + 513) = 513 := by decide
  have h1 : (1024 : Nat) < u32 (513 * 2) := by decide
  have h2 : ht_grow_loop 513 64 (u32 (1024 * 8)) = some 8192 := by decide
  unfold ht_grow_prepare
  simp only [hc, if_true, hno, hnw, htake, hnb, h0, h1, h2]
  exact ⟨_, rfl, rfl, rfl, rfl, rfl, rfl, rfl, rfl, rfl⟩

theorem exists_mem_zip_of_mem {α β : Type} (xs : List α) :
    ∀ (ys : List β), xs.length = ys.length → ∀ x ∈ xs, ∃ y, (x, y) ∈ xs.zip ys := by
  induction xs with
  | nil => intro ys _ x hx; simp at hx
  | cons a rest ih =>
    intro ys hlen x hx
    cases ys with
    | nil => simp at hlen
    | cons b ys =>
      rcases List.mem_cons.mp hx with h | h
      · exact ⟨b, by rw [h]; simp⟩
      · obtain ⟨y, hy⟩ := ih ys (by simpa using hlen) x h
        exact ⟨y, by simp [hy]⟩

theorem ht_demo_key_inj (i j : Nat) (hi : i < 513) (hj : j < 513)
    (h : ht_demo_key i = ht_demo_key j) : i = j := by
  unfold ht_demo_key at h
  simp only [List.cons.injEq, and_true] at h
  have h1 := congrArg Fin.val h.1
  have h2 := congrArg Fin.val h.2
  simp only [Fin.ofNat, Nat.succ_eq_add_one] at h1 h2
  omega

theorem ht_demo_calls_nodup : (ht_demo_calls.map ht_call.key).Nodup := by
  unfold ht_demo_calls
  rw [List.map_map]
  refine List.Nodup.map_on ?_ (List.nodup_range 513)
  intro i hi j hj h
  exact ht_demo_key_inj i j (List.mem_range.mp hi) (List.mem_range.mp hj) h

theorem ht_demo_calls_al : ∀ c ∈ ht_demo_calls, c.al = some 0 := by
  intro c hc
  obtain ⟨i, _, rfl⟩ := List.mem_map.mp hc
  rfl

theorem ht_demo_calls_mem : ht_call.insert (some 0) [5, 0] ∈ ht_demo_calls :=
  List.mem_map.mpr ⟨5, List.mem_range.mpr (by omega), by decide⟩

/-- C10 (defect of `ht_make_stable`): a fresh table for two workers is put in
concurrent mode and worker 0 inserts the 513 keys `0 .. 512` (two bytes each).
The key `[5, 0]` is then in the table, at a node `n5` in bucket 23.
`ht_grow_prepare` swaps in an array of 8192 buckets.  After `ht_make_stable`
has been executed for worker 0 and for worker 1, `ht_find` of `[5, 0]` does
not return `n5`: it reports `is_new = true` and returns a new node.  Worker 0
moved `n5` to bucket 6167, which lies in the stripe of the new array that
worker 1 sets to `NULL` afterwards. -/
theorem ht_make_stable_loses_key :
    ∃ ht0 ht1 nodes n5 ht2 ht3 ht4 n,
      ht_set_concurrent (ht_new 8 0 2 false) = some ht0 ∧
      ht_run ht0 ht_demo_calls = some (ht1, nodes) ∧
      ht_find ht1 (some 0) [5, 0] = some (ht1, n5, false) ∧
      n5 ∈ ht1.buckets.getD 23 [] ∧
      ht_grow_prepare ht1 = some ht2 ∧
      ht2.old_buckets = some ht1.buckets ∧ ht2.old_nbuckets = 1024 ∧ ht2.nbuckets = 8192 ∧
      ht_make_stable_all ht2 0 ht2.nworkers = some ht3 ∧
      ht_find ht3 (some 0) [5, 0] = some (ht4, n, true) ∧ n.addr ≠ n5.addr := by
  have hk1 : meiyan [5, 0] % 1024 = 23 := by decide
  have hk2 : meiyan [5, 0] % 8192 = 6167 := by decide
  have hwf0 : ht_wf { ht_new 8 0 2 false with concurrent := true } := ht_new_wf 8 0 2 false
  have hfresh : ∀ c ∈ ht_demo_calls,
      ∀ m ∈ ({ ht_new 8 0 2 false with concurrent := true } : hashtab).buckets.flatten,
        m.key ≠ c.key := by
    intro c _ m hm
    have hm1 : m ∈ (List.replicate 1024 ([] : List ht_node)).flatten := hm
    rw [flatten_replicate_nil] at hm1
    exact absurd hm1 (List.not_mem_nil m)
  have hcl : (0 : Nat) < ({ ht_new 8 0 2 false with concurrent := true } : hashtab).counts.length := by
    show 0 < (List.replicate 2 0).length
    decide
  obtain ⟨ht1, nodes, hrun, hsum, hlen, hno, hnw, hna⟩ :=
    ht_run_fresh 0 ht_demo_calls _ hwf0 rfl hcl ht_demo_calls_al ht_demo_calls_nodup hfresh
  obtain ⟨ht1', nodes', hrun', hwf1, hnb1, hc1, hnl, _, hall⟩ :=
    ht_run_spec ht_demo_calls _ hwf0 (fun _ c hc => by rw [ht_demo_calls_al c hc]; simp)
  rw [hrun] at hrun'
  simp only [Option.some.injEq, Prod.mk.injEq] at hrun'
  obtain ⟨rfl, rfl⟩ := hrun'
  have hnb1' : ht1.nbuckets = 1024 := hnb1
  have hc1' : ht1.concurrent = true := hc1
  -- the key [5, 0] is in the table after the run
  obtain ⟨n5, hn5⟩ := exists_mem_zip_of_mem ht_demo_calls nodes hnl.symm _ ht_demo_calls_mem
  have hs5 := hall _ hn5
  simp only [ht_call.key] at hs5
  rw [hnb1', hk1] at hs5
  have hfind1 : ht_find ht1 (some 0) [5, 0] = some (ht1, n5, false) := by
    rcases ht_find_cases ht1 (some 0) [5, 0] with ⟨m, hs, hf⟩ | ⟨hs, _⟩
    · rw [hnb1', hk1, hs5] at hs
      simp only [Option.some.injEq] at hs
      rw [hs]; exact hf
    · rw [hnb1', hk1, hs5] at hs
      exact absurd hs (by simp)
  have hmem5 : n5 ∈ ht1.buckets.getD 23 [] := (ht_search_some _ _ _ hs5).1
  -- growth
  have hsum1 : ht1.counts.sum = 513 := by
    have h0 : ({ ht_new 8 0 2 false with concurrent := true } : hashtab).counts.sum = 0 := rfl
    have h1 : ht_demo_calls.length = 513 := by simp [ht_demo_calls]
    rw [hsum, h0, h1]
  have hlen1 : ht1.counts.length = 2 := by
    rw [hlen]
    rfl
  obtain ⟨ht2, hgrow, hc2, hob2, hnw2, hnb2, honb2, hna2, _⟩ :=
    ht_grow_prepare_demo ht1 hc1' hno hnw hlen1 hsum1 hnb1'
  obtain ⟨ht3, hst, hnb3, hc3, hna3, hup⟩ := ht_make_stable_two ht2 ht1.buckets hc2 hob2 hnw2 hnb2 honb2
  -- the bucket of the key in the new array holds no node with this key
  have hs3 : ht_search [5, 0] (ht3.buckets.getD (meiyan [5, 0] % ht3.nbuckets) []) = none := by
    rw [hnb3, hk2]
    refine (ht_search_none _ _).mpr (fun x hx => ?_)
    obtain ⟨t, ht1', ht2', hxt⟩ := hup 6167 (by omega) (by omega) x hx
    have hlt : t < ht1.buckets.length := by rw [hwf1.2.1, hnb1']; exact ht2'
    have hpl := hwf1.2.2.1 t hlt x hxt
    cases hmt : ht_match x [5, 0] with
    | false => rfl
    | true =>
      have hkey := ((ht_match_iff x [5, 0] hpl.1).mp hmt).2
      have := hpl.2
      rw [hkey, hnb1', hk1] at this
      omega
  have hfind3 : ∃ ht4, ht_find ht3 (some 0) [5, 0]
      = some (ht4, ⟨ht3.nalloc, ([5, 0] : bytes).length, [5, 0]⟩, true) := by
    rcases ht_find_cases ht3 (some 0) [5, 0] with ⟨m, hs, _⟩ | ⟨_, ⟨_, ha, _⟩ | ⟨ht4, hf, _⟩⟩
    · rw [hs3] at hs; exact absurd hs (by simp)
    · exact absurd ha (by simp)
    · exact ⟨ht4, hf⟩
  obtain ⟨ht4, hf4⟩ := hfind3
  refine ⟨_, ht1, nodes, n5, ht2, ht3, ht4, _, rfl, hrun, hfind1, hmem5, hgrow, hob2, honb2,
    hnb2, by rw [hnw2]; exact hst, hf4, ?_⟩
  have h5 := hwf1.2.2.2.1 n5 (mem_flatten_of_mem_getD _ _ _ hmem5)
  show ht3.nalloc ≠ n5.addr
  rw [hna3, hna2]
  omega

/-! ## Theorems: charm.c -/

theorem outcome_bind_ret {α β : Type} (x : outcome α) (f : α → outcome β) (b : β)
    (h : x.bind f = .ret b) : ∃ a, x = .ret a ∧ f a = .ret b := by
  cases x with
  | diverge => simp [outcome.bind] at h
  | abort => simp [outcome.bind] at h
  | ret a => exact ⟨a, rfl, h⟩

/-- The effect of `check_invariants` on the worker memory: only the context
used for the evaluation and the state of `node` can change. -/
theorem check_invariants_frame (g : global) (cb : collab) (fuel : Nat) (w : worker)
    (node before r : Nat) (w1 : worker)
    (h : check_invariants g cb fuel w node before = .ret (r, w1)) :
    ∃ n sc1 ctx1, w.nodes[node]? = some n ∧
      w1 = { w with inv_ctx := ctx1, nodes := w.nodes.set node { n with state := sc1 } } := by
  unfold check_invariants at h
  cases hn : w.nodes[node]? with
  | none => simp [hn] at h
  | some n =>
    cases hb : w.nodes[before]? with
    | none => simp [hn, hb] at h
    | some b =>
      simp only [hn, hb] at h
      split at h
      · simp at h
      · split at h
        · simp at h
        · simp at h
        · rename_i r1 sc1 ctx1 _
          simp only [outcome.ret.injEq, Prod.mk.injEq] at h
          exact ⟨n, sc1, ctx1, rfl, h.2.symm⟩

theorem set_of_getElem? {α : Type} (l : List α) :
    ∀ (i : Nat) (a : α), l[i]? = some a → l.set i a = l := by
  induction l with
  | nil => intro i a h; rfl
  | cons x rest ih =>
    intro i a h
    cases i with
    | zero =>
      simp only [List.getElem?_cons_zero, Option.some.injEq] at h
      rw [List.set_cons_zero, h]
    | succ i =>
      simp only [List.getElem?_cons_succ] at h
      rw [List.set_cons_succ, ih i a h]

theorem map_set_path_record (nodes : List node) (p : Nat) (n : node) (sc1 : state)
    (h : nodes[p]? = some n) :
    (nodes.set p { n with state := sc1 }).map path_record = nodes.map path_record := by
  rw [List.map_set]
  have h1 : path_record { n with state := sc1 } = path_record n := rfl
  rw [h1]
  exact set_of_getElem? _ p _ (by rw [List.getElem?_map, h]; rfl)

theorem check_invariants_same_graph (g : global) (cb : collab) (fuel : Nat) (w : worker)
    (node before r : Nat) (w1 : worker)
    (h : check_invariants g cb fuel w node before = .ret (r, w1)) :
    same_graph w w1 ∧ w1.failures = w.failures := by
  obtain ⟨n, sc1, ctx1, hn, rfl⟩ := check_invariants_frame g cb fuel w node before r w1 h
  exact ⟨⟨rfl, map_set_path_record _ _ _ _ hn⟩, rfl⟩

theorem same_graph_trans (a b c : worker) (h1 : same_graph a b) (h2 : same_graph b c) :
    same_graph a c :=
  ⟨h2.1.trans h1.1, h2.2.trans h1.2⟩

/-- Lines 596-619 of `onestep` leave the edges and the path records alone and
add at most one failure, for the new edge. -/
theorem onestep_report_frame (fuel : Nat) (g : global) (cb : collab) (node : Nat)
    (fl : exit_flags) (c : commit) (w1 : worker)
    (h : onestep_report fuel g cb node fl c = .ret w1) :
    same_graph c.w w1 ∧
    (w1.failures = c.w.failures ∨ ∃ f, w1.failures = f :: c.w.failures ∧ f.edge = c.e) ∧
    (fl.failure = true → w1.failures =
      { type := if fl.infinite_loop then .FAIL_TERMINATION else .FAIL_SAFETY
        edge := c.e, address := 0 } :: c.w.failures) := by
  unfold onestep_report at h
  by_cases hf : fl.failure = true
  · rw [if_pos hf] at h
    simp only [outcome.ret.injEq] at h
    subst h
    exact ⟨⟨rfl, rfl⟩, Or.inr ⟨_, rfl, rfl⟩, fun _ => rfl⟩
  · rw [if_neg hf] at h
    refine (fun x => ⟨x.1, x.2, fun h1 => absurd h1 hf⟩ :
      (same_graph c.w w1 ∧
        (w1.failures = c.w.failures ∨ ∃ f, w1.failures = f :: c.w.failures ∧ f.edge = c.e)) → _) ?_
    by_cases hinv : c.sc.choosing = 0 ∧ g.invs.length ≠ 0
    · rw [if_pos hinv] at h
      have hA : ∀ r0 w2,
          (if c.new then check_invariants g cb fuel c.w c.next c.next else .ret (0, c.w))
            = .ret (r0, w2) → same_graph c.w w2 ∧ w2.failures = c.w.failures := by
        intro r0 w2 h0
        by_cases hn : c.new = true
        · rw [if_pos hn] at h0
          exact check_invariants_same_graph g cb fuel _ _ _ _ _ h0
        · rw [if_neg hn] at h0
          simp only [outcome.ret.injEq, Prod.mk.injEq] at h0
          rw [← h0.2]
          exact ⟨⟨rfl, rfl⟩, rfl⟩
      split at h
      · simp at h
      · simp at h
      · rename_i inv0 w2 heq
        obtain ⟨hsg2, hfl2⟩ := hA inv0 w2 heq
        have hB : ∀ r1 w3,
            (if inv0 = 0 then check_invariants g cb fuel w2 c.next node else .ret (inv0, w2))
              = .ret (r1, w3) → same_graph w2 w3 ∧ w3.failures = w2.failures := by
          intro r1 w3 h0
          by_cases hn : inv0 = 0
          · rw [if_pos hn] at h0
            exact check_invariants_same_graph g cb fuel _ _ _ _ _ h0
          · rw [if_neg hn] at h0
            simp only [outcome.ret.injEq, Prod.mk.injEq] at h0
            rw [← h0.2]
            exact ⟨⟨rfl, rfl⟩, rfl⟩
        split at h
        · simp at h
        · simp at h
        · rename_i inv w3 heq3
          obtain ⟨hsg3, hfl3⟩ := hB inv w3 heq3
          have hsg := same_graph_trans _ _ _ hsg2 hsg3
          by_cases hz : inv ≠ 0
          · rw [if_pos hz] at h
            simp only [outcome.ret.injEq] at h
            subst h
            exact ⟨hsg, Or.inr ⟨_, by simp only; rw [hfl3, hfl2], rfl⟩⟩
          · rw [if_neg hz] at h
            simp only [outcome.ret.injEq] at h
            subst h
            exact ⟨hsg, Or.inl (by rw [hfl3, hfl2])⟩
    · rw [if_neg hinv] at h
      simp only [outcome.ret.injEq] at h
      subst h
      exact ⟨⟨rfl, rfl⟩, Or.inl rfl⟩

/-- What a return of `onestep` means: either it returned false from the
infinite-loop detector and changed nothing, or the main loop was left by
`break` and lines 491-626 ran. -/
theorem onestep_ret (fuel : Nat) (g : global) (cb : collab) (w : worker) (node : Nat)
    (sc : state) (ctx : hvalue) (st : step) (choice : hvalue) (interrupt infloop_detect : Bool)
    (multiplicity : Nat) (b : Bool) (w1 : worker) (st1 : step)
    (h : onestep fuel g cb w node sc ctx st choice interrupt infloop_detect multiplicity
      = .ret (b, w1, st1)) :
    (b = false ∧ w1 = w ∧ ∃ ls, onestep_loop g cb choice infloop_detect multiplicity fuel
        (onestep_start cb sc st interrupt) = some (.restart ls)) ∨
    (b = true ∧ ∃ ls fl parent,
      onestep_loop g cb choice infloop_detect multiplicity fuel
        (onestep_start cb sc st interrupt) = some (.done ls fl) ∧
      w.nodes[node]? = some parent ∧ ¬ (fl.rollback ∧ ls.as_state = none) ∧
      onestep_report fuel g cb node fl
        (onestep_commit g cb w node parent ctx choice interrupt ls fl) = .ret w1) := by
  unfold onestep at h
  by_cases h1 : st.ctx.terminated = true ∨ st.ctx.failed = true
  · rw [if_pos h1] at h
    exact absurd h (by simp)
  · rw [if_neg h1] at h
    by_cases h2 : interrupt = true ∧ ((!st.ctx.extended) = true ∨ st.ctx.trap_pc = 0)
    · rw [if_pos h2] at h
      exact absurd h (by simp)
    · rw [if_neg h2] at h
      split at h
      · exact absurd h (by simp)
      · exact absurd h (by simp)
      · exact absurd h (by simp)
      · rename_i ls heq
        simp only [outcome.ret.injEq, Prod.mk.injEq] at h
        exact Or.inl ⟨h.1.symm, h.2.1.symm, ls, heq⟩
      · rename_i ls fl heq
        unfold onestep_finish at h
        cases hn : w.nodes[node]? with
        | none => simp [hn] at h
        | some parent =>
          simp only [hn] at h
          by_cases hrb : fl.rollback = true ∧ ls.as_state = none
          · rw [if_pos hrb] at h
            exact absurd h (by simp)
          · rw [if_neg hrb] at h
            split at h
            · exact absurd h (by simp)
            · exact absurd h (by simp)
            · rename_i w2 heq2
              simp only [outcome.ret.injEq, Prod.mk.injEq] at h
              refine Or.inr ⟨h.1.symm, ls, fl, parent, heq, rfl, hrb, ?_⟩
              rw [← h.2.1]
              exact heq2

theorem outcome_toOption_some {α : Type} (x : outcome α) (a : α)
    (h : x.toOption = some a) : x = .ret a := by
  cases x with
  | diverge => simp [outcome.toOption] at h
  | abort => simp [outcome.toOption] at h
  | ret b => simp only [outcome.toOption, Option.some.injEq] at h; rw [h]

theorem visited_lookup_some (sc : state) (nodes : List node) :
    ∀ (i p : Nat), visited_lookup sc nodes i = some p →
      i ≤ p ∧ p - i < nodes.length ∧ ∃ n, nodes[p - i]? = some n ∧ n.state = sc := by
  induction nodes with
  | nil => intro i p h; simp [visited_lookup] at h
  | cons x rest ih =>
    intro i p h
    unfold visited_lookup at h
    by_cases hx : x.state = sc
    · rw [if_pos hx] at h
      simp only [Option.some.injEq] at h
      subst h
      exact ⟨le_refl _, by simp, x, by simp, hx⟩
    · rw [if_neg hx] at h
      obtain ⟨h1, h2, n, h3, h4⟩ := ih (i + 1) p h
      refine ⟨by omega, by simp only [List.length_cons]; omega, n, ?_, h4⟩
      have : p - i = (p - (i + 1)) + 1 := by omega
      rw [this, List.getElem?_cons_succ]
      exact h3

/-- The edge and the path records that lines 511-594 of `onestep` leave. -/
theorem onestep_commit_spec (g : global) (cb : collab) (w : worker) (node : Nat)
    (parent : Harmony.node) (ctx choice : hvalue) (interrupt : Bool) (ls : loop_state)
    (fl : exit_flags) :
    ∃ e : edge,
      (onestep_commit g cb w node parent ctx choice interrupt ls fl).w.edges = w.edges ++ [e] ∧
      (onestep_commit g cb w node parent ctx choice interrupt ls fl).e = w.edges.length ∧
      e.src = node ∧ e.ctx = ctx ∧ e.choice = choice ∧ e.interrupt = interrupt ∧
      e.dst = (onestep_commit g cb w node parent ctx choice interrupt ls fl).next ∧
      e.weight = onestep_weight (to_parent_after w.edges parent) ctx ∧
      e.after = exit_after cb ls fl ∧ e.nsteps = exit_instrcnt ls fl ∧
      ((w.nodes.length ≤ e.dst ∧
        (onestep_commit g cb w node parent ctx choice interrupt ls fl).w.nodes.map path_record
          = w.nodes.map path_record ++
            [(u32 (parent.len + e.weight), u32 (parent.steps + e.nsteps), some w.edges.length)]) ∨
      (∃ old, w.nodes[e.dst]? = some old ∧
        (onestep_commit g cb w node parent ctx choice interrupt ls fl).w.nodes.map path_record
          = (w.nodes.map path_record).set e.dst
            (if u32 (parent.len + e.weight) < old.len ∨
                (u32 (parent.len + e.weight) = old.len ∧
                  u32 (parent.steps + e.nsteps) ≤ old.steps) then
              (u32 (parent.len + e.weight), u32 (parent.steps + e.nsteps), some w.edges.length)
            else (old.len, old.steps, old.to_parent)))) := by
  refine ⟨_, rfl, rfl, rfl, rfl, rfl, rfl, rfl, rfl, rfl, rfl, ?_⟩
  simp only [onestep_commit]
  cases hv : visited_lookup (onestep_place g.inv_pre parent.state.pre (exit_state ls fl) ctx
      (exit_after cb ls fl) fl) w.nodes 0 with
  | none =>
    left
    simp only [Option.isNone_none, Option.getD_none, if_true, le_refl, true_and,
      List.map_append, List.map_cons, List.map_nil]
    have hnone : w.nodes[w.nodes.length]? = none := List.getElem?_eq_none (le_refl _)
    rw [hnone]
    simp only [Option.getD_none, onestep_path, if_true]
    rfl
  | some p =>
    right
    obtain ⟨_, hlt, old, hold, _⟩ := visited_lookup_some _ _ 0 p hv
    simp only [Nat.sub_zero] at hlt hold
    refine ⟨old, by simpa using hold, ?_⟩
    simp only [Option.isNone_some, Option.getD_some, Bool.false_eq_true, if_false, hold,
      List.map_set]
    congr 1
    unfold onestep_path
    simp only [Bool.false_eq_true, if_false]
    split <;> rfl

/-- A return of true from `onestep`: the main loop was left by `break`, one
edge was appended to the edge heap, and the path records changed at the
destination only. -/
theorem onestep_true_spec (fuel : Nat) (g : global) (cb : collab) (w : worker) (node : Nat)
    (sc : state) (ctx : hvalue) (st : step) (choice : hvalue) (interrupt infloop_detect : Bool)
    (multiplicity : Nat) (w1 : worker) (st1 : step)
    (h : onestep fuel g cb w node sc ctx st choice interrupt infloop_detect multiplicity
      = .ret (true, w1, st1)) :
    ∃ ls fl parent e,
      onestep_loop g cb choice infloop_detect multiplicity fuel
        (onestep_start cb sc st interrupt) = some (.done ls fl) ∧
      w.nodes[node]? = some parent ∧ w1.edges = w.edges ++ [e] ∧
      e.src = node ∧ e.ctx = ctx ∧ e.choice = choice ∧ e.interrupt = interrupt ∧
      e.weight = onestep_weight (to_parent_after w.edges parent) ctx ∧
      e.after = exit_after cb ls fl ∧ e.nsteps = exit_instrcnt ls fl ∧
      ((w.nodes.length ≤ e.dst ∧
        w1.nodes.map path_record = w.nodes.map path_record ++
          [(u32 (parent.len + e.weight), u32 (parent.steps + e.nsteps), some w.edges.length)]) ∨
      (∃ old, w.nodes[e.dst]? = some old ∧
        w1.nodes.map path_record = (w.nodes.map path_record).set e.dst
          (if u32 (parent.len + e.weight) < old.len ∨
              (u32 (parent.len + e.weight) = old.len ∧
                u32 (parent.steps + e.nsteps) ≤ old.steps) then
            (u32 (parent.len + e.weight), u32 (parent.steps + e.nsteps), some w.edges.length)
          else (old.len, old.steps, old.to_parent)))) ∧
      (w1.failures = w.failures ∨
        ∃ f, w1.failures = f :: w.failures ∧ f.edge = w.edges.length) ∧
      (fl.failure = true → w1.failures =
        { type := if fl.infinite_loop then .FAIL_TERMINATION else .FAIL_SAFETY
          edge := w.edges.length, address := 0 } :: w.failures) := by
  rcases onestep_ret fuel g cb w node sc ctx st choice interrupt infloop_detect multiplicity
    true w1 st1 h with ⟨hb, _⟩ | ⟨_, ls, fl, parent, hloop, hnode, _, hrep⟩
  · exact absurd hb (by simp)
  · obtain ⟨e, he, hce, h1, h2, h3, h4, _, h6, h7, h8, h9⟩ :=
      onestep_commit_spec g cb w node parent ctx choice interrupt ls fl
    obtain ⟨⟨hedges, hrec⟩, hfail, hfail2⟩ := onestep_report_frame fuel g cb node fl _ w1 hrep
    have hcf : (onestep_commit g cb w node parent ctx choice interrupt ls fl).w.failures
        = w.failures := rfl
    refine ⟨ls, fl, parent, e, hloop, hnode, by rw [hedges, he], h1, h2, h3, h4, h6, h7, h8,
      ?_, ?_, ?_⟩
    · rw [hrec]; exact h9
    · rw [hcf, hce] at hfail; exact hfail
    · intro hf
      have := hfail2 hf
      rw [hcf, hce] at this
      exact this

/-- C4: in a call of `onestep` that returns true, the path record
(`len`, `steps`, `to_parent`) of every node other than the destination is
unchanged, and: a newly created destination gets `len = parent.len + weight`,
`steps = parent.steps + instrcnt` (the edge's `nsteps`) and `to_parent` = the
new edge; an already-seen destination gets these candidate values if and only
if the candidate `len` is strictly smaller than its `len`, or the two `len`
are equal and the candidate `steps` is less than or equal to its `steps`, and
otherwise keeps all three fields.  The sums are those of the C code, in
`unsigned int` (`u32`). -/
theorem onestep_path_record (fuel : Nat) (g : global) (cb : collab) (w : worker) (node : Nat)
    (sc : state) (ctx : hvalue) (st : step) (choice : hvalue) (interrupt infloop_detect : Bool)
    (multiplicity : Nat) (w1 : worker) (st1 : step)
    (h : onestep fuel g cb w node sc ctx st choice interrupt infloop_detect multiplicity
      = .ret (true, w1, st1)) :
    ∃ parent e, w.nodes[node]? = some parent ∧ w1.edges = w.edges ++ [e] ∧
      ((w.nodes.length ≤ e.dst ∧
        w1.nodes.map path_record = w.nodes.map path_record ++
          [(u32 (parent.len + e.weight), u32 (parent.steps + e.nsteps), some w.edges.length)]) ∨
      (∃ old, w.nodes[e.dst]? = some old ∧
        w1.nodes.map path_record = (w.nodes.map path_record).set e.dst
          (if u32 (parent.len + e.weight) < old.len ∨
              (u32 (parent.len + e.weight) = old.len ∧
                u32 (parent.steps + e.nsteps) ≤ old.steps) then
            (u32 (parent.len + e.weight), u32 (parent.steps + e.nsteps), some w.edges.length)
          else (old.len, old.steps, old.to_parent)))) := by
  obtain ⟨_, _, parent, e, _, hn, he, _, _, _, _, _, _, _, hrec, _⟩ :=
    onestep_true_spec fuel g cb w node sc ctx st choice interrupt infloop_detect multiplicity
      w1 st1 h
  exact ⟨parent, e, hn, he, hrec⟩

theorem outcome_ret_of_fst {β γ : Type} (x : outcome (Bool × β × γ)) (b : Bool)
    (h : x.toOption.map (fun r => r.1) = some b) : ∃ w1 st1, x = .ret (b, w1, st1) := by
  cases x with
  | diverge => simp [outcome.toOption] at h
  | abort => simp [outcome.toOption] at h
  | ret r =>
    simp only [outcome.toOption, Option.map_some', Option.some.injEq] at h
    obtain ⟨b1, w1, st1⟩ := r
    simp only at h
    subst h
    exact ⟨w1, st1, rfl⟩

/-- The first step of the program: the initial thread (pc 6) runs from the
initial node. -/
theorem demo_first_step : ∃ w1 st1, demo_onestep 6 false = .ret (true, w1, st1) :=
  outcome_ret_of_fst _ _ (by decide!)

/-- C4, instance: the first step of the program. -/
theorem onestep_path_record_witness :
    ∃ w1 st1, demo_onestep 6 false = .ret (true, w1, st1) ∧
    ∃ parent e, (explore_init demo_collab (6 + 1) 0).w.nodes[0]? = some parent ∧
      w1.edges = (explore_init demo_collab (6 + 1) 0).w.edges ++ [e] ∧
      (((explore_init demo_collab (6 + 1) 0).w.nodes.length ≤ e.dst ∧
        w1.nodes.map path_record =
          (explore_init demo_collab (6 + 1) 0).w.nodes.map path_record ++
          [(u32 (parent.len + e.weight), u32 (parent.steps + e.nsteps),
            some (explore_init demo_collab (6 + 1) 0).w.edges.length)]) ∨
      (∃ old, (explore_init demo_collab (6 + 1) 0).w.nodes[e.dst]? = some old ∧
        w1.nodes.map path_record =
          ((explore_init demo_collab (6 + 1) 0).w.nodes.map path_record).set e.dst
          (if u32 (parent.len + e.weight) < old.len ∨
              (u32 (parent.len + e.weight) = old.len ∧
                u32 (parent.steps + e.nsteps) ≤ old.steps) then
            (u32 (parent.len + e.weight), u32 (parent.steps + e.nsteps),
              some (explore_init demo_collab (6 + 1) 0).w.edges.length)
          else (old.len, old.steps, old.to_parent)))) := by
  obtain ⟨w1, st1, h⟩ := demo_first_step
  exact ⟨w1, st1, h, onestep_path_record _ _ _ _ _ _ _ _ _ _ _ _ w1 st1 h⟩

/-- C5 (as amended): every edge created by `onestep` has weight 0 if the
source node has no `to_parent` edge (the initial node) or if the stepping
context `ctx` is the `after` context of the source node's `to_parent` edge,
and weight 1 otherwise; in particular the weight is 0 or 1. -/
theorem onestep_edge_weight (fuel : Nat) (g : global) (cb : collab) (w : worker) (node : Nat)
    (sc : state) (ctx : hvalue) (st : step) (choice : hvalue) (interrupt infloop_detect : Bool)
    (multiplicity : Nat) (w1 : worker) (st1 : step)
    (h : onestep fuel g cb w node sc ctx st choice interrupt infloop_detect multiplicity
      = .ret (true, w1, st1)) :
    ∃ parent e, w.nodes[node]? = some parent ∧ w1.edges = w.edges ++ [e] ∧
      e.src = node ∧ e.ctx = ctx ∧
      e.weight = (if parent.to_parent = none ∨ to_parent_after w.edges parent = some ctx
        then 0 else 1) ∧
      e.weight ≤ 1 := by
  obtain ⟨_, _, parent, e, _, hn, he, h1, h2, _, _, hw, _⟩ :=
    onestep_true_spec fuel g cb w node sc ctx st choice interrupt infloop_detect multiplicity
      w1 st1 h
  have hval : onestep_weight (to_parent_after w.edges parent) ctx
      = (if parent.to_parent = none ∨ to_parent_after w.edges parent = some ctx
        then 0 else 1) := by
    unfold onestep_weight to_parent_after
    cases parent.to_parent with
    | none => simp
    | some e0 =>
      simp only [Option.map_some', Option.some.injEq]
      by_cases hc : ctx = ((w.edges[e0]?).map edge.after).getD 0
      · rw [if_pos hc, if_pos (Or.inr hc.symm)]
      · rw [if_neg hc, if_neg]
        rintro (h | h)
        · exact absurd h (by simp)
        · exact hc h.symm
  refine ⟨parent, e, hn, he, h1, h2, by rw [hw, hval], ?_⟩
  rw [hw, hval]
  split <;> omega

/-- C5, instance: the first step of the program. -/
theorem onestep_edge_weight_witness :
    ∃ w1 st1, demo_onestep 6 false = .ret (true, w1, st1) ∧
    ∃ parent e, (explore_init demo_collab (6 + 1) 0).w.nodes[0]? = some parent ∧
      w1.edges = (explore_init demo_collab (6 + 1) 0).w.edges ++ [e] ∧
      e.src = 0 ∧ e.ctx = 6 + 1 ∧
      e.weight = (if parent.to_parent = none ∨
        to_parent_after (explore_init demo_collab (6 + 1) 0).w.edges parent = some (6 + 1)
        then 0 else 1) ∧
      e.weight ≤ 1 := by
  obtain ⟨w1, st1, h⟩ := demo_first_step
  exact ⟨w1, st1, h, onestep_edge_weight _ _ _ _ _ _ _ _ _ _ _ _ w1 st1 h⟩

/-- C5 (counterexample to the claim as stated): the initial node has no
`to_parent` edge, so the stepping context (handle 7) is not the `after`
context of that edge; the edge created by the first step has weight 0, not 1. -/
theorem onestep_edge_weight_initial :
    ((explore_init demo_collab 7 0).w.nodes.map
      (fun n => (n.to_parent, to_parent_after (explore_init demo_collab 7 0).w.edges n)))
      = [(none, none)] ∧
    (demo_onestep 6 false).toOption.map
      (fun r => (r.1, r.2.1.edges.map (fun e => (e.src, e.ctx, e.weight))))
      = some (true, [(0, 7, 0)]) ∧
    ¬ ((demo_onestep 6 false).toOption.map
      (fun r => r.2.1.edges.map (fun e => e.weight))
      = some [if to_parent_after (explore_init demo_collab 7 0).w.edges
          (node_zero (demo_state 6)) = some 7 then 0 else 1]) := by
  decide!

theorem onestep_after_cons (g : global) (cb : collab) (choice : hvalue) (infloop_detect : Bool)
    (multiplicity : Nat) (k : Nat) :
    ∀ ls, onestep_after g cb choice infloop_detect multiplicity (k + 1) ls =
      (match onestep_iter g cb choice infloop_detect multiplicity ls with
       | .again l1 => onestep_after g cb choice infloop_detect multiplicity k l1
       | _ => none) := by
  induction k with
  | zero =>
    intro ls
    simp only [onestep_after]
  | succ k ih =>
    intro ls
    rw [onestep_after, ih ls]
    cases hi : onestep_iter g cb choice infloop_detect multiplicity ls with
    | again l1 => simp only [onestep_after]
    | abort => rfl
    | restart l => rfl
    | done l fl => rfl

/-- Enough fuel: if the loop is left in iteration `j + 1`, every fuel above
`j` gives that result. -/
theorem onestep_loop_of_after (g : global) (cb : collab) (choice : hvalue)
    (infloop_detect : Bool) (multiplicity : Nat) (r : loop_step) (hr : ∀ l, r ≠ .again l)
    (j : Nat) :
    ∀ (ls0 lj : loop_state) (fuel : Nat),
      onestep_after g cb choice infloop_detect multiplicity j ls0 = some lj →
      onestep_iter g cb choice infloop_detect multiplicity lj = r → j < fuel →
      onestep_loop g cb choice infloop_detect multiplicity fuel ls0 = some r := by
  induction j with
  | zero =>
    intro ls0 lj fuel h hi hf
    simp only [onestep_after, Option.some.injEq] at h
    subst h
    obtain ⟨f, rfl⟩ : ∃ f, fuel = f + 1 := ⟨fuel - 1, by omega⟩
    unfold onestep_loop
    rw [hi]
    cases r with
    | again l => exact absurd rfl (hr l)
    | abort => rfl
    | restart l => rfl
    | done l fl => rfl
  | succ j ih =>
    intro ls0 lj fuel h hi hf
    rw [onestep_after_cons] at h
    obtain ⟨f, rfl⟩ : ∃ f, fuel = f + 1 := ⟨fuel - 1, by omega⟩
    unfold onestep_loop
    cases h0 : onestep_iter g cb choice infloop_detect multiplicity ls0 with
    | again l1 =>
      rw [h0] at h
      exact ih l1 lj f h hi (by omega)
    | abort => rw [h0] at h; exact absurd h (by simp)
    | restart l => rw [h0] at h; exact absurd h (by simp)
    | done l fl => rw [h0] at h; exact absurd h (by simp)

/-- A result of the main loop is the result of its last iteration. -/
theorem onestep_after_of_loop (g : global) (cb : collab) (choice : hvalue)
    (infloop_detect : Bool) (multiplicity : Nat) (fuel : Nat) :
    ∀ (ls0 : loop_state) (r : loop_step),
      onestep_loop g cb choice infloop_detect multiplicity fuel ls0 = some r →
      ∃ j lj, j < fuel ∧
        onestep_after g cb choice infloop_detect multiplicity j ls0 = some lj ∧
        onestep_iter g cb choice infloop_detect multiplicity lj = r ∧ ∀ l, r ≠ .again l := by
  induction fuel with
  | zero => intro ls0 r h; simp [onestep_loop] at h
  | succ f ih =>
    intro ls0 r h
    unfold onestep_loop at h
    cases h0 : onestep_iter g cb choice infloop_detect multiplicity ls0 with
    | again l1 =>
      rw [h0] at h
      obtain ⟨j, lj, hj, ha, hi, hr⟩ := ih l1 r h
      refine ⟨j + 1, lj, by omega, ?_, hi, hr⟩
      rw [onestep_after_cons, h0]
      exact ha
    | abort =>
      rw [h0] at h
      simp only [Option.some.injEq] at h
      subst h
      exact ⟨0, ls0, by omega, rfl, h0, by intro l hl; cases hl⟩
    | restart l =>
      rw [h0] at h
      simp only [Option.some.injEq] at h
      subst h
      exact ⟨0, ls0, by omega, rfl, h0, by intro l hl; cases hl⟩
    | done l fl =>
      rw [h0] at h
      simp only [Option.some.injEq] at h
      subst h
      exact ⟨0, ls0, by omega, rfl, h0, by intro l hl; cases hl⟩

/-- Executing an instruction leaves the instruction counter and the detector
dictionary alone. -/
theorem onestep_exec_frame (g : global) (cb : collab) (choice : hvalue) (multiplicity : Nat)
    (ls ls2 : loop_state) (h : onestep_exec g cb choice multiplicity ls = some ls2) :
    ls2.instrcnt = ls.instrcnt ∧ ls2.infloop = ls.infloop := by
  unfold onestep_exec at h
  dsimp only at h
  repeat' split at h
  all_goals (cases h <;> exact ⟨rfl, rfl⟩)

theorem onestep_peek_again (cb : collab) (next_instr : instr) (ls l1 : loop_state)
    (h : onestep_peek cb next_instr ls = .again l1) : l1 = ls := by
  unfold onestep_peek at h
  dsimp only at h
  repeat' split at h
  all_goals (cases h <;> rfl)

theorem onestep_next_again (g : global) (cb : collab) (pc0 : Nat) (ls l1 : loop_state)
    (h : onestep_next g cb pc0 ls = .again l1) : l1 = ls := by
  unfold onestep_next at h
  split at h
  · cases h
  · split at h
    · cases h
    · exact onestep_peek_again _ _ _ _ h

/-- An iteration after which the loop goes round again: the instruction was
executed, the counter incremented, and the pair (context, state) was inserted
in the detector dictionary if detection is on and the pair was not in it. -/
theorem onestep_iter_again (g : global) (cb : collab) (choice : hvalue) (infloop_detect : Bool)
    (multiplicity : Nat) (ls l1 : loop_state)
    (h : onestep_iter g cb choice infloop_detect multiplicity ls = .again l1) :
    ∃ ls2, onestep_exec g cb choice multiplicity ls = some ls2 ∧
      l1.ctx = ls2.ctx ∧ l1.sc = ls2.sc ∧ l1.instrcnt = ls2.instrcnt + 1 ∧
      ((¬ (infloop_detect = true ∨ ls2.instrcnt + 1 > 1000) ∧ l1.infloop = ls2.infloop) ∨
       ((infloop_detect = true ∨ ls2.instrcnt + 1 > 1000) ∧
        (ls2.ctx, ls2.sc) ∉ ls2.infloop.getD [] ∧
        l1.infloop = some ((ls2.ctx, ls2.sc) :: ls2.infloop.getD []))) := by
  unfold onestep_iter at h
  cases he : onestep_exec g cb choice multiplicity ls with
  | none => rw [he] at h; cases h
  | some ls2 =>
    rw [he] at h
    dsimp only at h
    refine ⟨ls2, rfl, ?_⟩
    by_cases h1 : ¬ (ls2.ctx.pc < g.instrs.length)
    · rw [if_pos h1] at h; cases h
    rw [if_neg h1] at h
    by_cases h2 : ls2.ctx.terminated = true
    · rw [if_pos h2] at h; cases h
    rw [if_neg h2] at h
    by_cases h3 : ls2.ctx.failed = true
    · rw [if_pos h3] at h; cases h
    rw [if_neg h3] at h
    by_cases h4 : ls2.ctx.stopped = true
    · rw [if_pos h4] at h; cases h
    rw [if_neg h4] at h
    by_cases h5 : infloop_detect = true ∨ ls2.instrcnt + 1 > 1000
    · rw [if_pos h5] at h
      by_cases h6 : (ls2.ctx, ls2.sc) ∈ ls2.infloop.getD []
      · rw [if_pos h6] at h
        split at h <;> cases h
      · rw [if_neg h6] at h
        have := onestep_next_again _ _ _ _ _ h
        subst this
        exact ⟨rfl, rfl, rfl, Or.inr ⟨h5, h6, rfl⟩⟩
    · rw [if_neg h5] at h
      have := onestep_next_again _ _ _ _ _ h
      subst this
      exact ⟨rfl, rfl, rfl, Or.inl ⟨h5, rfl⟩⟩

/-- An iteration that makes `onestep` return false: detection was not asked
for, more than 1000 instructions were executed, and the pair (context, state)
was in the detector dictionary. -/
theorem onestep_iter_restart (g : global) (cb : collab) (choice : hvalue)
    (infloop_detect : Bool) (multiplicity : Nat) (ls l : loop_state)
    (h : onestep_iter g cb choice infloop_detect multiplicity ls = .restart l) :
    infloop_detect = false ∧
    ∃ ls2, onestep_exec g cb choice multiplicity ls = some ls2 ∧
      l.ctx = ls2.ctx ∧ l.sc = ls2.sc ∧ l.ai = ls2.ai ∧ l.instrcnt = ls2.instrcnt + 1 ∧
      ls2.instrcnt + 1 > 1000 ∧ (ls2.ctx, ls2.sc) ∈ ls2.infloop.getD [] := by
  have hnext : ∀ pc0 l0, onestep_next g cb pc0 l0 ≠ .restart l := by
    intro pc0 l0 h0
    unfold onestep_next onestep_peek at h0
    dsimp only at h0
    repeat' split at h0
    all_goals cases h0
  unfold onestep_iter at h
  cases he : onestep_exec g cb choice multiplicity ls with
  | none => rw [he] at h; cases h
  | some ls2 =>
    rw [he] at h
    dsimp only at h
    by_cases h1 : ¬ (ls2.ctx.pc < g.instrs.length)
    · rw [if_pos h1] at h; cases h
    rw [if_neg h1] at h
    by_cases h2 : ls2.ctx.terminated = true
    · rw [if_pos h2] at h; cases h
    rw [if_neg h2] at h
    by_cases h3 : ls2.ctx.failed = true
    · rw [if_pos h3] at h; cases h
    rw [if_neg h3] at h
    by_cases h4 : ls2.ctx.stopped = true
    · rw [if_pos h4] at h; cases h
    rw [if_neg h4] at h
    by_cases h5 : infloop_detect = true ∨ ls2.instrcnt + 1 > 1000
    · rw [if_pos h5] at h
      by_cases h6 : (ls2.ctx, ls2.sc) ∈ ls2.infloop.getD []
      · rw [if_pos h6] at h
        by_cases h7 : infloop_detect = true
        · rw [if_pos h7] at h; cases h
        · rw [if_neg h7] at h
          cases h
          have h8 : infloop_detect = false := by simpa using h7
          refine ⟨h8, ls2, rfl, rfl, rfl, rfl, rfl, ?_, h6⟩
          rcases h5 with h5 | h5
          · exact absurd h5 h7
          · exact h5
      · rw [if_neg h6] at h
        exact absurd h (hnext _ _)
    · rw [if_neg h5] at h
      exact absurd h (hnext _ _)

/-- With detection asked for, an iteration that finds the pair (context,
state) in the detector dictionary leaves the loop with the flags `failure`
and `infinite_loop`. -/
theorem onestep_iter_infinite (g : global) (cb : collab) (choice : hvalue) (multiplicity : Nat)
    (ls ls2 : loop_state) (he : onestep_exec g cb choice multiplicity ls = some ls2)
    (h1 : ls2.ctx.pc < g.instrs.length) (h2 : ls2.ctx.terminated = false)
    (h3 : ls2.ctx.failed = false) (h4 : ls2.ctx.stopped = false)
    (h6 : (ls2.ctx, ls2.sc) ∈ ls2.infloop.getD []) :
    onestep_iter g cb choice true multiplicity ls =
      .done { ls2 with
          instrcnt := ls2.instrcnt + 1
          infloop := some (ls2.infloop.getD [])
          ctx := value_ctx_failure cb ls2.ctx "infinite loop" }
        { failure := true, infinite_loop := true } := by
  unfold onestep_iter
  rw [he]
  dsimp only
  rw [if_neg (not_not.mpr h1), h2, h3, h4]
  simp only [Bool.false_eq_true, if_false, true_or, if_true]
  rw [if_pos h6]

/-- What the detector dictionary holds after `i` iterations of the main loop:
only pairs (context, state) reached after an earlier instruction while
detection was on, and, if detection was asked for from the start, all of them.
The instruction counter is `i`. -/
theorem onestep_after_infloop (g : global) (cb : collab) (choice : hvalue)
    (infloop_detect : Bool) (multiplicity : Nat) (ls0 : loop_state)
    (h0 : ls0.infloop = none) (hc : ls0.instrcnt = 0) (i : Nat) :
    ∀ li, onestep_after g cb choice infloop_detect multiplicity i ls0 = some li →
      li.instrcnt = i ∧
      (∀ p ∈ li.infloop.getD [], ∃ k lk, 1 ≤ k ∧ k ≤ i ∧ (infloop_detect = true ∨ 1000 < k) ∧
        onestep_after g cb choice infloop_detect multiplicity k ls0 = some lk ∧
        p = (lk.ctx, lk.sc)) ∧
      (infloop_detect = true → ∀ k lk, 1 ≤ k → k ≤ i →
        onestep_after g cb choice infloop_detect multiplicity k ls0 = some lk →
        (lk.ctx, lk.sc) ∈ li.infloop.getD []) := by
  induction i with
  | zero =>
    intro li h
    simp only [onestep_after, Option.some.injEq] at h
    subst h
    refine ⟨hc, ?_, ?_⟩
    · intro p hp
      rw [h0] at hp
      simp at hp
    · intro _ k lk h1 h2
      omega
  | succ i ih =>
    intro li h
    have hfull := h
    unfold onestep_after at h
    cases ha : onestep_after g cb choice infloop_detect multiplicity i ls0 with
    | none => rw [ha] at h; cases h
    | some l =>
      rw [ha] at h
      dsimp only at h
      obtain ⟨hcnt, hsub, hsup⟩ := ih l ha
      cases hi : onestep_iter g cb choice infloop_detect multiplicity l with
      | abort => rw [hi] at h; cases h
      | restart l2 => rw [hi] at h; cases h
      | done l2 fl => rw [hi] at h; cases h
      | again l1 =>
        rw [hi] at h
        simp only [Option.some.injEq] at h
        subst h
        obtain ⟨ls2, he, hctx, hsc, hn, hdict⟩ :=
          onestep_iter_again g cb choice infloop_detect multiplicity l l1 hi
        obtain ⟨hf1, hf2⟩ := onestep_exec_frame g cb choice multiplicity l ls2 he
        rw [hf1, hcnt] at hn
        rw [hf1, hcnt, hf2] at hdict
        refine ⟨hn, ?_, ?_⟩
        · intro p hp
          rcases hdict with ⟨_, hd⟩ | ⟨hon, _, hd⟩
          · rw [hd] at hp
            obtain ⟨k, lk, a, b, c, d, e⟩ := hsub p hp
            exact ⟨k, lk, a, by omega, c, d, e⟩
          · rw [hd] at hp
            simp only [Option.getD_some, List.mem_cons] at hp
            rcases hp with hp | hp
            · refine ⟨i + 1, l1, by omega, le_refl _, ?_, hfull, ?_⟩
              · rcases hon with hon | hon
                · exact Or.inl hon
                · exact Or.inr (by omega)
              · rw [hp, hctx, hsc]
            · obtain ⟨k, lk, a, b, c, d, e⟩ := hsub p hp
              exact ⟨k, lk, a, by omega, c, d, e⟩
        · intro hdet k lk hk1 hk2 hk
          rcases hdict with ⟨hoff, _⟩ | ⟨_, _, hd⟩
          · exact absurd (Or.inl hdet) hoff
          · rw [hd]
            simp only [Option.getD_some, List.mem_cons]
            by_cases hk3 : k = i + 1
            · subst hk3
              rw [hfull] at hk
              simp only [Option.some.injEq] at hk
              subst hk
              left
              rw [hctx, hsc]
            · right
              exact hsup hdet k lk hk1 (by omega) hk

/-- C7: `onestep` returns false only when it was called with
`infloop_detect = false` and the pair (context, state) reached after some
instruction `j + 1` is the pair reached after an earlier instruction `k` of
the macrostep with `k > 1000`; the worker memory (edges, nodes, failures) is
then unchanged.  Called with `infloop_detect = true` it never returns false,
and as soon as the pair reached after an instruction is the pair reached after
an earlier instruction, it returns true (for every fuel above the number of
instructions), having appended one edge for the macrostep and recorded a
Termination failure for that edge. -/
theorem onestep_infloop (fuel : Nat) (g : global) (cb : collab) (w : worker) (node : Nat)
    (sc : state) (ctx : hvalue) (st : step) (choice : hvalue) (interrupt infloop_detect : Bool)
    (multiplicity : Nat) :
    (∀ w1 st1,
      onestep fuel g cb w node sc ctx st choice interrupt infloop_detect multiplicity
        = .ret (false, w1, st1) →
      infloop_detect = false ∧ w1 = w ∧
      ∃ k j lk lj ls2, 1000 < k ∧ k ≤ j ∧ j < fuel ∧
        onestep_after g cb choice infloop_detect multiplicity k
          (onestep_start cb sc st interrupt) = some lk ∧
        onestep_after g cb choice infloop_detect multiplicity j
          (onestep_start cb sc st interrupt) = some lj ∧
        onestep_exec g cb choice multiplicity lj = some ls2 ∧
        (ls2.ctx, ls2.sc) = (lk.ctx, lk.sc) ∧ lk.instrcnt = k ∧ st1.ctx = ls2.ctx) ∧
    (infloop_detect = true → ∀ w1 st1,
      onestep fuel g cb w node sc ctx st choice interrupt infloop_detect multiplicity
        ≠ .ret (false, w1, st1)) ∧
    (infloop_detect = true →
      ∀ (j : Nat) (lj ls2 : loop_state) (parent : Harmony.node),
      ¬ (st.ctx.terminated ∨ st.ctx.failed) →
      ¬ (interrupt ∧ (!st.ctx.extended ∨ st.ctx.trap_pc = 0)) →
      w.nodes[node]? = some parent →
      onestep_after g cb choice infloop_detect multiplicity j
        (onestep_start cb sc st interrupt) = some lj →
      onestep_exec g cb choice multiplicity lj = some ls2 →
      ls2.ctx.pc < g.instrs.length → ls2.ctx.terminated = false →
      ls2.ctx.failed = false → ls2.ctx.stopped = false →
      (∃ k lk, 1 ≤ k ∧ k ≤ j ∧
        onestep_after g cb choice infloop_detect multiplicity k
          (onestep_start cb sc st interrupt) = some lk ∧
        (lk.ctx, lk.sc) = (ls2.ctx, ls2.sc)) →
      j < fuel →
      ∃ w1 st1 e,
        onestep fuel g cb w node sc ctx st choice interrupt infloop_detect multiplicity
          = .ret (true, w1, st1) ∧
        w1.edges = w.edges ++ [e] ∧ e.src = node ∧ e.ctx = ctx ∧ e.nsteps = j + 1 ∧
        w1.failures =
          { type := .FAIL_TERMINATION, edge := w.edges.length, address := 0 } :: w.failures) := by
  have hstart0 : (onestep_start cb sc st interrupt).infloop = none := rfl
  have hstart1 : (onestep_start cb sc st interrupt).instrcnt = 0 := rfl
  have hfalse : ∀ w1 st1,
      onestep fuel g cb w node sc ctx st choice interrupt infloop_detect multiplicity
        = .ret (false, w1, st1) →
      infloop_detect = false ∧ w1 = w ∧
      ∃ k j lk lj ls2, 1000 < k ∧ k ≤ j ∧ j < fuel ∧
        onestep_after g cb choice infloop_detect multiplicity k
          (onestep_start cb sc st interrupt) = some lk ∧
        onestep_after g cb choice infloop_detect multiplicity j
          (onestep_start cb sc st interrupt) = some lj ∧
        onestep_exec g cb choice multiplicity lj = some ls2 ∧
        (ls2.ctx, ls2.sc) = (lk.ctx, lk.sc) ∧ lk.instrcnt = k ∧ st1.ctx = ls2.ctx := by
    intro w1 st1 h
    have hst : ∀ ls, onestep_loop g cb choice infloop_detect multiplicity fuel
        (onestep_start cb sc st interrupt) = some (.restart ls) → st1.ctx = ls.ctx := by
      intro ls hl
      unfold onestep at h
      split at h
      · cases h
      · split at h
        · cases h
        · rw [hl] at h
          simp only [outcome.ret.injEq, Prod.mk.injEq] at h
          rw [← h.2.2]
    rcases onestep_ret fuel g cb w node sc ctx st choice interrupt infloop_detect multiplicity
      false w1 st1 h with ⟨_, hw, ls, hloop⟩ | ⟨hb, _⟩
    · obtain ⟨j, lj, hj, haj, hiter, _⟩ :=
        onestep_after_of_loop g cb choice infloop_detect multiplicity fuel _ _ hloop
      obtain ⟨hdet, ls2, he, hctx, _, _, _, _, hmem⟩ :=
        onestep_iter_restart g cb choice infloop_detect multiplicity lj ls hiter
      obtain ⟨_, hf2⟩ := onestep_exec_frame g cb choice multiplicity lj ls2 he
      rw [hf2] at hmem
      obtain ⟨_, hsub, _⟩ := onestep_after_infloop g cb choice infloop_detect multiplicity
        (onestep_start cb sc st interrupt) hstart0 hstart1 j lj haj
      obtain ⟨k, lk, _, hk2, hk3, hak, hp⟩ := hsub _ hmem
      obtain ⟨hcnt, _, _⟩ := onestep_after_infloop g cb choice infloop_detect multiplicity
        (onestep_start cb sc st interrupt) hstart0 hstart1 k lk hak
      refine ⟨hdet, hw, k, j, lk, lj, ls2, ?_, hk2, hj, hak, haj, he, hp, hcnt, ?_⟩
      · rcases hk3 with hk3 | hk3
        · rw [hdet] at hk3; cases hk3
        · exact hk3
      · rw [hst ls hloop, hctx]
    · cases hb
  refine ⟨hfalse, ?_, ?_⟩
  · intro hdet w1 st1 h
    rw [(hfalse w1 st1 h).1] at hdet
    cases hdet
  · intro hdet j lj ls2 parent ha1 ha2 hnode haj he hpc hterm hfailed hstopped hrep hj
    subst hdet
    obtain ⟨k, lk, hk1, hk2, hak, hpair⟩ := hrep
    obtain ⟨hcnt, _, hsup⟩ := onestep_after_infloop g cb choice true multiplicity
      (onestep_start cb sc st interrupt) hstart0 hstart1 j lj haj
    obtain ⟨hf1, hf2⟩ := onestep_exec_frame g cb choice multiplicity lj ls2 he
    have hmem : (ls2.ctx, ls2.sc) ∈ ls2.infloop.getD [] := by
      rw [hf2, ← hpair]
      exact hsup rfl k lk hk1 hk2 hak
    have hiter := onestep_iter_infinite g cb choice multiplicity lj ls2 he hpc hterm hfailed
      hstopped hmem
    have hloop := onestep_loop_of_after g cb choice true multiplicity _
      (by intro l hl; cases hl) j _ lj fuel haj hiter hj
    obtain ⟨e, hedges, hce, h1, h2, _, _, _, _, _, h8, _⟩ :=
      onestep_commit_spec g cb w node parent ctx choice interrupt
        { ls2 with
          instrcnt := ls2.instrcnt + 1
          infloop := some (ls2.infloop.getD [])
          ctx := value_ctx_failure cb ls2.ctx "infinite loop" }
        { failure := true, infinite_loop := true }
    refine ⟨{ (onestep_commit g cb w node parent ctx choice interrupt
          { ls2 with
            instrcnt := ls2.instrcnt + 1
            infloop := some (ls2.infloop.getD [])
            ctx := value_ctx_failure cb ls2.ctx "infinite loop" }
          { failure := true, infinite_loop := true }).w with
        failures := { type := .FAIL_TERMINATION, edge := w.edges.length, address := 0 }
          :: w.failures },
      { ctx := value_ctx_failure cb ls2.ctx "infinite loop", ai := [] }, e, ?_, hedges, h1, h2,
      ?_, rfl⟩
    · unfold onestep
      rw [if_neg ha1, if_neg ha2, hloop]
      dsimp only
      unfold onestep_finish
      rw [hnode]
      dsimp only
      rw [if_neg (by simp)]
      unfold onestep_report
      dsimp only
      rw [if_pos rfl]
      rfl
    · rw [h8]
      show ls2.instrcnt + 1 = j + 1
      rw [hf1, hcnt]

/-- The thread at pc 12 of the program runs into the instruction limit. -/
theorem demo_loop_step : ∃ w1 st1, demo_onestep 12 false = .ret (false, w1, st1) :=
  outcome_ret_of_fst _ _ (by decide!)

/-- C7, instance: the thread at pc 12 jumps between pc 12 and pc 13 for ever.
Without detection `onestep` returns false and leaves the worker memory as it
was; with detection the pair reached after the third instruction is the pair
reached after the first, and `onestep` returns true with one edge of three
instructions and a Termination failure. -/
theorem onestep_infloop_witness :
    (∃ w1 st1, demo_onestep 12 false = .ret (false, w1, st1) ∧
      w1 = (explore_init demo_collab 13 0).w) ∧
    (∃ w1 st1 e, demo_onestep 12 true = .ret (true, w1, st1) ∧
      w1.edges = (explore_init demo_collab 13 0).w.edges ++ [e] ∧ e.src = 0 ∧ e.ctx = 13 ∧
      e.nsteps = 2 + 1 ∧
      w1.failures = { type := .FAIL_TERMINATION
                      edge := (explore_init demo_collab 13 0).w.edges.length
                      address := 0 } :: (explore_init demo_collab 13 0).w.failures) := by
  constructor
  · obtain ⟨w1, st1, h⟩ := demo_loop_step
    exact ⟨w1, st1, h,
      ((onestep_infloop 2000 demo_global demo_collab (explore_init demo_collab 13 0).w 0
        (demo_state 12) 13 (demo_step 12) 0 false false 1).1 w1 st1 h).2.1⟩
  · exact (onestep_infloop 2000 demo_global demo_collab (explore_init demo_collab 13 0).w 0
      (demo_state 12) 13 (demo_step 12) 0 false true 1).2.2 rfl 2
      { ctx := demo_ctx 12, sc := demo_state 12, instrcnt := 2, as_state := none
        as_context := 0, as_instrcnt := 0
        infloop := some [(demo_ctx 12, demo_state 12), (demo_ctx 13, demo_state 12)], ai := [] }
      { ctx := demo_ctx 13, sc := demo_state 12, instrcnt := 2, as_state := none
        as_context := 0, as_instrcnt := 0
        infloop := some [(demo_ctx 12, demo_state 12), (demo_ctx 13, demo_state 12)], ai := [] }
      (node_zero { vars := 0, pre := 0, choosing := 0, stopbag := [], dfa_state := 0
                   bag := [(13, 1)] })
      (by decide) (by decide) rfl rfl rfl (by decide) rfl rfl rfl
      ⟨1, { ctx := demo_ctx 13, sc := demo_state 12, instrcnt := 1, as_state := none
            as_context := 0, as_instrcnt := 0
            infloop := some [(demo_ctx 13, demo_state 12)], ai := [] },
        le_refl _, by decide, rfl, rfl⟩
      (by decide)

theorem invariants_hold_append (g : global) (cb : collab) (fuel : Nat) (self_loop : Bool)
    (args : hvalue) (pre l : List invariant) :
    ∀ sc ctx, invariants_hold g cb fuel self_loop args (pre ++ l) sc ctx =
      (match invariants_hold g cb fuel self_loop args pre sc ctx with
       | some (s, c) => invariants_hold g cb fuel self_loop args l s c
       | none => none) := by
  induction pre with
  | nil => intro sc ctx; rfl
  | cons inv rest ih =>
    intro sc ctx
    simp only [List.cons_append, invariants_hold]
    by_cases hs : (!inv.pre) = true ∧ (!self_loop) = true
    · rw [if_pos hs, if_pos hs]
      exact ih sc ctx
    · rw [if_neg hs, if_neg hs]
      cases he : check_invariants_eval g cb fuel args inv sc ctx with
      | diverge => rfl
      | abort => rfl
      | ret x =>
        obtain ⟨b, s, c⟩ := x
        cases b
        · rfl
        · exact ih s c

/-- If every evaluated invariant of a prefix holds, the loop of
`check_invariants` goes on with the rest. -/
theorem check_invariants_loop_append (g : global) (cb : collab) (fuel : Nat) (self_loop : Bool)
    (args : hvalue) (pre l : List invariant) :
    ∀ sc ctx scm ctxm, invariants_hold g cb fuel self_loop args pre sc ctx = some (scm, ctxm) →
      check_invariants_loop g cb fuel self_loop args (pre ++ l) sc ctx =
        check_invariants_loop g cb fuel self_loop args l scm ctxm := by
  induction pre with
  | nil =>
    intro sc ctx scm ctxm h
    simp only [invariants_hold, Option.some.injEq, Prod.mk.injEq] at h
    rw [h.1, h.2]
    rfl
  | cons inv rest ih =>
    intro sc ctx scm ctxm h
    simp only [List.cons_append, check_invariants_loop]
    simp only [invariants_hold] at h
    by_cases hs : (!inv.pre) = true ∧ (!self_loop) = true
    · rw [if_pos hs] at h
      rw [if_pos hs]
      exact ih sc ctx scm ctxm h
    · rw [if_neg hs] at h
      rw [if_neg hs]
      cases he : check_invariants_eval g cb fuel args inv sc ctx with
      | diverge => rw [he] at h; cases h
      | abort => rw [he] at h; cases h
      | ret x =>
        obtain ⟨b, s, c⟩ := x
        rw [he] at h
        cases b
        · cases h
        · exact ih s c scm ctxm h

/-- What a result of the loop of `check_invariants` means. -/
theorem check_invariants_loop_ret (g : global) (cb : collab) (fuel : Nat) (self_loop : Bool)
    (args : hvalue) (invs : List invariant) :
    ∀ sc ctx r sc1 ctx1,
      check_invariants_loop g cb fuel self_loop args invs sc ctx = .ret (r, sc1, ctx1) →
      (r = 0 ∧ invariants_hold g cb fuel self_loop args invs sc ctx = some (sc1, ctx1)) ∨
      (∃ pre inv post scm ctxm, invs = pre ++ inv :: post ∧
        invariants_hold g cb fuel self_loop args pre sc ctx = some (scm, ctxm) ∧
        (inv.pre = true ∨ self_loop = true) ∧
        check_invariants_eval g cb fuel args inv scm ctxm = .ret (false, sc1, ctx1) ∧
        r = inv.pc) := by
  induction invs with
  | nil =>
    intro sc ctx r sc1 ctx1 h
    simp only [check_invariants_loop, outcome.ret.injEq, Prod.mk.injEq] at h
    left
    exact ⟨h.1.symm, by rw [← h.2.1, ← h.2.2]; rfl⟩
  | cons inv rest ih =>
    intro sc ctx r sc1 ctx1 h
    simp only [check_invariants_loop] at h
    have hstep : ∀ s c,
        invariants_hold g cb fuel self_loop args [inv] sc ctx = some (s, c) →
        check_invariants_loop g cb fuel self_loop args rest s c = .ret (r, sc1, ctx1) →
        (r = 0 ∧ invariants_hold g cb fuel self_loop args (inv :: rest) sc ctx
            = some (sc1, ctx1)) ∨
        (∃ pre inv0 post scm ctxm, inv :: rest = pre ++ inv0 :: post ∧
          invariants_hold g cb fuel self_loop args pre sc ctx = some (scm, ctxm) ∧
          (inv0.pre = true ∨ self_loop = true) ∧
          check_invariants_eval g cb fuel args inv0 scm ctxm = .ret (false, sc1, ctx1) ∧
          r = inv0.pc) := by
      intro s c h1 h2
      have happ := invariants_hold_append g cb fuel self_loop args [inv]
      rcases ih s c r sc1 ctx1 h2 with ⟨hr, hh⟩ | ⟨pre, inv0, post, scm, ctxm, e1, e2, e3, e4, e5⟩
      · left
        refine ⟨hr, ?_⟩
        have := happ rest sc ctx
        rw [h1] at this
        rw [← hh]
        exact this
      · right
        refine ⟨inv :: pre, inv0, post, scm, ctxm, by rw [e1]; rfl, ?_, e3, e4, e5⟩
        have := happ pre sc ctx
        rw [h1] at this
        rw [← e2]
        exact this
    by_cases hs : (!inv.pre) = true ∧ (!self_loop) = true
    · rw [if_pos hs] at h
      refine hstep sc ctx ?_ h
      simp only [invariants_hold]
      rw [if_pos hs]
    · rw [if_neg hs] at h
      cases he : check_invariants_eval g cb fuel args inv sc ctx with
      | diverge => rw [he] at h; cases h
      | abort => rw [he] at h; cases h
      | ret x =>
        obtain ⟨b, s, c⟩ := x
        rw [he] at h
        cases b
        · simp only [Bool.not_false, if_true, outcome.ret.injEq, Prod.mk.injEq] at h
          right
          refine ⟨[], inv, rest, sc, ctx, rfl, rfl, ?_, ?_, h.1.symm⟩
          · cases hp : inv.pre
            · cases hl : self_loop
              · rw [hp, hl] at hs
                exact absurd ⟨rfl, rfl⟩ hs
              · exact Or.inr rfl
            · exact Or.inl rfl
          · rw [he, h.2.1, h.2.2]
        · simp only [Bool.not_true, Bool.false_eq_true, if_false] at h
          refine hstep s c ?_ h
          simp only [invariants_hold]
          rw [if_neg hs, he]

/-- A result false of `invariant_check` comes with a failed context. -/
theorem invariant_check_loop_false (g : global) (fuel : Nat) :
    ∀ sc ctx s c, invariant_check_loop g fuel sc ctx = .ret (false, s, c) → c.failed = true := by
  induction fuel with
  | zero => intro sc ctx s c h; simp [invariant_check_loop] at h
  | succ k ih =>
    intro sc ctx s c h
    unfold invariant_check_loop at h
    split at h
    · split at h
      · simp at h
      · cases h
    · split at h
      · cases h
      · rename_i ins _
        by_cases hf : (ins.op sc ctx).2.failed = true
        · rw [if_pos hf] at h
          simp only [outcome.ret.injEq, Prod.mk.injEq, true_and] at h
          rw [← h.2]
          exact hf
        · rw [if_neg hf] at h
          exact ih _ _ _ _ h

/-- An invariant found false is one whose evaluation failed. -/
theorem check_invariants_eval_false (g : global) (cb : collab) (fuel : Nat) (args : hvalue)
    (inv : invariant) (sc : state) (ctx : context) (s : state) (c : context)
    (h : check_invariants_eval g cb fuel args inv sc ctx = .ret (false, s, c)) :
    c.failed = true := by
  unfold check_invariants_eval at h
  split at h
  · cases h
  · split at h
    · cases h
    · split at h
      · cases h
      · cases h
      · rename_i b sc1 ctx1 heq
        simp only [outcome.ret.injEq, Prod.mk.injEq] at h
        obtain ⟨h1, _, h3⟩ := h
        subst h3
        by_cases hf : ctx1.failed = true
        · exact hf
        · rw [if_neg hf] at h1
          subst h1
          unfold invariant_check at heq
          split at heq
          · cases heq
          · exact invariant_check_loop_false g fuel _ _ _ _ heq

/-- C8: `check_invariants(node, before)` takes the registered invariants in
registration order and skips those that do not use `pre` unless
`node == before`.  If every invariant it evaluates holds it returns 0; if the
evaluated invariants before some invariant hold and that one is evaluated and
found false (its evaluation failed), it returns the pc of that one; and every
value it returns arises in one of these two ways.  Provided no invariant is
registered at pc 0, it returns 0 if and only if every evaluated invariant
holds. -/
theorem check_invariants_first_failure (g : global) (cb : collab) (fuel : Nat) (w : worker)
    (node before : Nat) (n b : Harmony.node)
    (hn : w.nodes[node]? = some n) (hb : w.nodes[before]? = some b)
    (hsp : w.inv_ctx.stack.length = 0) :
    (∀ sc1 ctx1,
      invariants_hold g cb fuel (node == before) (check_invariants_args cb n.state b.state)
        g.invs n.state w.inv_ctx = some (sc1, ctx1) →
      check_invariants g cb fuel w node before =
        .ret (0, { w with inv_ctx := ctx1, nodes := w.nodes.set node { n with state := sc1 } })) ∧
    (∀ pre inv post scm ctxm sc1 ctx1, g.invs = pre ++ inv :: post →
      invariants_hold g cb fuel (node == before) (check_invariants_args cb n.state b.state)
        pre n.state w.inv_ctx = some (scm, ctxm) →
      (inv.pre = true ∨ node = before) →
      check_invariants_eval g cb fuel (check_invariants_args cb n.state b.state) inv scm ctxm
        = .ret (false, sc1, ctx1) →
      check_invariants g cb fuel w node before =
        .ret (inv.pc,
          { w with inv_ctx := ctx1, nodes := w.nodes.set node { n with state := sc1 } })) ∧
    (∀ r w1, check_invariants g cb fuel w node before = .ret (r, w1) →
      (r = 0 ∧
        (invariants_hold g cb fuel (node == before) (check_invariants_args cb n.state b.state)
          g.invs n.state w.inv_ctx).isSome = true) ∨
      (∃ pre inv post scm ctxm sc1 ctx1, g.invs = pre ++ inv :: post ∧
        invariants_hold g cb fuel (node == before) (check_invariants_args cb n.state b.state)
          pre n.state w.inv_ctx = some (scm, ctxm) ∧
        (inv.pre = true ∨ node = before) ∧
        check_invariants_eval g cb fuel (check_invariants_args cb n.state b.state) inv scm ctxm
          = .ret (false, sc1, ctx1) ∧
        ctx1.failed = true ∧ r = inv.pc)) ∧
    ((∀ inv ∈ g.invs, inv.pc ≠ 0) →
      ∀ r w1, check_invariants g cb fuel w node before = .ret (r, w1) →
        (r = 0 ↔
          (invariants_hold g cb fuel (node == before) (check_invariants_args cb n.state b.state)
            g.invs n.state w.inv_ctx).isSome = true)) := by
  have hunfold : check_invariants g cb fuel w node before =
      (match check_invariants_loop g cb fuel (node == before)
          (check_invariants_args cb n.state b.state) g.invs n.state w.inv_ctx with
       | .diverge => .diverge
       | .abort => .abort
       | .ret (r, sc1, ctx1) =>
         .ret (r, { w with inv_ctx := ctx1, nodes := w.nodes.set node { n with state := sc1 } })) := by
    unfold check_invariants
    rw [hn, hb]
    dsimp only
    rw [if_neg (by simpa using hsp)]
  have hA : ∀ sc1 ctx1,
      invariants_hold g cb fuel (node == before) (check_invariants_args cb n.state b.state)
        g.invs n.state w.inv_ctx = some (sc1, ctx1) →
      check_invariants g cb fuel w node before =
        .ret (0, { w with inv_ctx := ctx1, nodes := w.nodes.set node { n with state := sc1 } }) := by
    intro sc1 ctx1 h
    have := check_invariants_loop_append g cb fuel (node == before)
      (check_invariants_args cb n.state b.state) g.invs [] n.state w.inv_ctx sc1 ctx1 h
    rw [List.append_nil] at this
    rw [hunfold, this]
    rfl
  have hC : ∀ r w1, check_invariants g cb fuel w node before = .ret (r, w1) →
      (r = 0 ∧
        (invariants_hold g cb fuel (node == before) (check_invariants_args cb n.state b.state)
          g.invs n.state w.inv_ctx).isSome = true) ∨
      (∃ pre inv post scm ctxm sc1 ctx1, g.invs = pre ++ inv :: post ∧
        invariants_hold g cb fuel (node == before) (check_invariants_args cb n.state b.state)
          pre n.state w.inv_ctx = some (scm, ctxm) ∧
        (inv.pre = true ∨ node = before) ∧
        check_invariants_eval g cb fuel (check_invariants_args cb n.state b.state) inv scm ctxm
          = .ret (false, sc1, ctx1) ∧
        ctx1.failed = true ∧ r = inv.pc) := by
    intro r w1 h
    rw [hunfold] at h
    split at h
    · cases h
    · cases h
    · rename_i r0 sc1 ctx1 heq
      simp only [outcome.ret.injEq, Prod.mk.injEq] at h
      rw [← h.1]
      rcases check_invariants_loop_ret g cb fuel _ _ _ _ _ _ _ _ heq with
        ⟨h0, hh⟩ | ⟨pre, inv, post, scm, ctxm, e1, e2, e3, e4, e5⟩
      · left
        exact ⟨h0, by rw [hh]; rfl⟩
      · right
        refine ⟨pre, inv, post, scm, ctxm, sc1, ctx1, e1, e2, ?_, e4,
          check_invariants_eval_false _ _ _ _ _ _ _ _ _ e4, e5⟩
        rcases e3 with e3 | e3
        · exact Or.inl e3
        · exact Or.inr (by simpa using e3)
  refine ⟨hA, ?_, hC, ?_⟩
  · intro pre inv post scm ctxm sc1 ctx1 e1 e2 e3 e4
    rw [hunfold, e1, check_invariants_loop_append g cb fuel _ _ pre (inv :: post) _ _ _ _ e2]
    have hs : ¬ ((!inv.pre) = true ∧ (!(node == before)) = true) := by
      rintro ⟨h1, h2⟩
      rcases e3 with e3 | e3
      · rw [e3] at h1; cases h1
      · rw [e3] at h2; simp at h2
    simp only [check_invariants_loop]
    rw [if_neg hs, e4]
    rfl
  · intro hpc r w1 h
    rcases hC r w1 h with ⟨h0, hh⟩ | ⟨pre, inv, post, scm, ctxm, sc1, ctx1, e1, e2, e3, e4, _, e5⟩
    · exact ⟨fun _ => hh, fun _ => h0⟩
    · have hne : r ≠ 0 := by
        rw [e5]
        exact hpc inv (by rw [e1]; simp)
      have hs : ¬ ((!inv.pre) = true ∧ (!(node == before)) = true) := by
        rintro ⟨h1, h2⟩
        rcases e3 with e3 | e3
        · rw [e3] at h1; cases h1
        · rw [e3] at h2; simp at h2
      have hnone : invariants_hold g cb fuel (node == before)
          (check_invariants_args cb n.state b.state) g.invs n.state w.inv_ctx = none := by
        rw [e1, invariants_hold_append, e2]
        simp only [invariants_hold]
        rw [if_neg hs, e4]
      rw [hnone]
      exact ⟨fun h0 => absurd h0 hne, fun h1 => by cases h1⟩

/-- C8, instance: in the program with the invariants `x != 2` (at pc 1, not
using `pre`) and `x != 1` (at pc 3, using `pre`), the self-loop check of the
node with `x = 1` returns 3, the first invariant holding there; the check of
the node with `x = 2` against the other node skips the first invariant and
returns 0. -/
theorem check_invariants_first_failure_witness :
    (∃ w1, check_invariants demo_inv_global demo_collab 10 demo_inv_worker 1 1 = .ret (3, w1)) ∧
    (∃ w1, check_invariants demo_inv_global demo_collab 10 demo_inv_worker 0 1 = .ret (0, w1)) :=
  ⟨⟨_, (check_invariants_first_failure demo_inv_global demo_collab 10 demo_inv_worker 1 1
      (node_zero { demo_state 0 with vars := 1 }) (node_zero { demo_state 0 with vars := 1 })
      rfl rfl rfl).2.1 [{ pc := 1, pre := false }] { pc := 3, pre := true } [] _ _ _ _
      rfl rfl (Or.inl rfl) rfl⟩,
   ⟨_, (check_invariants_first_failure demo_inv_global demo_collab 10 demo_inv_worker 0 1
      (node_zero { demo_state 0 with vars := 2 }) (node_zero { demo_state 0 with vars := 1 })
      rfl rfl rfl).1 _ _ rfl⟩⟩

/-- C2 (defect of the path records): the program in which the initial thread
spawns thread A (`x = 1; x = 2; y = 1` in a loop) and thread B (an atomic
`if x == 1: y = 1` in a loop) is explored to its fixpoint: seven nodes, all of
them expanded, thirteen edges.  Node 5 ends with `len = 3`, but the recorded
edges 0, 1, 3, 7, 9, 5 form a path from the initial node to node 5 whose
weights add up to 2.  Node 4, the source of edge 5, was first reached with
`len = 2` and later improved to `len = 1` by edge 9; node 5, created in
between from node 4, kept `len = 2 + 1`.  Hence `len` is not the minimum over
the paths of recorded edges. -/
theorem explore_len_not_minimal :
    (explore 50 demo_global demo_collab 50 (explore_init demo_collab 7 0)).toOption.map
      (fun x => (x.graph_nodes, x.todo, x.goal)) = some ([0, 1, 2, 4, 3, 6, 5], 7, 7) ∧
    (explore 50 demo_global demo_collab 50 (explore_init demo_collab 7 0)).toOption.map
      (fun x => x.w.nodes.map path_record)
      = some [(0, 0, none), (0, 3, some 0), (1, 4, some 1), (1, 5, some 3), (1, 8, some 9),
          (3, 7, some 5), (1, 7, some 7)] ∧
    (explore 50 demo_global demo_collab 50 (explore_init demo_collab 7 0)).toOption.map
      (fun x => x.w.edges.map (fun e => (e.src, e.dst, e.weight, e.nsteps)))
      = some [(0, 1, 0, 3), (1, 2, 1, 1), (1, 1, 1, 2), (2, 3, 0, 1), (2, 4, 1, 2), (4, 5, 1, 1),
          (4, 4, 0, 2), (3, 6, 0, 2), (3, 3, 1, 2), (6, 4, 0, 1), (6, 6, 1, 2), (5, 6, 0, 2),
          (5, 5, 1, 2)] ∧
    (explore 50 demo_global demo_collab 50 (explore_init demo_collab 7 0)).toOption.map
      (fun x => (is_path x.w.edges 0 5 [0, 1, 3, 7, 9, 5],
        path_weight x.w.edges [0, 1, 3, 7, 9, 5], ((x.w.nodes[5]?).map node.len)))
      = some (true, 2, some 3) :=
  ⟨by decide!, by decide!, by decide!, by decide!⟩

theorem twostep2_after_cons (g : global) (cb : collab) (nsteps : Nat) (k : Nat) :
    ∀ ts, twostep2_after g cb nsteps (k + 1) ts =
      (match twostep2_iter g cb nsteps ts with
       | .again t1 => twostep2_after g cb nsteps k t1
       | _ => none) := by
  induction k with
  | zero =>
    intro ts
    simp only [twostep2_after]
  | succ k ih =>
    intro ts
    rw [twostep2_after, ih ts]
    cases hi : twostep2_iter g cb nsteps ts with
    | again t1 => simp only [twostep2_after]
    | abort => rfl
    | done t => rfl

/-- Enough fuel: if the loop of `twostep2` is left in iteration `j + 1`, every
fuel above `j` gives that result. -/
theorem twostep2_loop_of_after (g : global) (cb : collab) (nsteps : Nat) (r : replay_step)
    (hr : ∀ t, r ≠ .again t) (j : Nat) :
    ∀ (ts0 tj : replay_state) (fuel : Nat),
      twostep2_after g cb nsteps j ts0 = some tj →
      twostep2_iter g cb nsteps tj = r → j < fuel →
      twostep2_loop g cb nsteps fuel ts0 = some r := by
  induction j with
  | zero =>
    intro ts0 tj fuel h hi hf
    simp only [twostep2_after, Option.some.injEq] at h
    subst h
    obtain ⟨f, rfl⟩ : ∃ f, fuel = f + 1 := ⟨fuel - 1, by omega⟩
    unfold twostep2_loop
    rw [hi]
    cases r with
    | again t => exact absurd rfl (hr t)
    | abort => rfl
    | done t => rfl
  | succ j ih =>
    intro ts0 tj fuel h hi hf
    rw [twostep2_after_cons] at h
    obtain ⟨f, rfl⟩ : ∃ f, fuel = f + 1 := ⟨fuel - 1, by omega⟩
    unfold twostep2_loop
    cases h0 : twostep2_iter g cb nsteps ts0 with
    | again t1 =>
      rw [h0] at h
      exact ih t1 tj f h hi (by omega)
    | abort => rw [h0] at h; exact absurd h (by simp)
    | done t => rw [h0] at h; exact absurd h (by simp)

/-- The replay executes an instruction as `onestep` does: from the same
context, state and choice, and with the same instruction counter, it reaches
the same context and state. -/
theorem twostep2_exec_eq (g : global) (cb : collab) (choice : hvalue) (multiplicity : Nat)
    (l a : loop_state) (t : replay_state) (hctx : t.ctx = l.ctx) (hsc : t.sc = l.sc)
    (hcnt : t.instrcnt = l.instrcnt) (hch : t.choice = choice)
    (he : onestep_exec g cb choice multiplicity l = some a) :
    ∃ t1, twostep2_exec g t = some t1 ∧ t1.ctx = a.ctx ∧ t1.sc = a.sc ∧
      t1.instrcnt = t.instrcnt ∧ t1.infloop = t.infloop ∧ t1.choice = t.choice := by
  unfold onestep_exec at he
  unfold twostep2_exec
  rw [hctx, hsc, hcnt, hch]
  cases hi : g.instrs[l.ctx.pc]? with
  | none => rw [hi] at he; cases he
  | some ins =>
    rw [hi] at he
    dsimp only at he ⊢
    by_cases h1 : ins.choose = true
    · rw [if_pos h1] at he ⊢
      by_cases h2 : l.ctx.stack.length = 0 ∨ choice = 0
      · rw [if_pos h2] at he; cases he
      · rw [if_neg h2] at he
        rw [if_neg (by intro h; exact h2 (h.symm))]
        cases he
        exact ⟨_, rfl, rfl, rfl, rfl, rfl, rfl⟩
    · rw [if_neg h1] at he ⊢
      by_cases h3 : ins.atomicinc = true
      · rw [if_pos h3] at he ⊢
        by_cases h4 : l.instrcnt = 0
        · rw [if_pos h4] at he ⊢
          cases he
          exact ⟨_, rfl, rfl, rfl, rfl, rfl, rfl⟩
        · rw [if_neg h4] at he ⊢
          by_cases h5 : l.ctx.atomic = 0
          · rw [if_pos h5] at he
            cases he
            exact ⟨_, rfl, rfl, rfl, rfl, rfl, rfl⟩
          · rw [if_neg h5] at he
            cases he
            exact ⟨_, rfl, rfl, rfl, rfl, rfl, rfl⟩
      · rw [if_neg h3] at he ⊢
        by_cases h6 : ins.atomicdec = true
        · rw [if_pos h6] at he
          split at he <;> (cases he; exact ⟨_, rfl, rfl, rfl, rfl, rfl, rfl⟩)
        · rw [if_neg h6] at he
          cases he
          exact ⟨_, rfl, rfl, rfl, rfl, rfl, rfl⟩

/-- When the peek at the next instruction lets the macrostep go on: the
instruction is not a `Choose`, and the `atomicFlag` is set or the instruction
is not breakable. -/
theorem onestep_peek_again_iff (cb : collab) (ni : instr) (l l1 : loop_state) :
    onestep_peek cb ni l = .again l1 ↔
      l1 = l ∧ ni.choose = false ∧
        (l.ctx.atomicFlag = true ∨ onestep_breakable cb ni l.ctx = false) := by
  unfold onestep_peek
  dsimp only
  constructor
  · intro h
    repeat' split at h
    all_goals (cases h <;> simp_all)
  · rintro ⟨rfl, h1, h2⟩
    rw [h1]
    simp only [Bool.false_eq_true, if_false]
    rcases h2 with h2 | h2
    · rw [h2]
      simp
    · rw [h2]
      simp

theorem onestep_next_again_iff (g : global) (cb : collab) (pc0 : Nat) (l l1 : loop_state) :
    onestep_next g cb pc0 l = .again l1 ↔
      l1 = l ∧ l.ctx.pc ≠ pc0 ∧ ∃ ni, g.instrs[l.ctx.pc]? = some ni ∧ ni.choose = false ∧
        (l.ctx.atomicFlag = true ∨ onestep_breakable cb ni l.ctx = false) := by
  unfold onestep_next
  constructor
  · intro h
    by_cases h1 : l.ctx.pc = pc0
    · rw [if_pos h1] at h; cases h
    · rw [if_neg h1] at h
      cases hi : g.instrs[l.ctx.pc]? with
      | none => rw [hi] at h; cases h
      | some ni =>
        rw [hi] at h
        obtain ⟨a, b, c⟩ := (onestep_peek_again_iff cb ni l l1).mp h
        exact ⟨a, h1, ni, rfl, b, c⟩
  · rintro ⟨h0, h1, ni, hi, b, c⟩
    rw [if_neg h1, hi]
    exact (onestep_peek_again_iff cb ni l l1).mpr ⟨h0, b, c⟩

/-- Everything an iteration that goes round again tells about the context
reached by its instruction. -/
theorem onestep_iter_again_ctx (g : global) (cb : collab) (choice : hvalue)
    (infloop_detect : Bool) (multiplicity : Nat) (ls l1 : loop_state)
    (h : onestep_iter g cb choice infloop_detect multiplicity ls = .again l1) :
    ∃ a, onestep_exec g cb choice multiplicity ls = some a ∧
      l1.ctx = a.ctx ∧ l1.sc = a.sc ∧ l1.instrcnt = a.instrcnt + 1 ∧
      l1.as_context = a.as_context ∧ l1.as_instrcnt = a.as_instrcnt ∧
      a.ctx.pc < g.instrs.length ∧
      a.ctx.terminated = false ∧ a.ctx.failed = false ∧ a.ctx.stopped = false ∧
      a.ctx.pc ≠ ls.ctx.pc ∧
      ∃ ni, g.instrs[a.ctx.pc]? = some ni ∧ ni.choose = false ∧
        (a.ctx.atomicFlag = true ∨ onestep_breakable cb ni a.ctx = false) := by
  unfold onestep_iter at h
  cases he : onestep_exec g cb choice multiplicity ls with
  | none => rw [he] at h; cases h
  | some ls2 =>
    rw [he] at h
    dsimp only at h
    refine ⟨ls2, rfl, ?_⟩
    by_cases h1 : ¬ (ls2.ctx.pc < g.instrs.length)
    · rw [if_pos h1] at h; cases h
    rw [if_neg h1] at h
    by_cases h2 : ls2.ctx.terminated = true
    · rw [if_pos h2] at h; cases h
    rw [if_neg h2] at h
    by_cases h3 : ls2.ctx.failed = true
    · rw [if_pos h3] at h; cases h
    rw [if_neg h3] at h
    by_cases h4 : ls2.ctx.stopped = true
    · rw [if_pos h4] at h; cases h
    rw [if_neg h4] at h
    have h1' : ls2.ctx.pc < g.instrs.length := not_not.mp h1
    have h2' : ls2.ctx.terminated = false := by simpa using h2
    have h3' : ls2.ctx.failed = false := by simpa using h3
    have h4' : ls2.ctx.stopped = false := by simpa using h4
    by_cases h5 : infloop_detect = true ∨ ls2.instrcnt + 1 > 1000
    · rw [if_pos h5] at h
      by_cases h6 : (ls2.ctx, ls2.sc) ∈ ls2.infloop.getD []
      · rw [if_pos h6] at h
        split at h <;> cases h
      · rw [if_neg h6] at h
        obtain ⟨e1, e2, ni, e3, e4, e5⟩ := (onestep_next_again_iff _ _ _ _ _).mp h
        subst e1
        exact ⟨rfl, rfl, rfl, rfl, rfl, h1', h2', h3', h4', e2, ni, e3, e4, e5⟩
    · rw [if_neg h5] at h
      obtain ⟨e1, e2, ni, e3, e4, e5⟩ := (onestep_next_again_iff _ _ _ _ _).mp h
      subst e1
      exact ⟨rfl, rfl, rfl, rfl, rfl, h1', h2', h3', h4', e2, ni, e3, e4, e5⟩

/-- The decision to go on depends on the context reached only: if an
iteration goes round again, an iteration whose instruction reaches the same
context does not end the macrostep, except by the infinite-loop detector. -/
theorem onestep_iter_not_done (g : global) (cb : collab) (choice : hvalue)
    (detect detect1 : Bool) (multiplicity multiplicity1 : Nat) (l l1 k a1 : loop_state)
    (h : onestep_iter g cb choice detect multiplicity l = .again l1)
    (he1 : onestep_exec g cb choice multiplicity1 k = some a1) (hctx : a1.ctx = l1.ctx)
    (r : loop_state) (fl : exit_flags)
    (hd : onestep_iter g cb choice detect1 multiplicity1 k = .done r fl) :
    fl.infinite_loop = true := by
  obtain ⟨a, _, e1, _, _, _, _, e6, e7, e8, e9, _, ni, e11, e12, e13⟩ :=
    onestep_iter_again_ctx g cb choice detect multiplicity l l1 h
  rw [← e1, ← hctx] at e6 e7 e8 e9 e11 e13
  have hnext : ∀ pc0 (x : loop_state), x.ctx = a1.ctx →
      onestep_next g cb pc0 x ≠ .done r fl := by
    intro pc0 x hx hn
    unfold onestep_next at hn
    rw [hx] at hn
    split at hn
    · cases hn
    · rw [e11] at hn
      dsimp only at hn
      have := (onestep_peek_again_iff cb ni x x).mpr ⟨rfl, e12, by rw [hx]; exact e13⟩
      rw [this] at hn
      cases hn
  unfold onestep_iter at hd
  rw [he1] at hd
  dsimp only at hd
  rw [if_neg (not_not.mpr e6), e7, e8, e9] at hd
  simp only [Bool.false_eq_true, if_false] at hd
  split at hd
  · split at hd
    · split at hd
      · cases hd
        rfl
      · cases hd
    · exact absurd hd (hnext _ _ rfl)
  · exact absurd hd (hnext _ _ rfl)

/-- After the first instruction, the context and state that an instruction
reaches depend on the context and state it starts from only. -/
theorem onestep_exec_congr (g : global) (cb : collab) (choice : hvalue)
    (multiplicity multiplicity1 : Nat) (l k a : loop_state)
    (hctx : k.ctx = l.ctx) (hsc : k.sc = l.sc) (hz : l.instrcnt ≠ 0) (hz1 : k.instrcnt ≠ 0)
    (he : onestep_exec g cb choice multiplicity l = some a) :
    ∃ a1, onestep_exec g cb choice multiplicity1 k = some a1 ∧ a1.ctx = a.ctx ∧ a1.sc = a.sc := by
  unfold onestep_exec at he
  unfold onestep_exec
  rw [hctx, hsc]
  cases hi : g.instrs[l.ctx.pc]? with
  | none => rw [hi] at he; cases he
  | some ins =>
    rw [hi] at he
    dsimp only at he ⊢
    by_cases h1 : ins.choose = true
    · rw [if_pos h1] at he ⊢
      by_cases h2 : l.ctx.stack.length = 0 ∨ choice = 0
      · rw [if_pos h2] at he; cases he
      · rw [if_neg h2] at he ⊢
        cases he
        exact ⟨_, rfl, by simp only [hctx, hsc], by simp only [hctx, hsc]⟩
    · rw [if_neg h1] at he ⊢
      by_cases h3 : ins.atomicinc = true
      · rw [if_pos h3, if_neg hz] at he
        rw [if_pos h3, if_neg hz1]
        by_cases h5 : l.ctx.atomic = 0
        · rw [if_pos h5] at he ⊢
          cases he
          exact ⟨_, rfl, by simp only [hctx, hsc], by simp only [hctx, hsc]⟩
        · rw [if_neg h5] at he ⊢
          cases he
          exact ⟨_, rfl, by simp only [hctx, hsc], by simp only [hctx, hsc]⟩
      · rw [if_neg h3] at he ⊢
        by_cases h6 : ins.atomicdec = true
        · rw [if_pos h6] at he ⊢
          split at he <;> split <;> (cases he; exact ⟨_, rfl, by simp only [hctx, hsc], by simp only [hctx, hsc]⟩)
        · rw [if_neg h6] at he ⊢
          cases he
          exact ⟨_, rfl, by simp only [hctx, hsc], by simp only [hctx, hsc]⟩

/-- The state after `t + 1` iterations comes from the state after `t`. -/
theorem onestep_after_succ (g : global) (cb : collab) (choice : hvalue) (infloop_detect : Bool)
    (multiplicity : Nat) (ls0 : loop_state) (t : Nat) (l1 : loop_state)
    (h : onestep_after g cb choice infloop_detect multiplicity (t + 1) ls0 = some l1) :
    ∃ l, onestep_after g cb choice infloop_detect multiplicity t ls0 = some l ∧
      onestep_iter g cb choice infloop_detect multiplicity l = .again l1 := by
  unfold onestep_after at h
  cases ha : onestep_after g cb choice infloop_detect multiplicity t ls0 with
  | none => rw [ha] at h; cases h
  | some l =>
    rw [ha] at h
    dsimp only at h
    cases hi : onestep_iter g cb choice infloop_detect multiplicity l with
    | abort => rw [hi] at h; cases h
    | restart l2 => rw [hi] at h; cases h
    | done l2 fl => rw [hi] at h; cases h
    | again l2 =>
      rw [hi] at h
      simp only [Option.some.injEq] at h
      subst h
      exact ⟨l, rfl, hi⟩

theorem onestep_after_le (g : global) (cb : collab) (choice : hvalue) (infloop_detect : Bool)
    (multiplicity : Nat) (ls0 : loop_state) (t : Nat) :
    ∀ l, onestep_after g cb choice infloop_detect multiplicity t ls0 = some l →
      ∀ s, s ≤ t → ∃ k, onestep_after g cb choice infloop_detect multiplicity s ls0 = some k := by
  induction t with
  | zero =>
    intro l h s hs
    have : s = 0 := by omega
    subst this
    exact ⟨l, h⟩
  | succ t ih =>
    intro l h s hs
    by_cases hst : s = t + 1
    · subst hst
      exact ⟨l, h⟩
    · obtain ⟨k, hk, _⟩ := onestep_after_succ g cb choice infloop_detect multiplicity ls0 t l h
      exact ih k hk s (by omega)

/-- If the pair (context, state) after instruction `i` comes back after
instruction `i1`, the run is periodic from there on. -/
theorem onestep_after_periodic (g : global) (cb : collab) (choice : hvalue)
    (infloop_detect : Bool) (multiplicity : Nat) (ls0 : loop_state)
    (h0 : ls0.infloop = none) (hc : ls0.instrcnt = 0) (i i1 : Nat) (hi : 1 ≤ i) (hlt : i < i1)
    (li li1 : loop_state)
    (hS : onestep_after g cb choice infloop_detect multiplicity i ls0 = some li)
    (hS1 : onestep_after g cb choice infloop_detect multiplicity i1 ls0 = some li1)
    (hctx : li1.ctx = li.ctx) (hsc : li1.sc = li.sc) (d : Nat) :
    ∀ k, onestep_after g cb choice infloop_detect multiplicity (i1 + d) ls0 = some k →
      ∃ l, onestep_after g cb choice infloop_detect multiplicity (i + d) ls0 = some l ∧
        k.ctx = l.ctx ∧ k.sc = l.sc := by
  induction d with
  | zero =>
    intro k hk
    rw [Nat.add_zero, hS1] at hk
    simp only [Option.some.injEq] at hk
    subst hk
    exact ⟨li, hS, hctx, hsc⟩
  | succ d ih =>
    intro k hk
    obtain ⟨k0, hk0, hiter1⟩ :=
      onestep_after_succ g cb choice infloop_detect multiplicity ls0 (i1 + d) k hk
    obtain ⟨l0, hl0, e1, e2⟩ := ih k0 hk0
    obtain ⟨l, hl⟩ := onestep_after_le g cb choice infloop_detect multiplicity ls0 _ k hk
      (i + (d + 1)) (by omega)
    obtain ⟨l0', hl0', hiter⟩ :=
      onestep_after_succ g cb choice infloop_detect multiplicity ls0 (i + d) l hl
    rw [hl0] at hl0'
    simp only [Option.some.injEq] at hl0'
    subst hl0'
    obtain ⟨a, hea, c1, c2, _⟩ :=
      onestep_iter_again_ctx g cb choice infloop_detect multiplicity l0 l hiter
    obtain ⟨a1, hea1, d1, d2, _⟩ :=
      onestep_iter_again_ctx g cb choice infloop_detect multiplicity k0 k hiter1
    have hz : l0.instrcnt ≠ 0 := by
      rw [(onestep_after_infloop g cb choice infloop_detect multiplicity ls0 h0 hc _ l0 hl0).1]
      omega
    have hz1 : k0.instrcnt ≠ 0 := by
      rw [(onestep_after_infloop g cb choice infloop_detect multiplicity ls0 h0 hc _ k0 hk0).1]
      omega
    obtain ⟨a2, hea2, f1, f2⟩ := onestep_exec_congr g cb choice multiplicity multiplicity
      l0 k0 a e1 e2 hz hz1 hea
    rw [hea1] at hea2
    simp only [Option.some.injEq] at hea2
    subst hea2
    exact ⟨l, hl, by rw [d1, c1, f1], by rw [d2, c2, f2]⟩

/-- In a macrostep that is not ended by the infinite-loop detector, no pair
(context, state) comes back: the pairs after the instructions `1 .. j` are
pairwise distinct, and the context after the last instruction is none of
theirs. -/
theorem onestep_pairs_distinct (g : global) (cb : collab) (choice : hvalue)
    (infloop_detect : Bool) (multiplicity : Nat) (ls0 : loop_state)
    (h0 : ls0.infloop = none) (hc : ls0.instrcnt = 0) (j : Nat) (lj ls : loop_state)
    (fl : exit_flags)
    (hS : onestep_after g cb choice infloop_detect multiplicity j ls0 = some lj)
    (hiter : onestep_iter g cb choice infloop_detect multiplicity lj = .done ls fl)
    (hfl : fl.infinite_loop = false) :
    (∀ i i1 li li1, 1 ≤ i → i < i1 → i1 ≤ j →
      onestep_after g cb choice infloop_detect multiplicity i ls0 = some li →
      onestep_after g cb choice infloop_detect multiplicity i1 ls0 = some li1 →
      ¬ (li1.ctx = li.ctx ∧ li1.sc = li.sc)) ∧
    (∀ a, onestep_exec g cb choice multiplicity lj = some a → ∀ i li, 1 ≤ i → i ≤ j →
      onestep_after g cb choice infloop_detect multiplicity i ls0 = some li →
      a.ctx ≠ li.ctx) := by
  have hB : ∀ a, onestep_exec g cb choice multiplicity lj = some a → ∀ i li, 1 ≤ i → i ≤ j →
      onestep_after g cb choice infloop_detect multiplicity i ls0 = some li →
      a.ctx ≠ li.ctx := by
    intro a he i li hi hij hli hctx
    obtain ⟨i0, rfl⟩ : ∃ i0, i = i0 + 1 := ⟨i - 1, by omega⟩
    obtain ⟨l0, _, hit⟩ :=
      onestep_after_succ g cb choice infloop_detect multiplicity ls0 i0 li hli
    have := onestep_iter_not_done g cb choice infloop_detect infloop_detect multiplicity
      multiplicity l0 li lj a hit he hctx ls fl hiter
    rw [hfl] at this
    cases this
  refine ⟨?_, hB⟩
  intro i i1 li li1 hi hlt hle hli hli1 ⟨hctx, hsc⟩
  obtain ⟨l, hl, e1, e2⟩ := onestep_after_periodic g cb choice infloop_detect multiplicity ls0
    h0 hc i i1 hi hlt li li1 hli hli1 hctx hsc (j - i1) lj
    (by rw [show i1 + (j - i1) = j by omega]; exact hS)
  obtain ⟨l1, hl1⟩ := onestep_after_le g cb choice infloop_detect multiplicity ls0 j lj hS
    (i + (j - i1) + 1) (by omega)
  obtain ⟨l', hl', hit⟩ :=
    onestep_after_succ g cb choice infloop_detect multiplicity ls0 _ l1 hl1
  rw [hl] at hl'
  simp only [Option.some.injEq] at hl'
  subst hl'
  obtain ⟨al, heal, c1, _⟩ :=
    onestep_iter_again_ctx g cb choice infloop_detect multiplicity l l1 hit
  have hz : l.instrcnt ≠ 0 := by
    rw [(onestep_after_infloop g cb choice infloop_detect multiplicity ls0 h0 hc _ l hl).1]
    omega
  have hz1 : lj.instrcnt ≠ 0 := by
    rw [(onestep_after_infloop g cb choice infloop_detect multiplicity ls0 h0 hc _ lj hS).1]
    omega
  obtain ⟨a1, hea1, f1, _⟩ := onestep_exec_congr g cb choice multiplicity multiplicity
    l lj al e1 e2 hz hz1 heal
  have := onestep_iter_not_done g cb choice infloop_detect infloop_detect multiplicity
    multiplicity l l1 lj a1 hit hea1 (by rw [f1, c1]) ls fl hiter
  rw [hfl] at this
  cases this

/-- With detection from the start, the pairs (context, state) after the
instructions after which the loop went round again are pairwise distinct. -/
theorem onestep_pairs_distinct_detect (g : global) (cb : collab) (choice : hvalue)
    (multiplicity : Nat) (ls0 : loop_state)
    (h0 : ls0.infloop = none) (hc : ls0.instrcnt = 0) :
    ∀ i i1 li li1, 1 ≤ i → i < i1 →
      onestep_after g cb choice true multiplicity i ls0 = some li →
      onestep_after g cb choice true multiplicity i1 ls0 = some li1 →
      ¬ (li1.ctx = li.ctx ∧ li1.sc = li.sc) := by
  intro i i1 li li1 hi hlt hli hli1 ⟨hctx, hsc⟩
  obtain ⟨t, rfl⟩ : ∃ t, i1 = t + 1 := ⟨i1 - 1, by omega⟩
  obtain ⟨l0, hl0, hit⟩ := onestep_after_succ g cb choice true multiplicity ls0 t li1 hli1
  obtain ⟨ls2, he, c1, c2, _, hdict⟩ := onestep_iter_again g cb choice true multiplicity l0 li1 hit
  obtain ⟨_, hf2⟩ := onestep_exec_frame g cb choice multiplicity l0 ls2 he
  obtain ⟨_, _, hsup⟩ := onestep_after_infloop g cb choice true multiplicity ls0 h0 hc t l0 hl0
  have hmem := hsup rfl i li hi (by omega) hli
  rcases hdict with ⟨hoff, _⟩ | ⟨_, hnot, _⟩
  · exact hoff (Or.inl rfl)
  · apply hnot
    rw [hf2, ← c1, ← c2, hctx, hsc]
    exact hmem

/-- The detector of the replay inserts a pair that is not in its dictionary
and leaves the context alone. -/
theorem twostep2_detect_new (cb : collab) (t1 : replay_state)
    (h2 : t1.ctx.terminated = false) (h3 : t1.ctx.failed = false)
    (hnew : (t1.ctx, t1.sc) ∉ t1.infloop.getD []) :
    twostep2_detect cb t1 =
      { t1 with infloop := some ((t1.ctx, t1.sc) :: t1.infloop.getD []) } := by
  unfold twostep2_detect
  rw [h2, h3, if_pos (by simp), if_neg hnew]

/-- One more iteration of the replay, as long as `onestep` went round again,
the pair reached is new and `nsteps` is not reached. -/
theorem twostep2_iter_again (g : global) (cb : collab) (choice : hvalue) (infloop_detect : Bool)
    (multiplicity nsteps : Nat) (l l1 : loop_state) (t : replay_state)
    (hit : onestep_iter g cb choice infloop_detect multiplicity l = .again l1)
    (hctx : t.ctx = l.ctx) (hsc : t.sc = l.sc) (hcnt : t.instrcnt = l.instrcnt)
    (hch : t.choice = choice) (hnew : (l1.ctx, l1.sc) ∉ t.infloop.getD [])
    (hn : t.instrcnt + 1 < nsteps) :
    ∃ t3, twostep2_iter g cb nsteps t = .again t3 ∧ t3.ctx = l1.ctx ∧ t3.sc = l1.sc ∧
      t3.instrcnt = t.instrcnt + 1 ∧ t3.choice = choice ∧
      t3.infloop = some ((l1.ctx, l1.sc) :: t.infloop.getD []) := by
  obtain ⟨a, he, c1, c2, _, _, _, _, e2, e3, e4, e5, ni, e6, e7, _⟩ :=
    onestep_iter_again_ctx g cb choice infloop_detect multiplicity l l1 hit
  obtain ⟨t1, ht1, d1, d2, d3, d4, d5⟩ :=
    twostep2_exec_eq g cb choice multiplicity l a t hctx hsc hcnt hch he
  have hnew1 : (t1.ctx, t1.sc) ∉ t1.infloop.getD [] := by
    rw [d1, d2, d4, ← c1, ← c2]
    exact hnew
  have f2 : t1.ctx.terminated = false := by rw [d1]; exact e2
  have f3 : t1.ctx.failed = false := by rw [d1]; exact e3
  have f4 : t1.ctx.stopped = false := by rw [d1]; exact e4
  have f5 : ¬ t1.ctx.pc = t.ctx.pc := by rw [d1, hctx]; exact e5
  have f6 : g.instrs[t1.ctx.pc]? = some ni := by rw [d1]; exact e6
  have hdet := twostep2_detect_new cb t1 f2 f3 hnew1
  refine ⟨{ t1 with
      infloop := some ((t1.ctx, t1.sc) :: t1.infloop.getD [])
      instrcnt := t1.instrcnt + 1 }, ?_, by rw [c1]; exact d1, by rw [c2]; exact d2,
    by simp only; rw [d3], by simp only; rw [d5, hch],
    by simp only; rw [d1, d2, d4, c1, c2]⟩
  unfold twostep2_iter
  rw [ht1]
  dsimp only
  rw [hdet]
  dsimp only
  rw [f2, f3, f4]
  simp only [Bool.false_eq_true, or_self, if_false]
  rw [if_neg (by rw [d3]; omega), if_neg f5]
  unfold twostep2_peek
  dsimp only
  rw [f6]
  dsimp only
  rw [e7]
  simp

/-- The replay follows `onestep`: as long as the pairs (context, state) that
`onestep` reaches are pairwise distinct and `nsteps` is not reached, the
replay has the same context and state after the same number of
instructions, and its dictionary holds the pairs reached so far. -/
theorem twostep2_follows (g : global) (cb : collab) (choice : hvalue) (infloop_detect : Bool)
    (multiplicity nsteps : Nat) (ls0 : loop_state) (ts0 : replay_state)
    (h0 : ls0.infloop = none) (hc : ls0.instrcnt = 0)
    (hctx0 : ts0.ctx = ls0.ctx) (hsc0 : ts0.sc = ls0.sc) (hcnt0 : ts0.instrcnt = 0)
    (hinf0 : ts0.infloop = none) (hch0 : ts0.choice = choice) (t : Nat) :
    ∀ l, onestep_after g cb choice infloop_detect multiplicity t ls0 = some l → t < nsteps →
      (∀ i i1 li li1, 1 ≤ i → i < i1 → i1 ≤ t →
        onestep_after g cb choice infloop_detect multiplicity i ls0 = some li →
        onestep_after g cb choice infloop_detect multiplicity i1 ls0 = some li1 →
        ¬ (li1.ctx = li.ctx ∧ li1.sc = li.sc)) →
      ∃ T, twostep2_after g cb nsteps t ts0 = some T ∧ T.ctx = l.ctx ∧ T.sc = l.sc ∧
        T.instrcnt = t ∧ T.choice = choice ∧
        (∀ p, p ∈ T.infloop.getD [] ↔ ∃ i li, 1 ≤ i ∧ i ≤ t ∧
          onestep_after g cb choice infloop_detect multiplicity i ls0 = some li ∧
          p = (li.ctx, li.sc)) := by
  induction t with
  | zero =>
    intro l hl _ _
    simp only [onestep_after, Option.some.injEq] at hl
    subst hl
    refine ⟨ts0, rfl, hctx0, hsc0, hcnt0, hch0, ?_⟩
    intro p
    rw [hinf0]
    constructor
    · intro hp; simp at hp
    · rintro ⟨i, _, h1, h2, _⟩; omega
  | succ t ih =>
    intro l1 hl1 hlt hdist
    obtain ⟨l, hl, hit⟩ :=
      onestep_after_succ g cb choice infloop_detect multiplicity ls0 t l1 hl1
    obtain ⟨T, hT, e1, e2, e3, e4, e5⟩ := ih l hl (by omega)
      (fun i i1 li li1 a b c => hdist i i1 li li1 a b (by omega))
    have hnew : (l1.ctx, l1.sc) ∉ T.infloop.getD [] := by
      intro hp
      obtain ⟨i, li, a, b, c, d⟩ := (e5 _).mp hp
      simp only [Prod.mk.injEq] at d
      exact hdist i (t + 1) li l1 a (by omega) (le_refl _) c hl1 d
    have hcnt : T.instrcnt = l.instrcnt := by
      rw [e3, (onestep_after_infloop g cb choice infloop_detect multiplicity ls0 h0 hc t l hl).1]
    obtain ⟨t3, g1, g2, g3, g4, g5, g6⟩ := twostep2_iter_again g cb choice infloop_detect
      multiplicity nsteps l l1 T hit e1 e2 hcnt e4 hnew (by rw [e3]; exact hlt)
    refine ⟨t3, ?_, g2, g3, by rw [g4, e3], g5, ?_⟩
    · unfold twostep2_after
      rw [hT]
      dsimp only
      rw [g1]
    · intro p
      rw [g6]
      simp only [Option.getD_some, List.mem_cons]
      constructor
      · rintro (hp | hp)
        · exact ⟨t + 1, l1, by omega, le_refl _, hl1, hp⟩
        · obtain ⟨i, li, a, b, c, d⟩ := (e5 p).mp hp
          exact ⟨i, li, a, by omega, c, d⟩
      · rintro ⟨i, li, a, b, c, d⟩
        by_cases hi : i = t + 1
        · subst hi
          rw [hl1] at c
          simp only [Option.some.injEq] at c
          subst c
          exact Or.inl d
        · exact Or.inr ((e5 p).mpr ⟨i, li, a, by omega, c, d⟩)

/-- The last iteration of the replay when the context reached terminated or
failed, or when the pair reached is new and the context stopped or `nsteps`
is reached: the replay ends in the context reached. -/
theorem twostep2_iter_last (g : global) (cb : collab) (choice : hvalue)
    (multiplicity nsteps : Nat) (l a : loop_state) (t : replay_state)
    (he : onestep_exec g cb choice multiplicity l = some a)
    (hctx : t.ctx = l.ctx) (hsc : t.sc = l.sc) (hcnt : t.instrcnt = l.instrcnt)
    (hch : t.choice = choice)
    (hend : (a.ctx.terminated = true ∨ a.ctx.failed = true) ∨
      ((a.ctx, a.sc) ∉ t.infloop.getD [] ∧
        (a.ctx.stopped = true ∨ t.instrcnt + 1 ≥ nsteps))) :
    ∃ X, twostep2_iter g cb nsteps t = .done X ∧ X.ctx = a.ctx := by
  obtain ⟨t1, ht1, d1, d2, d3, d4, _⟩ :=
    twostep2_exec_eq g cb choice multiplicity l a t hctx hsc hcnt hch he
  unfold twostep2_iter
  rw [ht1]
  dsimp only
  by_cases htf : a.ctx.terminated = true ∨ a.ctx.failed = true
  · have hdet : twostep2_detect cb t1 = t1 := by
      unfold twostep2_detect
      rw [if_neg]
      rw [d1]
      rcases htf with h | h <;> simp [h]
    rw [hdet, if_pos (by rw [d1]; rcases htf with h | h <;> simp [h])]
    exact ⟨t1, rfl, d1⟩
  · rcases hend with hend | ⟨hnew, hstop⟩
    · exact absurd hend htf
    · have f2 : t1.ctx.terminated = false := by
        rw [d1]; cases h : a.ctx.terminated
        · rfl
        · exact absurd (Or.inl h) htf
      have f3 : t1.ctx.failed = false := by
        rw [d1]; cases h : a.ctx.failed
        · rfl
        · exact absurd (Or.inr h) htf
      have hdet := twostep2_detect_new cb t1 f2 f3 (by rw [d1, d2, d4]; exact hnew)
      rw [hdet]
      dsimp only
      by_cases hs : a.ctx.stopped = true
      · rw [if_pos (by rw [d1]; exact Or.inr (Or.inr hs))]
        exact ⟨_, rfl, d1⟩
      · rw [if_neg (by rw [f2, f3, d1]; simpa using hs)]
        rcases hstop with h | h
        · exact absurd h hs
        · rw [if_pos (by rw [d3]; exact h)]
          exact ⟨_, rfl, d1⟩

/-- The last iteration of the replay when the pair reached is in the
dictionary: the context is marked failed with "infinite loop". -/
theorem twostep2_iter_infinite (g : global) (cb : collab) (choice : hvalue)
    (multiplicity nsteps : Nat) (l a : loop_state) (t : replay_state)
    (he : onestep_exec g cb choice multiplicity l = some a)
    (hctx : t.ctx = l.ctx) (hsc : t.sc = l.sc) (hcnt : t.instrcnt = l.instrcnt)
    (hch : t.choice = choice)
    (h2 : a.ctx.terminated = false) (h3 : a.ctx.failed = false)
    (hmem : (a.ctx, a.sc) ∈ t.infloop.getD []) :
    ∃ X, twostep2_iter g cb nsteps t = .done X ∧
      X.ctx = value_ctx_failure cb a.ctx "infinite loop" := by
  obtain ⟨t1, ht1, d1, d2, d3, d4, _⟩ :=
    twostep2_exec_eq g cb choice multiplicity l a t hctx hsc hcnt hch he
  have hdet : twostep2_detect cb t1 =
      { t1 with
        infloop := some (t1.infloop.getD [])
        ctx := value_ctx_failure cb t1.ctx "infinite loop" } := by
    unfold twostep2_detect
    rw [d1, h2, h3, if_pos (by simp), if_pos (by rw [d2, d4]; exact hmem)]
  unfold twostep2_iter
  rw [ht1]
  dsimp only
  rw [hdet]
  dsimp only
  rw [if_pos (by right; left; rfl)]
  exact ⟨_, rfl, by simp only; rw [d1]⟩

/-- The last iteration of the replay when the next instruction is a `Choose`
whose operand is not a set or is the empty set, and `nsteps` allows the peek:
the context is marked failed as `onestep` marks it. -/
theorem twostep2_iter_choose_failure (g : global) (cb : collab) (choice : hvalue)
    (multiplicity nsteps : Nat) (l a : loop_state) (t : replay_state) (ni : instr)
    (he : onestep_exec g cb choice multiplicity l = some a)
    (hctx : t.ctx = l.ctx) (hsc : t.sc = l.sc) (hcnt : t.instrcnt = l.instrcnt)
    (hch : t.choice = choice)
    (h2 : a.ctx.terminated = false) (h3 : a.ctx.failed = false) (h4 : a.ctx.stopped = false)
    (hnew : (a.ctx, a.sc) ∉ t.infloop.getD []) (hn : t.instrcnt + 1 < nsteps)
    (hpc : a.ctx.pc ≠ l.ctx.pc) (hni : g.instrs[a.ctx.pc]? = some ni) (hc : ni.choose = true)
    (hsp : a.ctx.stack.length ≠ 0) :
    (cb.is_set (a.ctx.stack.getD (a.ctx.stack.length - 1) 0) = false →
      ∃ X, twostep2_iter g cb nsteps t = .done X ∧
        X.ctx = value_ctx_failure cb a.ctx "choose operation requires a set") ∧
    (cb.is_set (a.ctx.stack.getD (a.ctx.stack.length - 1) 0) = true →
      (cb.set_elems (a.ctx.stack.getD (a.ctx.stack.length - 1) 0)).length = 0 →
      ∃ X, twostep2_iter g cb nsteps t = .done X ∧
        X.ctx = value_ctx_failure cb a.ctx "choose operation requires a non-empty set") := by
  obtain ⟨t1, ht1, d1, d2, d3, d4, _⟩ :=
    twostep2_exec_eq g cb choice multiplicity l a t hctx hsc hcnt hch he
  have f2 : t1.ctx.terminated = false := by rw [d1]; exact h2
  have f3 : t1.ctx.failed = false := by rw [d1]; exact h3
  have f4 : t1.ctx.stopped = false := by rw [d1]; exact h4
  have f5 : ¬ t1.ctx.pc = t.ctx.pc := by rw [d1, hctx]; exact hpc
  have f6 : g.instrs[t1.ctx.pc]? = some ni := by rw [d1]; exact hni
  have f7 : ¬ t1.ctx.stack.length = 0 := by rw [d1]; exact hsp
  have hdet := twostep2_detect_new cb t1 f2 f3 (by rw [d1, d2, d4]; exact hnew)
  have hiter : twostep2_iter g cb nsteps t =
      twostep2_peek g cb { t1 with
        infloop := some ((t1.ctx, t1.sc) :: t1.infloop.getD [])
        instrcnt := t1.instrcnt + 1 } := by
    unfold twostep2_iter
    rw [ht1]
    dsimp only
    rw [hdet]
    dsimp only
    rw [f2, f3, f4]
    simp only [Bool.false_eq_true, or_self, if_false]
    rw [if_neg (by rw [d3]; omega), if_neg f5]
  rw [hiter]
  unfold twostep2_peek
  dsimp only
  rw [f6]
  dsimp only
  rw [if_pos hc, if_neg f7]
  constructor
  · intro hs
    rw [d1, hs]
    simp only [Bool.not_false, if_true]
    exact ⟨_, rfl, rfl⟩
  · intro hs he0
    rw [d1, hs]
    simp only [Bool.not_true, Bool.false_eq_true, if_false]
    rw [if_pos he0]
    exact ⟨_, rfl, rfl⟩

/-- The value `twostep2` returns when its loop is left in iteration `t + 1`. -/
theorem twostep2_ret (fuel : Nat) (g : global) (cb : collab) (node_state : state)
    (ctx choice : hvalue) (interrupt : Bool) (nsteps t : Nat) (T X : replay_state)
    (h1 : ¬ ((cb.value_get_context ctx).terminated ∨ (cb.value_get_context ctx).failed))
    (h2 : ¬ (interrupt ∧
      (!(cb.value_get_context ctx).extended ∨ (cb.value_get_context ctx).trap_pc = 0)))
    (hT : twostep2_after g cb nsteps t (twostep2_start cb node_state ctx choice interrupt)
      = some T)
    (hX : twostep2_iter g cb nsteps T = .done X) (hf : t < fuel) :
    twostep2 fuel g cb node_state ctx choice interrupt nsteps
      = .ret (cb.value_put_context X.ctx) := by
  unfold twostep2
  rw [if_neg h1, if_neg h2,
    twostep2_loop_of_after g cb nsteps (.done X) (by intro t ht; cases ht) t _ T fuel hT hX hf]

/-- Where the snapshot of a lazily entered atomic section comes from: either
the context was in such a section before the instruction and the snapshot is
kept, or the instruction took the snapshot, of the context it started from.
The hypothesis says that only an `AtomicInc` executed outside an atomic
section enters one lazily. -/
theorem onestep_exec_snapshot (g : global) (cb : collab) (choice : hvalue) (multiplicity : Nat)
    (hops : ∀ ins ∈ g.instrs, ∀ (s : state) (c : context), lazy_atomic (ins.op s c).2 →
      lazy_atomic c ∨ (ins.atomicinc = true ∧ c.atomic = 0 ∧ c.atomicFlag = false))
    (l a : loop_state) (he : onestep_exec g cb choice multiplicity l = some a)
    (hlazy : lazy_atomic a.ctx) :
    (lazy_atomic l.ctx ∧ a.as_context = l.as_context ∧ a.as_instrcnt = l.as_instrcnt) ∨
    (l.instrcnt ≠ 0 ∧ a.as_context = cb.value_put_context l.ctx ∧
      a.as_instrcnt = l.instrcnt) := by
  unfold onestep_exec at he
  cases hi : g.instrs[l.ctx.pc]? with
  | none => rw [hi] at he; cases he
  | some ins =>
    rw [hi] at he
    dsimp only at he
    have hmem : ins ∈ g.instrs := List.getElem?_mem hi
    by_cases h1 : ins.choose = true
    · rw [if_pos h1] at he
      by_cases h2 : l.ctx.stack.length = 0 ∨ choice = 0
      · rw [if_pos h2] at he; cases he
      · rw [if_neg h2] at he
        cases he
        exact Or.inl ⟨hlazy, rfl, rfl⟩
    · rw [if_neg h1] at he
      by_cases h3 : ins.atomicinc = true
      · rw [if_pos h3] at he
        by_cases h4 : l.instrcnt = 0
        · rw [if_pos h4] at he
          cases he
          rcases hops ins hmem _ _ hlazy with h | ⟨_, _, h⟩
          · exact absurd h.2 (by simp)
          · exact absurd h (by simp)
        · rw [if_neg h4] at he
          by_cases h5 : l.ctx.atomic = 0
          · rw [if_pos h5] at he
            cases he
            exact Or.inr ⟨h4, rfl, rfl⟩
          · rw [if_neg h5] at he
            cases he
            rcases hops ins hmem _ _ hlazy with h | ⟨_, h, _⟩
            · exact Or.inl ⟨h, rfl, rfl⟩
            · exact absurd h h5
      · rw [if_neg h3] at he
        by_cases h6 : ins.atomicdec = true
        · rw [if_pos h6] at he
          by_cases h7 : (ins.op l.sc l.ctx).2.atomic = 0
          · rw [if_pos h7] at he
            cases he
            exact absurd hlazy.1 (by simp only; omega)
          · rw [if_neg h7] at he
            cases he
            rcases hops ins hmem _ _ hlazy with h | ⟨h, _, _⟩
            · exact Or.inl ⟨h, rfl, rfl⟩
            · exact absurd h h3
        · rw [if_neg h6] at he
          cases he
          rcases hops ins hmem _ _ hlazy with h | ⟨h, _, _⟩
          · exact Or.inl ⟨h, rfl, rfl⟩
          · exact absurd h h3

/-- The ways in which the peek at the next instruction ends the macrostep. -/
theorem onestep_peek_done (cb : collab) (ni : instr) (l r : loop_state) (fl : exit_flags)
    (h : onestep_peek cb ni l = .done r fl) :
    (ni.choose = true ∧ l.ctx.stack.length ≠ 0 ∧ fl.rollback = false ∧
      fl.infinite_loop = false ∧ r.instrcnt = l.instrcnt + 1 ∧
      ((cb.is_set (l.ctx.stack.getD (l.ctx.stack.length - 1) 0) = false ∧
        r.ctx = value_ctx_failure cb l.ctx "choose operation requires a set") ∨
       (cb.is_set (l.ctx.stack.getD (l.ctx.stack.length - 1) 0) = true ∧
        (cb.set_elems (l.ctx.stack.getD (l.ctx.stack.length - 1) 0)).length = 0 ∧
        r.ctx = value_ctx_failure cb l.ctx "choose operation requires a non-empty set"))) ∨
    (fl.rollback = true ∧ fl.infinite_loop = false ∧ r = l ∧ lazy_atomic l.ctx) ∨
    (fl.rollback = false ∧ fl.infinite_loop = false ∧ r = l) := by
  unfold onestep_peek at h
  dsimp only at h
  by_cases hc : ni.choose = true
  · rw [if_pos hc] at h
    by_cases hs : l.ctx.stack.length = 0
    · rw [if_pos hs] at h; cases h
    rw [if_neg hs] at h
    cases hset : cb.is_set (l.ctx.stack.getD (l.ctx.stack.length - 1) 0)
    · rw [hset] at h
      simp only [Bool.not_false, if_true] at h
      cases h
      exact Or.inl ⟨hc, hs, rfl, rfl, rfl, Or.inl ⟨rfl, rfl⟩⟩
    · rw [hset] at h
      simp only [Bool.not_true, Bool.false_eq_true, if_false] at h
      by_cases he : (cb.set_elems (l.ctx.stack.getD (l.ctx.stack.length - 1) 0)).length = 0
      · rw [if_pos he] at h
        cases h
        exact Or.inl ⟨hc, hs, rfl, rfl, rfl, Or.inr ⟨rfl, he, rfl⟩⟩
      · rw [if_neg he] at h
        by_cases hl : l.ctx.atomic > 0 ∧ (!l.ctx.atomicFlag) = true
        · rw [if_pos hl] at h
          cases h
          exact Or.inr (Or.inl ⟨rfl, rfl, rfl, hl.1, by simpa using hl.2⟩)
        · rw [if_neg hl] at h
          cases h
          exact Or.inr (Or.inr ⟨rfl, rfl, rfl⟩)
  · rw [if_neg hc] at h
    by_cases hf : (!l.ctx.atomicFlag) = true
    · rw [if_pos hf] at h
      by_cases hb : onestep_breakable cb ni l.ctx = true
      · rw [if_pos hb] at h
        by_cases hl : l.ctx.atomic > 0 ∧ (!l.ctx.atomicFlag) = true
        · rw [if_pos hl] at h
          cases h
          exact Or.inr (Or.inl ⟨rfl, rfl, rfl, hl.1, by simpa using hl.2⟩)
        · rw [if_neg hl] at h
          cases h
          exact Or.inr (Or.inr ⟨rfl, rfl, rfl⟩)
      · rw [if_neg hb] at h; cases h
    · rw [if_neg hf] at h; cases h

/-- The ways in which an iteration ends the macrostep, in terms of the local
variables `a` that the instruction leaves: the context terminated or failed;
or it did neither and the macrostep ends in that context; or the detector
found the pair; or the next instruction is a `Choose` without a non-empty
set; or the macrostep is rolled back. -/
theorem onestep_iter_done (g : global) (cb : collab) (choice : hvalue) (infloop_detect : Bool)
    (multiplicity : Nat) (lj r : loop_state) (fl : exit_flags)
    (h : onestep_iter g cb choice infloop_detect multiplicity lj = .done r fl) :
    ∃ a, onestep_exec g cb choice multiplicity lj = some a ∧
      ((fl.rollback = false ∧ fl.infinite_loop = false ∧ r.ctx = a.ctx ∧
          r.instrcnt = a.instrcnt + 1 ∧
          (a.ctx.terminated = true ∨ a.ctx.failed = true)) ∨
       (fl.rollback = false ∧ fl.infinite_loop = false ∧ r.ctx = a.ctx ∧
          r.instrcnt = a.instrcnt + 1 ∧
          a.ctx.terminated = false ∧ a.ctx.failed = false) ∨
       (fl.rollback = false ∧ fl.infinite_loop = true ∧ infloop_detect = true ∧
          r.ctx = value_ctx_failure cb a.ctx "infinite loop" ∧
          r.instrcnt = a.instrcnt + 1 ∧
          a.ctx.terminated = false ∧ a.ctx.failed = false ∧
          (a.ctx, a.sc) ∈ a.infloop.getD []) ∨
       (fl.rollback = false ∧ fl.infinite_loop = false ∧ r.instrcnt = a.instrcnt + 2 ∧
          a.ctx.terminated = false ∧ a.ctx.failed = false ∧ a.ctx.stopped = false ∧
          a.ctx.pc ≠ lj.ctx.pc ∧ a.ctx.stack.length ≠ 0 ∧
          (∃ ni, g.instrs[a.ctx.pc]? = some ni ∧ ni.choose = true) ∧
          ((cb.is_set (a.ctx.stack.getD (a.ctx.stack.length - 1) 0) = false ∧
            r.ctx = value_ctx_failure cb a.ctx "choose operation requires a set") ∨
           (cb.is_set (a.ctx.stack.getD (a.ctx.stack.length - 1) 0) = true ∧
            (cb.set_elems (a.ctx.stack.getD (a.ctx.stack.length - 1) 0)).length = 0 ∧
            r.ctx = value_ctx_failure cb a.ctx "choose operation requires a non-empty set"))) ∨
       (fl.rollback = true ∧ fl.infinite_loop = false ∧ lazy_atomic a.ctx ∧
          r.as_context = a.as_context ∧ r.as_instrcnt = a.as_instrcnt)) := by
  have hnext : ∀ (x : loop_state), onestep_next g cb lj.ctx.pc x = .done r fl →
      x.ctx.terminated = false → x.ctx.failed = false → x.ctx.stopped = false →
      (fl.rollback = false ∧ fl.infinite_loop = false ∧ r.ctx = x.ctx ∧
          r.instrcnt = x.instrcnt ∧ x.ctx.terminated = false ∧ x.ctx.failed = false) ∨
      (fl.rollback = false ∧ fl.infinite_loop = false ∧ r.instrcnt = x.instrcnt + 1 ∧
          x.ctx.terminated = false ∧ x.ctx.failed = false ∧ x.ctx.stopped = false ∧
          x.ctx.pc ≠ lj.ctx.pc ∧ x.ctx.stack.length ≠ 0 ∧
          (∃ ni, g.instrs[x.ctx.pc]? = some ni ∧ ni.choose = true) ∧
          ((cb.is_set (x.ctx.stack.getD (x.ctx.stack.length - 1) 0) = false ∧
            r.ctx = value_ctx_failure cb x.ctx "choose operation requires a set") ∨
           (cb.is_set (x.ctx.stack.getD (x.ctx.stack.length - 1) 0) = true ∧
            (cb.set_elems (x.ctx.stack.getD (x.ctx.stack.length - 1) 0)).length = 0 ∧
            r.ctx = value_ctx_failure cb x.ctx "choose operation requires a non-empty set"))) ∨
      (fl.rollback = true ∧ fl.infinite_loop = false ∧ lazy_atomic x.ctx ∧
          r.as_context = x.as_context ∧ r.as_instrcnt = x.as_instrcnt) := by
    intro x hx t2 t3 t4
    unfold onestep_next at hx
    by_cases hpc : x.ctx.pc = lj.ctx.pc
    · rw [if_pos hpc] at hx; cases hx
    rw [if_neg hpc] at hx
    cases hi : g.instrs[x.ctx.pc]? with
    | none => rw [hi] at hx; cases hx
    | some ni =>
      rw [hi] at hx
      dsimp only at hx
      rcases onestep_peek_done cb ni x r fl hx with
        ⟨p1, p2, p3, p4, p5, p6⟩ | ⟨p1, p2, p3, p4⟩ | ⟨p1, p2, p3⟩
      · exact Or.inr (Or.inl ⟨p3, p4, p5, t2, t3, t4, hpc, p2, ⟨ni, rfl, p1⟩, p6⟩)
      · subst p3
        exact Or.inr (Or.inr ⟨p1, p2, p4, rfl, rfl⟩)
      · subst p3
        exact Or.inl ⟨p1, p2, rfl, rfl, t2, t3⟩
  unfold onestep_iter at h
  cases he : onestep_exec g cb choice multiplicity lj with
  | none => rw [he] at h; cases h
  | some a =>
    rw [he] at h
    dsimp only at h
    refine ⟨a, rfl, ?_⟩
    by_cases h1 : ¬ (a.ctx.pc < g.instrs.length)
    · rw [if_pos h1] at h; cases h
    rw [if_neg h1] at h
    by_cases h2 : a.ctx.terminated = true
    · rw [if_pos h2] at h
      cases h
      exact Or.inl ⟨rfl, rfl, rfl, rfl, Or.inl h2⟩
    rw [if_neg h2] at h
    by_cases h3 : a.ctx.failed = true
    · rw [if_pos h3] at h
      cases h
      exact Or.inl ⟨rfl, rfl, rfl, rfl, Or.inr h3⟩
    rw [if_neg h3] at h
    have h2' : a.ctx.terminated = false := by simpa using h2
    have h3' : a.ctx.failed = false := by simpa using h3
    by_cases h4 : a.ctx.stopped = true
    · rw [if_pos h4] at h
      cases h
      exact Or.inr (Or.inl ⟨rfl, rfl, rfl, rfl, h2', h3'⟩)
    rw [if_neg h4] at h
    have h4' : a.ctx.stopped = false := by simpa using h4
    have hcase : (infloop_detect = true ∧ (a.ctx, a.sc) ∈ a.infloop.getD [] ∧
          r = { a with
            instrcnt := a.instrcnt + 1
            infloop := some (a.infloop.getD [])
            ctx := value_ctx_failure cb a.ctx "infinite loop" } ∧
          fl = { failure := true, infinite_loop := true }) ∨
        ∃ x : loop_state, x.ctx = a.ctx ∧ x.instrcnt = a.instrcnt + 1 ∧
          x.as_context = a.as_context ∧ x.as_instrcnt = a.as_instrcnt ∧
          onestep_next g cb lj.ctx.pc x = .done r fl := by
      by_cases h5 : infloop_detect = true ∨ a.instrcnt + 1 > 1000
      · rw [if_pos h5] at h
        by_cases h6 : (a.ctx, a.sc) ∈ a.infloop.getD []
        · rw [if_pos h6] at h
          by_cases h7 : infloop_detect = true
          · rw [if_pos h7] at h
            cases h
            exact Or.inl ⟨h7, h6, rfl, rfl⟩
          · rw [if_neg h7] at h; cases h
        · rw [if_neg h6] at h
          exact Or.inr (by refine ⟨_, ?_, ?_, ?_, ?_, h⟩ <;> rfl)
      · rw [if_neg h5] at h
        exact Or.inr (by refine ⟨_, ?_, ?_, ?_, ?_, h⟩ <;> rfl)
    rcases hcase with ⟨h7, h6, hr, hfl⟩ | ⟨x, c1, c2, c3, c4, hx⟩
    · subst hr hfl
      exact Or.inr (Or.inr (Or.inl ⟨rfl, rfl, h7, rfl, rfl, h2', h3', h6⟩))
    · rcases hnext x hx (by rw [c1]; exact h2') (by rw [c1]; exact h3') (by rw [c1]; exact h4')
        with ⟨q1, q2, q3, q4, q5, q6⟩ | ⟨q1, q2, q3, q4, q5, q6, q7, q8, q9, q10⟩ |
          ⟨q1, q2, q3, q4, q5⟩
      · exact Or.inr (Or.inl ⟨q1, q2, by rw [q3, c1], by rw [q4, c2], h2', h3'⟩)
      · rw [c1] at q7 q8 q9 q10
        exact Or.inr (Or.inr (Or.inr (Or.inl
          ⟨q1, q2, by rw [q3, c2], h2', h3', h4', q7, q8, q9, q10⟩)))
      · rw [c1] at q3
        exact Or.inr (Or.inr (Or.inr (Or.inr ⟨q1, q2, q3, by rw [q4, c3], by rw [q5, c4]⟩)))

/-- The entry assertions of `onestep` hold in every call that returns. -/
theorem onestep_entry (fuel : Nat) (g : global) (cb : collab) (w : worker) (node : Nat)
    (sc : state) (ctx : hvalue) (st : step) (choice : hvalue) (interrupt infloop_detect : Bool)
    (multiplicity : Nat) (r : Bool × worker × step)
    (h : onestep fuel g cb w node sc ctx st choice interrupt infloop_detect multiplicity
      = .ret r) :
    ¬ (st.ctx.terminated ∨ st.ctx.failed) ∧
    ¬ (interrupt ∧ (!st.ctx.extended ∨ st.ctx.trap_pc = 0)) := by
  unfold onestep at h
  by_cases h1 : st.ctx.terminated = true ∨ st.ctx.failed = true
  · rw [if_pos h1] at h; cases h
  · rw [if_neg h1] at h
    by_cases h2 : interrupt = true ∧ ((!st.ctx.extended) = true ∨ st.ctx.trap_pc = 0)
    · rw [if_pos h2] at h; cases h
    · exact ⟨h1, h2⟩

/-- In the program only `AtomicInc` raises the atomic count, and no
instruction clears the `atomicFlag` inside an atomic section. -/
theorem demo_global_lazy : ∀ ins ∈ demo_global.instrs, ∀ (s : state) (c : context),
    lazy_atomic (ins.op s c).2 →
    lazy_atomic c ∨ (ins.atomicinc = true ∧ c.atomic = 0 ∧ c.atomicFlag = false) := by
  intro ins hmem s c hl
  simp only [demo_global, List.mem_cons, List.mem_singleton, List.not_mem_nil, or_false] at hmem
  rcases hmem with rfl | rfl | rfl | rfl | rfl | rfl | rfl | rfl | rfl | rfl | rfl | rfl | rfl |
    rfl | rfl | rfl | rfl | rfl | rfl | rfl
  case inr.inr.inr.inr.inr.inr.inr.inr.inr.inr.inr.inr.inr.inr.inr.inr.inl =>
    by_cases h : c.atomic = 0
    · exact Or.inr ⟨rfl, h, hl.2⟩
    · exact Or.inl ⟨Nat.pos_of_ne_zero h, hl.2⟩
  case inr.inr.inr.inr.inr.inr.inr.inr.inr.inr.inr.inr.inr.inr.inr.inr.inr.inr.inl =>
    left
    obtain ⟨h1, h2⟩ := hl
    simp only [demo_atomic_dec, demo_instr] at h1 h2
    have h3 : ¬ c.atomic - 1 = 0 := by omega
    rw [if_neg h3] at h2
    exact ⟨by omega, h2⟩
  all_goals exact Or.inl hl

/-- The thread at pc 15 of the program is rolled back to the start of its
atomic section. -/
theorem demo_rollback_step : ∃ w1 st1, demo_onestep 15 false = .ret (true, w1, st1) :=
  outcome_ret_of_fst _ _ (by decide!)

/-- The edge of the rolled-back macrostep and its replay, evaluated: one
instruction, ending in the context at pc 16 (handle 17). -/
theorem demo_rollback_replay :
    (demo_onestep 15 false).toOption.map
      (fun r => r.2.1.edges.map (fun e => (e.src, e.ctx, e.after, e.nsteps)))
      = some [(0, 16, 17, 1)] ∧
    twostep2 5 demo_global demo_collab (demo_state 15) 16 0 false 1 = .ret 17 :=
  ⟨by decide!, by decide!⟩

/-! ## Theorems: hashtab.c, growth -/

/-- The doubling loop of `ht_grow_prepare` returns the first of
`nbuckets, 2 * nbuckets, 4 * nbuckets, ..` that is at least `10 * nobjects`,
when no product leaves the range of `unsigned int` and the fuel covers the
doublings. -/
theorem ht_grow_loop_spec (nobjects : Nat) (hobj : nobjects * 10 ≤ 2 ^ 31) (f : Nat) :
    ∀ nb, 0 < nb → nb < 2 ^ 32 → nobjects * 10 ≤ nb * 2 ^ f →
      ∃ k, ht_grow_loop nobjects (f + 1) nb = some (nb * 2 ^ k) ∧
        nobjects * 10 ≤ nb * 2 ^ k ∧ nb * 2 ^ k < 2 ^ 32 ∧
        ∀ k1, k1 < k → nb * 2 ^ k1 < nobjects * 10 := by
  have hu : u32 (nobjects * 10) = nobjects * 10 := by
    unfold u32
    exact Nat.mod_eq_of_lt (by omega)
  induction f with
  | zero =>
    intro nb h0 h1 h2
    refine ⟨0, ?_, by simpa using h2, by simpa using h1, by intro k1 hk; omega⟩
    unfold ht_grow_loop
    rw [hu, if_neg (by simp at h2; omega)]
    simp
  | succ f ih =>
    intro nb h0 h1 h2
    by_cases hlt : nb < nobjects * 10
    · have h2n : u32 (nb * 2) = nb * 2 := by
        unfold u32
        exact Nat.mod_eq_of_lt (by omega)
      obtain ⟨k, e1, e2, e3, e4⟩ := ih (nb * 2) (by omega) (by omega)
        (by rw [Nat.pow_succ] at h2; calc nobjects * 10 ≤ nb * (2 ^ f * 2) := h2
              _ = nb * 2 * 2 ^ f := by ring)
      refine ⟨k + 1, ?_, ?_, ?_, ?_⟩
      · unfold ht_grow_loop
        rw [hu, if_pos hlt, h2n, e1]
        congr 1
        rw [Nat.pow_succ]; ring
      · calc nobjects * 10 ≤ nb * 2 * 2 ^ k := e2
          _ = nb * 2 ^ (k + 1) := by rw [Nat.pow_succ]; ring
      · calc nb * 2 ^ (k + 1) = nb * 2 * 2 ^ k := by rw [Nat.pow_succ]; ring
          _ < 2 ^ 32 := e3
      · intro k1 hk
        cases k1 with
        | zero => simpa using hlt
        | succ k1 =>
          have := e4 k1 (by omega)
          calc nb * 2 ^ (k1 + 1) = nb * 2 * 2 ^ k1 := by rw [Nat.pow_succ]; ring
            _ < nobjects * 10 := this
    · refine ⟨0, ?_, by simpa using Nat.le_of_not_lt hlt, by simpa using h1,
        by intro k1 hk; omega⟩
      unfold ht_grow_loop
      rw [hu, if_neg hlt]
      simp

/-- Inside the range of `unsigned int`: `ht_grow_prepare` adds the per-worker
counts to `nobjects` and resets them to 0.  If `nbuckets < 2 * nobjects` it
keeps the previous array
and its size in `old_buckets` / `old_nbuckets` and swaps in an array of
`8 * nbuckets * 2 ^ k` buckets, `k` the least number for which this is at
least `10 * nobjects`; otherwise `nbuckets` and `buckets` stay and
`old_buckets` is `NULL`.  In both cases `nbuckets >= 2 * nobjects`
afterwards.  The sizes are taken in the range of `unsigned int`:
`8 * nbuckets < 2 ^ 32` and `10 * nobjects <= 2 ^ 31`. -/
theorem ht_grow_prepare_spec (ht : hashtab) (hc : ht.concurrent = true)
    (hcounts : ht.counts.length = ht.nworkers) (hnb : 0 < ht.nbuckets)
    (h8 : ht.nbuckets * 8 < 2 ^ 32) (hobj : (ht.nobjects + ht.counts.sum) * 10 ≤ 2 ^ 31) :
    ∃ ht1, ht_grow_prepare ht = some ht1 ∧
      ht1.nobjects = ht.nobjects + ht.counts.sum ∧
      ht1.counts = List.replicate ht.nworkers 0 ∧
      ht1.concurrent = true ∧ ht1.nworkers = ht.nworkers ∧ ht1.nalloc = ht.nalloc ∧
      (ht.nbuckets < 2 * ht1.nobjects →
        ht1.old_buckets = some ht.buckets ∧ ht1.old_nbuckets = ht.nbuckets ∧
        ht1.buckets.length = ht1.nbuckets ∧
        ∃ k, ht1.nbuckets = 8 * ht.nbuckets * 2 ^ k ∧ 10 * ht1.nobjects ≤ ht1.nbuckets ∧
          ∀ k1, k1 < k → 8 * ht.nbuckets * 2 ^ k1 < 10 * ht1.nobjects) ∧
      (¬ ht.nbuckets < 2 * ht1.nobjects →
        ht1.nbuckets = ht.nbuckets ∧ ht1.buckets = ht.buckets ∧
        ht1.old_buckets = none ∧ ht1.old_nbuckets = 0) ∧
      2 * ht1.nobjects ≤ ht1.nbuckets := by
  have htake : (ht.counts.take ht.nworkers).sum = ht.counts.sum := by
    rw [List.take_of_length_le (by omega)]
  have hrep : List.replicate (min ht.nworkers ht.counts.length) 0 ++ ht.counts.drop ht.nworkers
      = List.replicate ht.nworkers 0 := by
    rw [List.drop_of_length_le (by omega), List.append_nil, hcounts, Nat.min_self]
  have hu0 : u32 (ht.nobjects + ht.counts.sum) = ht.nobjects + ht.counts.sum := by
    unfold u32
    exact Nat.mod_eq_of_lt (by omega)
  have hu2 : u32 ((ht.nobjects + ht.counts.sum) * 2) = (ht.nobjects + ht.counts.sum) * 2 := by
    unfold u32
    exact Nat.mod_eq_of_lt (by omega)
  have hu8 : u32 (ht.nbuckets * 8) = ht.nbuckets * 8 := by
    unfold u32
    exact Nat.mod_eq_of_lt h8
  unfold ht_grow_prepare
  rw [if_pos hc]
  simp only [htake, hrep, hu0, hu2, hu8]
  by_cases hlt : ht.nbuckets < (ht.nobjects + ht.counts.sum) * 2
  · rw [if_pos hlt]
    obtain ⟨k, e1, e2, e3, e4⟩ := ht_grow_loop_spec (ht.nobjects + ht.counts.sum) hobj 63
      (ht.nbuckets * 8) (by omega) h8
      (by
        have : (2 : Nat) ^ 31 ≤ 2 ^ 63 := Nat.pow_le_pow_right (by omega) (by omega)
        calc (ht.nobjects + ht.counts.sum) * 10 ≤ 2 ^ 31 := hobj
          _ ≤ 2 ^ 63 := this
          _ ≤ ht.nbuckets * 8 * 2 ^ 63 := Nat.le_mul_of_pos_left _ (by omega))
    rw [e1]
    refine ⟨_, rfl, rfl, rfl, hc, rfl, rfl, ?_, ?_, ?_⟩
    · intro _
      refine ⟨rfl, rfl, by simp, k, by simp only; ring, by simp only; omega, ?_⟩
      intro k1 hk
      have := e4 k1 hk
      calc 8 * ht.nbuckets * 2 ^ k1 = ht.nbuckets * 8 * 2 ^ k1 := by ring
        _ < (ht.nobjects + ht.counts.sum) * 10 := this
        _ = 10 * (ht.nobjects + ht.counts.sum) := by ring
    · intro hge
      exact absurd (by simp only; omega) hge
    · simp only
      omega
  · rw [if_neg hlt]
    refine ⟨_, rfl, rfl, rfl, hc, rfl, rfl, ?_, ?_, ?_⟩
    · intro h
      exact absurd (by simp only at h; omega) hlt
    · intro _
      exact ⟨rfl, rfl, rfl, rfl⟩
    · simp only
      omega

/-- With 600 insertions counted a table of 1024 buckets grows to 8192
buckets. -/
theorem ht_grow_prepare_spec_witness :
    ∃ ht1, ht_grow_prepare { ht_new 8 0 2 false with concurrent := true, counts := [600, 0] }
        = some ht1 ∧
      ht1.nobjects = 600 ∧ ht1.counts = [0, 0] ∧ ht1.old_nbuckets = 1024 ∧
      ht1.nbuckets = 8192 ∧ 2 * ht1.nobjects ≤ ht1.nbuckets := by
  obtain ⟨ht1, h, e1, e2, _, _, _, e3, _, e5⟩ := ht_grow_prepare_spec
    { ht_new 8 0 2 false with concurrent := true, counts := [600, 0] } rfl rfl
    (by show 0 < 1024; omega) (by show 1024 * 8 < 2 ^ 32; norm_num)
    (by show (0 + (600 + (0 + 0))) * 10 ≤ 2 ^ 31; norm_num)
  have e1' : ht1.nobjects = 600 := e1
  obtain ⟨_, e4, _, k, e6, e7, e8⟩ := e3 (by rw [e1']; show 1024 < 2 * 600; omega)
  have hk : k = 0 := by
    by_contra hne
    have := e8 0 (Nat.pos_of_ne_zero hne)
    rw [e1'] at this
    change 8 * 1024 * 2 ^ 0 < 10 * 600 at this
    omega
  refine ⟨ht1, h, e1', e2, e4, ?_, e5⟩
  rw [e6, hk]
  rfl

theorem getD_replicate_nil (n i : Nat) :
    (List.replicate n ([] : List ht_node)).getD i [] = [] := by
  rw [List.getD_eq_getElem?_getD, List.getElem?_replicate]
  split <;> rfl

theorem ht_rehash_chain_length (nbuckets : Nat) (chain : List ht_node) :
    ∀ buckets, (ht_rehash_chain nbuckets buckets chain).length = buckets.length := by
  induction chain with
  | nil => intro buckets; rfl
  | cons n rest ih =>
    intro buckets
    unfold ht_rehash_chain
    rw [ih, List.length_set]

theorem ht_rehash_chain_mono (nbuckets : Nat) (chain : List ht_node) :
    ∀ (buckets : List (List ht_node)) (j : Nat) (y : ht_node),
      y ∈ buckets.getD j [] → y ∈ (ht_rehash_chain nbuckets buckets chain).getD j [] := by
  induction chain with
  | nil => intro buckets j y h; exact h
  | cons n rest ih =>
    intro buckets j y h
    unfold ht_rehash_chain
    apply ih
    by_cases hj : meiyan (n.key.take n.size) % nbuckets = j
    · subst hj
      by_cases hlt : meiyan (n.key.take n.size) % nbuckets < buckets.length
      · rw [getD_set_self _ _ _ _ hlt]
        exact List.mem_cons_of_mem _ h
      · rw [List.set_eq_of_length_le (by omega)]
        exact h
    · rw [getD_set_other _ _ _ _ _ hj]
      exact h

/-- The inner loop of `ht_do_resize` puts every node of the old chain in the
bucket of the new array selected by its key, wherever that bucket lies. -/
theorem ht_rehash_chain_fwd (nbuckets : Nat) (hnb : 0 < nbuckets) (chain : List ht_node) :
    ∀ (buckets : List (List ht_node)), buckets.length = nbuckets → ∀ x ∈ chain,
      x ∈ (ht_rehash_chain nbuckets buckets chain).getD
        (meiyan (x.key.take x.size) % nbuckets) [] := by
  induction chain with
  | nil => intro buckets _ x hx; exact absurd hx (List.not_mem_nil x)
  | cons n rest ih =>
    intro buckets hlen x hx
    unfold ht_rehash_chain
    rcases List.mem_cons.mp hx with rfl | hx
    · apply ht_rehash_chain_mono
      rw [getD_set_self _ _ _ _ (by rw [hlen]; exact Nat.mod_lt _ hnb)]
      exact List.mem_cons_self _ _
    · exact ih _ (by rw [List.length_set]; exact hlen) x hx

theorem ht_rehash_range_length (nbuckets : Nat) (old_buckets : List (List ht_node))
    (count : Nat) : ∀ (i : Nat) (buckets : List (List ht_node)),
      (ht_rehash_range nbuckets old_buckets i count buckets).length = buckets.length := by
  induction count with
  | zero => intro i buckets; rfl
  | succ count ih =>
    intro i buckets
    unfold ht_rehash_range
    rw [ih, ht_rehash_chain_length]

theorem ht_rehash_range_mono (nbuckets : Nat) (old_buckets : List (List ht_node))
    (count : Nat) : ∀ (i : Nat) (buckets : List (List ht_node)) (j : Nat) (y : ht_node),
      y ∈ buckets.getD j [] →
      y ∈ (ht_rehash_range nbuckets old_buckets i count buckets).getD j [] := by
  induction count with
  | zero => intro i buckets j y h; exact h
  | succ count ih =>
    intro i buckets j y h
    unfold ht_rehash_range
    exact ih _ _ j y (ht_rehash_chain_mono _ _ _ j y h)

/-- The outer loop of `ht_do_resize` puts every node of the old buckets
`i .. i + count - 1` in the bucket of the new array selected by its key. -/
theorem ht_rehash_range_fwd (nbuckets : Nat) (hnb : 0 < nbuckets)
    (old_buckets : List (List ht_node)) (count : Nat) :
    ∀ (i : Nat) (buckets : List (List ht_node)), buckets.length = nbuckets →
      ∀ t, i ≤ t → t < i + count → ∀ x ∈ old_buckets.getD t [],
      x ∈ (ht_rehash_range nbuckets old_buckets i count buckets).getD
        (meiyan (x.key.take x.size) % nbuckets) [] := by
  induction count with
  | zero => intro i buckets _ t h1 h2; omega
  | succ count ih =>
    intro i buckets hlen t h1 h2 x hx
    unfold ht_rehash_range
    by_cases hti : t = i
    · subst hti
      apply ht_rehash_range_mono
      exact ht_rehash_chain_fwd nbuckets hnb _ buckets hlen x hx
    · exact ih (i + 1) _ (by rw [ht_rehash_chain_length]; exact hlen) t (by omega) (by omega)
        x hx

/-- C13 (defect of `ht_make_stable`): in the table of C10 (two workers, 513
keys inserted by worker 0, grown from 1024 to 8192 buckets) the stripe of
worker 0 in the new array is `[0, 4096)`.  `ht_make_stable(0)` nevertheless
writes bucket 6167 of the new array: the bucket is empty before the call and
holds the node of the key `[5, 0]`, taken from bucket 23 of the old array,
after it. -/
theorem ht_make_stable_writes_outside_stripe :
    ∃ ht0 ht1 nodes n5 ht2 htA,
      ht_set_concurrent (ht_new 8 0 2 false) = some ht0 ∧
      ht_run ht0 ht_demo_calls = some (ht1, nodes) ∧
      n5 ∈ ht1.buckets.getD 23 [] ∧ n5.key = [5, 0] ∧
      ht_grow_prepare ht1 = some ht2 ∧ ht2.old_buckets = some ht1.buckets ∧
      u32 (0 * ht2.nbuckets % 2 ^ 64 / ht2.nworkers) = 0 ∧
      u32 ((0 + 1) * ht2.nbuckets % 2 ^ 64 / ht2.nworkers) = 4096 ∧
      ht_make_stable ht2 0 = some htA ∧
      ht2.buckets.getD 6167 [] = [] ∧ n5 ∈ htA.buckets.getD 6167 [] := by
  have hk1 : meiyan [5, 0] % 1024 = 23 := by decide
  have hk2 : meiyan [5, 0] % 8192 = 6167 := by decide
  have hwf0 : ht_wf { ht_new 8 0 2 false with concurrent := true } := ht_new_wf 8 0 2 false
  have hfresh : ∀ c ∈ ht_demo_calls,
      ∀ m ∈ ({ ht_new 8 0 2 false with concurrent := true } : hashtab).buckets.flatten,
        m.key ≠ c.key := by
    intro c _ m hm
    have hm1 : m ∈ (List.replicate 1024 ([] : List ht_node)).flatten := hm
    rw [flatten_replicate_nil] at hm1
    exact absurd hm1 (List.not_mem_nil m)
  have hcl : (0 : Nat) <
      ({ ht_new 8 0 2 false with concurrent := true } : hashtab).counts.length := by
    show 0 < (List.replicate 2 0).length
    decide
  obtain ⟨ht1, nodes, hrun, hsum, hlen, hno, hnw, _⟩ :=
    ht_run_fresh 0 ht_demo_calls _ hwf0 rfl hcl ht_demo_calls_al ht_demo_calls_nodup hfresh
  obtain ⟨ht1', nodes', hrun', hwf1, hnb1, hc1, hnl, _, hall⟩ :=
    ht_run_spec ht_demo_calls _ hwf0 (fun _ c hc => by rw [ht_demo_calls_al c hc]; simp)
  rw [hrun] at hrun'
  simp only [Option.some.injEq, Prod.mk.injEq] at hrun'
  obtain ⟨rfl, rfl⟩ := hrun'
  have hnb1' : ht1.nbuckets = 1024 := hnb1
  have hc1' : ht1.concurrent = true := hc1
  obtain ⟨n5, hn5⟩ := exists_mem_zip_of_mem ht_demo_calls nodes hnl.symm _ ht_demo_calls_mem
  have hs5 := hall _ hn5
  simp only [ht_call.key] at hs5
  rw [hnb1', hk1] at hs5
  have hmem5 : n5 ∈ ht1.buckets.getD 23 [] := (ht_search_some _ _ _ hs5).1
  have hpl := hwf1.2.2.1 23 (by rw [hwf1.2.1, hnb1']; omega) n5 hmem5
  have hkey5 : n5.key = [5, 0] :=
    ((ht_match_iff n5 [5, 0] hpl.1).mp (ht_search_some _ _ _ hs5).2).2
  have hsum1 : ht1.counts.sum = 513 := by
    have h0 : ({ ht_new 8 0 2 false with concurrent := true } : hashtab).counts.sum = 0 := rfl
    have h1 : ht_demo_calls.length = 513 := by simp [ht_demo_calls]
    rw [hsum, h0, h1]
  have hlen1 : ht1.counts.length = 2 := by
    rw [hlen]
    rfl
  obtain ⟨ht2, hgrow, hc2, hob2, hnw2, hnb2, honb2, _, _, hbk2⟩ :=
    ht_grow_prepare_demo ht1 hc1' hno hnw hlen1 hsum1 hnb1'
  have hA := ht_make_stable_eq ht2 _ 0 hc2 hob2
  have e0 : u32 (0 * 8192 % 2 ^ 64 / 2) = 0 := by decide
  have e1 : u32 ((0 + 1) * 8192 % 2 ^ 64 / 2) = 4096 := by decide
  have f1 : u32 ((0 + 1) * 1024 % 2 ^ 64 / 2) = 512 := by decide
  rw [hnw2, hnb2, honb2, e0, e1, f1] at hA
  refine ⟨_, ht1, nodes, n5, ht2, _, rfl, hrun, hmem5, hkey5, hgrow, hob2,
    by rw [hnw2, hnb2, e0], by rw [hnw2, hnb2, e1], hA, ?_, ?_⟩
  · rw [hbk2]
    exact getD_replicate_nil 8192 6167
  · have hlen2 : (ht_clear_range 0 4096 0 ht2.buckets).length = 8192 := by
      rw [ht_clear_range_length, hbk2]
      exact List.length_replicate _ _
    have hhash : meiyan (n5.key.take n5.size) % 8192 = 6167 := by
      rw [← hpl.1, List.take_length, hkey5]
      exact hk2
    have hfwd := ht_rehash_range_fwd 8192 (by omega) ht1.buckets (512 - 0) 0
      (ht_clear_range 0 4096 0 ht2.buckets) hlen2 23 (by omega) (by omega) n5 hmem5
    rw [hhash] at hfwd
    dsimp only
    exact hfwd

/-! ## Theorems: hashdict.c -/

theorem map_modify_of_comp {α β : Type} (f : α → α) (g : α → β) (hfg : ∀ a, g (f a) = g a)
    (l : List α) : ∀ i, (l.modify f i).map g = l.map g := by
  induction l with
  | nil => intro i; cases i <;> rfl
  | cons a rest ih =>
    intro i
    cases i with
    | zero => simp [List.modify, List.modifyTailIdx, List.modifyHead, hfg]
    | succ i => simp only [List.modify_succ_cons, List.map_cons, ih i]

theorem dict_reinsert_foldl_unstable (n : Nat) (ks : List keynode) :
    ∀ table : List dict_bucket,
      ((ks.foldl (dict_reinsert_when_resizing n) table).map dict_bucket.unstable
        = table.map dict_bucket.unstable) ∧
      (ks.foldl (dict_reinsert_when_resizing n) table).length = table.length := by
  induction ks with
  | nil => intro table; exact ⟨rfl, rfl⟩
  | cons k rest ih =>
    intro table
    simp only [List.foldl_cons]
    obtain ⟨h1, h2⟩ := ih (dict_reinsert_when_resizing n table k)
    refine ⟨?_, ?_⟩
    · rw [h1]
      unfold dict_reinsert_when_resizing
      exact map_modify_of_comp (fun b : dict_bucket => { b with stable := k :: b.stable })
        dict_bucket.unstable (fun _ => rfl) table _
    · rw [h2]
      unfold dict_reinsert_when_resizing
      exact List.length_modify _ _ _

/-- In sequential mode `dict_resize` succeeds and leaves a dict in sequential
mode with `newsize` buckets and the same count. -/
theorem dict_resize_wf (d : dict) (newsize : Nat) (hwf : dict_wf_sequential d)
    (hn : 0 < newsize) :
    ∃ d1, dict_resize d newsize = some d1 ∧ dict_wf_sequential d1 ∧ d1.length = newsize ∧
      d1.count = d.count := by
  obtain ⟨h1, h2, h3, h4, h5, h6⟩ := hwf
  have hany : d.table.any (fun b => decide (b.unstable ≠ [])) = false := by
    rw [List.any_eq_false]
    intro b hb
    simp [h6 b hb]
  obtain ⟨g1, g2⟩ := dict_reinsert_foldl_unstable newsize
    (d.table.map dict_bucket.stable).flatten (List.replicate newsize ⟨[], [], 0⟩)
  refine ⟨{ d with
      length := newsize
      table := (d.table.map dict_bucket.stable).flatten.foldl
        (dict_reinsert_when_resizing newsize) (List.replicate newsize ⟨[], [], 0⟩) },
    ?_, ⟨h1, hn, ?_, h4, h5, ?_⟩, rfl, rfl⟩
  · unfold dict_resize
    rw [hany, if_neg (by simp; omega)]
  · exact g2.trans (List.length_replicate _ _)
  · intro b hb
    have hb1 : b.unstable ∈ (List.foldl (dict_reinsert_when_resizing newsize)
        (List.replicate newsize ⟨[], [], 0⟩)
        (d.table.map dict_bucket.stable).flatten).map dict_bucket.unstable :=
      List.mem_map_of_mem _ hb
    rw [g1, List.map_replicate] at hb1
    exact (List.mem_replicate.mp hb1).2

/-- In sequential mode `dict_find_alloc` returns when the fuel covers the
resizes, and the table does not shrink. -/
theorem dict_find_alloc_total (key : bytes) (f : Nat) :
    ∀ d, dict_wf_sequential d → d.count ≤ 2 * d.length + f →
      ∃ d2 k, dict_find_alloc (f + 1) d key = some (d2, k) ∧ d.length ≤ d2.length := by
  induction f with
  | zero =>
    intro d hwf hcnt
    obtain ⟨h1, h2, h3, h4, h5, h6⟩ := hwf
    have hi : meiyan key % d.length < d.table.length := by rw [h3]; exact Nat.mod_lt _ h2
    unfold dict_find_alloc
    rw [if_neg (by omega), List.getElem?_eq_getElem hi]
    dsimp only
    cases hs : dict_search key (d.table[meiyan key % d.length]).stable with
    | some k => exact ⟨d, k, rfl, le_refl _⟩
    | none =>
      dsimp only
      rw [h1]
      simp only [Bool.false_eq_true, if_false, Bool.not_false, true_and]
      rw [if_neg (by rw [h4]; omega)]
      exact ⟨_, _, rfl, le_refl _⟩
  | succ f ih =>
    intro d hwf hcnt
    obtain ⟨h1, h2, h3, h4, h5, h6⟩ := hwf
    have hi : meiyan key % d.length < d.table.length := by rw [h3]; exact Nat.mod_lt _ h2
    unfold dict_find_alloc
    rw [if_neg (by omega), List.getElem?_eq_getElem hi]
    dsimp only
    cases hs : dict_search key (d.table[meiyan key % d.length]).stable with
    | some k => exact ⟨d, k, rfl, le_refl _⟩
    | none =>
      dsimp only
      rw [h1]
      simp only [Bool.false_eq_true, if_false, Bool.not_false, true_and]
      by_cases hg : (d.table[meiyan key % d.length]).stable = [] ∧
          d.count > d.growth_threshold * d.length
      · rw [if_pos hg]
        obtain ⟨d1, e1, e2, e3, e4⟩ := dict_resize_wf d (d.length * d.growth_factor - 1)
          ⟨h1, h2, h3, h4, h5, h6⟩ (by rw [h5]; omega)
        rw [e1]
        dsimp only
        obtain ⟨d2, k, r1, r2⟩ := ih d1 e2 (by rw [e3, e4, h5]; omega)
        exact ⟨d2, k, r1, by rw [e3, h5] at r2; omega⟩
      · rw [if_neg hg]
        exact ⟨_, _, rfl, le_refl _⟩

/-- C12 (as amended): in sequential mode a `dict_find` / `dict_insert` of a key
that is not in the dict grows the table only if the stable chain of the key's
bucket is empty and `count > 2 * length`: then the table is resized to
`5 * length - 1` buckets and the call starts again on the resized table (where
it may resize once more).  If the chain of the bucket is not empty, or
`count <= 2 * length`, the key is pushed on the chain and the table keeps its
size.  With fuel for the resizes the call returns, and the table it leaves has
at least `5 * length - 1` buckets in the first case. -/
theorem dict_find_alloc_growth (d : dict) (key : bytes) (db : dict_bucket)
    (hwf : dict_wf_sequential d) (hdb : d.table[meiyan key % d.length]? = some db)
    (hnew : dict_search key db.stable = none) :
    (db.stable ≠ [] ∨ d.count ≤ 2 * d.length →
      ∀ f, dict_find_alloc (f + 1) d key =
        some ({ d with
            table := (d.table.set (meiyan key % d.length)
              { db with stable := ⟨key, meiyan key⟩ :: db.stable })
            count := d.count + 1 },
          ⟨key, meiyan key⟩)) ∧
    (db.stable = [] ∧ 2 * d.length < d.count →
      ∃ d1, dict_resize d (5 * d.length - 1) = some d1 ∧ d1.length = 5 * d.length - 1 ∧
        d1.count = d.count ∧ dict_wf_sequential d1 ∧
        (∀ f, dict_find_alloc (f + 1) d key = dict_find_alloc f d1 key) ∧
        ∀ f, d.count ≤ 2 * d.length + f →
          ∃ d2 k, dict_find_alloc (f + 1) d key = some (d2, k) ∧
            5 * d.length - 1 ≤ d2.length) := by
  obtain ⟨h1, h2, h3, h4, h5, h6⟩ := hwf
  have hstep : ∀ f, dict_find_alloc (f + 1) d key =
      (if db.stable = [] ∧ d.count > d.growth_threshold * d.length then
        match dict_resize d (d.length * d.growth_factor - 1) with
        | none => none
        | some d1 => dict_find_alloc f d1 key
      else
        some ({ d with
            table := (d.table.set (meiyan key % d.length)
              { db with stable := ⟨key, meiyan key⟩ :: db.stable })
            count := d.count + 1 },
          ⟨key, meiyan key⟩)) := by
    intro f
    rw [dict_find_alloc, if_neg (by omega), hdb]
    dsimp only
    rw [hnew]
    dsimp only
    rw [h1]
    simp only [Bool.false_eq_true, if_false, Bool.not_false, true_and]
  constructor
  · intro hcase f
    rw [hstep f, if_neg]
    rintro ⟨a, b⟩
    rw [h4] at b
    rcases hcase with hc | hc
    · exact hc a
    · omega
  · rintro ⟨a, b⟩
    obtain ⟨d1, e1, e2, e3, e4⟩ := dict_resize_wf d (5 * d.length - 1)
      ⟨h1, h2, h3, h4, h5, h6⟩ (by omega)
    have hsize : d.length * d.growth_factor - 1 = 5 * d.length - 1 := by rw [h5]; omega
    have hrec : ∀ f, dict_find_alloc (f + 1) d key = dict_find_alloc f d1 key := by
      intro f
      rw [hstep f, if_pos ⟨a, by rw [h4]; omega⟩, hsize, e1]
    refine ⟨d1, e1, e3, e4, e2, hrec, ?_⟩
    intro f hf
    obtain ⟨f0, rfl⟩ : ∃ f0, f = f0 + 1 := ⟨f - 1, by omega⟩
    obtain ⟨d2, k, r1, r2⟩ := dict_find_alloc_total key f0 d1 e2 (by rw [e3, e4]; omega)
    exact ⟨d2, k, by rw [hrec]; exact r1, by rw [e3] at r2; exact r2⟩

/-- C12, instance: a dict of 2 buckets holds 5 keys, all in bucket 0.  The key
`[4]` belongs in the empty bucket 1: the table grows to 9 buckets.  -/
theorem dict_find_alloc_growth_witness :
    ∃ d2 k, dict_find_alloc (1 + 1) dict_demo [4] = some (d2, k) ∧
      5 * dict_demo.length - 1 ≤ d2.length ∧ dict_demo.length = 2 ∧ dict_demo.count = 5 := by
  obtain ⟨_, _, _, _, _, _, h⟩ := (dict_find_alloc_growth dict_demo [4] ⟨[], [], 0⟩
    (by unfold dict_wf_sequential; decide!) (by decide!) rfl).2 ⟨rfl, by decide!⟩
  obtain ⟨d2, k, e1, e2⟩ := h 1 (by decide!)
  exact ⟨d2, k, e1, e2, by decide!, by decide!⟩

/-- C12 (counterexample to the claim as stated): a dict of 1 bucket holds the
keys `[0]`, `[1]`, `[2]`, so that `count / length = 3 > 2`.  The key `[3]` is not
in the dict; its insertion does not grow the table to `5 * 1 - 1 = 4` buckets:
the table keeps its one bucket, because the chain of that bucket is not
empty. -/
theorem dict_no_growth_when_bucket_used :
    (dict_insert_all 5 (dict_new 1) [[0], [1], [2]]).map (fun d => (d.length, d.count))
      = some (1, 3) ∧
    (dict_insert_all 5 (dict_new 1) [[0], [1], [2], [3]]).map
      (fun d => (d.length, d.count, d.concurrent)) = some (1, 4, false) ∧
    (dict_insert_all 5 (dict_new 1) [[0], [1], [2], [3]]).map
      (fun d => d.table.map (fun b => b.stable.map keynode.key))
      = some [[[3], [2], [1], [0]]] :=
  ⟨by decide!, by decide!, by decide!⟩

/-! ## Theorems: charm.c, analysis of the graph -/

theorem comp_sum_step (env : analysis_collab) (nodes : List node) (edges : List edge)
    (comps : List component) (ms : List Nat) (c : component) (p : Nat) (n : node)
    (hn : nodes[p]? = some n) (hc : comps[n.component]? = some c)
    (hms : ∀ q ∈ ms, ∃ m, nodes[q]? = some m)
    (hs : comp_sum env nodes edges ms c) :
    ∃ c1, analysis_mark_node env nodes edges comps p = some (comps.set n.component c1) ∧
      comp_sum env nodes edges (ms ++ [p]) c1 := by
  obtain ⟨h1, h2, h3, h4, h5⟩ := hs
  have vp : node_vars nodes p = some n.state.vars := by simp [node_vars, hn]
  have ep : node_eternal env nodes p = all_eternal env n.state := by simp [node_eternal, hn]
  have xp : node_has_exit nodes edges p = has_exit nodes edges n := by
    simp [node_has_exit, hn]
  unfold analysis_mark_node
  rw [hn]; dsimp only; rw [hc]; dsimp only
  cases ms with
  | nil =>
    have hsz : c.size = 0 := by simpa using h1
    have hg : c.good = false := by simpa using h3
    rw [if_pos hsz]; dsimp only
    rw [hg]
    refine ⟨_, rfl, ?_⟩
    refine ⟨by simp [hsz], h2, by simp [xp], by simp, ?_⟩
    intro r hr
    have : r = p := by simpa using hr.symm
    subst this
    simp [ep]
  | cons r t =>
    have hsz : c.size ≠ 0 := by simp [h1]
    obtain ⟨rn, hrn⟩ := hms r (List.mem_cons_self _ _)
    have vr : node_vars nodes r = some rn.state.vars := by simp [node_vars, hrn]
    have hrep : c.rep = some r := by simpa using h4
    have h5b := h5 r rfl
    rw [if_neg hsz, hrep]
    have hb : ((some r).bind fun r => nodes[r]?) = some rn := hrn
    rw [hb]; dsimp only
    by_cases hcond : n.state.vars ≠ rn.state.vars ∨ (!all_eternal env n.state) = true
    · rw [if_pos hcond]; dsimp only
      have hf : (decide (n.state.vars = rn.state.vars) && all_eternal env n.state) = false := by
        rcases hcond with h | h
        · simp [h]
        · simp at h; simp [h]
      by_cases hgood : c.good = true
      · rw [if_pos hgood]
        refine ⟨_, rfl, ?_⟩
        refine ⟨by simp [h1], h2, ?_, by simp, ?_⟩
        · rw [List.any_append, ← h3, hgood]; simp
        · intro r2 hr2
          have : r2 = r := by simpa using hr2.symm
          subst this
          rw [List.all_append]
          simp [vp, vr, ep, hf]
      · rw [if_neg hgood]
        refine ⟨_, rfl, ?_⟩
        refine ⟨by simp [h1], h2, ?_, by simp, ?_⟩
        · rw [List.any_append, ← h3]; simp at hgood; simp [hgood, xp]
        · intro r2 hr2
          have : r2 = r := by simpa using hr2.symm
          subst this
          rw [List.all_append]
          simp [vp, vr, ep, hf]
    · rw [if_neg hcond]; dsimp only
      have hc2 : (decide (n.state.vars = rn.state.vars) && all_eternal env n.state) = true := by
        have a : n.state.vars = rn.state.vars := by
          by_contra h; exact hcond (Or.inl h)
        have b : all_eternal env n.state = true := by
          by_contra h; exact hcond (Or.inr (by simp at h; simp [h]))
        simp [a, b]
      by_cases hgood : c.good = true
      · rw [if_pos hgood]
        refine ⟨_, rfl, ?_⟩
        refine ⟨by simp [h1], h2, ?_, by simp [hrep], ?_⟩
        · rw [List.any_append, ← h3, hgood]; simp
        · intro r2 hr2
          have : r2 = r := by simpa using hr2.symm
          subst this
          rw [List.all_append, ← h5b]
          simp [vp, vr, ep, hc2]
      · rw [if_neg hgood]
        refine ⟨_, rfl, ?_⟩
        refine ⟨by simp [h1], h2, ?_, by simp [hrep], ?_⟩
        · rw [List.any_append, ← h3]; simp at hgood; simp [hgood, xp]
        · intro r2 hr2
          have : r2 = r := by simpa using hr2.symm
          subst this
          rw [List.all_append, ← h5b]
          simp [vp, vr, ep, hc2]

theorem analysis_mark_spec (env : analysis_collab) (nodes : List node) (edges : List edge)
    (ncomponents : Nat) :
    ∀ (rest done : List Nat) (comps : List component),
      mark_inv env nodes edges ncomponents done comps →
      (∀ p ∈ done, ∃ n, nodes[p]? = some n) →
      (∀ p ∈ rest, ∃ n, nodes[p]? = some n ∧ n.component < ncomponents) →
      ∃ comps1, analysis_mark env nodes edges rest comps = some comps1 ∧
        mark_inv env nodes edges ncomponents (done ++ rest) comps1 := by
  intro rest
  induction rest with
  | nil =>
    intro done comps hi _ _
    exact ⟨comps, rfl, by simpa using hi⟩
  | cons p rest ih =>
    intro done comps hi hd hr
    obtain ⟨n, hn, hk⟩ := hr p (List.mem_cons_self _ _)
    have hlen := hi.1
    have hck : n.component < comps.length := by omega
    have hc : comps[n.component]? = some (comps[n.component]) := List.getElem?_eq_getElem hck
    have hcp : node_component nodes p = some n.component := by simp [node_component, hn]
    obtain ⟨c1, e1, s1⟩ := comp_sum_step env nodes edges comps _ _ p n hn hc
      (fun q hq => hd q (List.mem_filter.1 hq).1) (hi.2 _ _ hc)
    have hi1 : mark_inv env nodes edges ncomponents (done ++ [p]) (comps.set n.component c1) := by
      refine ⟨by simp [hlen], ?_⟩
      intro k c hkc
      by_cases hkn : k = n.component
      · subst hkn
        rw [List.getElem?_set_self hck] at hkc
        cases hkc
        rw [List.filter_append]
        simpa [List.filter, hcp] using s1
      · rw [List.getElem?_set_ne (fun h => hkn h.symm)] at hkc
        rw [List.filter_append]
        have : (node_component nodes p == some k) = false := by
          rw [hcp]; simp; exact fun h => hkn h.symm
        simpa [List.filter, this] using hi.2 k c hkc
    obtain ⟨comps1, e2, s2⟩ := ih (done ++ [p]) _ hi1
      (fun q hq => by
        rcases List.mem_append.1 hq with h | h
        · exact hd q h
        · have : q = p := by simpa using h
          exact ⟨n, this ▸ hn⟩)
      (fun q hq => hr q (List.mem_cons_of_mem _ hq))
    refine ⟨comps1, ?_, by simpa using s2⟩
    simp only [analysis_mark, e1, e2]

theorem mark_inv_init (env : analysis_collab) (nodes : List node) (edges : List edge)
    (ncomponents : Nat) :
    mark_inv env nodes edges ncomponents [] (List.replicate ncomponents {}) := by
  refine ⟨by simp, ?_⟩
  intro k c hkc
  have : c = {} := by
    rw [List.getElem?_replicate] at hkc
    split at hkc
    · cases hkc; rfl
    · cases hkc
  subst this
  exact ⟨rfl, rfl, rfl, rfl, fun r hr => by cases hr⟩

theorem comp_sum_spec (env : analysis_collab) (nodes : List node) (edges : List edge)
    (graph : List Nat) (k : Nat) (c : component) (p : Nat) (n : node)
    (hp : p ∈ graph) (hn : nodes[p]? = some n) (hk : n.component = k)
    (hs : comp_sum env nodes edges (graph.filter (fun q => node_component nodes q == some k)) c) :
    0 < c.size ∧ c.final = false ∧
      c.good = scan_has_exit nodes edges graph k ∧
      c.all_same = scan_all_same env nodes graph k := by
  obtain ⟨h1, h2, h3, h4, h5⟩ := hs
  have hpm : p ∈ graph.filter (fun q => node_component nodes q == some k) := by
    simp [List.mem_filter, hp, node_component, hn, hk]
  refine ⟨?_, h2, ?_, ?_⟩
  · rw [h1]; exact List.length_pos_of_mem hpm
  · rw [h3, List.any_filter, scan_has_exit]
    congr 1
    funext q
    simp only [node_component, node_has_exit]
    cases nodes[q]? <;> simp
  · cases hms : graph.filter (fun q => node_component nodes q == some k) with
    | nil => rw [hms] at hpm; cases hpm
    | cons r t =>
      rw [hms] at h5
      have h5b := h5 r rfl
      rw [← hms] at h5b
      have hr : r ∈ graph.filter (fun q => node_component nodes q == some k) := by
        rw [hms]; exact List.mem_cons_self _ _
      obtain ⟨hrg, hrk⟩ := List.mem_filter.1 hr
      rw [h5b, Bool.eq_iff_iff]
      simp only [scan_all_same, List.all_eq_true, List.mem_filter, Bool.and_eq_true,
        decide_eq_true_eq, beq_iff_eq, and_imp]
      simp only [node_component, Option.map_eq_some'] at hrk
      obtain ⟨rn, hrn, hrk⟩ := by simpa using hrk
      constructor
      · intro h q hq
        cases hqn : nodes[q]? with
        | none => rfl
        | some m =>
          dsimp only
          by_cases hm : m.component = k
          · have hq1 := h q hq (by simp [node_component, hqn, hm])
            simp only [node_vars, node_eternal, hqn, hrn, Option.map_some', Option.some.injEq] at hq1
            simp only [hm, bne_self_eq_false, Bool.false_or, Bool.and_eq_true, List.all_eq_true]
            refine ⟨hq1.2, ?_⟩
            intro q2 hq2
            cases hq2n : nodes[q2]? with
            | none => rfl
            | some m2 =>
              dsimp only
              by_cases hm2 : m2.component = k
              · have hq3 := h q2 hq2 (by simp [node_component, hq2n, hm2])
                simp only [node_vars, hq2n, hrn, Option.map_some', Option.some.injEq] at hq3
                simp [hq3.1, hq1.1]
              · simp [hm2]
          · simp [hm]
      · intro h q hq hqk
        simp only [node_component] at hqk
        obtain ⟨m, hqn, hm⟩ : ∃ m, nodes[q]? = some m ∧ m.component = k := by
          cases hqn : nodes[q]? with
          | none => rw [hqn] at hqk; cases hqk
          | some m => rw [hqn] at hqk; exact ⟨m, rfl, by simpa using hqk⟩
        have a := h r hrg
        rw [hrn] at a
        simp only [hrk, bne_self_eq_false, Bool.false_or, Bool.and_eq_true, List.all_eq_true] at a
        have b := a.2 q hq
        rw [hqn] at b
        simp only [hm, bne_self_eq_false, Bool.false_or, beq_iff_eq] at b
        have c2 := h q hq
        rw [hqn] at c2
        simp only [hm, bne_self_eq_false, Bool.false_or, Bool.and_eq_true] at c2
        simp [node_vars, node_eternal, hqn, hrn, b, c2.1]

theorem analysis_components (env : analysis_collab) (nodes : List node) (edges : List edge)
    (graph : List Nat) (ncomponents : Nat) (hwf : analysis_wf nodes graph ncomponents) :
    ∃ comps0 comps,
      analysis_mark env nodes edges graph (List.replicate ncomponents {}) = some comps0 ∧
      analysis_finalize comps0 = some comps ∧
      ∀ p ∈ graph, ∀ n, nodes[p]? = some n →
        ∃ c, comps[n.component]? = some c ∧ 0 < c.size ∧
          c.final = scan_final env nodes edges graph n.component ∧
          c.good = (scan_has_exit nodes edges graph n.component ||
            scan_all_same env nodes graph n.component) := by
  obtain ⟨comps0, e0, hi⟩ := analysis_mark_spec env nodes edges ncomponents graph [] _
    (mark_inv_init env nodes edges ncomponents) (fun p hp => by cases hp) hwf.1
  rw [List.nil_append] at hi
  have hsum : ∀ k c, comps0[k]? = some c →
      0 < c.size ∧ c.final = false ∧
        c.good = scan_has_exit nodes edges graph k ∧
        c.all_same = scan_all_same env nodes graph k := by
    intro k c hkc
    have hk : k < ncomponents := by
      rw [← hi.1]
      exact (List.getElem?_eq_some_iff.1 hkc).1
    obtain ⟨p, hp, n, hn, hnk⟩ := hwf.2 k hk
    exact comp_sum_spec env nodes edges graph k c p n hp hn hnk (hi.2 k c hkc)
  have hany : comps0.any (fun c => decide (c.size = 0)) = false := by
    rw [List.any_eq_false]
    intro c hc
    obtain ⟨k, hk⟩ := List.mem_iff_getElem?.1 hc
    have := (hsum k c hk).1
    simp; omega
  refine ⟨comps0, _, e0, by simp only [analysis_finalize, hany]; rfl, ?_⟩
  intro p hp n hn
  obtain ⟨n2, hn2, hlt⟩ := hwf.1 p hp
  rw [hn] at hn2; cases hn2
  have hb : n.component < comps0.length := by rw [hi.1]; exact hlt
  have hc : comps0[n.component]? = some comps0[n.component] := List.getElem?_eq_getElem hb
  obtain ⟨s1, s2, s3, s4⟩ := hsum _ _ hc
  rw [List.getElem?_map, hc]
  refine ⟨_, rfl, ?_⟩
  simp only [scan_final, ← s3, ← s4]
  split
  · rename_i h
    simp at h
    simp [h.1, h.2, s1]
  · rename_i h
    refine ⟨s1, ?_, ?_⟩
    · rw [s2]
      cases hg : comps0[n.component].good
      · cases ha : comps0[n.component].all_same
        · rfl
        · exact absurd (by simp [hg, ha]) h
      · rfl
    · cases hg : comps0[n.component].good
      · cases ha : comps0[n.component].all_same
        · rfl
        · exact absurd (by simp [hg, ha]) h
      · rfl

theorem analysis_final_nodes_spec (env : analysis_collab) (comps : List component)
    (nodes0 : List node) :
    ∀ (rest done : List Nat) (nodes : List node) (fs : List node_failure),
      final_inv comps nodes0 done nodes →
      (∀ p ∈ rest, ∃ n c, nodes0[p]? = some n ∧ comps[n.component]? = some c) →
      ∃ nodes1 fs1, analysis_final_nodes env comps rest nodes fs = some (nodes1, fs1) ∧
        final_inv comps nodes0 (done ++ rest) nodes1 ∧
        (env.dfa_is_final = none → fs1 = fs) := by
  intro rest
  induction rest with
  | nil =>
    intro done nodes fs hi _
    exact ⟨nodes, fs, rfl, by simpa using hi, fun _ => rfl⟩
  | cons p rest ih =>
    intro done nodes fs hi hr
    obtain ⟨n0, c, hn0, hc⟩ := hr p (List.mem_cons_self _ _)
    have hp := hi p
    rw [hn0, Option.map_some'] at hp
    have hrest : ∀ q ∈ rest, ∃ n c, nodes0[q]? = some n ∧ comps[n.component]? = some c :=
      fun q hq => hr q (List.mem_cons_of_mem _ hq)
    have happ : done ++ p :: rest = (done ++ [p]) ++ rest := by simp
    by_cases hf : c.final = true
    · have hi1 : final_inv comps nodes0 (done ++ [p]) (nodes.set p { n0 with final := true }) := by
        intro q
        by_cases hq : q = p
        · subst hq
          have hlt : q < nodes.length := (List.getElem?_eq_some_iff.1 hp).1
          rw [List.getElem?_set_self hlt, hn0, Option.map_some']
          simp [hc, hf]
        · rw [List.getElem?_set_ne (fun h => hq h.symm), hi q]
          simp [hq]
      obtain ⟨nodes1, fs1, e1, i1, d1⟩ := ih (done ++ [p]) _
        (match env.dfa_is_final with
         | some is_final =>
           if !is_final n0.state.dfa_state then ⟨.FAIL_BEHAVIOR, n0.to_parent⟩ :: fs else fs
         | none => fs) hi1 hrest
      refine ⟨nodes1, fs1, ?_, by rw [happ]; exact i1, ?_⟩
      · rw [analysis_final_nodes]
        split at hp
        · rw [hp]; dsimp only
          rw [hc]; dsimp only
          rw [if_pos hf]
          exact e1
        · rw [hp]; dsimp only
          rw [hc]; dsimp only
          rw [if_pos hf]
          exact e1
      · intro hd
        rw [d1 hd, hd]
    · have hi1 : final_inv comps nodes0 (done ++ [p]) nodes := by
        intro q
        rw [hi q]
        by_cases hq : q = p
        · subst hq
          rw [hn0]
          simp [hc, hf]
        · simp [hq]
      have hset : ∀ n1 : node, nodes[p]? = some n1 → n1.component = n0.component := by
        intro n1 h1
        rw [hp] at h1
        split at h1 <;> cases h1 <;> rfl
      obtain ⟨n1, h1⟩ : ∃ n1, nodes[p]? = some n1 := ⟨_, hp⟩
      obtain ⟨nodes1, fs1, e1, i1, d1⟩ := ih (done ++ [p]) nodes fs hi1 hrest
      refine ⟨nodes1, fs1, ?_, by rw [happ]; exact i1, d1⟩
      rw [analysis_final_nodes, h1]; dsimp only
      rw [hset n1 h1, hc]; dsimp only
      rw [if_neg hf]
      exact e1

theorem analysis_bad_spec (comps : List component) (nodes : List node) :
    ∀ (rest : List Nat) (fs : List node_failure),
      (∀ p ∈ rest, ∃ n c, nodes[p]? = some n ∧ comps[n.component]? = some c) →
      analysis_bad comps nodes rest fs =
        some (((rest.filter (node_bad comps nodes)).map
          (fun p => (⟨.FAIL_TERMINATION, node_parent nodes p⟩ : node_failure))).reverse ++ fs) := by
  intro rest
  induction rest with
  | nil => intro fs _; rfl
  | cons p rest ih =>
    intro fs hr
    obtain ⟨n, c, hn, hc⟩ := hr p (List.mem_cons_self _ _)
    rw [analysis_bad, hn]; dsimp only
    rw [hc]; dsimp only
    rw [ih _ (fun q hq => hr q (List.mem_cons_of_mem _ hq))]
    have hb : node_bad comps nodes p = !c.good := by simp [node_bad, hn, hc]
    have hpar : node_parent nodes p = n.to_parent := by simp [node_parent, hn]
    cases hg : c.good
    · simp [List.filter, hb, hg, hpar]
    · simp [List.filter, hb, hg]

theorem detect_busywait_loop_types (fuel : Nat) (nodes : List node) (edges : List edge)
    (node : Nat) (to_parent : Option Nat) :
    ∀ (cs : List hvalue) (fs fs1 : List node_failure),
      detect_busywait_loop fuel nodes edges node to_parent cs fs = some fs1 →
      ∃ bw, fs1 = bw ++ fs ∧ ∀ f ∈ bw, f.type = .FAIL_BUSYWAIT := by
  intro cs
  induction cs with
  | nil =>
    intro fs fs1 h
    cases h
    exact ⟨[], rfl, fun f hf => by cases hf⟩
  | cons c cs ih =>
    intro fs fs1 h
    rw [detect_busywait_loop] at h
    cases hr : is_stuck nodes edges node fuel [] node c false with
    | none => rw [hr] at h; cases h
    | some r =>
      rw [hr] at h
      dsimp only at h
      obtain ⟨bw, e, hb⟩ := ih _ _ h
      by_cases hret : r = .BW_RETURN
      · rw [if_pos hret] at e
        refine ⟨bw ++ [⟨.FAIL_BUSYWAIT, to_parent⟩], by simp [e], ?_⟩
        intro f hf
        rcases List.mem_append.1 hf with h1 | h1
        · exact hb f h1
        · simp at h1; rw [h1]
      · rw [if_neg hret] at e
        exact ⟨bw, e, hb⟩

theorem analysis_busywait_types (fuel : Nat) (comps : List component) (nodes : List node)
    (edges : List edge) :
    ∀ (rest : List Nat) (fs fs1 : List node_failure),
      analysis_busywait fuel comps nodes edges rest fs = some fs1 →
      ∃ bw, fs1 = bw ++ fs ∧ ∀ f ∈ bw, f.type = .FAIL_BUSYWAIT := by
  intro rest
  induction rest with
  | nil =>
    intro fs fs1 h
    cases h
    exact ⟨[], rfl, fun f hf => by cases hf⟩
  | cons p rest ih =>
    intro fs fs1 h
    rw [analysis_busywait] at h
    cases hn : nodes[p]? with
    | none => rw [hn] at h; cases h
    | some n =>
      rw [hn] at h
      dsimp only at h
      cases hc : comps[n.component]? with
      | none => rw [hc] at h; cases h
      | some c =>
        rw [hc] at h
        dsimp only at h
        split at h
        · cases hd : detect_busywait fuel nodes edges fs p with
          | none => rw [hd] at h; cases h
          | some fs2 =>
            rw [hd] at h
            dsimp only at h
            obtain ⟨bw, e, hb⟩ := ih _ _ h
            unfold detect_busywait at hd
            rw [hn] at hd
            dsimp only at hd
            obtain ⟨bw2, e2, hb2⟩ := detect_busywait_loop_types _ _ _ _ _ _ _ _ hd
            refine ⟨bw ++ bw2, by rw [e, e2, List.append_assoc], ?_⟩
            intro f hf
            rcases List.mem_append.1 hf with h1 | h1
            · exact hb f h1
            · exact hb2 f h1
        · exact ih _ _ h

theorem analysis_passes (env : analysis_collab) (nodes : List node) (edges : List edge)
    (graph : List Nat) (ncomponents : Nat) (hwf : analysis_wf nodes graph ncomponents) :
    ∃ comps0 comps nodes1 fs1,
      analysis_mark env nodes edges graph (List.replicate ncomponents {}) = some comps0 ∧
      analysis_finalize comps0 = some comps ∧
      analysis_final_nodes env comps graph nodes [] = some (nodes1, fs1) ∧
      (env.dfa_is_final = none → fs1 = []) ∧
      (∀ p ∈ graph, ∀ n, nodes[p]? = some n →
        ∃ c, comps[n.component]? = some c ∧ 0 < c.size ∧
          c.final = scan_final env nodes edges graph n.component ∧
          c.good = (scan_has_exit nodes edges graph n.component ||
            scan_all_same env nodes graph n.component) ∧
          nodes1[p]? = some (if c.final then { n with final := true } else n)) ∧
      analysis_bad comps nodes1 graph [] =
        some (if fs1 = [] then scan_termination_failures env nodes edges graph
          else ((graph.filter (node_bad comps nodes1)).map
            (fun p => (⟨.FAIL_TERMINATION, node_parent nodes1 p⟩ : node_failure))).reverse) := by
  obtain ⟨comps0, comps, e0, e1, hc⟩ := analysis_components env nodes edges graph ncomponents hwf
  have hv : ∀ p ∈ graph, ∃ n c, nodes[p]? = some n ∧ comps[n.component]? = some c := by
    intro p hp
    obtain ⟨n, hn, _⟩ := hwf.1 p hp
    obtain ⟨c, h1, _⟩ := hc p hp n hn
    exact ⟨n, c, hn, h1⟩
  obtain ⟨nodes1, fs1, e2, hi, hd⟩ := analysis_final_nodes_spec env comps nodes graph [] nodes []
    (fun q => by cases nodes[q]? <;> simp) hv
  rw [List.nil_append] at hi
  have hnode : ∀ p ∈ graph, ∀ n, nodes[p]? = some n →
      ∃ c, comps[n.component]? = some c ∧ 0 < c.size ∧
        c.final = scan_final env nodes edges graph n.component ∧
        c.good = (scan_has_exit nodes edges graph n.component ||
          scan_all_same env nodes graph n.component) ∧
        nodes1[p]? = some (if c.final then { n with final := true } else n) := by
    intro p hp n hn
    obtain ⟨c, h1, h2, h3, h4⟩ := hc p hp n hn
    refine ⟨c, h1, h2, h3, h4, ?_⟩
    rw [hi p, hn, Option.map_some', h1]
    simp [hp]
  have hv1 : ∀ p ∈ graph, ∃ n c, nodes1[p]? = some n ∧ comps[n.component]? = some c := by
    intro p hp
    obtain ⟨n, hn, _⟩ := hwf.1 p hp
    obtain ⟨c, h1, _, _, _, h5⟩ := hnode p hp n hn
    refine ⟨_, c, h5, ?_⟩
    split <;> exact h1
  refine ⟨comps0, comps, nodes1, fs1, e0, e1, e2, hd, hnode, ?_⟩
  rw [analysis_bad_spec comps nodes1 graph [] hv1, List.append_nil]
  congr 1
  split
  · unfold scan_termination_failures
    congr 1
    have hfil : graph.filter (node_bad comps nodes1) = graph.filter (fun p =>
        match nodes[p]? with
        | some n =>
          !scan_has_exit nodes edges graph n.component &&
            !scan_final env nodes edges graph n.component
        | none => false) := by
      apply List.filter_congr
      intro p hp
      obtain ⟨n, hn, _⟩ := hwf.1 p hp
      obtain ⟨c, h1, _, h3, h4, h5⟩ := hnode p hp n hn
      have hcomp : comps[(if c.final = true then { n with final := true } else n).component]? =
          some c := by split <;> exact h1
      simp only [node_bad, h5, hcomp, hn, h4, scan_final]
      cases scan_has_exit nodes edges graph n.component <;>
        cases scan_all_same env nodes graph n.component <;> rfl
    rw [hfil]
    apply List.map_congr_left
    intro p hp
    obtain ⟨hpg, _⟩ := List.mem_filter.1 hp
    obtain ⟨n, hn, _⟩ := hwf.1 p hpg
    obtain ⟨c, _, _, _, _, h5⟩ := hnode p hpg n hn
    simp only [node_parent, h5, hn]
    split <;> rfl
  · rfl

theorem analysis_demo_wf : analysis_wf analysis_demo_nodes [0, 1, 2, 3] 3 := by
  constructor
  · intro p hp
    simp only [List.mem_cons, List.mem_singleton, List.not_mem_nil, or_false] at hp
    rcases hp with rfl | rfl | rfl | rfl <;> exact ⟨_, rfl, by decide⟩
  · intro k hk
    have : k = 0 ∨ k = 1 ∨ k = 2 := by omega
    rcases this with rfl | rfl | rfl
    · exact ⟨1, by decide, _, rfl, rfl⟩
    · exact ⟨3, by decide, _, rfl, rfl⟩
    · exact ⟨0, by decide, _, rfl, rfl⟩

/-- The three passes that mark the final nodes, in terms of what the passes
compute: for a graph table whose entries point to nodes with a component
identifier below `ncomponents`, every component below `ncomponents` having a
node, and no node marked final beforehand, the passes return; each node keeps
all its other fields; its `final` flag is set exactly when the first pass
found no exit and left `all_same` set for its component.  The nodes that
`analysis` returns are these. -/
theorem analysis_final_scan (env : analysis_collab) (nodes : List node) (edges : List edge)
    (graph : List Nat) (ncomponents : Nat) (hwf : analysis_wf nodes graph ncomponents)
    (hfinal : ∀ p ∈ graph, ∀ n, nodes[p]? = some n → n.final = false) :
    ∃ comps0 comps nodes1 fs1,
      analysis_mark env nodes edges graph (List.replicate ncomponents {}) = some comps0 ∧
      analysis_finalize comps0 = some comps ∧
      analysis_final_nodes env comps graph nodes [] = some (nodes1, fs1) ∧
      (∀ fuel cflag r, analysis fuel env nodes edges graph ncomponents cflag = some r →
        r.1 = nodes1) ∧
      ∀ p ∈ graph, ∃ n n1, nodes[p]? = some n ∧ nodes1[p]? = some n1 ∧
        n1 = { n with final := n1.final } ∧
        (n1.final = true ↔
          (scan_has_exit nodes edges graph n.component = false ∧
            scan_all_same env nodes graph n.component = true)) := by
  obtain ⟨comps0, comps, nodes1, fs1, e0, e1, e2, _, hnode, e3⟩ :=
    analysis_passes env nodes edges graph ncomponents hwf
  refine ⟨comps0, comps, nodes1, fs1, e0, e1, e2, ?_, ?_⟩
  · intro fuel cflag r hr
    unfold analysis at hr
    rw [e0] at hr; dsimp only at hr
    rw [e1] at hr; dsimp only at hr
    rw [e2] at hr; dsimp only at hr
    rw [e3] at hr; dsimp only at hr
    repeat' split at hr
    all_goals (cases hr <;> rfl)
  · intro p hp
    obtain ⟨n, hn, _⟩ := hwf.1 p hp
    obtain ⟨c, _, _, h3, _, h5⟩ := hnode p hp n hn
    have hf := hfinal p hp n hn
    refine ⟨n, _, hn, h5, ?_, ?_⟩
    · split
      · rfl
      · cases n; simp only at hf; subst hf; rfl
    · have key : c.final = true ↔
          (scan_has_exit nodes edges graph n.component = false ∧
            scan_all_same env nodes graph n.component = true) := by
        rw [h3]; simp [scan_final]
      rw [← key]
      by_cases hcf : c.final = true
      · simp [hcf]
      · simp [hcf, hf]

theorem analysis_final_scan_demo :
    ∃ comps0 comps nodes1 fs1,
      analysis_mark analysis_demo_env analysis_demo_nodes analysis_demo_edges [0, 1, 2, 3]
        (List.replicate 3 {}) = some comps0 ∧
      analysis_finalize comps0 = some comps ∧
      analysis_final_nodes analysis_demo_env comps [0, 1, 2, 3] analysis_demo_nodes [] =
        some (nodes1, fs1) ∧
      (∀ fuel cflag r, analysis fuel analysis_demo_env analysis_demo_nodes analysis_demo_edges
        [0, 1, 2, 3] 3 cflag = some r → r.1 = nodes1) ∧
      ∀ p ∈ [0, 1, 2, 3], ∃ n n1, analysis_demo_nodes[p]? = some n ∧ nodes1[p]? = some n1 ∧
        n1 = { n with final := n1.final } ∧
        (n1.final = true ↔
          (scan_has_exit analysis_demo_nodes analysis_demo_edges [0, 1, 2, 3]
              n.component = false ∧
            scan_all_same analysis_demo_env analysis_demo_nodes [0, 1, 2, 3]
              n.component = true)) :=
  analysis_final_scan analysis_demo_env analysis_demo_nodes analysis_demo_edges [0, 1, 2, 3] 3
    analysis_demo_wf (by decide)

theorem analysis_demo_final :
    (analysis 0 analysis_demo_env analysis_demo_nodes analysis_demo_edges [0, 1, 2, 3] 3
      false).map (fun r => (r.1.map node.final, r.2)) =
      some ([false, false, false, true],
        [⟨.FAIL_TERMINATION, some 2⟩, ⟨.FAIL_TERMINATION, some 0⟩]) := by
  decide

/-- The Termination failures of the analysis without a behavior DFA, in terms
of what the passes compute.  With the busy-wait detection switched off the
analysis returns exactly the failures of the fourth pass; whenever the
analysis returns, its Termination failures are exactly these. -/
theorem analysis_termination_scan (env : analysis_collab) (nodes : List node)
    (edges : List edge) (graph : List Nat) (ncomponents : Nat)
    (hwf : analysis_wf nodes graph ncomponents) (hdfa : env.dfa_is_final = none) :
    (∀ fuel, ∃ nodes1, analysis fuel env nodes edges graph ncomponents true =
      some (nodes1, scan_termination_failures env nodes edges graph)) ∧
    ∀ fuel cflag r, analysis fuel env nodes edges graph ncomponents cflag = some r →
      r.2.filter (fun f => f.type == .FAIL_TERMINATION) =
        scan_termination_failures env nodes edges graph := by
  obtain ⟨comps0, comps, nodes1, fs1, e0, e1, e2, hfs, _, e3⟩ :=
    analysis_passes env nodes edges graph ncomponents hwf
  have hfs1 := hfs hdfa
  subst hfs1
  rw [if_pos rfl] at e3
  have hall : (scan_termination_failures env nodes edges graph).filter
      (fun f => f.type == .FAIL_TERMINATION) = scan_termination_failures env nodes edges graph := by
    rw [List.filter_eq_self]
    intro f hf
    simp only [scan_termination_failures, List.mem_reverse, List.mem_map] at hf
    obtain ⟨p, _, rfl⟩ := hf
    rfl
  constructor
  · intro fuel
    refine ⟨nodes1, ?_⟩
    unfold analysis
    rw [e0]; dsimp only
    rw [e1]; dsimp only
    rw [e2]; dsimp only
    rw [if_pos rfl, e3]; dsimp only
    rw [if_neg (by simp)]
  · intro fuel cflag r hr
    unfold analysis at hr
    rw [e0] at hr; dsimp only at hr
    rw [e1] at hr; dsimp only at hr
    rw [e2] at hr; dsimp only at hr
    rw [if_pos rfl, e3] at hr; dsimp only at hr
    split at hr
    · rename_i hcond
      have hnil : scan_termination_failures env nodes edges graph = [] :=
        List.length_eq_zero.1 hcond.1
      cases hb : analysis_busywait fuel comps nodes1 edges graph
          (scan_termination_failures env nodes edges graph) with
      | none => rw [hb] at hr; cases hr
      | some fs3 =>
        rw [hb] at hr
        cases hr
        obtain ⟨bw, e, hbw⟩ := analysis_busywait_types _ _ _ _ _ _ _ hb
        rw [hnil, List.append_nil] at e
        subst e
        rw [hnil, List.filter_eq_nil_iff]
        intro f hf
        simp [hbw f hf]
    · cases hr
      exact hall

theorem analysis_termination_scan_demo :
    (∀ fuel, ∃ nodes1, analysis fuel analysis_demo_env analysis_demo_nodes analysis_demo_edges
      [0, 1, 2, 3] 3 true = some (nodes1, scan_termination_failures analysis_demo_env
        analysis_demo_nodes analysis_demo_edges [0, 1, 2, 3])) ∧
    ∀ fuel cflag r, analysis fuel analysis_demo_env analysis_demo_nodes analysis_demo_edges
      [0, 1, 2, 3] 3 cflag = some r →
      r.2.filter (fun f => f.type == .FAIL_TERMINATION) =
        scan_termination_failures analysis_demo_env analysis_demo_nodes analysis_demo_edges
          [0, 1, 2, 3] :=
  analysis_termination_scan analysis_demo_env analysis_demo_nodes analysis_demo_edges
    [0, 1, 2, 3] 3 analysis_demo_wf rfl

theorem is_stuck_scan_return (edges : List edge) (recurse : Nat → hvalue → Option busywait)
    (start node : Nat) (ctx : hvalue) (change : Bool) :
    ∀ (es : List Nat) (result : busywait),
      is_stuck_scan edges recurse start node ctx change es result = some .BW_RETURN →
      result = .BW_RETURN ∨ ∃ e ∈ es, ∃ ed, edges[e]? = some ed ∧ ed.ctx = ctx ∧
        ((ed.dst = start ∧ change = true) ∨ recurse ed.dst ed.after = some .BW_RETURN) := by
  intro es
  induction es with
  | nil =>
    intro result h
    exact Or.inl (by simpa [is_stuck_scan] using h)
  | cons e es ih =>
    intro result h
    have lift : ∀ r2, is_stuck_scan edges recurse start node ctx change es r2 = some .BW_RETURN →
        r2 = result ∨ (∃ ed, edges[e]? = some ed ∧ ed.ctx = ctx ∧
          ((ed.dst = start ∧ change = true) ∨ recurse ed.dst ed.after = some .BW_RETURN)) →
        result = .BW_RETURN ∨ ∃ e2 ∈ e :: es, ∃ ed, edges[e2]? = some ed ∧ ed.ctx = ctx ∧
          ((ed.dst = start ∧ change = true) ∨ recurse ed.dst ed.after = some .BW_RETURN) := by
      intro r2 h2 hor
      rcases ih r2 h2 with h3 | ⟨e2, he2, h3⟩
      · rcases hor with h4 | h4
        · exact Or.inl (h4 ▸ h3)
        · exact Or.inr ⟨e, List.mem_cons_self _ _, h4⟩
      · exact Or.inr ⟨e2, List.mem_cons_of_mem _ he2, h3⟩
    rw [is_stuck_scan] at h
    cases hed : edges[e]? with
    | none => rw [hed] at h; cases h
    | some ed =>
      rw [hed] at h
      dsimp only at h
      by_cases hctx : ed.ctx = ctx
      · rw [if_pos hctx] at h
        by_cases hself : ed.dst = node
        · rw [if_pos hself] at h; cases h
        · rw [if_neg hself] at h
          by_cases hstart : ed.dst = start
          · rw [if_pos hstart] at h
            by_cases hch : change = true
            · have hnot : (!change) = false := by simp [hch]
              rw [hnot, if_neg (by simp)] at h
              exact lift _ h (Or.inr ⟨ed, hed, hctx, Or.inl ⟨hstart, hch⟩⟩)
            · have hnot : (!change) = true := by simp at hch; simp [hch]
              rw [hnot, if_pos rfl] at h
              cases h
          · rw [if_neg hstart] at h
            cases hrec : recurse ed.dst ed.after with
            | none => rw [hrec] at h; cases h
            | some bw =>
              rw [hrec] at h
              cases bw with
              | BW_ESCAPE => cases h
              | BW_RETURN => exact lift _ h (Or.inr ⟨ed, hed, hctx, Or.inr hrec⟩)
              | BW_VISITED => exact lift _ h (Or.inl rfl)
      · rw [if_neg hctx] at h
        exact lift _ h (Or.inl rfl)

theorem is_stuck_return_chain (nodes : List node) (edges : List edge) (start : Nat) (s : node)
    (hs : nodes[start]? = some s) :
    ∀ (fuel : Nat) (visited : List Nat) (node : Nat) (ctx : hvalue) (change : Bool),
      is_stuck nodes edges start fuel visited node ctx change = some .BW_RETURN →
      node_component nodes node = some s.component ∧
      ∃ path, path ≠ [] ∧ thread_chain nodes edges s.component node ctx path start = true ∧
        (change = true ∨
          ∃ q ∈ chain_sources edges node path, node_vars nodes q ≠ some s.state.vars) := by
  intro fuel
  induction fuel with
  | zero => intro visited node ctx change h; cases h
  | succ fuel ih =>
    intro visited node ctx change h
    rw [is_stuck] at h
    cases hn : nodes[node]? with
    | none => rw [hn] at h; cases h
    | some n =>
      rw [hn, hs] at h
      dsimp only at h
      by_cases hcomp : n.component ≠ s.component
      · rw [if_pos hcomp] at h; cases h
      · rw [if_neg hcomp] at h
        have hcomp2 : n.component = s.component := by
          by_contra hx; exact hcomp hx
        by_cases hvis : node ∈ visited
        · rw [if_pos hvis] at h; cases h
        · rw [if_neg hvis] at h
          refine ⟨by simp [node_component, hn, hcomp2], ?_⟩
          rcases is_stuck_scan_return _ _ _ _ _ _ _ _ h with h1 | ⟨e, he, ed, hed, hctx, h1⟩
          · cases h1
          · have hchange : (change || (n.state.vars != s.state.vars)) = true →
                change = true ∨ node_vars nodes node ≠ some s.state.vars := by
              intro hc
              cases hch : change with
              | true => exact Or.inl rfl
              | false =>
                rw [hch] at hc
                refine Or.inr ?_
                simp only [node_vars, hn, Option.map_some']
                simpa using hc
            rcases h1 with ⟨hdst, hc⟩ | hrec
            · refine ⟨[e], by simp, ?_, ?_⟩
              · simp [thread_chain, hn, hed, he, hctx, hdst, hs]
              · rcases hchange hc with h2 | h2
                · exact Or.inl h2
                · exact Or.inr ⟨node, by simp [chain_sources], h2⟩
            · obtain ⟨hdc, path, hne, hchain, hch⟩ := ih _ _ _ _ hrec
              refine ⟨e :: path, by simp, ?_, ?_⟩
              · simp only [node_component] at hdc
                simp [thread_chain, hn, hed, he, hctx, hdc, hchain]
              · rcases hch with h2 | ⟨q, hq, h2⟩
                · rcases hchange h2 with h3 | h3
                  · exact Or.inl h3
                  · exact Or.inr ⟨node, by simp [chain_sources], h3⟩
                · refine Or.inr ⟨q, ?_, h2⟩
                  simp only [chain_sources, hed, Option.map_some', Option.getD_some]
                  exact List.mem_cons_of_mem _ hq

theorem detect_busywait_loop_spec (fuel : Nat) (nodes : List node) (edges : List edge)
    (node : Nat) (to_parent : Option Nat) :
    ∀ (cs : List hvalue) (fs fs1 : List node_failure),
      detect_busywait_loop fuel nodes edges node to_parent cs fs = some fs1 →
      fs1 = ((cs.filter (fun c =>
          is_stuck nodes edges node fuel [] node c false == some .BW_RETURN)).map
        (fun _ => (⟨.FAIL_BUSYWAIT, to_parent⟩ : node_failure))).reverse ++ fs := by
  intro cs
  induction cs with
  | nil => intro fs fs1 h; cases h; rfl
  | cons c cs ih =>
    intro fs fs1 h
    rw [detect_busywait_loop] at h
    cases hr : is_stuck nodes edges node fuel [] node c false with
    | none => rw [hr] at h; cases h
    | some r =>
      rw [hr] at h
      dsimp only at h
      rw [ih _ _ h]
      by_cases hret : r = .BW_RETURN
      · subst hret
        simp [List.filter, hr]
      · rw [if_neg hret]
        have : (some r == some busywait.BW_RETURN) = false := by simpa using hret
        simp [List.filter, hr, this]

/-- C16: `detect_busywait` records a Busywait failure for a context `c` of the
bag of node `N` only if there is a non-empty chain of forward edges inside the
component of `N`, the first with `ctx = c` and each following one with `ctx`
equal to the `after` of the previous one, that starts at `N` and ends at `N`.
The failures that a returning call adds are one for each context of a sublist
`cs` of the bag, and every context of `cs` has such a chain. -/
theorem detect_busywait_only_if_cycle (fuel : Nat) (nodes : List node) (edges : List edge)
    (fs fs1 : List node_failure) (N : Nat) (n : node) (hn : nodes[N]? = some n)
    (h : detect_busywait fuel nodes edges fs N = some fs1) :
    ∃ cs : List hvalue, cs.Sublist (n.state.bag.map (fun x => x.1)) ∧
      fs1 = (cs.map (fun _ => (⟨.FAIL_BUSYWAIT, n.to_parent⟩ : node_failure))).reverse ++ fs ∧
      ∀ c ∈ cs, ∃ path, path ≠ [] ∧
        thread_chain nodes edges n.component N c path N = true := by
  unfold detect_busywait at h
  rw [hn] at h
  dsimp only at h
  refine ⟨_, List.filter_sublist _, detect_busywait_loop_spec _ _ _ _ _ _ _ _ h, ?_⟩
  intro c hc
  have hr := (List.mem_filter.1 hc).2
  have hr2 : is_stuck nodes edges N fuel [] N c false = some .BW_RETURN := by simpa using hr
  obtain ⟨_, path, hne, hchain, _⟩ := is_stuck_return_chain nodes edges N n hn _ _ _ _ _ hr2
  exact ⟨path, hne, hchain⟩

theorem detect_busywait_only_if_cycle_witness :
    ∃ cs : List hvalue, cs.Sublist ((busywait_demo_state 1 120 30).bag.map (fun x => x.1)) ∧
      [(⟨.FAIL_BUSYWAIT, none⟩ : node_failure)] =
        (cs.map (fun _ => (⟨.FAIL_BUSYWAIT, none⟩ : node_failure))).reverse ++ [] ∧
      ∀ c ∈ cs, ∃ path, path ≠ [] ∧
        thread_chain busywait_demo_nodes busywait_demo_edges 0 0 c path 0 = true :=
  detect_busywait_only_if_cycle 5 busywait_demo_nodes busywait_demo_edges []
    [⟨.FAIL_BUSYWAIT, none⟩] 0 _ rfl (by decide)

theorem busywait_demo_run :
    (analysis 5 analysis_demo_env busywait_demo_nodes busywait_demo_edges [0, 1, 2, 3] 2
      false).map (fun r => (r.1.map node.final, r.2)) =
      some ([false, false, true, true],
        [⟨.FAIL_BUSYWAIT, some 0⟩, ⟨.FAIL_BUSYWAIT, none⟩]) ∧
    is_stuck busywait_demo_nodes busywait_demo_edges 0 5 [] 0 120 false = some .BW_RETURN ∧
    is_stuck busywait_demo_nodes busywait_demo_edges 0 5 [] 0 30 false = some .BW_ESCAPE := by
  decide

/-- Inside the range of `int`: when `len`, `steps` and `id` of both nodes are
below `2 ^ 31`, the result of `node_cmp` is negative, zero or positive exactly
when `(len, steps, id)` of the first node is lexicographically less than,
equal to or greater than that of the second, and `fail_cmp` is `node_cmp` on
the destinations of the edges of the failures. -/
theorem node_cmp_lex (n1 n2 : node)
    (h1 : n1.len < 2 ^ 31 ∧ n1.steps < 2 ^ 31 ∧ n1.id < 2 ^ 31)
    (h2 : n2.len < 2 ^ 31 ∧ n2.steps < 2 ^ 31 ∧ n2.id < 2 ^ 31) :
    (node_cmp n1 n2 < 0 ↔ spec_lex_lt n1 n2) ∧
    (node_cmp n1 n2 = 0 ↔ (n1.len = n2.len ∧ n1.steps = n2.steps ∧ n1.id = n2.id)) ∧
    (0 < node_cmp n1 n2 ↔ spec_lex_lt n2 n1) ∧
    ∀ nodes edges (f1 f2 : failure) e1 e2, edges[f1.edge]? = some e1 → edges[f2.edge]? = some e2 →
      nodes[e1.dst]? = some n1 → nodes[e2.dst]? = some n2 →
      fail_cmp nodes edges f1 f2 = some (node_cmp n1 n2) := by
  obtain ⟨a1, a2, a3⟩ := h1
  obtain ⟨b1, b2, b3⟩ := h2
  have key : ∀ a b : Nat, a < 2 ^ 31 → b < 2 ^ 31 →
      (int_of_u32 (u32_sub a b) < 0 ↔ a < b) ∧ (int_of_u32 (u32_sub a b) = 0 ↔ a = b) ∧
      (0 < int_of_u32 (u32_sub a b) ↔ b < a) := by
    intro a b ha hb
    unfold int_of_u32 u32_sub
    norm_num at ha hb ⊢
    split <;> omega
  refine ⟨?_, ?_, ?_, ?_⟩
  · unfold node_cmp spec_lex_lt
    have k1 := key n1.len n2.len a1 b1
    have k2 := key n1.steps n2.steps a2 b2
    have k3 := key n1.id n2.id a3 b3
    split
    · rw [k1.1]; omega
    · split
      · rw [k2.1]; omega
      · rw [k3.1]; omega
  · unfold node_cmp
    have k1 := key n1.len n2.len a1 b1
    have k2 := key n1.steps n2.steps a2 b2
    have k3 := key n1.id n2.id a3 b3
    split
    · rw [k1.2.1]; omega
    · split
      · rw [k2.2.1]; omega
      · rw [k3.2.1]; omega
  · unfold node_cmp spec_lex_lt
    have k1 := key n1.len n2.len a1 b1
    have k2 := key n1.steps n2.steps a2 b2
    have k3 := key n1.id n2.id a3 b3
    split
    · rw [k1.2.2]; omega
    · split
      · rw [k2.2.2]; omega
      · rw [k3.2.2]; omega
  · intro nodes edges f1 f2 e1 e2 he1 he2 hn1 hn2
    simp [fail_cmp, he1, he2, hn1, hn2]

theorem node_cmp_lex_witness :
    (node_cmp (cmp_demo_node 1 7 3) (cmp_demo_node 2 0 0) < 0 ↔
      spec_lex_lt (cmp_demo_node 1 7 3) (cmp_demo_node 2 0 0)) ∧
    (node_cmp (cmp_demo_node 1 7 3) (cmp_demo_node 2 0 0) = 0 ↔
      ((cmp_demo_node 1 7 3).len = (cmp_demo_node 2 0 0).len ∧
        (cmp_demo_node 1 7 3).steps = (cmp_demo_node 2 0 0).steps ∧
        (cmp_demo_node 1 7 3).id = (cmp_demo_node 2 0 0).id)) ∧
    (0 < node_cmp (cmp_demo_node 1 7 3) (cmp_demo_node 2 0 0) ↔
      spec_lex_lt (cmp_demo_node 2 0 0) (cmp_demo_node 1 7 3)) ∧
    ∀ nodes edges (f1 f2 : failure) e1 e2, edges[f1.edge]? = some e1 → edges[f2.edge]? = some e2 →
      nodes[e1.dst]? = some (cmp_demo_node 1 7 3) → nodes[e2.dst]? = some (cmp_demo_node 2 0 0) →
      fail_cmp nodes edges f1 f2 = some (node_cmp (cmp_demo_node 1 7 3) (cmp_demo_node 2 0 0)) :=
  node_cmp_lex (cmp_demo_node 1 7 3) (cmp_demo_node 2 0 0) (by decide) (by decide)

/-- C18: `node_cmp` does not order all unsigned 32-bit field values
lexicographically, because the difference of two `unsigned int` is returned as
an `int`.  For `len = 0` against `len = 2 ^ 31 + 1` the first triple is
lexicographically less, but `node_cmp` returns the positive value
`2 ^ 31 - 1`; and for `len = 2 ^ 31` against `len = 0` the first triple is
greater but the result is the negative value `-2 ^ 31`. -/
theorem node_cmp_wraps :
    2 ^ 31 + 1 < 2 ^ 32 ∧
    spec_lex_lt (cmp_demo_node 0 0 0) (cmp_demo_node (2 ^ 31 + 1) 0 0) ∧
    node_cmp (cmp_demo_node 0 0 0) (cmp_demo_node (2 ^ 31 + 1) 0 0) = 2 ^ 31 - 1 ∧
    spec_lex_lt (cmp_demo_node 0 0 0) (cmp_demo_node (2 ^ 31) 0 0) ∧
    node_cmp (cmp_demo_node (2 ^ 31) 0 0) (cmp_demo_node 0 0 0) = -2 ^ 31 := by
  refine ⟨by norm_num, ?_, ?_, ?_, ?_⟩
  · left; show 0 < 2 ^ 31 + 1; norm_num
  · simp [node_cmp, cmp_demo_node, int_of_u32, u32_sub]
  · left; show 0 < 2 ^ 31; norm_num
  · simp [node_cmp, cmp_demo_node, int_of_u32, u32_sub]

theorem check_invariants_args_pair (cb : collab) (n b : state) :
    check_invariants_args cb n b = cb.value_put_list (invariant_pair n b) := rfl

/-- C19 (defect of the replay): in the program whose thread stores `x = 1`
and ends, with the invariant `pre.x != 1`, `onestep` from the initial node
(`x = 0`) creates node 1 (`x = 1`, `pre = 1`) and edge 0 from node 0 to node 1
and records an Invariant failure for edge 0 with the pc 2 of the invariant.
The call that found it is the self-loop check `check_invariants(next, next)`
of the new node, which returns 2; its pair is `(pre, post) = (1, 1)`, interned
as 1017.  The replay pushes the vars of the source and of the destination of
the edge, `(0, 1)`, interned as 1001, and the invariant evaluated on that pair
holds. -/
theorem invariant_replay_pair_differs :
    replay_demo_onestep.toOption.map (fun r => (r.1, r.2.1.failures)) =
      some (true, [⟨.FAIL_INVARIANT, 0, 2⟩]) ∧
    replay_demo_onestep.toOption.map (fun r =>
        (r.2.1.edges.map (fun e => (e.src, e.dst)),
          r.2.1.nodes.map (fun n => (n.state.vars, n.state.pre)))) =
      some ([(0, 1)], [(0, 0), (1, 1)]) ∧
    replay_demo_onestep.toOption.map (fun r =>
        (check_invariants replay_demo_global replay_demo_collab 2000
          { r.2.1 with failures := [], inv_ctx := (explore_init replay_demo_collab 1 0).w.inv_ctx }
          1 1).toOption.map (fun x => x.1)) = some (some 2) ∧
    replay_demo_onestep.toOption.map (fun r =>
        (r.2.1.nodes[1]?).map (fun n =>
          (invariant_pair n.state n.state,
            check_invariants_args replay_demo_collab n.state n.state))) =
      some (some ([1, 1], 1017)) ∧
    replay_demo_onestep.toOption.map (fun r =>
        (replay_invariant_pair r.2.1.nodes r.2.1.edges ⟨.FAIL_INVARIANT, 0, 2⟩,
          (replay_invariant_context replay_demo_collab r.2.1.nodes r.2.1.edges
            ⟨.FAIL_INVARIANT, 0, 2⟩).map (fun c => (c.pc, c.stack)))) =
      some (some [0, 1], some (2, [1001])) ∧
    replay_demo_onestep.toOption.map (fun r =>
        (r.2.1.nodes[1]?).map (fun n =>
          ((check_invariants_eval replay_demo_global replay_demo_collab 2000 1017
              { pc := 2, pre := true } n.state
              (explore_init replay_demo_collab 1 0).w.inv_ctx).toOption.map (fun x => x.1),
            (check_invariants_eval replay_demo_global replay_demo_collab 2000 1001
              { pc := 2, pre := true } n.state
              (explore_init replay_demo_collab 1 0).w.inv_ctx).toOption.map (fun x => x.1)))) =
      some (some (some false, some true)) := by
  refine ⟨by decide, by decide, by decide, by decide, by decide, by decide⟩

theorem path_trim_last_spec :
    ∀ (ms : List macrostep) (i : Nat) (last : List Nat),
      (∀ m ∈ ms, m.tid < last.length) →
      ∃ last1, path_trim_last ms i last = some last1 ∧ last1.length = last.length ∧
        ∀ t, last1[t]? =
          match find_last t ms with
          | some k => if t < last.length then some (i + k) else none
          | none => last[t]? := by
  intro ms
  induction ms with
  | nil =>
    intro i last _
    exact ⟨last, rfl, rfl, fun t => rfl⟩
  | cons m rest ih =>
    intro i last h
    have hm := h m (List.mem_cons_self _ _)
    obtain ⟨last1, e1, l1, s1⟩ := ih (i + 1) (last.set m.tid i) (fun m2 h2 => by
      rw [List.length_set]; exact h m2 (List.mem_cons_of_mem _ h2))
    refine ⟨last1, by rw [path_trim_last, if_pos hm, e1], by rw [l1, List.length_set], ?_⟩
    intro t
    rw [s1 t, find_last]
    cases hf : find_last t rest with
    | some k =>
      simp only [List.length_set]
      split
      · congr 1; omega
      · rfl
    | none =>
      dsimp only
      by_cases ht : m.tid = t
      · subst ht
        rw [if_pos rfl, List.getElem?_set_self hm]
        simp [hm]
      · rw [if_neg ht, List.getElem?_set_ne ht]

theorem spec_begins_ends_congr (g : global) (cb : collab) (m1 m2 : macrostep)
    (h : macrostep_core m1 = macrostep_core m2) :
    spec_begins_ends g cb m1 = spec_begins_ends g cb m2 := by
  simp only [macrostep_core, Prod.mk.injEq] at h
  obtain ⟨_, h2, h3, h4⟩ := h
  simp only [spec_begins_ends, h2, h3, h4]

theorem path_trim_thread_spec (g : global) (cb : collab) (last_i : Nat) (ms : List macrostep)
    (mac : macrostep) (hmac : ms[last_i]? = some mac) (h0 : 0 < mac.nmicrosteps)
    (h1 : mac.nmicrosteps ≤ mac.microsteps.length)
    (hpc : (cb.value_get_context mac.ctx).pc < g.instrs.length)
    (hmi : ∀ mi ∈ mac.microsteps, mi.ctx.pc < g.instrs.length) :
    ∃ ms1, path_trim_thread g cb last_i ms = some ms1 ∧ ms1.length = ms.length ∧
      ∀ k, (ms1[k]?).map macrostep_core = ((ms[k]?).map macrostep_core).map (fun c =>
        if k = last_i ∧ last_i ≠ ms.length - 1 ∧ spec_begins_ends g cb mac = true then trim_core c
        else c) := by
  have hlt : last_i < ms.length := (List.getElem?_eq_some_iff.1 hmac).1
  unfold path_trim_thread
  by_cases hlast : ms.length ≠ 0 ∧ last_i = ms.length - 1
  · rw [if_pos hlast]
    refine ⟨ms, rfl, rfl, ?_⟩
    intro k
    have : ¬ (k = last_i ∧ last_i ≠ ms.length - 1 ∧ spec_begins_ends g cb mac = true) :=
      fun h => h.2.1 hlast.2
    simp only [if_neg this]
    cases ms[k]? <;> rfl
  · rw [if_neg hlast, hmac]
    dsimp only
    have hne : last_i ≠ ms.length - 1 := fun h => hlast ⟨by omega, h⟩
    rw [if_neg (by omega)]
    have hls : mac.microsteps[mac.nmicrosteps - 1]? = some mac.microsteps[mac.nmicrosteps - 1] :=
      List.getElem?_eq_getElem (by omega)
    have hfirst : mac.microsteps[0]? = some mac.microsteps[0] :=
      List.getElem?_eq_getElem (by omega)
    have hfi : g.instrs[(cb.value_get_context mac.ctx).pc]? =
        some g.instrs[(cb.value_get_context mac.ctx).pc] := List.getElem?_eq_getElem hpc
    have hlpc : mac.microsteps[mac.nmicrosteps - 1].ctx.pc < g.instrs.length :=
      hmi _ (List.getElem_mem _)
    have hli : g.instrs[mac.microsteps[mac.nmicrosteps - 1].ctx.pc]? =
        some g.instrs[mac.microsteps[mac.nmicrosteps - 1].ctx.pc] := List.getElem?_eq_getElem hlpc
    have hsbe : spec_begins_ends g cb mac =
        ((g.instrs[(cb.value_get_context mac.ctx).pc].store ||
            g.instrs[(cb.value_get_context mac.ctx).pc].load ||
            g.instrs[(cb.value_get_context mac.ctx).pc].print) &&
          (g.instrs[mac.microsteps[mac.nmicrosteps - 1].ctx.pc].store ||
            g.instrs[mac.microsteps[mac.nmicrosteps - 1].ctx.pc].load ||
            g.instrs[mac.microsteps[mac.nmicrosteps - 1].ctx.pc].print)) := by
      simp only [spec_begins_ends, hls, hfi, hli]
    rw [hls, hfirst]
    dsimp only
    rw [hfi, hli]
    dsimp only
    rw [← hsbe]
    by_cases hc : spec_begins_ends g cb mac = true
    · rw [if_pos hc]
      refine ⟨_, rfl, by simp, ?_⟩
      intro k
      rw [List.getElem?_mapIdx]
      by_cases hk : k = last_i
      · subst hk
        rw [List.getElem?_set_self hlt, hmac]
        simp [macrostep_core, trim_core, hne, hc]
      · rw [List.getElem?_set_ne (fun h => hk h.symm)]
        have : ¬ (k = last_i ∧ last_i ≠ ms.length - 1 ∧ spec_begins_ends g cb mac = true) :=
          fun h => hk h.1
        simp only [if_neg this]
        cases ms[k]? with
        | none => rfl
        | some m =>
          simp only [Option.map_some', Option.some.injEq]
          split <;> rfl
    · rw [if_neg hc]
      refine ⟨ms, rfl, rfl, ?_⟩
      intro k
      have : ¬ (k = last_i ∧ last_i ≠ ms.length - 1 ∧ spec_begins_ends g cb mac = true) :=
        fun h => hc h.2.2
      simp only [if_neg this]
      cases ms[k]? <;> rfl

theorem path_trim_loop_spec (g : global) (cb : collab) (nprocesses : Nat) (last : List Nat)
    (ms0 : List macrostep) (hwf : trace_wf g cb nprocesses ms0 = true) :
    ∀ (is done : List Nat) (ms : List macrostep),
      (∀ i ∈ is, ∃ li, last[i]? = some li ∧ li < ms0.length) →
      trim_inv g cb last ms0 done ms →
      ∃ ms1, path_trim_loop g cb last is ms = some ms1 ∧
        trim_inv g cb last ms0 (done ++ is) ms1 := by
  intro is
  induction is with
  | nil =>
    intro done ms _ hinv
    exact ⟨ms, rfl, by simpa using hinv⟩
  | cons i rest ih =>
    intro done ms hlast hinv
    obtain ⟨li, hli, hlt⟩ := hlast i (List.mem_cons_self _ _)
    have hm0 : ms0[li]? = some ms0[li] := List.getElem?_eq_getElem hlt
    have hltm : li < ms.length := by rw [hinv.1]; exact hlt
    have hmac : ms[li]? = some ms[li] := List.getElem?_eq_getElem hltm
    have hv := List.all_eq_true.1 hwf ms0[li] (List.getElem_mem hlt)
    simp only [Bool.and_eq_true, decide_eq_true_eq, List.all_eq_true] at hv
    obtain ⟨⟨⟨⟨_, v2⟩, v3⟩, v4⟩, v5⟩ := hv
    have hcore := hinv.2 li
    rw [hmac, hm0, Option.map_some', Option.map_some', Option.some.injEq] at hcore
    have hfields : ms[li].ctx = ms0[li].ctx ∧ ms[li].microsteps = ms0[li].microsteps ∧
        (ms[li].nmicrosteps = 1 ∨ ms[li].nmicrosteps = ms0[li].nmicrosteps) := by
      split at hcore
      · simp only [macrostep_core, trim_core, Prod.mk.injEq] at hcore
        exact ⟨hcore.2.1, hcore.2.2.2, Or.inl hcore.2.2.1⟩
      · simp only [macrostep_core, Prod.mk.injEq] at hcore
        exact ⟨hcore.2.1, hcore.2.2.2, Or.inr hcore.2.2.1⟩
    obtain ⟨f1, f2, f3⟩ := hfields
    obtain ⟨ms1, e1, l1, s1⟩ := path_trim_thread_spec g cb li ms ms[li] hmac
      (by rcases f3 with h | h <;> omega) (by rw [f2]; rcases f3 with h | h <;> omega)
      (by rw [f1]; exact v4) (by rw [f2]; exact v5)
    have hinv1 : trim_inv g cb last ms0 (done ++ [i]) ms1 := by
      refine ⟨by rw [l1, hinv.1], ?_⟩
      intro k
      rw [s1 k, hinv.2 k]
      cases hk0 : ms0[k]? with
      | none => rfl
      | some m =>
        simp only [Option.map_some', Option.some.injEq, List.any_append, List.any_cons,
          List.any_nil, Bool.or_false]
        by_cases hk : k = li
        · subst hk
          rw [hm0] at hk0
          cases hk0
          have hlik : (last[i]? == some k) = true := by rw [hli]; simp
          rw [hlik, Bool.or_true, Bool.true_and, hinv.1]
          by_cases hT : (done.any (fun i => last[i]? == some k) && k != ms0.length - 1 &&
              spec_begins_ends g cb ms0[k]) = true
          · rw [if_pos hT]
            have hT2 : (k != ms0.length - 1 && spec_begins_ends g cb ms0[k]) = true := by
              simp only [Bool.and_eq_true] at hT ⊢
              exact ⟨hT.1.2, hT.2⟩
            rw [if_pos hT2]
            split <;> rfl
          · rw [if_neg hT]
            rw [if_neg hT] at hcore
            rw [spec_begins_ends_congr g cb _ _ hcore]
            by_cases hT2 : (k != ms0.length - 1 && spec_begins_ends g cb ms0[k]) = true
            · rw [if_pos hT2]
              simp only [Bool.and_eq_true, bne_iff_ne] at hT2
              rw [if_pos ⟨rfl, hT2.1, hT2.2⟩]
            · rw [if_neg hT2]
              simp only [Bool.and_eq_true, bne_iff_ne] at hT2
              rw [if_neg (fun h => hT2 ⟨h.2.1, h.2.2⟩)]
        · have hlik : (last[i]? == some k) = false := by
            rw [hli]; simp; exact fun h => hk h.symm
          rw [hlik, Bool.or_false]
          rw [if_neg (fun h => hk h.1)]
    obtain ⟨ms2, e2, i2⟩ := ih (done ++ [i]) ms1
      (fun j hj => hlast j (List.mem_cons_of_mem _ hj)) hinv1
    refine ⟨ms2, ?_, by simpa using i2⟩
    rw [path_trim_loop, hli]
    dsimp only
    rw [e1]
    exact e2

theorem find_last_lt (t : Nat) :
    ∀ (ms : List macrostep) (k : Nat), find_last t ms = some k → k < ms.length := by
  intro ms
  induction ms with
  | nil => intro k h; cases h
  | cons m rest ih =>
    intro k h
    rw [find_last] at h
    cases hf : find_last t rest with
    | some k2 =>
      rw [hf] at h
      cases h
      have := ih k2 hf
      simp only [List.length_cons]; omega
    | none =>
      rw [hf] at h
      dsimp only at h
      by_cases ht : m.tid = t
      · rw [if_pos ht] at h; cases h; simp
      · rw [if_neg ht] at h; cases h

/-- The function `path_trim` in terms of its array `last`: for a well-formed,
non-empty trace `path_trim` returns; the number of macrosteps is unchanged;
every macrostep keeps its thread, its context and its microsteps; and the
count of microsteps of the macrostep at index `k` becomes 1 exactly when some
thread `i` with `1 ≤ i < nprocesses` has `last[i] = k`, `k` is not the last
index of the trace, and the macrostep begins and ends on a load, store or
print instruction; otherwise the count is unchanged. -/
theorem path_trim_by_last (g : global) (cb : collab) (nprocesses : Nat) (ms : List macrostep)
    (hwf : trace_wf g cb nprocesses ms = true) (hne : ms ≠ []) :
    ∃ ms1, path_trim g cb nprocesses ms = some ms1 ∧ ms1.length = ms.length ∧
      ∀ k m, ms[k]? = some m → ∃ m1, ms1[k]? = some m1 ∧ m1.tid = m.tid ∧ m1.ctx = m.ctx ∧
        m1.microsteps = m.microsteps ∧
        m1.nmicrosteps =
          if last_trimmed g cb nprocesses ms k m = true then 1 else m.nmicrosteps := by
  have htid : ∀ m ∈ ms, m.tid < (List.replicate nprocesses 0).length := by
    intro m hm
    have hv := List.all_eq_true.1 hwf m hm
    simp only [Bool.and_eq_true, decide_eq_true_eq] at hv
    simpa using hv.1.1.1.1
  obtain ⟨last, e1, l1, s1⟩ := path_trim_last_spec ms 0 (List.replicate nprocesses 0) htid
  have hlen : 0 < ms.length := List.length_pos.2 hne
  have hlast : ∀ i ∈ List.range' 1 (nprocesses - 1),
      last[i]? = some ((find_last i ms).getD 0) ∧ (find_last i ms).getD 0 < ms.length := by
    intro i hi
    have hi2 : i < nprocesses := by
      have := List.mem_range'_1.1 hi
      omega
    rw [s1 i]
    cases hf : find_last i ms with
    | some k =>
      simp only [List.length_replicate, hi2, if_true, Option.getD_some, Nat.zero_add, true_and]
      exact find_last_lt i ms k hf
    | none =>
      simp only [Option.getD_none]
      refine ⟨?_, hlen⟩
      rw [List.getElem?_replicate, if_pos hi2]
  obtain ⟨ms1, e2, hinv⟩ := path_trim_loop_spec g cb nprocesses last ms hwf
    (List.range' 1 (nprocesses - 1)) [] ms
    (fun i hi => ⟨_, (hlast i hi).1, (hlast i hi).2⟩)
    ⟨rfl, fun k => by cases ms[k]? <;> simp⟩
  rw [List.nil_append] at hinv
  refine ⟨ms1, by rw [path_trim, e1]; exact e2, hinv.1, ?_⟩
  intro k m hk
  have hany : (List.range' 1 (nprocesses - 1)).any (fun i => last[i]? == some k) =
      (List.range' 1 (nprocesses - 1)).any (fun i => (find_last i ms).getD 0 == k) := by
    rw [Bool.eq_iff_iff, List.any_eq_true, List.any_eq_true]
    constructor
    · rintro ⟨i, hi, h⟩
      refine ⟨i, hi, ?_⟩
      rw [(hlast i hi).1] at h
      simpa using h
    · rintro ⟨i, hi, h⟩
      refine ⟨i, hi, ?_⟩
      rw [(hlast i hi).1]
      simpa using h
  have hc := hinv.2 k
  rw [hk, Option.map_some', hany] at hc
  have hlt1 : k < ms1.length := by
    rw [hinv.1]; exact (List.getElem?_eq_some_iff.1 hk).1
  have hm1 : ms1[k]? = some ms1[k] := List.getElem?_eq_getElem hlt1
  rw [hm1, Option.map_some', Option.some.injEq] at hc
  refine ⟨ms1[k], hm1, ?_⟩
  unfold last_trimmed
  split at hc
  · rename_i hT
    rw [if_pos hT]
    simp only [macrostep_core, trim_core, Prod.mk.injEq] at hc
    exact ⟨hc.1, hc.2.1, hc.2.2.2, hc.2.2.1⟩
  · rename_i hT
    rw [if_neg hT]
    simp only [macrostep_core, Prod.mk.injEq] at hc
    exact ⟨hc.1, hc.2.1, hc.2.2.2, hc.2.2.1⟩

theorem path_trim_by_last_demo :
    ∃ ms1, path_trim demo_global demo_collab 3 trim_demo_trace = some ms1 ∧
      ms1.length = trim_demo_trace.length ∧
      ∀ k m, trim_demo_trace[k]? = some m → ∃ m1, ms1[k]? = some m1 ∧ m1.tid = m.tid ∧
        m1.ctx = m.ctx ∧ m1.microsteps = m.microsteps ∧
        m1.nmicrosteps =
          if last_trimmed demo_global demo_collab 3 trim_demo_trace k m = true then 1
          else m.nmicrosteps :=
  path_trim_by_last demo_global demo_collab 3 trim_demo_trace (by decide) (by decide)

theorem trim_demo_run :
    (path_trim demo_global demo_collab 3 trim_demo_trace).map
      (fun ms => ms.map (fun m => (m.nmicrosteps, m.processes))) =
      some [(3, [109, 1, 5]), (1, [109, 2, 5]), (1, [109, 3, 5]), (1, [109, 4, 5]),
        (2, [109, 4, 5])] := by
  decide

/-- Traces in which thread 0 begins a macrostep on a store, which the initial
context of `main` does not do.  In the trace of two threads the only macrostep
of thread 0 begins and ends on a store, and `path_trim`, whose loop starts at
thread 1, leaves it with its two microsteps.  In the trace with an idle
process 2, `last[2]` is 0, and `path_trim` reduces the macrostep at index 0 to
one microstep. -/
theorem path_trim_thread_zero_kept :
    find_last 0 trim_demo_trace_zero = some 0 ∧
    (trim_demo_trace_zero.getLast?).map (fun m => m.tid) = some 1 ∧
    (trim_demo_trace_zero[0]?).map (spec_begins_ends demo_global demo_collab) = some true ∧
    (path_trim demo_global demo_collab 2 trim_demo_trace_zero).map
      (fun ms => ms.map (fun m => m.nmicrosteps)) = some [2, 2] ∧
    find_last 0 trim_demo_trace_idle = some 1 ∧
    find_last 2 trim_demo_trace_idle = none ∧
    (path_trim demo_global demo_collab 3 trim_demo_trace_idle).map
      (fun ms => ms.map (fun m => m.nmicrosteps)) = some [1, 1, 2] := by
  decide

/-! ## Theorems: charm.c, workers, allocator and path update -/

/-- C21 (amended): with at least one worker, the batch that `do_work` claims
when `nleft = goal - todo` nodes are left has
`min(nleft, max(100, nleft / (2 * nworkers)))` nodes, which is positive when
`nleft` is; and an iteration of `do_work` with `nleft > 0` works on the nodes
`todo, .., todo + take - 1` and goes on with `todo` advanced by `take`. -/
theorem do_work_take_spec (nworkers nleft : Nat) (hw : 0 < nworkers) :
    do_work_take nworkers nleft = min nleft (max 100 (nleft / (2 * nworkers))) ∧
    (0 < nleft → 0 < do_work_take nworkers nleft) ∧
    ∀ (fuel : Nat) (g : global) (cb : collab) (k : Nat) (x : explorer),
      x.w.nworkers = nworkers → x.todo ≤ x.goal → x.goal - x.todo = nleft → 0 < nleft →
      x.todo + do_work_take nworkers nleft ≤ x.graph_nodes.length →
      do_work fuel g cb (k + 1) x =
        (do_work_batch fuel g cb x.graph_nodes (do_work_take nworkers nleft) x.todo x.w).bind
          fun w1 => do_work fuel g cb k
            { x with w := w1, todo := x.todo + do_work_take nworkers nleft } := by
  have hdiv : nleft / nworkers / 2 = nleft / (2 * nworkers) := by
    have _ := hw
    rw [Nat.div_div_eq_div_mul, Nat.mul_comm]
  refine ⟨?_, ?_, ?_⟩
  · unfold do_work_take
    simp only [hdiv]
    split <;> split <;> omega
  · intro h
    unfold do_work_take
    simp only [hdiv]
    split <;> split <;> omega
  · intro fuel g cb k x h1 h2 h3 h4 h5
    rw [do_work, if_neg (by omega), if_neg (by omega), h1, h3, if_neg (by omega)]

theorem do_work_take_spec_witness :
    do_work_take 2 1000 = min 1000 (max 100 (1000 / (2 * 2))) ∧
    (0 < 1000 → 0 < do_work_take 2 1000) ∧
    ∀ (fuel : Nat) (g : global) (cb : collab) (k : Nat) (x : explorer),
      x.w.nworkers = 2 → x.todo ≤ x.goal → x.goal - x.todo = 1000 → 0 < 1000 →
      x.todo + do_work_take 2 1000 ≤ x.graph_nodes.length →
      do_work fuel g cb (k + 1) x =
        (do_work_batch fuel g cb x.graph_nodes (do_work_take 2 1000) x.todo x.w).bind
          fun w1 => do_work fuel g cb k
            { x with w := w1, todo := x.todo + do_work_take 2 1000 } :=
  do_work_take_spec 2 1000 (by decide)

/-- C21 (counterexample): with one worker and 5 nodes left the batch has 5
nodes, not `max(100, 5 / 2) = 100`; and with the initial node as the only node
of the graph, `do_work` leaves `todo = 1`. -/
theorem do_work_take_capped :
    do_work_take 1 5 = 5 ∧ max 100 (5 / (2 * 1)) = 100 ∧
    (do_work 2000 demo_global demo_collab 5 (explore_init demo_collab 7 0)).toOption.map
      (fun x => (x.todo, x.goal)) = some (1, 1) := by
  refine ⟨by decide, by decide, by decide⟩

theorem align16_spec (size : Nat) (h : size ≤ WALLOC_CHUNK) :
    size ≤ align16 size ∧ align16 size < size + 16 ∧ align16 size % 16 = 0 ∧
      align16 size ≤ WALLOC_CHUNK := by
  unfold align16 u32 WALLOC_CHUNK at *
  omega

theorem walloc_step (s : walloc_state) (size : Nat) (hwf : walloc_wf s)
    (hsize : size ≤ WALLOC_CHUNK) :
    ∃ buf offset, (walloc s size).1 = .chunk buf offset (align16 size) ∧
      offset % 16 = 0 ∧ offset + size ≤ WALLOC_CHUNK ∧
      offset + align16 size ≤ WALLOC_CHUNK ∧
      ((buf = s.alloc_buf ∧ offset = s.alloc_ptr ∧ (walloc s size).2.nchunks = s.nchunks) ∨
        (buf = s.nchunks ∧ offset = 0 ∧ (walloc s size).2.nchunks = s.nchunks + 1)) ∧
      (walloc s size).2.alloc_buf = buf ∧
      (walloc s size).2.alloc_ptr = offset + align16 size ∧
      walloc_wf (walloc s size).2 := by
  obtain ⟨h1, h2, h3⟩ := hwf
  obtain ⟨a1, a2, a3, a4⟩ := align16_spec size hsize
  by_cases hfit : s.alloc_ptr + align16 size > WALLOC_CHUNK
  · have e : walloc s size = (.chunk s.nchunks 0 (align16 size),
        { alloc_buf := s.nchunks, alloc_ptr := 0 + align16 size,
          allocated := (s.allocated + size) % 2 ^ 64, nchunks := s.nchunks + 1 }) := by
      unfold walloc
      simp only [if_neg (Nat.not_lt.2 hsize), if_pos hfit]
    rw [e]
    refine ⟨s.nchunks, 0, rfl, rfl, by omega, by omega, Or.inr ⟨rfl, rfl, rfl⟩, rfl, rfl, ?_⟩
    refine ⟨?_, ?_, ?_⟩ <;> simp only <;> omega
  · have e : walloc s size = (.chunk s.alloc_buf s.alloc_ptr (align16 size),
        { alloc_buf := s.alloc_buf, alloc_ptr := s.alloc_ptr + align16 size,
          allocated := (s.allocated + size) % 2 ^ 64, nchunks := s.nchunks }) := by
      unfold walloc
      simp only [if_neg (Nat.not_lt.2 hsize), if_neg hfit]
    rw [e]
    refine ⟨s.alloc_buf, s.alloc_ptr, rfl, h2, by omega, by omega,
      Or.inl ⟨rfl, rfl, rfl⟩, rfl, rfl, ?_⟩
    refine ⟨?_, ?_, ?_⟩ <;> simp only <;> omega

theorem walloc_step_before (s : walloc_state) (size : Nat) (hwf : walloc_wf s)
    (hsize : size ≤ WALLOC_CHUNK) (b : walloc_block) (hb : walloc_before s b) :
    walloc_disjoint b (walloc s size).1 ∧ walloc_before (walloc s size).2 b ∧
      walloc_before (walloc s size).2 (walloc s size).1 := by
  obtain ⟨buf, offset, e1, _, _, _, hcase, e2, e3, _⟩ := walloc_step s size hwf hsize
  rw [e1]
  obtain ⟨_, _, h3⟩ := hwf
  cases b with
  | system sz => exact ⟨trivial, trivial, by
      unfold walloc_before
      rcases hcase with ⟨_, _, c3⟩ | ⟨_, _, c3⟩ <;> constructor <;> intros <;> omega⟩
  | chunk buf1 offset1 size1 =>
    unfold walloc_before at hb
    obtain ⟨hb1, hb2⟩ := hb
    unfold walloc_disjoint walloc_before
    dsimp only
    rcases hcase with ⟨c1, c2, c3⟩ | ⟨c1, c2, c3⟩
    · refine ⟨?_, ⟨by omega, ?_⟩, ⟨by omega, ?_⟩⟩
      · by_cases hbb : buf1 = buf
        · right; have := hb2 (by omega); omega
        · left; exact hbb
      · intro hbb; have := hb2 (by omega); omega
      · intro _; omega
    · refine ⟨Or.inl (by omega), ⟨by omega, ?_⟩, ⟨by omega, ?_⟩⟩
      · intro hbb; omega
      · intro _; omega

theorem walloc_system (s : walloc_state) (size : Nat) (hsize : WALLOC_CHUNK < size) :
    walloc s size = (.system size, { s with allocated := (s.allocated + size) % 2 ^ 64 }) := by
  unfold walloc
  simp only [if_pos hsize]

theorem walloc_run_disjoint :
    ∀ (sizes : List Nat) (s : walloc_state), walloc_wf s →
      walloc_wf (walloc_run s sizes).2 ∧
      (∀ b, walloc_before s b → walloc_before (walloc_run s sizes).2 b ∧
        ∀ b2 ∈ (walloc_run s sizes).1, walloc_disjoint b b2) ∧
      (∀ b2 ∈ (walloc_run s sizes).1, walloc_before (walloc_run s sizes).2 b2) ∧
      (walloc_run s sizes).1.Pairwise walloc_disjoint := by
  intro sizes
  induction sizes with
  | nil =>
    intro s hwf
    exact ⟨hwf, fun b hb => ⟨hb, fun b2 h2 => (by cases h2)⟩, fun b2 h2 => (by cases h2),
      List.Pairwise.nil⟩
  | cons size rest ih =>
    intro s hwf
    by_cases hsize : size ≤ WALLOC_CHUNK
    · obtain ⟨_, _, _, _, _, _, _, _, _, hwf1⟩ := walloc_step s size hwf hsize
      obtain ⟨i1, i2, i3, i4⟩ := ih (walloc s size).2 hwf1
      have hnew : walloc_before (walloc s size).2 (walloc s size).1 := by
        obtain ⟨buf, offset, e1, _, _, _, hcase, e2, e3, _⟩ := walloc_step s size hwf hsize
        rw [e1]
        unfold walloc_before
        dsimp only
        obtain ⟨_, _, h3⟩ := hwf
        rcases hcase with ⟨c1, c2, c3⟩ | ⟨c1, c2, c3⟩
        · exact ⟨by omega, fun _ => by omega⟩
        · exact ⟨by omega, fun _ => by omega⟩
      refine ⟨i1, ?_, ?_, ?_⟩
      · intro b hb
        obtain ⟨d1, d2, _⟩ := walloc_step_before s size hwf hsize b hb
        refine ⟨(i2 b d2).1, ?_⟩
        intro b2 h2
        rcases List.mem_cons.1 h2 with h3 | h3
        · rw [h3]; exact d1
        · exact (i2 b d2).2 b2 h3
      · intro b2 h2
        rcases List.mem_cons.1 h2 with h3 | h3
        · rw [h3]; exact (i2 _ hnew).1
        · exact i3 b2 h3
      · exact List.Pairwise.cons (fun b2 h2 => (i2 _ hnew).2 b2 h2) i4
    · have hbig : WALLOC_CHUNK < size := Nat.lt_of_not_le hsize
      have e := walloc_system s size hbig
      have hwf1 : walloc_wf (walloc s size).2 := by rw [e]; exact hwf
      obtain ⟨i1, i2, i3, i4⟩ := ih (walloc s size).2 hwf1
      have hsame : ∀ b, walloc_before s b → walloc_before (walloc s size).2 b := by
        intro b hb; rw [e]; exact hb
      refine ⟨i1, ?_, ?_, ?_⟩
      · intro b hb
        refine ⟨(i2 b (hsame b hb)).1, ?_⟩
        intro b2 h2
        rcases List.mem_cons.1 h2 with h3 | h3
        · rw [h3, e]; cases b <;> trivial
        · exact (i2 b (hsame b hb)).2 b2 h3
      · intro b2 h2
        rcases List.mem_cons.1 h2 with h3 | h3
        · rw [h3, e]; trivial
        · exact i3 b2 h3
      · refine List.Pairwise.cons ?_ i4
        intro b2 _
        rw [e]
        trivial

/-- C22: for a well-formed allocator state (the bump pointer inside the chunk
at a multiple of 16) and as long as `allocated` does not exceed the range of
`unsigned long`: `allocated` grows by exactly the requested size.  A request
of at most `WALLOC_CHUNK` bytes returns a block of the current chunk of the
state afterwards, at an offset that is a multiple of 16, with the requested
bytes inside the chunk; the block starts at the old bump pointer or at the
start of a fresh chunk, the bump pointer ends up behind the size rounded up
to 16, and the block overlaps no block handed out before.  A larger request is
served by the system allocator and leaves chunk and bump pointer unchanged.
The state stays well formed, and the blocks of any run of calls from the
initial state are pairwise disjoint. -/
theorem walloc_spec (s : walloc_state) (size : Nat) (hwf : walloc_wf s)
    (hall : s.allocated + size < 2 ^ 64) :
    (walloc s size).2.allocated = s.allocated + size ∧
    (size ≤ WALLOC_CHUNK →
      ∃ buf offset, (walloc s size).1 = .chunk buf offset (align16 size) ∧
        (walloc s size).2.alloc_buf = buf ∧ offset % 16 = 0 ∧
        offset + size ≤ WALLOC_CHUNK ∧
        ((buf = s.alloc_buf ∧ offset = s.alloc_ptr) ∨ (buf = s.nchunks ∧ offset = 0)) ∧
        (walloc s size).2.alloc_ptr = offset + align16 size ∧
        size ≤ align16 size ∧ align16 size < size + 16 ∧ align16 size % 16 = 0 ∧
        ∀ b, walloc_before s b → walloc_disjoint b (walloc s size).1) ∧
    (WALLOC_CHUNK < size →
      (walloc s size).1 = .system size ∧ (walloc s size).2.alloc_buf = s.alloc_buf ∧
        (walloc s size).2.alloc_ptr = s.alloc_ptr ∧ (walloc s size).2.nchunks = s.nchunks) ∧
    walloc_wf (walloc s size).2 ∧
    ∀ sizes, (walloc_run walloc_init sizes).1.Pairwise walloc_disjoint := by
  refine ⟨?_, ?_, ?_, ?_, ?_⟩
  · have : (walloc s size).2.allocated = (s.allocated + size) % 2 ^ 64 := by
      unfold walloc
      dsimp only
      split
      · rfl
      · split <;> rfl
    rw [this, Nat.mod_eq_of_lt hall]
  · intro hsize
    obtain ⟨buf, offset, e1, e2, e3, _, hcase, e4, e5, _⟩ := walloc_step s size hwf hsize
    obtain ⟨a1, a2, a3, _⟩ := align16_spec size hsize
    refine ⟨buf, offset, e1, e4, e2, e3, ?_, e5, a1, a2, a3, ?_⟩
    · rcases hcase with ⟨c1, c2, _⟩ | ⟨c1, c2, _⟩
      · exact Or.inl ⟨c1, c2⟩
      · exact Or.inr ⟨c1, c2⟩
    · intro b hb
      exact (walloc_step_before s size hwf hsize b hb).1
  · intro hsize
    rw [walloc_system s size hsize]
    exact ⟨rfl, rfl, rfl, rfl⟩
  · by_cases hsize : size ≤ WALLOC_CHUNK
    · obtain ⟨_, _, _, _, _, _, _, _, _, h⟩ := walloc_step s size hwf hsize
      exact h
    · rw [walloc_system s size (Nat.lt_of_not_le hsize)]
      exact hwf
  · intro sizes
    exact (walloc_run_disjoint sizes walloc_init ⟨by decide, by decide, by decide⟩).2.2.2

theorem walloc_spec_witness :
    (walloc walloc_init 24).2.allocated = walloc_init.allocated + 24 ∧
    (24 ≤ WALLOC_CHUNK →
      ∃ buf offset, (walloc walloc_init 24).1 = .chunk buf offset (align16 24) ∧
        (walloc walloc_init 24).2.alloc_buf = buf ∧ offset % 16 = 0 ∧
        offset + 24 ≤ WALLOC_CHUNK ∧
        ((buf = walloc_init.alloc_buf ∧ offset = walloc_init.alloc_ptr) ∨
          (buf = walloc_init.nchunks ∧ offset = 0)) ∧
        (walloc walloc_init 24).2.alloc_ptr = offset + align16 24 ∧
        24 ≤ align16 24 ∧ align16 24 < 24 + 16 ∧ align16 24 % 16 = 0 ∧
        ∀ b, walloc_before walloc_init b → walloc_disjoint b (walloc walloc_init 24).1) ∧
    (WALLOC_CHUNK < 24 →
      (walloc walloc_init 24).1 = .system 24 ∧
        (walloc walloc_init 24).2.alloc_buf = walloc_init.alloc_buf ∧
        (walloc walloc_init 24).2.alloc_ptr = walloc_init.alloc_ptr ∧
        (walloc walloc_init 24).2.nchunks = walloc_init.nchunks) ∧
    walloc_wf (walloc walloc_init 24).2 ∧
    ∀ sizes, (walloc_run walloc_init sizes).1.Pairwise walloc_disjoint :=
  walloc_spec walloc_init 24 ⟨by decide, by decide, by decide⟩ (by decide)

theorem walloc_demo_run :
    (walloc_run walloc_init [24, 1048576, 16, 1048577, 1]).1 =
      [.chunk 0 0 32, .chunk 1 0 1048576, .chunk 2 0 16, .system 1048577, .chunk 2 16 16] ∧
    (walloc_run walloc_init [24, 1048576, 16, 1048577, 1]).2 =
      { alloc_buf := 2, alloc_ptr := 32, allocated := 2097194, nchunks := 3 } := by
  decide

/-- C24 (amended): for an already-seen destination node, `onestep` replaces
the path record exactly when the candidate `(len, steps)` is lexicographically
less than or equal to the current `(len, steps)` of the node: then `len`,
`steps` and `to_parent` are those of the candidate, also when the candidate
ties on both `len` and `steps`; otherwise the node is unchanged.  No other
field of the node changes. -/
theorem onestep_path_seen (parent next : node) (weight instrcnt e : Nat) :
    (lex_le (u32 (parent.len + weight), u32 (parent.steps + instrcnt)) (next.len, next.steps) →
      onestep_path false parent weight instrcnt e next =
        { next with
          len := u32 (parent.len + weight)
          steps := u32 (parent.steps + instrcnt)
          to_parent := some e }) ∧
    (¬ lex_le (u32 (parent.len + weight), u32 (parent.steps + instrcnt)) (next.len, next.steps) →
      onestep_path false parent weight instrcnt e next = next) ∧
    ((u32 (parent.len + weight), u32 (parent.steps + instrcnt)) = (next.len, next.steps) →
      (onestep_path false parent weight instrcnt e next).to_parent = some e) := by
  refine ⟨?_, ?_, ?_⟩
  · intro h
    unfold lex_le at h
    unfold onestep_path
    rw [if_neg (by simp), if_pos h]
  · intro h
    unfold lex_le at h
    unfold onestep_path
    rw [if_neg (by simp), if_neg h]
  · intro h
    simp only [Prod.mk.injEq] at h
    unfold onestep_path
    rw [if_neg (by simp), if_pos (Or.inr ⟨h.1, le_of_eq h.2⟩)]

theorem onestep_path_seen_witness :
    lex_le (u32 ((cmp_demo_node 1 5 0).len + 1), u32 ((cmp_demo_node 1 5 0).steps + 2))
        ((cmp_demo_node 3 1 4).len, (cmp_demo_node 3 1 4).steps) ∧
      onestep_path false (cmp_demo_node 1 5 0) 1 2 9 (cmp_demo_node 3 1 4) =
        { cmp_demo_node 3 1 4 with
          len := u32 ((cmp_demo_node 1 5 0).len + 1)
          steps := u32 ((cmp_demo_node 1 5 0).steps + 2)
          to_parent := some 9 } :=
  ⟨Or.inl (by decide),
    (onestep_path_seen (cmp_demo_node 1 5 0) (cmp_demo_node 3 1 4) 1 2 9).1 (Or.inl (by decide))⟩

/-- C24 (counterexample): the node has `len = 2`, `steps = 7` and the parent
edge 3; the candidate from a source node with `len = 1`, `steps = 5` by a step
of weight 1 and 2 instructions ties on both, being `(2, 7)`, and is not
strictly smaller; `onestep` replaces `to_parent` by the new edge 9. -/
theorem onestep_path_tie_replaces :
    candidate_pair ⟨cmp_demo_node 1 5 0, 1, 2, 9⟩ = (2, 7) ∧
    ¬ lex_lt (candidate_pair ⟨cmp_demo_node 1 5 0, 1, 2, 9⟩) (2, 7) ∧
    path_record (onestep_path false (cmp_demo_node 1 5 0) 1 2 9
      { cmp_demo_node 2 7 4 with to_parent := some 3 }) = (2, 7, some 9) := by
  refine ⟨by decide, ?_, by decide⟩
  unfold lex_lt
  decide

theorem lex_le_refl (a : Nat × Nat) : lex_le a a := Or.inr ⟨rfl, le_refl _⟩

theorem lex_le_trans (a b c : Nat × Nat) (h1 : lex_le a b) (h2 : lex_le b c) : lex_le a c := by
  unfold lex_le at *
  omega

theorem lex_le_antisymm (a b : Nat × Nat) (h1 : lex_le a b) (h2 : lex_le b a) : a = b := by
  unfold lex_le at *
  apply Prod.ext <;> omega

theorem lex_le_total (a b : Nat × Nat) : lex_le a b ∨ lex_le b a := by
  unfold lex_le
  omega

theorem onestep_path_pair (c : path_candidate) (n : node) :
    (lex_le (candidate_pair c) (node_pair n) →
      node_pair (onestep_path false c.parent c.weight c.instrcnt c.e n) = candidate_pair c) ∧
    (¬ lex_le (candidate_pair c) (node_pair n) →
      node_pair (onestep_path false c.parent c.weight c.instrcnt c.e n) = node_pair n) := by
  unfold onestep_path lex_le candidate_pair node_pair
  rw [if_neg (by simp)]
  dsimp only
  constructor
  · intro h; rw [if_pos h]
  · intro h; rw [if_neg h]

theorem path_updates_min (cs : List path_candidate) :
    ∀ n : node,
      (node_pair (path_updates n cs) = node_pair n ∨
        node_pair (path_updates n cs) ∈ cs.map candidate_pair) ∧
      lex_le (node_pair (path_updates n cs)) (node_pair n) ∧
      ∀ p ∈ cs.map candidate_pair, lex_le (node_pair (path_updates n cs)) p := by
  induction cs with
  | nil =>
    intro n
    exact ⟨Or.inl rfl, lex_le_refl _, fun p hp => (by cases hp)⟩
  | cons c rest ih =>
    intro n
    obtain ⟨h1, h2, h3⟩ := ih (onestep_path false c.parent c.weight c.instrcnt c.e n)
    have hp := onestep_path_pair c n
    have hstep : path_updates n (c :: rest) =
        path_updates (onestep_path false c.parent c.weight c.instrcnt c.e n) rest := rfl
    rw [hstep]
    by_cases hle : lex_le (candidate_pair c) (node_pair n)
    · rw [hp.1 hle] at h1 h2
      refine ⟨Or.inr ?_, lex_le_trans _ _ _ h2 hle, ?_⟩
      · rcases h1 with h | h
        · rw [h]; exact List.mem_cons_self _ _
        · exact List.mem_cons_of_mem _ h
      · intro p hp2
        rcases List.mem_cons.1 hp2 with h | h
        · rw [h]; exact h2
        · exact h3 p h
    · rw [hp.2 hle] at h1 h2
      refine ⟨?_, h2, ?_⟩
      · rcases h1 with h | h
        · exact Or.inl h
        · exact Or.inr (List.mem_cons_of_mem _ h)
      · intro p hp2
        rcases List.mem_cons.1 hp2 with h | h
        · rw [h]
          rcases lex_le_total (candidate_pair c) (node_pair n) with h4 | h4
          · exact absurd h4 hle
          · exact lex_le_trans _ _ _ h2 h4
        · exact h3 p h

/-- C25: the path update of `onestep` applied to an already-seen node for a
list of candidates never increases `(len, steps)` lexicographically; the final
`(len, steps)` is the pair of the node or of a candidate and is
lexicographically less than or equal to all of them, that is their minimum;
two lists with the same candidate pairs, in any order and with any
repetitions, give the same final `(len, steps)`; and applying a candidate a
second time changes nothing. -/
theorem path_updates_merge (n : node) (cs : List path_candidate) :
    lex_le (node_pair (path_updates n cs)) (node_pair n) ∧
    (node_pair (path_updates n cs) ∈ node_pair n :: cs.map candidate_pair ∧
      ∀ p ∈ node_pair n :: cs.map candidate_pair, lex_le (node_pair (path_updates n cs)) p) ∧
    (∀ cs2 : List path_candidate,
      (∀ p, p ∈ cs.map candidate_pair ↔ p ∈ cs2.map candidate_pair) →
      node_pair (path_updates n cs2) = node_pair (path_updates n cs)) ∧
    ∀ c : path_candidate, path_updates (path_updates n [c]) [c] = path_updates n [c] := by
  obtain ⟨h1, h2, h3⟩ := path_updates_min cs n
  have hmem : ∀ (l : List path_candidate),
      node_pair (path_updates n l) ∈ node_pair n :: l.map candidate_pair := by
    intro l
    rcases (path_updates_min l n).1 with h | h
    · rw [h]; exact List.mem_cons_self _ _
    · exact List.mem_cons_of_mem _ h
  have hlow : ∀ (l : List path_candidate), ∀ p ∈ node_pair n :: l.map candidate_pair,
      lex_le (node_pair (path_updates n l)) p := by
    intro l p hp
    rcases List.mem_cons.1 hp with h | h
    · rw [h]; exact (path_updates_min l n).2.1
    · exact (path_updates_min l n).2.2 p h
  refine ⟨h2, ⟨hmem cs, hlow cs⟩, ?_, ?_⟩
  · intro cs2 hsame
    have hsub : ∀ (l1 l2 : List path_candidate),
        (∀ p, p ∈ l1.map candidate_pair → p ∈ l2.map candidate_pair) →
        lex_le (node_pair (path_updates n l2)) (node_pair (path_updates n l1)) := by
      intro l1 l2 hs
      apply hlow l2
      rcases List.mem_cons.1 (hmem l1) with h | h
      · rw [h]; exact List.mem_cons_self _ _
      · exact List.mem_cons_of_mem _ (hs _ h)
    exact lex_le_antisymm _ _ (hsub cs cs2 (fun p hp => (hsame p).1 hp))
      (hsub cs2 cs (fun p hp => (hsame p).2 hp))
  · intro c
    show onestep_path false c.parent c.weight c.instrcnt c.e
        (onestep_path false c.parent c.weight c.instrcnt c.e n) =
      onestep_path false c.parent c.weight c.instrcnt c.e n
    unfold onestep_path
    simp only [Bool.false_eq_true, if_false]
    by_cases hc : u32 (c.parent.len + c.weight) < n.len ∨
        (u32 (c.parent.len + c.weight) = n.len ∧ u32 (c.parent.steps + c.instrcnt) ≤ n.steps)
    · rw [if_pos hc]
      rw [if_pos (Or.inr ⟨rfl, le_refl _⟩)]
    · rw [if_neg hc, if_neg hc]

theorem path_updates_merge_witness :
    node_pair (path_updates { cmp_demo_node 5 9 4 with to_parent := some 3 }
      [⟨cmp_demo_node 1 4 2, 1, 3, 9⟩, ⟨cmp_demo_node 2 1 1, 1, 1, 8⟩,
        ⟨cmp_demo_node 1 5 0, 1, 2, 7⟩, ⟨cmp_demo_node 2 1 1, 1, 1, 8⟩]) =
    node_pair (path_updates { cmp_demo_node 5 9 4 with to_parent := some 3 }
      [⟨cmp_demo_node 1 5 0, 1, 2, 7⟩, ⟨cmp_demo_node 2 1 1, 1, 1, 8⟩,
        ⟨cmp_demo_node 1 4 2, 1, 3, 9⟩]) :=
  (path_updates_merge { cmp_demo_node 5 9 4 with to_parent := some 3 }
    [⟨cmp_demo_node 1 5 0, 1, 2, 7⟩, ⟨cmp_demo_node 2 1 1, 1, 1, 8⟩,
      ⟨cmp_demo_node 1 4 2, 1, 3, 9⟩]).2.2.1
    [⟨cmp_demo_node 1 4 2, 1, 3, 9⟩, ⟨cmp_demo_node 2 1 1, 1, 1, 8⟩,
      ⟨cmp_demo_node 1 5 0, 1, 2, 7⟩, ⟨cmp_demo_node 2 1 1, 1, 1, 8⟩]
    (fun p => by
      simp only [List.map, List.mem_cons, List.mem_singleton, List.not_mem_nil, or_false]
      tauto)

theorem path_updates_demo :
    path_record (path_updates { cmp_demo_node 5 9 4 with to_parent := some 3 }
      [⟨cmp_demo_node 1 5 0, 1, 2, 7⟩, ⟨cmp_demo_node 2 1 1, 1, 1, 8⟩,
        ⟨cmp_demo_node 1 4 2, 1, 3, 9⟩]) = (2, 7, some 9) ∧
    path_record (path_updates { cmp_demo_node 5 9 4 with to_parent := some 3 }
      [⟨cmp_demo_node 1 4 2, 1, 3, 9⟩, ⟨cmp_demo_node 2 1 1, 1, 1, 8⟩,
        ⟨cmp_demo_node 1 5 0, 1, 2, 7⟩]) = (2, 7, some 7) := by
  decide

theorem unvisited_set (nodes : List node) :
    ∀ (i : Nat) (n : node), nodes[i]? = some n → n.visited = false →
      unvisited (nodes.set i { n with visited := true }) + 1 = unvisited nodes := by
  induction nodes with
  | nil => intro i n h; cases h
  | cons a rest ih =>
    intro i n h hv
    cases i with
    | zero =>
      simp only [List.getElem?_cons_zero, Option.some.injEq] at h
      subst h
      simp [unvisited, List.countP_cons, hv]
    | succ i =>
      simp only [List.getElem?_cons_succ] at h
      have := ih i n h hv
      simp only [unvisited, List.set_cons_succ, List.countP_cons] at this ⊢
      omega

theorem unvisited_le (nodes : List node) : unvisited nodes ≤ nodes.length :=
  List.countP_le_length _

theorem graph_wf_congr (nodes nodes1 : List node) (edges : List edge)
    (h : nodes1.map node.fwd = nodes.map node.fwd) :
    graph_wf nodes1 edges = graph_wf nodes edges := by
  have hlen : nodes1.length = nodes.length := by
    have := congrArg List.length h
    simpa using this
  have e : ∀ (k : Nat) (l : List node),
      l.all (fun n => n.fwd.all (fun e =>
        match edges[e]? with
        | some ed => decide (ed.dst < k)
        | none => false)) =
      (l.map node.fwd).all (fun fw => fw.all (fun e =>
        match edges[e]? with
        | some ed => decide (ed.dst < k)
        | none => false)) := by
    intro k l
    induction l with
    | nil => rfl
    | cons a rest ih => simp only [List.all_cons, List.map_cons, ih]
  have e1 := e nodes.length nodes1
  have e2 := e nodes.length nodes
  rw [h] at e1
  unfold graph_wf
  rw [hlen]
  exact e1.trans e2.symm

theorem map_fwd_set (nodes : List node) (i : Nat) (n m : node) (h : nodes[i]? = some n)
    (hm : m.fwd = n.fwd) : (nodes.set i m).map node.fwd = nodes.map node.fwd := by
  apply List.ext_getElem?
  intro j
  rw [List.getElem?_map, List.getElem?_map]
  by_cases hj : i = j
  · subst hj
    rw [List.getElem?_set_self (List.getElem?_eq_some_iff.1 h).1, h]
    simp [hm]
  · rw [List.getElem?_set_ne hj]

theorem modify_set_restore (nodes : List node) (i : Nat) (n : node) (h : nodes[i]? = some n)
    (hv : n.visited = false) :
    (nodes.set i { n with visited := true }).modify (fun m => { m with visited := false }) i =
      nodes := by
  apply List.ext_getElem?
  intro j
  rw [List.getElem?_modify]
  by_cases hj : i = j
  · subst hj
    rw [List.getElem?_set_self (List.getElem?_eq_some_iff.1 h).1, h]
    simp only [if_true, Option.map_some', Option.some.injEq]
    cases n
    simp only at hv
    subst hv
    rfl
  · rw [List.getElem?_set_ne hj]
    simp [hj]

theorem is_stuck_mark_scan_same (edges : List edge)
    (recurse : List Harmony.node → Nat → hvalue → Option (busywait × List Harmony.node))
    (start node : Nat) (ctx : hvalue) (change : Bool) (nodes : List Harmony.node)
    (hrec : ∀ dst after, dst < nodes.length → ∃ r, recurse nodes dst after = some (r, nodes)) :
    ∀ (es : List Nat) (result : busywait),
      (∀ e ∈ es, ∃ ed, edges[e]? = some ed ∧ ed.dst < nodes.length) →
      ∃ r, is_stuck_mark_scan edges recurse start node ctx change es result nodes =
        some (r, nodes) := by
  intro es
  induction es with
  | nil => intro result _; exact ⟨result, rfl⟩
  | cons e es ih =>
    intro result h
    obtain ⟨ed, hed, hdst⟩ := h e (List.mem_cons_self _ _)
    have ih2 := fun r2 => ih r2 (fun e2 he2 => h e2 (List.mem_cons_of_mem _ he2))
    obtain ⟨r, hr⟩ := hrec ed.dst ed.after hdst
    rw [is_stuck_mark_scan, hed]
    dsimp only
    rw [hr]
    cases r <;> dsimp only <;> repeat' split
    all_goals first
      | exact ⟨_, rfl⟩
      | exact ih2 _

theorem is_stuck_mark_total (edges : List edge) (start : Nat) :
    ∀ (fuel : Nat) (nodes : List Harmony.node) (node : Nat) (ctx : hvalue) (change : Bool),
      start < nodes.length → node < nodes.length → graph_wf nodes edges = true →
      unvisited nodes < fuel →
      ∃ r, is_stuck_mark edges start fuel nodes node ctx change = some (r, nodes) := by
  intro fuel
  induction fuel with
  | zero => intro nodes node ctx change _ _ _ h; omega
  | succ fuel ih =>
    intro nodes node ctx change hs hnode hwf hfuel
    have hn : nodes[node]? = some nodes[node] := List.getElem?_eq_getElem hnode
    have hst : nodes[start]? = some nodes[start] := List.getElem?_eq_getElem hs
    rw [is_stuck_mark, hn, hst]
    dsimp only
    split
    · exact ⟨_, rfl⟩
    · split
      · exact ⟨_, rfl⟩
      · rename_i hvis
        have hv : nodes[node].visited = false := by simpa using hvis
        have hlen : (nodes.set node { nodes[node] with visited := true }).length = nodes.length :=
          List.length_set _ _ _
        have hfw : (nodes.set node { nodes[node] with visited := true }).map Harmony.node.fwd =
            nodes.map Harmony.node.fwd := map_fwd_set nodes node _ _ hn rfl
        have hwf1 : graph_wf (nodes.set node { nodes[node] with visited := true }) edges = true := by
          rw [graph_wf_congr _ _ edges hfw]; exact hwf
        have hcount := unvisited_set nodes node _ hn hv
        have hc2 : unvisited (nodes.set node { nodes[node] with visited := true }) < fuel := by
          have h3 := hcount
          dsimp only at h3 ⊢
          omega
        obtain ⟨r, hr⟩ := is_stuck_mark_scan_same edges
          (fun nodes1 dst after => is_stuck_mark edges start fuel nodes1 dst after
            (change || (nodes[node].state.vars != nodes[start].state.vars)))
          start node ctx (change || (nodes[node].state.vars != nodes[start].state.vars))
          (nodes.set node { nodes[node] with visited := true })
          (fun dst after hdst => ih _ dst after _ (by rw [hlen]; exact hs) hdst hwf1 hc2)
          nodes[node].fwd .BW_ESCAPE
          (by
            intro e he
            have hmem : nodes[node] ∈ nodes := List.getElem_mem hnode
            have h1 := List.all_eq_true.1 hwf _ hmem
            have h2 := List.all_eq_true.1 h1 e he
            cases hed : edges[e]? with
            | none => rw [hed] at h2; cases h2
            | some ed =>
              rw [hed] at h2
              exact ⟨ed, rfl, by rw [hlen]; simpa using h2⟩)
        rw [hr]
        dsimp only
        rw [modify_set_restore nodes node _ hn hv]
        exact ⟨r, rfl⟩

theorem is_stuck_mark_scan_refines (edges : List edge)
    (recurse : List Harmony.node → Nat → hvalue → Option (busywait × List Harmony.node))
    (recurse_list : Nat → hvalue → Option busywait)
    (start node : Nat) (ctx : hvalue) (change : Bool) (nodes : List Harmony.node)
    (hrec : ∀ dst after r1 n1, recurse nodes dst after = some (r1, n1) →
      n1 = nodes ∧ recurse_list dst after = some r1) :
    ∀ (es : List Nat) (result r : busywait) (nodes2 : List Harmony.node),
      is_stuck_mark_scan edges recurse start node ctx change es result nodes = some (r, nodes2) →
      nodes2 = nodes ∧
        is_stuck_scan edges recurse_list start node ctx change es result = some r := by
  intro es
  induction es with
  | nil =>
    intro result r nodes2 h
    simp only [is_stuck_mark_scan, Option.some.injEq, Prod.mk.injEq] at h
    exact ⟨h.2.symm, by rw [is_stuck_scan, h.1]⟩
  | cons e es ih =>
    intro result r nodes2 h
    rw [is_stuck_mark_scan] at h
    rw [is_stuck_scan]
    cases hed : edges[e]? with
    | none => rw [hed] at h; cases h
    | some ed =>
      rw [hed] at h
      dsimp only at h ⊢
      by_cases hctx : ed.ctx = ctx
      · rw [if_pos hctx] at h ⊢
        by_cases hself : ed.dst = node
        · rw [if_pos hself] at h ⊢
          simp only [Option.some.injEq, Prod.mk.injEq] at h
          exact ⟨h.2.symm, by rw [h.1]⟩
        · rw [if_neg hself] at h ⊢
          by_cases hstart : ed.dst = start
          · rw [if_pos hstart] at h ⊢
            by_cases hch : (!change) = true
            · rw [if_pos hch] at h ⊢
              simp only [Option.some.injEq, Prod.mk.injEq] at h
              exact ⟨h.2.symm, by rw [h.1]⟩
            · rw [if_neg hch] at h ⊢
              exact ih _ _ _ h
          · rw [if_neg hstart] at h ⊢
            cases hr : recurse nodes ed.dst ed.after with
            | none => rw [hr] at h; cases h
            | some p =>
              obtain ⟨r1, n1⟩ := p
              obtain ⟨hn1, hl⟩ := hrec _ _ _ _ hr
              subst hn1
              rw [hr] at h
              rw [hl]
              cases r1 with
              | BW_ESCAPE =>
                simp only [Option.some.injEq, Prod.mk.injEq] at h
                exact ⟨h.2.symm, by rw [← h.1]⟩
              | BW_RETURN => exact ih _ _ _ h
              | BW_VISITED => exact ih _ _ _ h
      · rw [if_neg hctx] at h ⊢
        exact ih _ _ _ h

theorem skel_get (nodes nodes0 : List node) (h : nodes.map node_skel = nodes0.map node_skel)
    (q : Nat) (n : node) (hq : nodes[q]? = some n) :
    ∃ n0, nodes0[q]? = some n0 ∧ node_skel n0 = node_skel n := by
  have := congrArg (fun l => l[q]?) h
  simp only [List.getElem?_map, hq, Option.map_some'] at this
  cases h0 : nodes0[q]? with
  | none => rw [h0] at this; cases this
  | some n0 =>
    rw [h0] at this
    exact ⟨n0, rfl, by simpa using this.symm⟩

theorem map_skel_set (nodes : List node) (i : Nat) (n m : node) (h : nodes[i]? = some n)
    (hm : node_skel m = node_skel n) : (nodes.set i m).map node_skel = nodes.map node_skel := by
  apply List.ext_getElem?
  intro j
  rw [List.getElem?_map, List.getElem?_map]
  by_cases hj : i = j
  · subst hj
    rw [List.getElem?_set_self (List.getElem?_eq_some_iff.1 h).1, h]
    simp [hm]
  · rw [List.getElem?_set_ne hj]

theorem is_stuck_mark_refines (edges : List edge) (start : Nat) (nodes0 : List Harmony.node) :
    ∀ (fuel : Nat) (nodes : List Harmony.node) (visited : List Nat) (node : Nat) (ctx : hvalue)
      (change : Bool) (r : busywait) (nodes1 : List Harmony.node),
      nodes.map node_skel = nodes0.map node_skel →
      (∀ q n, nodes[q]? = some n → (n.visited = true ↔ q ∈ visited)) →
      is_stuck_mark edges start fuel nodes node ctx change = some (r, nodes1) →
      nodes1 = nodes ∧ is_stuck nodes0 edges start fuel visited node ctx change = some r := by
  intro fuel
  induction fuel with
  | zero => intro nodes visited node ctx change r nodes1 _ _ h; cases h
  | succ fuel ih =>
    intro nodes visited node ctx change r nodes1 hsk hflag h
    rw [is_stuck_mark] at h
    cases hn : nodes[node]? with
    | none => rw [hn] at h; cases h
    | some n =>
      cases hst : nodes[start]? with
      | none => rw [hn, hst] at h; cases h
      | some s =>
        rw [hn, hst] at h
        dsimp only at h
        obtain ⟨n0, hn0, kn⟩ := skel_get nodes nodes0 hsk node n hn
        obtain ⟨s0, hs0, ks⟩ := skel_get nodes nodes0 hsk start s hst
        simp only [node_skel, Prod.mk.injEq] at kn ks
        obtain ⟨kn1, kn2, kn3⟩ := kn
        obtain ⟨ks1, ks2, _⟩ := ks
        rw [is_stuck, hn0, hs0]
        dsimp only
        rw [kn1, ks1, kn2, ks2, kn3]
        by_cases hcomp : n.component ≠ s.component
        · rw [if_pos hcomp] at h ⊢
          simp only [Option.some.injEq, Prod.mk.injEq] at h
          exact ⟨h.2.symm, by rw [h.1]⟩
        · rw [if_neg hcomp] at h ⊢
          by_cases hvis : n.visited = true
          · rw [if_pos hvis] at h
            rw [if_pos ((hflag node n hn).1 hvis)]
            simp only [Option.some.injEq, Prod.mk.injEq] at h
            exact ⟨h.2.symm, by rw [h.1]⟩
          · rw [if_neg hvis] at h
            rw [if_neg (fun hm => hvis ((hflag node n hn).2 hm))]
            have hv : n.visited = false := by simpa using hvis
            have hsk1 : (nodes.set node { n with visited := true }).map node_skel =
                nodes0.map node_skel := by
              exact (map_skel_set nodes node n { n with visited := true } hn rfl).trans hsk
            have hflag1 : ∀ q m, (nodes.set node { n with visited := true })[q]? = some m →
                (m.visited = true ↔ q ∈ node :: visited) := by
              intro q m hq
              by_cases hqn : node = q
              · subst hqn
                rw [List.getElem?_set_self (List.getElem?_eq_some_iff.1 hn).1] at hq
                cases hq
                simp
              · rw [List.getElem?_set_ne hqn] at hq
                rw [hflag q m hq, List.mem_cons]
                constructor
                · exact Or.inr
                · rintro (h1 | h1)
                  · exact absurd h1.symm hqn
                  · exact h1
            cases hscan : is_stuck_mark_scan edges
                (fun nodes1 dst after => is_stuck_mark edges start fuel nodes1 dst after
                  (change || (n.state.vars != s.state.vars)))
                start node ctx (change || (n.state.vars != s.state.vars)) n.fwd .BW_ESCAPE
                (nodes.set node { n with visited := true }) with
            | none => rw [hscan] at h; cases h
            | some p =>
              obtain ⟨r2, nodes2⟩ := p
              rw [hscan] at h
              simp only [Option.some.injEq, Prod.mk.injEq] at h
              obtain ⟨e1, e2⟩ := is_stuck_mark_scan_refines edges _
                (fun dst after => is_stuck nodes0 edges start fuel (node :: visited) dst after
                  (change || (n.state.vars != s.state.vars)))
                start node ctx _ _
                (fun dst after r1 n1 hr => ih _ _ dst after _ r1 n1 hsk1 hflag1 hr)
                n.fwd .BW_ESCAPE r2 nodes2 hscan
              subst e1
              rw [modify_set_restore nodes node n hn hv] at h
              exact ⟨h.2.symm, by rw [← h.1]; exact e2⟩

/-- C26: on a graph with valid pointers, `is_stuck(start, node, ctx, change)`
returns when the fuel exceeds the number of nodes, and it returns with the
node heap it was called with: every `visited` flag is as it was at the call
(in particular none is set if none was set), and no other field of a node has
changed. -/
theorem is_stuck_restores_visited (nodes : List Harmony.node) (edges : List edge)
    (start node : Nat) (ctx : hvalue) (change : Bool) (hs : start < nodes.length)
    (hn : node < nodes.length) (hwf : graph_wf nodes edges = true) :
    ∀ fuel, nodes.length < fuel →
      ∃ r, is_stuck_mark edges start fuel nodes node ctx change = some (r, nodes) ∧
        ((∀ n ∈ nodes, n.visited = false) →
          is_stuck nodes edges start fuel [] node ctx change = some r) := by
  intro fuel hfuel
  obtain ⟨r, hr⟩ := is_stuck_mark_total edges start fuel nodes node ctx change hs hn hwf
    (lt_of_le_of_lt (unvisited_le nodes) hfuel)
  refine ⟨r, hr, ?_⟩
  intro hnone
  exact (is_stuck_mark_refines edges start nodes fuel nodes [] node ctx change r nodes rfl
    (fun q n hq => by
      have := hnone n (List.getElem?_mem hq)
      simp [this]) hr).2

theorem is_stuck_restores_visited_witness :
    ∃ r, is_stuck_mark busywait_demo_edges 0 5 busywait_demo_nodes 0 120 false =
        some (r, busywait_demo_nodes) ∧
      ((∀ n ∈ busywait_demo_nodes, n.visited = false) →
        is_stuck busywait_demo_nodes busywait_demo_edges 0 5 [] 0 120 false = some r) :=
  is_stuck_restores_visited busywait_demo_nodes busywait_demo_edges 0 0 120 false
    (by decide) (by decide) (by decide) 5 (by decide)

theorem is_stuck_mark_demo :
    is_stuck_mark busywait_demo_edges 0 5 busywait_demo_nodes 0 120 false =
      some (.BW_RETURN, busywait_demo_nodes) ∧
    is_stuck_mark busywait_demo_edges 2 5 busywait_demo_nodes 2 120 false =
      some (.BW_ESCAPE, busywait_demo_nodes) := by
  decide

theorem worker_fill_spec :
    ∀ (results : List Nat) (count node_id : Nat) (nodes : List node) (table : List (Option Nat)),
      count = results.length → (∀ p ∈ results, p < nodes.length) →
      node_id + count ≤ table.length →
      worker_fill count results node_id nodes table =
        some (fill_graph results node_id nodes, set_range table node_id results) := by
  intro results
  induction results with
  | nil =>
    intro count node_id nodes table hc _ _
    subst hc
    rfl
  | cons p rest ih =>
    intro count node_id nodes table hc hp ht
    subst hc
    simp only [List.length_cons] at ht ⊢
    rw [worker_fill, if_pos ⟨hp p (List.mem_cons_self _ _), by omega⟩]
    rw [ih rest.length (node_id + 1) _ _ rfl
      (fun q hq => by rw [List.length_modify]; exact hp q (List.mem_cons_of_mem _ hq))
      (by rw [List.length_set]; omega)]
    rfl

theorem fill_graph_append (a b : List Nat) :
    ∀ (node_id : Nat) (nodes : List node),
      fill_graph (a ++ b) node_id nodes = fill_graph b (node_id + a.length) (fill_graph a node_id nodes) := by
  induction a with
  | nil => intro node_id nodes; rfl
  | cons p rest ih =>
    intro node_id nodes
    rw [List.cons_append, fill_graph, fill_graph, ih, List.length_cons]
    congr 1
    omega

theorem set_range_append (a b : List Nat) :
    ∀ (node_id : Nat) (table : List (Option Nat)),
      set_range table node_id (a ++ b) = set_range (set_range table node_id a) (node_id + a.length) b := by
  induction a with
  | nil => intro node_id table; rfl
  | cons p rest ih =>
    intro node_id table
    rw [List.cons_append, set_range, set_range, ih, List.length_cons]
    congr 1
    omega

theorem fill_graph_length (results : List Nat) :
    ∀ (node_id : Nat) (nodes : List node), (fill_graph results node_id nodes).length = nodes.length := by
  induction results with
  | nil => intro node_id nodes; rfl
  | cons p rest ih =>
    intro node_id nodes
    rw [fill_graph, ih, List.length_modify]

theorem set_range_length (results : List Nat) :
    ∀ (node_id : Nat) (table : List (Option Nat)),
      (set_range table node_id results).length = table.length := by
  induction results with
  | nil => intro node_id table; rfl
  | cons p rest ih =>
    intro node_id table
    rw [set_range, ih, List.length_set]

theorem assign_node_ids_spec (todo : Nat) :
    ∀ (workers : List layer_worker) (total : Nat),
      (assign_node_ids todo workers total).2 = total + (workers.map layer_worker.count).sum ∧
      (assign_node_ids todo workers total).1.length = workers.length ∧
      ∀ (i : Nat) (w : layer_worker), workers[i]? = some w →
        (assign_node_ids todo workers total).1[i]? =
          some { w with node_id := todo + (total + ((workers.take i).map layer_worker.count).sum) } := by
  intro workers
  induction workers with
  | nil => intro total; exact ⟨rfl, rfl, fun i w h => by cases h⟩
  | cons w rest ih =>
    intro total
    obtain ⟨h1, h2, h3⟩ := ih (total + w.count)
    refine ⟨?_, ?_, ?_⟩
    · simp only [assign_node_ids, h1, List.map_cons, List.sum_cons]; omega
    · simp only [assign_node_ids, List.length_cons, h2]
    · intro i w2 hi
      cases i with
      | zero =>
        simp only [List.getElem?_cons_zero, Option.some.injEq] at hi
        subst hi
        simp [assign_node_ids]
      | succ i =>
        simp only [List.getElem?_cons_succ] at hi
        simp only [assign_node_ids, List.getElem?_cons_succ, h3 i w2 hi, List.take_succ_cons,
          List.map_cons, List.sum_cons]
        congr 2
        omega

theorem fill_all_spec (todo : Nat) :
    ∀ (workers : List layer_worker) (total : Nat) (nodes : List node) (table : List (Option Nat)),
      (∀ w ∈ workers, w.count = w.results.length) →
      (∀ w ∈ workers, ∀ p ∈ w.results, p < nodes.length) →
      todo + total + (workers.map layer_worker.count).sum ≤ table.length →
      fill_all (assign_node_ids todo workers total).1 nodes table =
        some (fill_graph (workers.map layer_worker.results).flatten (todo + total) nodes,
          set_range table (todo + total) (workers.map layer_worker.results).flatten) := by
  intro workers
  induction workers with
  | nil => intro total nodes table _ _ _; rfl
  | cons w rest ih =>
    intro total nodes table hc hp ht
    have hcw := hc w (List.mem_cons_self _ _)
    simp only [List.map_cons, List.sum_cons] at ht
    simp only [assign_node_ids, fill_all]
    rw [worker_fill_spec w.results w.count (todo + total) nodes table hcw
      (hp w (List.mem_cons_self _ _)) (by omega)]
    dsimp only
    rw [ih (total + w.count) _ _ (fun w2 h2 => hc w2 (List.mem_cons_of_mem _ h2))
      (fun w2 h2 p hp2 => by
        rw [fill_graph_length]; exact hp w2 (List.mem_cons_of_mem _ h2) p hp2)
      (by rw [set_range_length]; omega)]
    simp only [List.map_cons, List.flatten_cons]
    rw [fill_graph_append, set_range_append, hcw]
    congr 3 <;> omega

theorem set_append_length {α : Type} (a b : List α) (x y : α) :
    (a ++ x :: b).set a.length y = a ++ y :: b := by
  induction a with
  | nil => rfl
  | cons h t ih => simp only [List.cons_append, List.length_cons, List.set_cons_succ, ih]

theorem set_range_fresh (results : List Nat) :
    ∀ table : List (Option Nat),
      set_range (table ++ List.replicate results.length none) table.length results =
        table ++ results.map some := by
  induction results with
  | nil => intro table; simp [set_range]
  | cons p rest ih =>
    intro table
    rw [List.length_cons, List.replicate_succ, set_range, set_append_length]
    have h := ih (table ++ [some p])
    simp only [List.length_append, List.length_singleton, List.append_assoc,
      List.singleton_append] at h
    rw [h]
    simp

theorem fill_graph_get (results : List Nat) :
    ∀ (node_id : Nat) (nodes : List node), results.Nodup →
      (∀ (k p : Nat), results[k]? = some p →
        (fill_graph results node_id nodes)[p]? =
          (nodes[p]?).map (fun (n : node) => { n with id := node_id + k })) ∧
      (∀ q, q ∉ results → (fill_graph results node_id nodes)[q]? = nodes[q]?) := by
  induction results with
  | nil =>
    intro node_id nodes _
    exact ⟨fun k p h => (by cases h), fun q _ => rfl⟩
  | cons p rest ih =>
    intro node_id nodes hnd
    obtain ⟨hp, hrest⟩ := List.nodup_cons.1 hnd
    obtain ⟨i1, i2⟩ := ih (node_id + 1) (nodes.modify (fun n => { n with id := node_id }) p) hrest
    constructor
    · intro k q hk
      cases k with
      | zero =>
        simp only [List.getElem?_cons_zero, Option.some.injEq] at hk
        subst hk
        rw [fill_graph, i2 p hp, List.getElem?_modify]
        cases nodes[p]? <;> simp
      | succ k =>
        simp only [List.getElem?_cons_succ] at hk
        have hq : q ∈ rest := List.getElem?_mem hk
        have hne : p ≠ q := fun h => hp (h ▸ hq)
        rw [fill_graph, i1 k q hk, List.getElem?_modify]
        cases nodes[q]? with
        | none => simp
        | some n =>
          simp only [hne, if_false, Option.map_some', Option.some.injEq]
          have : node_id + 1 + k = node_id + (k + 1) := by omega
          simp [this]
    · intro q hq
      have hq1 : q ∉ rest := fun h => hq (List.mem_cons_of_mem _ h)
      have hne : p ≠ q := fun h => hq (h ▸ List.mem_cons_self _ _)
      rw [fill_graph, i2 q hq1, List.getElem?_modify]
      cases nodes[q]? <;> simp [hne]

/-- C27: at the close of a layer (`todo == graph.size`), with every worker
holding `count` new nodes in its list and no node in two lists: worker `i`
gets the first id `todo` plus the counts of the workers before it; the workers
fill the table; afterwards the table is the old table followed by the new
nodes, worker by worker in list order, its size has grown by the sum of the
counts; the `k`-th new node has the id `todo + k` and is the entry of the
table at its id, so that the ids of the new nodes are exactly
`todo, .., todo + total - 1`, each once; no other field of a node and no other
node has changed. -/
theorem layer_close_spec (todo : Nat) (workers : List layer_worker) (nodes : List node)
    (table : List (Option Nat)) (hdone : todo = table.length)
    (hc : ∀ w ∈ workers, w.count = w.results.length)
    (hp : ∀ w ∈ workers, ∀ p ∈ w.results, p < nodes.length)
    (hnd : (workers.map layer_worker.results).flatten.Nodup) :
    (∀ (i : Nat) (w : layer_worker), workers[i]? = some w →
      (assign_node_ids todo workers 0).1[i]? =
        some { w with node_id := todo + ((workers.take i).map layer_worker.count).sum }) ∧
    ∃ nodes1 table1, layer_close todo workers nodes table = some (nodes1, table1) ∧
      table1 = table ++ (workers.map layer_worker.results).flatten.map some ∧
      table1.length = table.length + (workers.map layer_worker.count).sum ∧
      (∀ (k p : Nat), (workers.map layer_worker.results).flatten[k]? = some p →
        ∃ n : node, nodes[p]? = some n ∧ nodes1[p]? = some { n with id := todo + k } ∧
          table1[todo + k]? = some (some p)) ∧
      (∀ q, q ∉ (workers.map layer_worker.results).flatten → nodes1[q]? = nodes[q]?) ∧
      (workers.map layer_worker.results).flatten.map
          (fun p => ((nodes1[p]?).map node.id).getD 0) =
        List.range' todo (workers.map layer_worker.count).sum := by
  obtain ⟨a1, a2, a3⟩ := assign_node_ids_spec todo workers 0
  have hsum : (workers.map layer_worker.count).sum =
      (workers.map layer_worker.results).flatten.length := by
    clear a1 a2 a3 hp hnd
    induction workers with
    | nil => rfl
    | cons w rest ih =>
      simp only [List.map_cons, List.sum_cons, List.flatten_cons, List.length_append]
      rw [ih (fun w2 h2 => hc w2 (List.mem_cons_of_mem _ h2)), hc w (List.mem_cons_self _ _)]
  obtain ⟨g1, g2⟩ := fill_graph_get (workers.map layer_worker.results).flatten todo nodes hnd
  have hfill := fill_all_spec todo workers 0 nodes
    (graph_add_multiple table (assign_node_ids todo workers 0).2) hc hp
    (by rw [graph_add_multiple, List.length_append, List.length_replicate, a1]; omega)
  have htable : set_range (graph_add_multiple table (assign_node_ids todo workers 0).2)
      (todo + 0) (workers.map layer_worker.results).flatten =
      table ++ (workers.map layer_worker.results).flatten.map some := by
    rw [graph_add_multiple, a1, Nat.zero_add, hsum, Nat.add_zero, hdone]
    exact set_range_fresh _ table
  have hvalid : ∀ p ∈ (workers.map layer_worker.results).flatten, p < nodes.length := by
    intro p hp2
    simp only [List.mem_flatten, List.mem_map] at hp2
    obtain ⟨l, ⟨w, hw, rfl⟩, hpl⟩ := hp2
    exact hp w hw p hpl
  refine ⟨fun i w hi => (by simpa using a3 i w hi),
    fill_graph (workers.map layer_worker.results).flatten todo nodes,
    table ++ (workers.map layer_worker.results).flatten.map some, ?_, rfl, ?_, ?_, ?_, ?_⟩
  · unfold layer_close
    rw [hfill, htable, Nat.add_zero]
  · rw [List.length_append, List.length_map, hsum]
  · intro k p hk
    have hpv := hvalid p (List.getElem?_mem hk)
    refine ⟨nodes[p], List.getElem?_eq_getElem hpv, ?_, ?_⟩
    · rw [g1 k p hk, List.getElem?_eq_getElem hpv]
      rfl
    · have hkl : k < (workers.map layer_worker.results).flatten.length :=
        (List.getElem?_eq_some_iff.1 hk).1
      rw [hdone, List.getElem?_append_right (by omega)]
      simp only [Nat.add_sub_cancel_left, List.getElem?_map, hk, Option.map_some']
  · intro q hq
    exact g2 q hq
  · apply List.ext_getElem?
    intro k
    rw [List.getElem?_map]
    cases hk : (workers.map layer_worker.results).flatten[k]? with
    | none =>
      have : (workers.map layer_worker.results).flatten.length ≤ k :=
        List.getElem?_eq_none_iff.1 hk
      rw [Option.map_none', eq_comm, List.getElem?_eq_none_iff, List.length_range', hsum]
      exact this
    | some p =>
      have hkl : k < (workers.map layer_worker.results).flatten.length :=
        (List.getElem?_eq_some_iff.1 hk).1
      have hpv := hvalid p (List.getElem?_mem hk)
      have hr : (List.range' todo (workers.map layer_worker.count).sum)[k]? = some (todo + k) := by
        have hk2 : k < (workers.map layer_worker.count).sum := by rw [hsum]; exact hkl
        simp [List.getElem?_range', hk2]
      rw [Option.map_some', g1 k p hk, List.getElem?_eq_getElem hpv, hr]
      simp

theorem layer_close_spec_witness :
    (∀ (i : Nat) (w : layer_worker), layer_demo_workers[i]? = some w →
      (assign_node_ids 1 layer_demo_workers 0).1[i]? =
        some { w with node_id := 1 + ((layer_demo_workers.take i).map layer_worker.count).sum }) ∧
    ∃ nodes1 table1,
      layer_close 1 layer_demo_workers analysis_demo_nodes [some 0] = some (nodes1, table1) ∧
      table1 = [some 0] ++ (layer_demo_workers.map layer_worker.results).flatten.map some ∧
      table1.length = [some 0].length + (layer_demo_workers.map layer_worker.count).sum ∧
      (∀ (k p : Nat), (layer_demo_workers.map layer_worker.results).flatten[k]? = some p →
        ∃ n : node, analysis_demo_nodes[p]? = some n ∧ nodes1[p]? = some { n with id := 1 + k } ∧
          table1[1 + k]? = some (some p)) ∧
      (∀ q, q ∉ (layer_demo_workers.map layer_worker.results).flatten →
        nodes1[q]? = analysis_demo_nodes[q]?) ∧
      (layer_demo_workers.map layer_worker.results).flatten.map
          (fun p => ((nodes1[p]?).map node.id).getD 0) =
        List.range' 1 (layer_demo_workers.map layer_worker.count).sum :=
  layer_close_spec 1 layer_demo_workers analysis_demo_nodes [some 0] rfl (by decide) (by decide)
    (by decide)

theorem layer_demo_run :
    (layer_close 1 layer_demo_workers analysis_demo_nodes [some 0]).map
      (fun r => (r.1.map node.id, r.2)) =
      some ([0, 2, 3, 1], [some 0, some 3, some 1, some 2]) := by
  decide

/-! ## Theorems: dot.c -/

theorem dot_fwd_search_spec (a : List Int) (to_idx : Int) :
    ∀ (n i : Nat), i + n = a.length →
      dot_fwd_search (some a) to_idx n i = some (decide (to_idx ∈ a.drop i)) := by
  intro n
  induction n with
  | zero =>
    intro i h
    have : a.drop i = [] := List.drop_eq_nil_of_le (by omega)
    simp [dot_fwd_search, this]
  | succ n ih =>
    intro i h
    have hi : i < a.length := by omega
    have hd : a.drop i = a[i] :: a.drop (i + 1) := List.drop_eq_getElem_cons hi
    have hb : ((some a).bind fun a => a[i]?) = some a[i] := List.getElem?_eq_getElem hi
    rw [dot_fwd_search, hb]
    dsimp only
    by_cases hx : a[i] = to_idx
    · rw [if_pos hx, hd]
      simp only [List.mem_cons, hx, true_or, decide_True]
    · rw [if_neg hx, ih (i + 1) (by omega), hd]
      have : to_idx ≠ a[i] := fun h2 => hx h2.symm
      simp only [List.mem_cons, this, false_or]

theorem dot_fwd_list_wf (n : dot_node_t) (hwf : dot_node_wf n) :
    (dot_fwd_list n).length = n.fwd_len ∧ dot_fwd_list n = n.fwd.getD [] ∧
      (n.fwd = none → n.fwd_len = 0) := by
  unfold dot_node_wf at hwf
  unfold dot_fwd_list
  cases hf : n.fwd with
  | none =>
    rw [hf] at hwf
    simp only at hwf
    simp [hwf]
  | some a =>
    rw [hf] at hwf
    simp only at hwf
    simp [← hwf.1]

theorem dot_fwd_search_node (n : dot_node_t) (to_idx : Int) (hwf : dot_node_wf n) :
    dot_fwd_search n.fwd to_idx n.fwd_len 0 = some (decide (to_idx ∈ dot_fwd_list n)) := by
  obtain ⟨h1, h2, h3⟩ := dot_fwd_list_wf n hwf
  rw [h2]
  cases hf : n.fwd with
  | none =>
    rw [h3 hf]
    simp [dot_fwd_search]
  | some a =>
    rw [hf] at h2
    simp only [Option.getD_some] at h2 ⊢
    rw [h2] at h1
    rw [dot_fwd_search_spec a to_idx n.fwd_len 0 (by omega)]
    simp

/-- C30: for a node of the graph whose array holds exactly its `fwd_len`
forward edges, `dot_graph_add_edge(graph, from, to)` leaves the graph
unchanged when `to` is in the forward list of `from`; otherwise it appends
`to` at the end of the list, increases `fwd_len` by one and leaves the earlier
entries, the number of nodes and every other node unchanged.  A forward list
without duplicates stays without duplicates, and repeating the call changes
nothing. -/
theorem dot_graph_add_edge_spec (graph : dot_graph_t) (from_idx : Nat) (to_idx : Int)
    (from_node : dot_node_t) (hn : graph.nodes[from_idx]? = some from_node)
    (hwf : dot_node_wf from_node) :
    (to_idx ∈ dot_fwd_list from_node →
      dot_graph_add_edge graph from_idx to_idx = some graph) ∧
    (to_idx ∉ dot_fwd_list from_node →
      ∃ g1 n1, dot_graph_add_edge graph from_idx to_idx = some g1 ∧
        g1.nodes[from_idx]? = some n1 ∧
        dot_fwd_list n1 = dot_fwd_list from_node ++ [to_idx] ∧
        n1.fwd_len = from_node.fwd_len + 1 ∧ dot_node_wf n1 ∧
        g1.nodes.length = graph.nodes.length ∧ g1.alloc_len = graph.alloc_len ∧
        ∀ j, j ≠ from_idx → g1.nodes[j]? = graph.nodes[j]?) ∧
    (∀ g1 n1, dot_graph_add_edge graph from_idx to_idx = some g1 →
      g1.nodes[from_idx]? = some n1 →
      (to_idx ∈ dot_fwd_list n1 ∧ dot_node_wf n1 ∧
        ((dot_fwd_list from_node).Nodup → (dot_fwd_list n1).Nodup) ∧
        dot_graph_add_edge g1 from_idx to_idx = some g1)) := by
  have hsearch := dot_fwd_search_node from_node to_idx hwf
  have hlt : from_idx < graph.nodes.length := (List.getElem?_eq_some_iff.1 hn).1
  obtain ⟨hl, hlist, hnull⟩ := dot_fwd_list_wf from_node hwf
  have hpresent : to_idx ∈ dot_fwd_list from_node →
      dot_graph_add_edge graph from_idx to_idx = some graph := by
    intro h
    unfold dot_graph_add_edge
    rw [hn]
    dsimp only
    rw [hsearch]
    simp [h]
  have habsent : to_idx ∉ dot_fwd_list from_node →
      ∃ g1 n1, dot_graph_add_edge graph from_idx to_idx = some g1 ∧
        g1.nodes[from_idx]? = some n1 ∧
        dot_fwd_list n1 = dot_fwd_list from_node ++ [to_idx] ∧
        n1.fwd_len = from_node.fwd_len + 1 ∧ dot_node_wf n1 ∧
        g1.nodes.length = graph.nodes.length ∧ g1.alloc_len = graph.alloc_len ∧
        ∀ j, j ≠ from_idx → g1.nodes[j]? = graph.nodes[j]? := by
    intro h
    have harr : (match from_node.fwd with
        | some a => (a ++ List.replicate (from_node.fwd_len + 1 - a.length) 0).take
            (from_node.fwd_len + 1)
        | none => List.replicate (from_node.fwd_len + 1) 0).set from_node.fwd_len to_idx =
        dot_fwd_list from_node ++ [to_idx] := by
      rw [hlist]
      cases hf : from_node.fwd with
      | none =>
        simp [hnull hf]
      | some a =>
        rw [hlist, hf] at hl
        simp only [Option.getD_some] at hl ⊢
        have e1 : from_node.fwd_len + 1 - a.length = 1 := by omega
        rw [e1, ← hl]
        have e2 : (a ++ List.replicate 1 (0 : Int)).take (a.length + 1) =
            a ++ List.replicate 1 0 := List.take_of_length_le (by simp)
        rw [e2]
        simp
    have hlen2 : (dot_fwd_list from_node ++ [to_idx]).length = from_node.fwd_len + 1 := by
      rw [List.length_append, hl]; rfl
    have hlist2 : dot_fwd_list
        (⟨some (dot_fwd_list from_node ++ [to_idx]), from_node.fwd_len + 1⟩ : dot_node_t) =
        dot_fwd_list from_node ++ [to_idx] := by
      show ((dot_fwd_list from_node ++ [to_idx]).take (from_node.fwd_len + 1)) = _
      exact List.take_of_length_le (by omega)
    refine ⟨{ graph with
        nodes := graph.nodes.set from_idx
          { fwd := some (dot_fwd_list from_node ++ [to_idx]),
            fwd_len := from_node.fwd_len + 1 } },
      { fwd := some (dot_fwd_list from_node ++ [to_idx]), fwd_len := from_node.fwd_len + 1 },
      ?_, ?_, hlist2, rfl, ?_, ?_, rfl, ?_⟩
    · unfold dot_graph_add_edge
      rw [hn]
      dsimp only
      rw [hsearch]
      simp only [h, decide_False]
      rw [harr]
    · exact List.getElem?_set_self hlt
    · show (dot_fwd_list from_node ++ [to_idx]).length = from_node.fwd_len + 1 ∧
        0 < from_node.fwd_len + 1
      exact ⟨hlen2, by omega⟩
    · exact List.length_set _ _ _
    · intro j hj
      exact List.getElem?_set_ne (fun h2 => hj h2.symm)
  refine ⟨hpresent, habsent, ?_⟩
  intro g1 n1 hg hn1
  by_cases hmem : to_idx ∈ dot_fwd_list from_node
  · rw [hpresent hmem] at hg
    cases hg
    rw [hn] at hn1
    cases hn1
    exact ⟨hmem, hwf, fun h => h, hpresent hmem⟩
  · obtain ⟨g2, n2, e1, e2, e3, e4, e5, e6, e7, e8⟩ := habsent hmem
    rw [e1] at hg
    have hg2 : g2 = g1 := by simpa using hg
    subst hg2
    rw [e2] at hn1
    have hn2 : n2 = n1 := by simpa using hn1
    subst hn2
    have hin : to_idx ∈ dot_fwd_list n2 := by rw [e3]; simp
    refine ⟨hin, e5, ?_, ?_⟩
    · intro hnd
      rw [e3]
      exact List.Nodup.append hnd (List.nodup_singleton _) (by
        intro x hx hx2
        rw [List.mem_singleton] at hx2
        exact hmem (hx2 ▸ hx))
    · unfold dot_graph_add_edge
      rw [e2]
      dsimp only
      rw [dot_fwd_search_node n2 to_idx e5]
      simp [hin]

theorem dot_graph_add_edge_spec_witness :
    (2 ∈ dot_fwd_list { fwd := some [2], fwd_len := 1 } →
      dot_graph_add_edge dot_demo_graph 1 2 = some dot_demo_graph) ∧
    (2 ∉ dot_fwd_list { fwd := some [2], fwd_len := 1 } →
      ∃ g1 n1, dot_graph_add_edge dot_demo_graph 1 2 = some g1 ∧
        g1.nodes[1]? = some n1 ∧
        dot_fwd_list n1 = dot_fwd_list { fwd := some [2], fwd_len := 1 } ++ [2] ∧
        n1.fwd_len = 1 + 1 ∧ dot_node_wf n1 ∧
        g1.nodes.length = dot_demo_graph.nodes.length ∧
        g1.alloc_len = dot_demo_graph.alloc_len ∧
        ∀ j, j ≠ 1 → g1.nodes[j]? = dot_demo_graph.nodes[j]?) ∧
    (∀ g1 n1, dot_graph_add_edge dot_demo_graph 1 2 = some g1 →
      g1.nodes[1]? = some n1 →
      (2 ∈ dot_fwd_list n1 ∧ dot_node_wf n1 ∧
        ((dot_fwd_list { fwd := some [2], fwd_len := 1 }).Nodup → (dot_fwd_list n1).Nodup) ∧
        dot_graph_add_edge g1 1 2 = some g1)) :=
  dot_graph_add_edge_spec dot_demo_graph 1 2 { fwd := some [2], fwd_len := 1 } rfl
    ⟨rfl, by decide⟩

theorem dot_demo_run :
    dot_graph_add_edge dot_demo_graph 0 2 = some dot_demo_graph ∧
    dot_graph_add_edge dot_demo_graph 2 0 =
      some { nodes := [{ fwd := some [1, 2], fwd_len := 2 }, { fwd := some [2], fwd_len := 1 },
          { fwd := some [0], fwd_len := 1 }]
             alloc_len := 4 } ∧
    dot_graph_add_edge dot_demo_graph 1 0 =
      some { nodes := [{ fwd := some [1, 2], fwd_len := 2 }, { fwd := some [2, 0], fwd_len := 2 },
          { fwd := none, fwd_len := 0 }]
             alloc_len := 4 } := by
  decide

/-! ## Theorems: hashdict.c, invariants and the concurrent phase -/

theorem flatten_set_perm {α : Type} (l : List (List α)) (extra : List α) :
    ∀ (i : Nat) (c c1 : List α), l[i]? = some c → c1.Perm (extra ++ c) →
      (l.set i c1).flatten.Perm (extra ++ l.flatten) := by
  induction l with
  | nil => intro i c c1 h; cases h
  | cons a rest ih =>
    intro i c c1 h hp
    cases i with
    | zero =>
      simp only [List.getElem?_cons_zero, Option.some.injEq] at h
      subst h
      simp only [List.set_cons_zero, List.flatten_cons]
      rw [← List.append_assoc]
      exact List.Perm.append_right _ hp
    | succ i =>
      simp only [List.getElem?_cons_succ] at h
      simp only [List.set_cons_succ, List.flatten_cons]
      have h1 := ih i c c1 h hp
      have h2 : (a ++ (rest.set i c1).flatten).Perm (a ++ (extra ++ rest.flatten)) :=
        List.Perm.append_left a h1
      refine h2.trans ?_
      rw [← List.append_assoc, ← List.append_assoc]
      exact List.Perm.append_right _ List.perm_append_comm

theorem dict_all_set (d : dict) (i : Nat) (b b1 : dict_bucket) (extra : List keynode)
    (h : d.table[i]? = some b) (hp : (bucket_nodes b1).Perm (extra ++ bucket_nodes b))
    (d1 : dict) (hd1 : d1.table = d.table.set i b1) :
    (dict_all d1).Perm (extra ++ dict_all d) := by
  unfold dict_all
  rw [hd1, List.map_set]
  exact flatten_set_perm _ extra i (bucket_nodes b) (bucket_nodes b1)
    (by rw [List.getElem?_map, h]; rfl) hp

theorem dict_search_some (key : bytes) (chain : List keynode) (k : keynode)
    (h : dict_search key chain = some k) : k ∈ chain ∧ k.key = key := by
  induction chain with
  | nil => cases h
  | cons a rest ih =>
    rw [dict_search] at h
    by_cases ha : a.key = key
    · rw [if_pos ha] at h
      cases h
      exact ⟨List.mem_cons_self _ _, ha⟩
    · rw [if_neg ha] at h
      exact ⟨List.mem_cons_of_mem _ (ih h).1, (ih h).2⟩

theorem dict_search_none (key : bytes) (chain : List keynode) :
    dict_search key chain = none ↔ ∀ k ∈ chain, k.key ≠ key := by
  induction chain with
  | nil => simp [dict_search]
  | cons a rest ih =>
    rw [dict_search]
    by_cases ha : a.key = key
    · rw [if_pos ha]
      simp [ha]
    · rw [if_neg ha, ih]
      simp [ha]

theorem mem_dict_all (d : dict) (k : keynode) :
    k ∈ dict_all d ↔ ∃ (i : Nat) (b : dict_bucket), d.table[i]? = some b ∧ k ∈ bucket_nodes b := by
  unfold dict_all
  rw [List.mem_flatten]
  constructor
  · rintro ⟨l, hl, hk⟩
    rw [List.mem_map] at hl
    obtain ⟨b, hb, rfl⟩ := hl
    obtain ⟨i, hi⟩ := List.mem_iff_getElem?.1 hb
    exact ⟨i, b, hi, hk⟩
  · rintro ⟨i, b, hi, hk⟩
    exact ⟨bucket_nodes b, List.mem_map_of_mem _ (List.getElem?_mem hi), hk⟩

/-- In a dict of the right shape a key is stored if and only if it is in the
chains of the bucket selected by its hash, and then by the node with the key
and its hash. -/
theorem dict_key_bucket (d : dict) (hs : dict_shape d) (key : bytes) (b : dict_bucket)
    (hb : d.table[meiyan key % d.length]? = some b) :
    (key ∈ dict_keys d ↔ (⟨key, meiyan key⟩ : keynode) ∈ bucket_nodes b) ∧
    (∀ k ∈ bucket_nodes b, k.key = key → k = ⟨key, meiyan key⟩) := by
  obtain ⟨h1, h2, h3, h4, h5, h6, h7⟩ := hs
  have huniq : ∀ (i : Nat) (b2 : dict_bucket), d.table[i]? = some b2 → ∀ k ∈ bucket_nodes b2, k.key = key →
      k = ⟨key, meiyan key⟩ ∧ i = meiyan key % d.length := by
    intro i b2 hb2 k hk hkey
    obtain ⟨e1, e2⟩ := h5 i b2 hb2 k hk
    rw [hkey] at e1
    refine ⟨?_, by rw [← e2, e1]⟩
    cases k
    simp only at hkey e1
    subst hkey e1
    rfl
  refine ⟨⟨?_, ?_⟩, fun k hk hkey => (huniq _ b hb k hk hkey).1⟩
  · intro hk
    unfold dict_keys at hk
    rw [List.mem_map] at hk
    obtain ⟨k, hk1, hk2⟩ := hk
    obtain ⟨i, b2, hb2, hk3⟩ := (mem_dict_all d k).1 hk1
    obtain ⟨e1, e2⟩ := huniq i b2 hb2 k hk3 hk2
    subst e2
    rw [hb] at hb2
    cases hb2
    rw [← e1]
    exact hk3
  · intro hk
    unfold dict_keys
    rw [List.mem_map]
    exact ⟨⟨key, meiyan key⟩, (mem_dict_all d _).2 ⟨_, b, hb, hk⟩, rfl⟩

theorem dict_all_sequential (d : dict) (h : ∀ b ∈ d.table, b.unstable = []) :
    dict_all d = (d.table.map dict_bucket.stable).flatten := by
  unfold dict_all
  congr 1
  apply List.map_congr_left
  intro b hb
  simp [bucket_nodes, h b hb]

/-- The dict after a new key has been pushed on the stable chain of its
bucket in sequential mode. -/
theorem dict_push_inv (d : dict) (hinv : dict_inv_sequential d) (key : bytes) (b : dict_bucket)
    (hb : d.table[meiyan key % d.length]? = some b) (hnew : dict_search key b.stable = none)
    (d2 : dict)
    (hd2 : d2 = { d with
      table := d.table.set (meiyan key % d.length)
        { b with stable := ⟨key, meiyan key⟩ :: b.stable }
      count := d.count + 1 }) :
    dict_inv_sequential d2 ∧ (dict_all d2).Perm (⟨key, meiyan key⟩ :: dict_all d) ∧
      key ∉ dict_keys d ∧ d2.length = d.length := by
  obtain ⟨hs, hc, hu, hcount⟩ := hinv
  have hkb := dict_key_bucket d hs key b hb
  obtain ⟨h1, h2, h3, h4, h5, h6, h7⟩ := hs
  have hbmem : b ∈ d.table := List.getElem?_mem hb
  have hbu : b.unstable = [] := hu b hbmem
  have hnotin : key ∉ dict_keys d := by
    rw [hkb.1]
    intro hin
    simp only [bucket_nodes, hbu, List.append_nil] at hin
    exact (dict_search_none key b.stable).1 hnew _ hin rfl
  have hperm : (dict_all d2).Perm ([⟨key, meiyan key⟩] ++ dict_all d) := by
    apply dict_all_set d (meiyan key % d.length) b
      { b with stable := ⟨key, meiyan key⟩ :: b.stable } [⟨key, meiyan key⟩] hb
    · simp [bucket_nodes]
    · rw [hd2]
  have hlt : meiyan key % d.length < d.table.length := (List.getElem?_eq_some_iff.1 hb).1
  have hget : ∀ (i : Nat) (b1 : dict_bucket), d2.table[i]? = some b1 →
      (i = meiyan key % d.length ∧ b1 = { b with stable := ⟨key, meiyan key⟩ :: b.stable }) ∨
      (i ≠ meiyan key % d.length ∧ d.table[i]? = some b1) := by
    intro i b1 hi
    rw [hd2] at hi
    simp only at hi
    by_cases hij : meiyan key % d.length = i
    · subst hij
      rw [List.getElem?_set_self hlt] at hi
      cases hi
      exact Or.inl ⟨rfl, rfl⟩
    · rw [List.getElem?_set_ne hij] at hi
      exact Or.inr ⟨fun h => hij h.symm, hi⟩
  have hmem : ∀ b1 ∈ d2.table, b1 = { b with stable := ⟨key, meiyan key⟩ :: b.stable } ∨
      b1 ∈ d.table := by
    intro b1 hb1
    obtain ⟨i, hi⟩ := List.mem_iff_getElem?.1 hb1
    rcases hget i b1 hi with ⟨_, h⟩ | ⟨_, h⟩
    · exact Or.inl h
    · exact Or.inr (List.getElem?_mem h)
  have hlen2 : d2.length = d.length := by rw [hd2]
  refine ⟨⟨⟨?_, ?_, ?_, ?_, ?_, ?_, ?_⟩, ?_, ?_, ?_⟩, hperm, hnotin, hlen2⟩
  · rw [hlen2]; exact h1
  · rw [hd2]; simp only [List.length_set]; exact h2
  · rw [hd2]; exact h3
  · rw [hd2]; exact h4
  · intro i b1 hi k hk
    rw [hlen2]
    rcases hget i b1 hi with ⟨e1, e2⟩ | ⟨_, e2⟩
    · subst e2
      simp only [bucket_nodes, List.cons_append, List.mem_cons] at hk
      rcases hk with hk | hk
      · subst hk
        exact ⟨rfl, e1.symm⟩
      · rw [e1]
        exact h5 _ b hb k hk
    · exact h5 i b1 e2 k hk
  · unfold dict_keys
    have := (List.Perm.map keynode.key hperm).nodup_iff
    rw [this]
    simp only [List.singleton_append, List.map_cons, List.nodup_cons]
    exact ⟨hnotin, h6⟩
  · intro b1 hb1
    rcases hmem b1 hb1 with h | h
    · rw [h]; exact h7 b hbmem
    · exact h7 b1 h
  · rw [hd2]; exact hc
  · intro b1 hb1
    rcases hmem b1 hb1 with h | h
    · rw [h]; exact hbu
    · exact hu b1 h
  · rw [hperm.length_eq, hd2]
    simp only [List.singleton_append, List.length_cons, hcount]

theorem dict_reinsert_foldl_spec (n : Nat) (hn : 0 < n) (ks : List keynode) :
    ∀ table : List dict_bucket, table.length = n →
      ((ks.foldl (dict_reinsert_when_resizing n) table).map bucket_nodes).flatten.Perm
        (ks ++ (table.map bucket_nodes).flatten) ∧
      ((ks.foldl (dict_reinsert_when_resizing n) table).map dict_bucket.count
        = table.map dict_bucket.count) ∧
      ∀ (i : Nat) (b1 : dict_bucket),
        (ks.foldl (dict_reinsert_when_resizing n) table)[i]? = some b1 →
        ∀ k ∈ bucket_nodes b1,
          (k ∈ ks ∧ k.hash % n = i) ∨ ∃ b, table[i]? = some b ∧ k ∈ bucket_nodes b := by
  induction ks with
  | nil =>
    intro table _
    exact ⟨List.Perm.refl _, rfl, fun i b1 hi k hk => Or.inr ⟨b1, hi, hk⟩⟩
  | cons a rest ih =>
    intro table hlen
    have hj : a.hash % n < table.length := by rw [hlen]; exact Nat.mod_lt _ hn
    have hT : dict_reinsert_when_resizing n table a =
        table.set (a.hash % n) { table[a.hash % n] with stable := a :: table[a.hash % n].stable } := by
      unfold dict_reinsert_when_resizing
      apply List.ext_getElem?
      intro j
      rw [List.getElem?_modify]
      by_cases hij : a.hash % n = j
      · subst hij
        rw [List.getElem?_set_self hj, List.getElem?_eq_getElem hj]
        simp
      · rw [List.getElem?_set_ne hij]
        simp [hij]
    have hlen1 : (dict_reinsert_when_resizing n table a).length = n := by
      rw [hT, List.length_set]; exact hlen
    obtain ⟨i1, i2, i3⟩ := ih (dict_reinsert_when_resizing n table a) hlen1
    simp only [List.foldl_cons]
    have hperm1 : ((dict_reinsert_when_resizing n table a).map bucket_nodes).flatten.Perm
        ([a] ++ (table.map bucket_nodes).flatten) := by
      rw [hT, List.map_set]
      apply flatten_set_perm _ [a] (a.hash % n) (bucket_nodes table[a.hash % n])
      · rw [List.getElem?_map, List.getElem?_eq_getElem hj]; rfl
      · simp [bucket_nodes]
    refine ⟨?_, ?_, ?_⟩
    · refine i1.trans ?_
      refine (List.Perm.append_left rest hperm1).trans ?_
      simp only [List.singleton_append, List.cons_append]
      exact List.perm_middle
    · rw [i2, hT, List.map_set]
      apply List.ext_getElem?
      intro j
      by_cases hij : a.hash % n = j
      · subst hij
        rw [List.getElem?_set_self (by rw [List.length_map]; exact hj), List.getElem?_map,
          List.getElem?_eq_getElem hj]
        rfl
      · rw [List.getElem?_set_ne hij]
    · intro i b1 hi k hk
      rcases i3 i b1 hi k hk with ⟨h1, h2⟩ | ⟨b, hb, hkb⟩
      · exact Or.inl ⟨List.mem_cons_of_mem _ h1, h2⟩
      · rw [hT] at hb
        by_cases hij : a.hash % n = i
        · subst hij
          rw [List.getElem?_set_self hj] at hb
          cases hb
          simp only [bucket_nodes, List.cons_append, List.mem_cons] at hkb
          rcases hkb with hkb | hkb
          · subst hkb
            exact Or.inl ⟨List.mem_cons_self _ _, rfl⟩
          · exact Or.inr ⟨table[a.hash % n], List.getElem?_eq_getElem hj, hkb⟩
        · rw [List.getElem?_set_ne hij] at hb
          exact Or.inr ⟨b, hb, hkb⟩

theorem dict_inv_wf (d : dict) (h : dict_inv_sequential d) : dict_wf_sequential d := by
  obtain ⟨⟨h1, h2, h3, h4, _, _, _⟩, hc, hu, _⟩ := h
  exact ⟨hc, h1, h2, h3, h4, hu⟩

theorem dict_resize_inv (d : dict) (hinv : dict_inv_sequential d) (newsize : Nat)
    (hn : 0 < newsize) :
    ∃ d1, dict_resize d newsize = some d1 ∧ dict_inv_sequential d1 ∧ d1.length = newsize ∧
      d1.count = d.count ∧ (dict_all d1).Perm (dict_all d) := by
  have hwf := dict_inv_wf d hinv
  obtain ⟨⟨h1, h2, h3, h4, h5, h6, h7⟩, hc, hu, hcount⟩ := hinv
  have hany : d.table.any (fun b => decide (b.unstable ≠ [])) = false := by
    rw [List.any_eq_false]
    intro b hb
    simp [hu b hb]
  have hres : dict_resize d newsize = some { d with
      length := newsize
      table := (d.table.map dict_bucket.stable).flatten.foldl
        (dict_reinsert_when_resizing newsize) (List.replicate newsize ⟨[], [], 0⟩) } := by
    unfold dict_resize
    rw [hany, if_neg (by simp; omega)]
  obtain ⟨g1, g2⟩ := dict_reinsert_foldl_unstable newsize
    (d.table.map dict_bucket.stable).flatten (List.replicate newsize ⟨[], [], 0⟩)
  obtain ⟨f1, f2, f3⟩ := dict_reinsert_foldl_spec newsize hn
    (d.table.map dict_bucket.stable).flatten (List.replicate newsize ⟨[], [], 0⟩)
    (List.length_replicate _ _)
  have hall := dict_all_sequential d hu
  have hempty : ((List.replicate newsize (⟨[], [], 0⟩ : dict_bucket)).map bucket_nodes).flatten
      = [] := by
    rw [List.map_replicate]
    exact flatten_replicate_nil newsize
  rw [hempty, List.append_nil] at f1
  have f1 : (List.map bucket_nodes ((d.table.map dict_bucket.stable).flatten.foldl
      (dict_reinsert_when_resizing newsize) (List.replicate newsize ⟨[], [], 0⟩))).flatten.Perm
      (dict_all d) := by
    rw [hall]
    exact f1
  have hun : ∀ b ∈ (d.table.map dict_bucket.stable).flatten.foldl
      (dict_reinsert_when_resizing newsize) (List.replicate newsize ⟨[], [], 0⟩),
      b.unstable = [] ∧ b.count = 0 := by
    intro b hb
    constructor
    · have hb1 := List.mem_map_of_mem dict_bucket.unstable hb
      rw [g1, List.map_replicate] at hb1
      exact (List.mem_replicate.mp hb1).2
    · have hb1 := List.mem_map_of_mem dict_bucket.count hb
      rw [f2, List.map_replicate] at hb1
      exact (List.mem_replicate.mp hb1).2
  refine ⟨_, hres, ⟨⟨hn, ?_, h3, h4, ?_, ?_, ?_⟩, hc, ?_, ?_⟩, rfl, rfl, f1⟩
  · exact g2.trans (List.length_replicate _ _)
  · intro i b1 hi k hk
    rcases f3 i b1 hi k hk with ⟨e1, e2⟩ | ⟨b, hb, hkb⟩
    · rw [← hall] at e1
      obtain ⟨i0, b0, hb0, hk0⟩ := (mem_dict_all d k).1 e1
      exact ⟨(h5 i0 b0 hb0 k hk0).1, e2⟩
    · rw [List.getElem?_replicate] at hb
      split at hb
      · cases hb
        simp [bucket_nodes] at hkb
      · cases hb
  · exact ((List.Perm.map keynode.key f1).nodup_iff).2 h6
  · intro b hb
    rw [(hun b hb).1, (hun b hb).2]
    rfl
  · intro b hb
    exact (hun b hb).1
  · show d.count = _
    rw [hcount]
    exact f1.length_eq.symm

theorem dict_find_alloc_step (d : dict) (key : bytes) (f : Nat) (db : dict_bucket)
    (hl : 0 < d.length) (hc : d.concurrent = false) (h3 : d.growth_threshold = 2)
    (h4 : d.growth_factor = 5) (hdb : d.table[meiyan key % d.length]? = some db) :
    (∀ k, dict_search key db.stable = some k → dict_find_alloc (f + 1) d key = some (d, k)) ∧
    (dict_search key db.stable = none → ¬ (db.stable = [] ∧ 2 * d.length < d.count) →
      dict_find_alloc (f + 1) d key =
        some ({ d with
            table := (d.table.set (meiyan key % d.length)
              { db with stable := ⟨key, meiyan key⟩ :: db.stable })
            count := d.count + 1 },
          ⟨key, meiyan key⟩)) ∧
    (dict_search key db.stable = none → (db.stable = [] ∧ 2 * d.length < d.count) →
      ∀ d1, dict_resize d (5 * d.length - 1) = some d1 →
      dict_find_alloc (f + 1) d key = dict_find_alloc f d1 key) := by
  refine ⟨?_, ?_, ?_⟩
  · intro k hk
    rw [dict_find_alloc, if_neg (by omega), hdb]
    dsimp only
    rw [hk]
  · intro hs hg
    rw [dict_find_alloc, if_neg (by omega), hdb]
    dsimp only
    rw [hs]
    dsimp only
    rw [hc]
    simp only [Bool.false_eq_true, if_false, Bool.not_false, true_and]
    rw [if_neg (by rw [h3]; exact fun h => hg ⟨h.1, h.2⟩)]
  · intro hs hg d1 hd1
    rw [dict_find_alloc, if_neg (by omega), hdb]
    dsimp only
    rw [hs]
    dsimp only
    rw [hc]
    simp only [Bool.false_eq_true, if_false, Bool.not_false, true_and]
    rw [if_pos (by rw [h3]; exact ⟨hg.1, hg.2⟩), h4, Nat.mul_comm d.length 5, hd1]

theorem dict_find_alloc_inv (key : bytes) :
    ∀ (f : Nat) (d : dict), dict_inv_sequential d → d.count ≤ 2 * d.length + f →
      ∃ d2, dict_find_alloc (f + 1) d key = some (d2, ⟨key, meiyan key⟩) ∧
        dict_inv_sequential d2 ∧
        (key ∈ dict_keys d → d2 = d) ∧
        (key ∉ dict_keys d → (dict_all d2).Perm (⟨key, meiyan key⟩ :: dict_all d)) ∧
        d.length ≤ d2.length ∧
        ∃ b2, d2.table[meiyan key % d2.length]? = some b2 ∧
          (⟨key, meiyan key⟩ : keynode) ∈ b2.stable := by
  intro f
  induction f with
  | zero =>
    intro d hinv hcnt
    have hinv0 := hinv
    obtain ⟨hs, hc, hu, hcount⟩ := hinv
    have hs0 := hs
    obtain ⟨h1, h2, h3, h4, h5, h6, h7⟩ := hs
    have hi : meiyan key % d.length < d.table.length := by rw [h2]; exact Nat.mod_lt _ h1
    have hdb := List.getElem?_eq_getElem hi
    obtain ⟨s1, s2, s3⟩ := dict_find_alloc_step d key 0 _ h1 hc h3 h4 hdb
    obtain ⟨k1, k2⟩ := dict_key_bucket d hs0 key _ hdb
    have hbu := hu _ (List.getElem_mem hi)
    cases hsearch : dict_search key (d.table[meiyan key % d.length]).stable with
    | some k =>
      obtain ⟨m1, m2⟩ := dict_search_some key _ k hsearch
      have hk := k2 k (by simp [bucket_nodes, m1]) m2
      subst hk
      have hin : key ∈ dict_keys d := k1.2 (by simp [bucket_nodes, m1])
      exact ⟨d, s1 _ hsearch, hinv0, fun _ => rfl, fun h => absurd hin h, le_refl _, _, hdb, m1⟩
    | none =>
      obtain ⟨p1, p2, p3, p4⟩ := dict_push_inv d hinv0 key _ hdb hsearch _ rfl
      refine ⟨_, s2 hsearch (by omega), p1, fun h => absurd h p3, fun _ => p2, le_refl _, ?_⟩
      refine ⟨{ d.table[meiyan key % d.length] with
        stable := ⟨key, meiyan key⟩ :: (d.table[meiyan key % d.length]).stable }, ?_,
        List.mem_cons_self _ _⟩
      exact List.getElem?_set_self hi
  | succ f ih =>
    intro d hinv hcnt
    have hinv0 := hinv
    obtain ⟨hs, hc, hu, hcount⟩ := hinv
    have hs0 := hs
    obtain ⟨h1, h2, h3, h4, h5, h6, h7⟩ := hs
    have hi : meiyan key % d.length < d.table.length := by rw [h2]; exact Nat.mod_lt _ h1
    have hdb := List.getElem?_eq_getElem hi
    obtain ⟨s1, s2, s3⟩ := dict_find_alloc_step d key (f + 1) _ h1 hc h3 h4 hdb
    obtain ⟨k1, k2⟩ := dict_key_bucket d hs0 key _ hdb
    have hbu := hu _ (List.getElem_mem hi)
    cases hsearch : dict_search key (d.table[meiyan key % d.length]).stable with
    | some k =>
      obtain ⟨m1, m2⟩ := dict_search_some key _ k hsearch
      have hk := k2 k (by simp [bucket_nodes, m1]) m2
      subst hk
      have hin : key ∈ dict_keys d := k1.2 (by simp [bucket_nodes, m1])
      exact ⟨d, s1 _ hsearch, hinv0, fun _ => rfl, fun h => absurd hin h, le_refl _, _, hdb, m1⟩
    | none =>
      obtain ⟨p1, p2, p3, p4⟩ := dict_push_inv d hinv0 key _ hdb hsearch _ rfl
      have hnotin : key ∉ dict_keys d := p3
      by_cases hg : (d.table[meiyan key % d.length]).stable = [] ∧ 2 * d.length < d.count
      · obtain ⟨d1, e1, e2, e3, e4, e5⟩ := dict_resize_inv d hinv0 (5 * d.length - 1) (by omega)
        obtain ⟨d2, r1, r2, r3, r4, r6, r5⟩ := ih d1 e2 (by rw [e3, e4]; omega)
        have hnotin1 : key ∉ dict_keys d1 := by
          unfold dict_keys
          rw [(List.Perm.map keynode.key e5).mem_iff]
          exact hnotin
        refine ⟨d2, by rw [s3 hsearch hg d1 e1]; exact r1, r2, fun h => absurd h hnotin,
          fun _ => (r4 hnotin1).trans (List.Perm.cons _ e5), by rw [e3] at r6; omega, r5⟩
      · refine ⟨_, s2 hsearch hg, p1, fun h => absurd h p3, fun _ => p2, le_refl _, ?_⟩
        refine ⟨{ d.table[meiyan key % d.length] with
          stable := ⟨key, meiyan key⟩ :: (d.table[meiyan key % d.length]).stable }, ?_,
          List.mem_cons_self _ _⟩
        exact List.getElem?_set_self hi

theorem dict_find_present (d : dict) (hinv : dict_inv_sequential d) (key : bytes)
    (hin : key ∈ dict_keys d) (g : Nat) :
    dict_find_alloc (g + 1) d key = some (d, ⟨key, meiyan key⟩) ∧
    ∃ b, d.table[meiyan key % d.length]? = some b ∧ (⟨key, meiyan key⟩ : keynode) ∈ b.stable := by
  have hinv0 := hinv
  obtain ⟨hs, hc, hu, hcount⟩ := hinv
  have hs0 := hs
  obtain ⟨h1, h2, h3, h4, h5, h6, h7⟩ := hs
  have hi : meiyan key % d.length < d.table.length := by rw [h2]; exact Nat.mod_lt _ h1
  have hdb := List.getElem?_eq_getElem hi
  obtain ⟨s1, s2, s3⟩ := dict_find_alloc_step d key g _ h1 hc h3 h4 hdb
  obtain ⟨k1, k2⟩ := dict_key_bucket d hs0 key _ hdb
  have hbu := hu _ (List.getElem_mem hi)
  have hmem := k1.1 hin
  simp only [bucket_nodes, hbu, List.append_nil] at hmem
  cases hsearch : dict_search key (d.table[meiyan key % d.length]).stable with
  | some k =>
    obtain ⟨m1, m2⟩ := dict_search_some key _ k hsearch
    have hk := k2 k (by simp [bucket_nodes, m1]) m2
    subst hk
    exact ⟨s1 _ hsearch, _, hdb, hmem⟩
  | none =>
    exact absurd rfl ((dict_search_none key _).1 hsearch _ hmem)

theorem dict_new_inv (n : Nat) : dict_inv_sequential (dict_new n) ∧ dict_all (dict_new n) = [] := by
  have hall : dict_all (dict_new n) = [] := by
    unfold dict_all dict_new
    dsimp only
    rw [List.map_replicate]
    exact flatten_replicate_nil _
  have hpos : 0 < (if n = 0 then 1024 else n) := by split <;> omega
  refine ⟨⟨⟨hpos, List.length_replicate _ _, rfl, rfl, ?_, ?_, ?_⟩, rfl, ?_, ?_⟩, hall⟩
  · intro i b hb k hk
    have hb1 := List.getElem?_mem hb
    rw [(List.mem_replicate.mp hb1).2] at hk
    simp [bucket_nodes] at hk
  · unfold dict_keys
    rw [hall]
    exact List.nodup_nil
  · intro b hb
    rw [(List.mem_replicate.mp hb).2]
    rfl
  · intro b hb
    rw [(List.mem_replicate.mp hb).2]
  · rw [hall]
    rfl

theorem dict_insert_all_inv (f : Nat) :
    ∀ (ks : List bytes) (d : dict), dict_inv_sequential d →
      d.count + ks.length ≤ 2 * d.length + f →
      ∃ d2, dict_insert_all (f + 1) d ks = some d2 ∧ dict_inv_sequential d2 ∧
        (∀ key, key ∈ dict_keys d2 ↔ key ∈ dict_keys d ∨ key ∈ ks) := by
  intro ks
  induction ks with
  | nil =>
    intro d hinv _
    exact ⟨d, rfl, hinv, fun key => by simp⟩
  | cons key rest ih =>
    intro d hinv hcnt
    rw [List.length_cons] at hcnt
    obtain ⟨d1, r1, r2, r3, r4, r5, _⟩ := dict_find_alloc_inv key f d hinv (by omega)
    have hkeys : ∀ k2, k2 ∈ dict_keys d1 ↔ k2 ∈ dict_keys d ∨ k2 = key := by
      intro k2
      by_cases hin : key ∈ dict_keys d
      · rw [r3 hin]
        constructor
        · exact Or.inl
        · rintro (h | h)
          · exact h
          · rw [h]; exact hin
      · unfold dict_keys
        rw [(List.Perm.map keynode.key (r4 hin)).mem_iff, List.map_cons, List.mem_cons]
        tauto
    have hc1 : d1.count ≤ d.count + 1 := by
      by_cases hin : key ∈ dict_keys d
      · rw [r3 hin]; omega
      · rw [r2.2.2.2, hinv.2.2.2, (r4 hin).length_eq, List.length_cons]
    obtain ⟨d2, q1, q2, q3⟩ := ih d1 r2 (by omega)
    refine ⟨d2, ?_, q2, ?_⟩
    · rw [dict_insert_all, dict_insert, r1]
      exact q1
    · intro k2
      rw [q3 k2, hkeys k2, List.mem_cons]
      tauto

/-- C28: a run of `dict_insert` calls on a fresh dict in sequential mode, with
any keys and with fuel for the recursive calls after `dict_resize`, returns
a dict whose `count` is the number of distinct keys passed; the keys of the
nodes of the table are the keys passed, no two nodes have the same key, the
node of a key is in the stable chain of bucket `hash % length`, and
`dict_find_alloc` with a key that is present returns its node and leaves
the dict as it was, `count` and `length` with it. -/
theorem dict_sequential_invariant (n : Nat) (ks : List bytes) (f : Nat) (hf : ks.length ≤ f) :
    ∃ d, dict_insert_all (f + 1) (dict_new n) ks = some d ∧
      d.concurrent = false ∧
      d.count = ks.dedup.length ∧
      d.count = (dict_all d).length ∧
      (∀ key, key ∈ dict_keys d ↔ key ∈ ks) ∧
      (dict_keys d).Nodup ∧
      (∀ b ∈ d.table, b.unstable = []) ∧
      (∀ (i : Nat) (b : dict_bucket), d.table[i]? = some b → ∀ k ∈ b.stable,
        k.hash = meiyan k.key ∧ i = meiyan k.key % d.length) ∧
      (∀ key ∈ ks, ∀ g,
        dict_find_alloc (g + 1) d key = some (d, ⟨key, meiyan key⟩) ∧
        ∃ b, d.table[meiyan key % d.length]? = some b ∧
          (⟨key, meiyan key⟩ : keynode) ∈ b.stable) := by
  obtain ⟨h0, hall0⟩ := dict_new_inv n
  have hcount0 : (dict_new n).count = 0 := rfl
  obtain ⟨d, r1, r2, r3⟩ := dict_insert_all_inv f ks (dict_new n) h0 (by rw [hcount0]; omega)
  have hkeys : ∀ key, key ∈ dict_keys d ↔ key ∈ ks := by
    intro key
    rw [r3 key]
    unfold dict_keys
    rw [hall0]
    simp
  have hnodup := r2.1.2.2.2.2.2.1
  have hperm : (dict_keys d).Perm ks.dedup :=
    (List.perm_ext_iff_of_nodup hnodup (List.nodup_dedup ks)).2
      (fun key => by rw [hkeys key, List.mem_dedup])
  refine ⟨d, r1, r2.2.1, ?_, r2.2.2.2, hkeys, hnodup, r2.2.2.1, ?_, ?_⟩
  · rw [r2.2.2.2, ← hperm.length_eq]
    unfold dict_keys
    rw [List.length_map]
  · intro i b hb k hk
    obtain ⟨e1, e2⟩ := r2.1.2.2.2.2.1 i b hb k (by simp [bucket_nodes, hk])
    exact ⟨e1, by rw [← e2, e1]⟩
  · intro key hkey g
    exact dict_find_present d r2 key ((hkeys key).2 hkey) g

theorem dict_sequential_invariant_witness :
    ([[0], [1], [2], [3], [12]] : List bytes).length ≤ 5 ∧
    ∃ d, dict_insert_all (5 + 1) (dict_new 2) [[0], [1], [2], [3], [12]] = some d ∧
      d.concurrent = false ∧
      d.count = ([[0], [1], [2], [3], [12]] : List bytes).dedup.length ∧
      d.count = (dict_all d).length ∧
      (∀ key, key ∈ dict_keys d ↔ key ∈ ([[0], [1], [2], [3], [12]] : List bytes)) ∧
      (dict_keys d).Nodup ∧
      (∀ b ∈ d.table, b.unstable = []) ∧
      (∀ (i : Nat) (b : dict_bucket), d.table[i]? = some b → ∀ k ∈ b.stable,
        k.hash = meiyan k.key ∧ i = meiyan k.key % d.length) ∧
      (∀ key ∈ ([[0], [1], [2], [3], [12]] : List bytes), ∀ g,
        dict_find_alloc (g + 1) d key = some (d, ⟨key, meiyan key⟩) ∧
        ∃ b, d.table[meiyan key % d.length]? = some b ∧
          (⟨key, meiyan key⟩ : keynode) ∈ b.stable) :=
  ⟨by decide, dict_sequential_invariant 2 [[0], [1], [2], [3], [12]] 5 (by decide)⟩

/-- A concurrent phase with five new keys on a dict of 2 buckets and two
workers: what the workers return is 5 in sum, and `dict_set_sequential`
resizes the table to 10 buckets. -/
theorem dict_phase_demo :
    (dict_make_stable_all 2
        ((dict_insert_all 1 { dict_new 2 with concurrent := true }
          [[0], [1], [2], [3], [12]]).getD (dict_new 2)) [1, 0]).map (fun r => r.2) = some 5 ∧
    (dict_phase (dict_new 2) [[0], [1], [2], [3], [12]] 2 [1, 0]).map
      (fun r => (r.1.length, r.1.count, r.2)) = some (10, 5, 5) := by
  constructor <;> decide

/-! ## Theorems: charm.c, replay of the calls of make_step -/

/-- What the snapshot state of `onestep` is after an instruction: the one
before, or the instruction took a snapshot. -/
theorem onestep_exec_as_state (g : global) (cb : collab) (choice : hvalue) (multiplicity : Nat)
    (l a : loop_state) (he : onestep_exec g cb choice multiplicity l = some a) :
    a.as_state = l.as_state ∨
    (l.instrcnt ≠ 0 ∧ a.as_context = cb.value_put_context l.ctx ∧
      a.as_instrcnt = l.instrcnt) := by
  unfold onestep_exec at he
  cases hi : g.instrs[l.ctx.pc]? with
  | none => rw [hi] at he; cases he
  | some ins =>
    rw [hi] at he
    dsimp only at he
    by_cases h1 : ins.choose = true
    · rw [if_pos h1] at he
      by_cases h2 : l.ctx.stack.length = 0 ∨ choice = 0
      · rw [if_pos h2] at he; cases he
      · rw [if_neg h2] at he
        cases he
        exact Or.inl rfl
    · rw [if_neg h1] at he
      by_cases h3 : ins.atomicinc = true
      · rw [if_pos h3] at he
        by_cases h4 : l.instrcnt = 0
        · rw [if_pos h4] at he
          cases he
          exact Or.inl rfl
        · rw [if_neg h4] at he
          by_cases h5 : l.ctx.atomic = 0
          · rw [if_pos h5] at he
            cases he
            exact Or.inr ⟨h4, rfl, rfl⟩
          · rw [if_neg h5] at he
            cases he
            exact Or.inl rfl
      · rw [if_neg h3] at he
        by_cases h6 : ins.atomicdec = true
        · rw [if_pos h6] at he
          by_cases h7 : (ins.op l.sc l.ctx).2.atomic = 0
          · rw [if_pos h7] at he
            cases he
            exact Or.inl rfl
          · rw [if_neg h7] at he
            cases he
            exact Or.inl rfl
        · rw [if_neg h6] at he
          cases he
          exact Or.inl rfl

theorem onestep_peek_as_state (cb : collab) (ni : instr) (l : loop_state) :
    match onestep_peek cb ni l with
    | .again r => r.as_state = l.as_state
    | .restart r => r.as_state = l.as_state
    | .done r _ => r.as_state = l.as_state
    | .abort => True := by
  unfold onestep_peek
  dsimp only
  split_ifs <;> trivial

/-- An iteration of the main loop of `onestep` leaves the snapshot state as
the instruction left it. -/
theorem onestep_iter_as_state (g : global) (cb : collab) (choice : hvalue)
    (infloop_detect : Bool) (multiplicity : Nat) (l a : loop_state)
    (he : onestep_exec g cb choice multiplicity l = some a) :
    match onestep_iter g cb choice infloop_detect multiplicity l with
    | .again r => r.as_state = a.as_state
    | .restart r => r.as_state = a.as_state
    | .done r _ => r.as_state = a.as_state
    | .abort => True := by
  have hnext : ∀ (x : loop_state), x.as_state = a.as_state →
      match onestep_next g cb l.ctx.pc x with
      | .again r => r.as_state = a.as_state
      | .restart r => r.as_state = a.as_state
      | .done r _ => r.as_state = a.as_state
      | .abort => True := by
    intro x hx
    unfold onestep_next
    by_cases h1 : x.ctx.pc = l.ctx.pc
    · rw [if_pos h1]; trivial
    · rw [if_neg h1]
      cases hi : g.instrs[x.ctx.pc]? with
      | none => trivial
      | some ni =>
        dsimp only
        have := onestep_peek_as_state cb ni x
        rw [hx] at this
        exact this
  unfold onestep_iter
  rw [he]
  dsimp only
  by_cases h1 : ¬ (a.ctx.pc < g.instrs.length)
  · rw [if_pos h1]; trivial
  rw [if_neg h1]
  by_cases h2 : a.ctx.terminated = true
  · rw [if_pos h2]
  rw [if_neg h2]
  by_cases h3 : a.ctx.failed = true
  · rw [if_pos h3]
  rw [if_neg h3]
  by_cases h4 : a.ctx.stopped = true
  · rw [if_pos h4]
  rw [if_neg h4]
  by_cases h5 : infloop_detect = true ∨ a.instrcnt + 1 > 1000
  · rw [if_pos h5]
    by_cases h6 : (a.ctx, a.sc) ∈ a.infloop.getD []
    · rw [if_pos h6]
      by_cases h7 : infloop_detect = true
      · rw [if_pos h7]
      · rw [if_neg h7]
    · rw [if_neg h6]
      exact hnext _ rfl
  · rw [if_neg h5]
    exact hnext _ rfl

/-- The snapshot of `onestep` while the context is in a lazily entered atomic
section: either no snapshot was taken since the loop was entered, or
`as_context` is the interned context reached after `as_instrcnt`
instructions, and `as_instrcnt` is at least 1. -/
theorem onestep_after_snapshot_state (g : global) (cb : collab) (choice : hvalue)
    (infloop_detect : Bool) (multiplicity : Nat)
    (hops : ∀ ins ∈ g.instrs, ∀ (s : state) (c : context), lazy_atomic (ins.op s c).2 →
      lazy_atomic c ∨ (ins.atomicinc = true ∧ c.atomic = 0 ∧ c.atomicFlag = false))
    (ls0 : loop_state) (h0 : ls0.infloop = none) (hc : ls0.instrcnt = 0)
    (has0 : ls0.as_state = none) (t : Nat) :
    ∀ l, onestep_after g cb choice infloop_detect multiplicity t ls0 = some l →
      lazy_atomic l.ctx →
      l.as_state = none ∨
      ∃ k lk, 1 ≤ k ∧ k ≤ t ∧
        onestep_after g cb choice infloop_detect multiplicity k ls0 = some lk ∧
        l.as_context = cb.value_put_context lk.ctx ∧ l.as_instrcnt = k := by
  induction t with
  | zero =>
    intro l hl _
    simp only [onestep_after, Option.some.injEq] at hl
    subst hl
    exact Or.inl has0
  | succ t ih =>
    intro l1 hl1 hlazy
    obtain ⟨l, hl, hit⟩ :=
      onestep_after_succ g cb choice infloop_detect multiplicity ls0 t l1 hl1
    obtain ⟨a, he, c1, _, _, c4, c5, _⟩ :=
      onestep_iter_again_ctx g cb choice infloop_detect multiplicity l l1 hit
    have hcnt := (onestep_after_infloop g cb choice infloop_detect multiplicity ls0 h0 hc t l hl).1
    have hst := onestep_iter_as_state g cb choice infloop_detect multiplicity l a he
    rw [hit] at hst
    have hnow : ∀ (p1 : l.instrcnt ≠ 0) (p2 : a.as_context = cb.value_put_context l.ctx)
        (p3 : a.as_instrcnt = l.instrcnt),
        ∃ k lk, 1 ≤ k ∧ k ≤ t + 1 ∧
          onestep_after g cb choice infloop_detect multiplicity k ls0 = some lk ∧
          l1.as_context = cb.value_put_context lk.ctx ∧ l1.as_instrcnt = k :=
      fun p1 p2 p3 => ⟨t, l, by omega, by omega, hl, by rw [c4, p2], by rw [c5, p3, hcnt]⟩
    rcases onestep_exec_as_state g cb choice multiplicity l a he with hkeep | ⟨p1, p2, p3⟩
    · rcases onestep_exec_snapshot g cb choice multiplicity hops l a he (by rw [← c1]; exact hlazy)
        with ⟨hl', e1, e2⟩ | ⟨p1, p2, p3⟩
      · rcases ih l hl hl' with hnone | ⟨k, lk, k1, k2, k3, k4, k5⟩
        · exact Or.inl (by rw [hst, hkeep, hnone])
        · exact Or.inr ⟨k, lk, k1, by omega, k3, by rw [c4, e1, k4], by rw [c5, e2, k5]⟩
      · exact Or.inr (hnow p1 p2 p3)
    · exact Or.inr (hnow p1 p2 p3)

/-- The replay of a macrostep in terms of the main loop of `onestep`: when the
loop, started with the state of the node with `choosing` cleared, is left by
`break` with the local variables `ls` and the flags `fl`, and a rollback finds
a snapshot, then `twostep2` with the instruction count of the edge returns the
handle `after` of the edge. -/
theorem twostep2_replays_loop (fuel : Nat) (g : global) (cb : collab) (nstate sc : state)
    (ctx : hvalue) (st : step) (choice : hvalue) (interrupt infloop_detect : Bool)
    (multiplicity : Nat) (ls : loop_state) (fl : exit_flags)
    (hloop : onestep_loop g cb choice infloop_detect multiplicity fuel
      (onestep_start cb sc st interrupt) = some (.done ls fl))
    (hsnap0 : ¬ (fl.rollback = true ∧ ls.as_state = none))
    (hen1 : ¬ (st.ctx.terminated = true ∨ st.ctx.failed = true))
    (hen2 : ¬ (interrupt = true ∧ ((!st.ctx.extended) = true ∨ st.ctx.trap_pc = 0)))
    (hsc : sc = { nstate with choosing := 0 })
    (hst : st.ctx = cb.value_get_context ctx)
    (hops : ∀ ins ∈ g.instrs, ∀ (s : state) (c : context), lazy_atomic (ins.op s c).2 →
      lazy_atomic c ∨ (ins.atomicinc = true ∧ c.atomic = 0 ∧ c.atomicFlag = false)) :
    ∀ fuel2, exit_instrcnt ls fl < fuel2 →
      twostep2 fuel2 g cb nstate ctx choice interrupt (exit_instrcnt ls fl)
        = .ret (exit_after cb ls fl) := by
  intro fuel2 hf2
  obtain ⟨N, hnsteps⟩ : ∃ N, N = exit_instrcnt ls fl := ⟨_, rfl⟩
  rw [← hnsteps] at hf2 ⊢
  rw [hst] at hen1 hen2
  have h0 : (onestep_start cb sc st interrupt).infloop = none := rfl
  have hc : (onestep_start cb sc st interrupt).instrcnt = 0 := rfl
  have hctx0 : (twostep2_start cb nstate ctx choice interrupt).ctx
      = (onestep_start cb sc st interrupt).ctx := by
    show (if interrupt = true then cb.interrupt_invoke (cb.value_get_context ctx)
      else cb.value_get_context ctx) = (if interrupt = true then cb.interrupt_invoke st.ctx
      else st.ctx)
    rw [hst]
  have hsc0 : (twostep2_start cb nstate ctx choice interrupt).sc
      = (onestep_start cb sc st interrupt).sc := hsc.symm
  obtain ⟨j, lj, _, haj, hiter, _⟩ :=
    onestep_after_of_loop g cb choice infloop_detect multiplicity fuel _ _ hloop
  have hcntj := (onestep_after_infloop g cb choice infloop_detect multiplicity _ h0 hc j lj haj).1
  obtain ⟨a, he, hcases⟩ := onestep_iter_done g cb choice infloop_detect multiplicity lj ls fl hiter
  obtain ⟨hf1, hf2'⟩ := onestep_exec_frame g cb choice multiplicity lj a he
  have hsim := twostep2_follows g cb choice infloop_detect multiplicity N
    (onestep_start cb sc st interrupt) (twostep2_start cb nstate ctx choice interrupt)
    h0 hc hctx0 hsc0 rfl rfl rfl
  have hnr : fl.infinite_loop = false →
      (∀ i i1 li li1, 1 ≤ i → i < i1 → i1 ≤ j →
        onestep_after g cb choice infloop_detect multiplicity i
          (onestep_start cb sc st interrupt) = some li →
        onestep_after g cb choice infloop_detect multiplicity i1
          (onestep_start cb sc st interrupt) = some li1 →
        ¬ (li1.ctx = li.ctx ∧ li1.sc = li.sc)) ∧
      (∀ i li, 1 ≤ i → i ≤ j →
        onestep_after g cb choice infloop_detect multiplicity i
          (onestep_start cb sc st interrupt) = some li → a.ctx ≠ li.ctx) := by
    intro hfl
    obtain ⟨n1, n2⟩ := onestep_pairs_distinct g cb choice infloop_detect multiplicity _ h0 hc
      j lj ls fl haj hiter hfl
    exact ⟨n1, n2 a he⟩
  rcases hcases with ⟨c1, c2, c3, c4, c5⟩ | ⟨c1, c2, c3, c4, c5, c6⟩ |
      ⟨c1, c2, c3, c4, c5, c6, c7, c8⟩ | ⟨c1, c2, c3, c4, c5, c6, c7, c8, c9, c10⟩ |
      ⟨c1, c2, c3, c4, c5⟩
  · -- the context terminated or failed
    have hns : N = j + 1 := by
      rw [hnsteps]; unfold exit_instrcnt; rw [c1]; simp only [Bool.false_eq_true, if_false]
      rw [c4, hf1, hcntj]
    have haft : exit_after cb ls fl = cb.value_put_context a.ctx := by
      unfold exit_after; rw [c1]; simp only [Bool.false_eq_true, if_false]; rw [c3]
    obtain ⟨T, hT, t1, t2, t3, t4, _⟩ := hsim j lj haj (by omega)
      (fun i i1 li li1 p q r => (hnr c2).1 i i1 li li1 p q r)
    obtain ⟨X, hX, hXc⟩ := twostep2_iter_last g cb choice multiplicity N lj a T he
      t1 t2 (by rw [t3, hcntj]) t4 (Or.inl c5)
    rw [twostep2_ret fuel2 g cb nstate ctx choice interrupt N j T X hen1 hen2 hT hX
      (by omega), hXc, haft]
  · -- the macrostep ends in the context reached
    have hns : N = j + 1 := by
      rw [hnsteps]; unfold exit_instrcnt; rw [c1]; simp only [Bool.false_eq_true, if_false]
      rw [c4, hf1, hcntj]
    have haft : exit_after cb ls fl = cb.value_put_context a.ctx := by
      unfold exit_after; rw [c1]; simp only [Bool.false_eq_true, if_false]; rw [c3]
    obtain ⟨T, hT, t1, t2, t3, t4, t5⟩ := hsim j lj haj (by omega)
      (fun i i1 li li1 p q r => (hnr c2).1 i i1 li li1 p q r)
    have hnew : (a.ctx, a.sc) ∉ T.infloop.getD [] := by
      intro hp
      obtain ⟨i, li, p, q, r, s⟩ := (t5 _).mp hp
      simp only [Prod.mk.injEq] at s
      exact (hnr c2).2 i li p q r s.1
    obtain ⟨X, hX, hXc⟩ := twostep2_iter_last g cb choice multiplicity N lj a T he
      t1 t2 (by rw [t3, hcntj]) t4 (Or.inr ⟨hnew, Or.inr (by rw [t3]; omega)⟩)
    rw [twostep2_ret fuel2 g cb nstate ctx choice interrupt N j T X hen1 hen2 hT hX
      (by omega), hXc, haft]
  · -- the infinite-loop detector ended the macrostep
    subst c3
    have hns : N = j + 1 := by
      rw [hnsteps]; unfold exit_instrcnt; rw [c1]; simp only [Bool.false_eq_true, if_false]
      rw [c5, hf1, hcntj]
    have haft : exit_after cb ls fl
        = cb.value_put_context (value_ctx_failure cb a.ctx "infinite loop") := by
      unfold exit_after; rw [c1]; simp only [Bool.false_eq_true, if_false]; rw [c4]
    obtain ⟨T, hT, t1, t2, t3, t4, t5⟩ := hsim j lj haj (by omega)
      (fun i i1 li li1 p q _ => onestep_pairs_distinct_detect g cb choice multiplicity _ h0 hc
        i i1 li li1 p q)
    have hmem : (a.ctx, a.sc) ∈ T.infloop.getD [] := by
      obtain ⟨_, hsub, _⟩ := onestep_after_infloop g cb choice true multiplicity _ h0 hc j lj haj
      rw [hf2'] at c8
      obtain ⟨k, lk, p, q, _, r, s⟩ := hsub _ c8
      exact (t5 _).mpr ⟨k, lk, p, q, r, s⟩
    obtain ⟨X, hX, hXc⟩ := twostep2_iter_infinite g cb choice multiplicity N lj a T he
      t1 t2 (by rw [t3, hcntj]) t4 c6 c7 hmem
    rw [twostep2_ret fuel2 g cb nstate ctx choice interrupt N j T X hen1 hen2 hT hX
      (by omega), hXc, haft]
  · -- the next instruction is a Choose without a non-empty set
    have hns : N = j + 2 := by
      rw [hnsteps]; unfold exit_instrcnt; rw [c1]; simp only [Bool.false_eq_true, if_false]
      rw [c3, hf1, hcntj]
    have haft : exit_after cb ls fl = cb.value_put_context ls.ctx := by
      unfold exit_after; rw [c1]; simp only [Bool.false_eq_true, if_false]
    obtain ⟨T, hT, t1, t2, t3, t4, t5⟩ := hsim j lj haj (by omega)
      (fun i i1 li li1 p q r => (hnr c2).1 i i1 li li1 p q r)
    have hnew : (a.ctx, a.sc) ∉ T.infloop.getD [] := by
      intro hp
      obtain ⟨i, li, p, q, r, s⟩ := (t5 _).mp hp
      simp only [Prod.mk.injEq] at s
      exact (hnr c2).2 i li p q r s.1
    obtain ⟨ni, hni, hch⟩ := c9
    obtain ⟨k1, k2⟩ := twostep2_iter_choose_failure g cb choice multiplicity N lj a T ni
      he t1 t2 (by rw [t3, hcntj]) t4 c4 c5 c6 hnew (by rw [t3]; omega) c7 hni hch c8
    rcases c10 with ⟨s1, s2⟩ | ⟨s1, s2, s3⟩
    · obtain ⟨X, hX, hXc⟩ := k1 s1
      rw [twostep2_ret fuel2 g cb nstate ctx choice interrupt N j T X hen1 hen2 hT hX
        (by omega), hXc, haft, s2]
    · obtain ⟨X, hX, hXc⟩ := k2 s1 s2
      rw [twostep2_ret fuel2 g cb nstate ctx choice interrupt N j T X hen1 hen2 hT hX
        (by omega), hXc, haft, s3]
  · -- the macrostep is rolled back to the start of the atomic section
    have hns : N = a.as_instrcnt := by
      rw [hnsteps]; unfold exit_instrcnt; rw [c1]; simp only [if_true]; exact c5
    have haft : exit_after cb ls fl = a.as_context := by
      unfold exit_after; rw [c1]; simp only [if_true]; exact c4
    have hsnap : ∃ k lk, 1 ≤ k ∧ k ≤ j ∧
        onestep_after g cb choice infloop_detect multiplicity k
          (onestep_start cb sc st interrupt) = some lk ∧
        a.as_context = cb.value_put_context lk.ctx ∧ a.as_instrcnt = k := by
      have hsome : a.as_state ≠ none := by
        have hr := onestep_iter_as_state g cb choice infloop_detect multiplicity lj a he
        rw [hiter] at hr
        intro hnone
        exact hsnap0 ⟨c1, by rw [hr, hnone]⟩
      rcases onestep_exec_as_state g cb choice multiplicity lj a he with hkeep | ⟨p1, p2, p3⟩
      · rcases onestep_exec_snapshot g cb choice multiplicity hops lj a he c3 with
          ⟨p1, p2, p3⟩ | ⟨p1, p2, p3⟩
        · rcases onestep_after_snapshot_state g cb choice infloop_detect
            multiplicity hops _ h0 hc rfl j lj haj p1 with hnone | ⟨k, lk, q1, q2, q3, q4, q5⟩
          · exact absurd (by rw [hkeep, hnone]) hsome
          · exact ⟨k, lk, q1, q2, q3, by rw [p2, q4], by rw [p3, q5]⟩
        · exact ⟨j, lj, by omega, le_refl _, haj, p2, by rw [p3, hcntj]⟩
      · exact ⟨j, lj, by omega, le_refl _, haj, p2, by rw [p3, hcntj]⟩
    obtain ⟨k, lk, q1, q2, q3, q4, q5⟩ := hsnap
    obtain ⟨k0, rfl⟩ : ∃ k0, k = k0 + 1 := ⟨k - 1, by omega⟩
    obtain ⟨l', hl', hit'⟩ :=
      onestep_after_succ g cb choice infloop_detect multiplicity _ k0 lk q3
    have hcnt' :=
      (onestep_after_infloop g cb choice infloop_detect multiplicity _ h0 hc k0 l' hl').1
    obtain ⟨a', he', d1, d2, _⟩ :=
      onestep_iter_again_ctx g cb choice infloop_detect multiplicity l' lk hit'
    obtain ⟨T, hT, t1, t2, t3, t4, t5⟩ := hsim k0 l' hl' (by omega)
      (fun i i1 li li1 p q r => (hnr c2).1 i i1 li li1 p q (by omega))
    have hnew : (a'.ctx, a'.sc) ∉ T.infloop.getD [] := by
      intro hp
      obtain ⟨i, li, p, q, r, s⟩ := (t5 _).mp hp
      simp only [Prod.mk.injEq] at s
      exact (hnr c2).1 i (k0 + 1) li lk p (by omega) q2 r q3 ⟨by rw [d1, s.1], by rw [d2, s.2]⟩
    obtain ⟨X, hX, hXc⟩ := twostep2_iter_last g cb choice multiplicity N l' a' T he'
      t1 t2 (by rw [t3, hcnt']) t4 (Or.inr ⟨hnew, Or.inr (by rw [t3]; omega)⟩)
    rw [twostep2_ret fuel2 g cb nstate ctx choice interrupt N k0 T X hen1 hen2 hT hX
      (by omega), hXc, haft, q4, d1]

theorem clear_choosing_inj (s1 s2 : state) (h : clear_choosing s1 = clear_choosing s2)
    (hc : s1.choosing = s2.choosing) : s1 = s2 := by
  cases s1
  cases s2
  simp only [clear_choosing, state.mk.injEq] at h hc ⊢
  exact ⟨h.1, h.2.1, hc, h.2.2.2⟩

theorem onestep_exec_clear (g : global) (cb : collab) (choice : hvalue) (multiplicity : Nat)
    (hch : ∀ ins ∈ g.instrs, ∀ (s : state) (c : context),
      (ins.op s c).1.choosing = s.choosing ∧
      ins.op { s with choosing := 0 } c = ({ (ins.op s c).1 with choosing := 0 }, (ins.op s c).2))
    (ls : loop_state) :
    onestep_exec g cb choice multiplicity (loop_state_clear ls) =
      (onestep_exec g cb choice multiplicity ls).map loop_state_clear ∧
    ∀ a, onestep_exec g cb choice multiplicity ls = some a →
      a.sc.choosing = ls.sc.choosing ∧ a.infloop = ls.infloop := by
  unfold onestep_exec
  have hctx : (loop_state_clear ls).ctx = ls.ctx := rfl
  rw [hctx]
  cases hi : g.instrs[ls.ctx.pc]? with
  | none => exact ⟨rfl, fun a h => by cases h⟩
  | some ins =>
    dsimp only
    have hm : ins ∈ g.instrs := List.getElem?_mem hi
    have h1 := fun s c => (hch ins hm s c).1
    have h2 : ∀ s c, ins.op (clear_choosing s) c =
        (clear_choosing (ins.op s c).1, (ins.op s c).2) := fun s c => (hch ins hm s c).2
    by_cases c1 : ins.choose = true
    · rw [if_pos c1, if_pos c1]
      by_cases c2 : ls.ctx.stack.length = 0 ∨ choice = 0
      · rw [if_pos c2, if_pos c2]
        exact ⟨rfl, fun a h => by cases h⟩
      · rw [if_neg c2, if_neg c2]
        exact ⟨rfl, fun a h => by cases h; exact ⟨rfl, rfl⟩⟩
    · rw [if_neg c1, if_neg c1]
      by_cases c3 : ins.atomicinc = true
      · rw [if_pos c3, if_pos c3]
        have hcnt : (loop_state_clear ls).instrcnt = ls.instrcnt := rfl
        rw [hcnt]
        by_cases c4 : ls.instrcnt = 0
        · rw [if_pos c4, if_pos c4]
          refine ⟨?_, fun a h => by cases h; exact ⟨h1 _ _, rfl⟩⟩
          simp only [loop_state_clear, h2, Option.map_some']
        · rw [if_neg c4, if_neg c4]
          by_cases c5 : ls.ctx.atomic = 0
          · rw [if_pos c5, if_pos c5]
            refine ⟨?_, fun a h => by cases h; exact ⟨h1 _ _, rfl⟩⟩
            simp only [loop_state_clear, h2, Option.map_some']
          · rw [if_neg c5, if_neg c5]
            refine ⟨?_, fun a h => by cases h; exact ⟨h1 _ _, rfl⟩⟩
            simp only [loop_state_clear, h2, Option.map_some']
      · rw [if_neg c3, if_neg c3]
        by_cases c6 : ins.atomicdec = true
        · rw [if_pos c6, if_pos c6]
          have hsc : (loop_state_clear ls).sc = clear_choosing ls.sc := rfl
          rw [hsc, h2]
          dsimp only
          by_cases c7 : (ins.op ls.sc ls.ctx).2.atomic = 0
          · rw [if_pos c7, if_pos c7]
            exact ⟨rfl, fun a h => by cases h; exact ⟨h1 _ _, rfl⟩⟩
          · rw [if_neg c7, if_neg c7]
            exact ⟨rfl, fun a h => by cases h; exact ⟨h1 _ _, rfl⟩⟩
        · rw [if_neg c6, if_neg c6]
          have hsc : (loop_state_clear ls).sc = clear_choosing ls.sc := rfl
          rw [hsc, h2]
          exact ⟨rfl, fun a h => by cases h; exact ⟨h1 _ _, rfl⟩⟩

theorem onestep_peek_clear (cb : collab) (ni : instr) (ls : loop_state) :
    onestep_peek cb ni (loop_state_clear ls) = loop_step_clear (onestep_peek cb ni ls) := by
  unfold onestep_peek
  have hctx : (loop_state_clear ls).ctx = ls.ctx := rfl
  rw [hctx]
  dsimp only
  split_ifs <;> rfl

theorem onestep_next_clear (g : global) (cb : collab) (pc0 : Nat) (ls : loop_state) :
    onestep_next g cb pc0 (loop_state_clear ls) = loop_step_clear (onestep_next g cb pc0 ls) := by
  unfold onestep_next
  have hctx : (loop_state_clear ls).ctx = ls.ctx := rfl
  rw [hctx]
  by_cases h1 : ls.ctx.pc = pc0
  · rw [if_pos h1, if_pos h1]; rfl
  · rw [if_neg h1, if_neg h1]
    cases hi : g.instrs[ls.ctx.pc]? with
    | none => rfl
    | some ni => exact onestep_peek_clear cb ni ls

theorem mem_clear_iff (x : hvalue) (c : context) (s : state) (l : List (context × state))
    (hs : s.choosing = x) (hl : ∀ p ∈ l, p.2.choosing = x) :
    (c, clear_choosing s) ∈ l.map (fun p => (p.1, clear_choosing p.2)) ↔ (c, s) ∈ l := by
  rw [List.mem_map]
  constructor
  · rintro ⟨p, hp, he⟩
    simp only [Prod.mk.injEq] at he
    have : p.2 = s := clear_choosing_inj _ _ he.2 (by rw [hl p hp, hs])
    have hp2 : p = (c, s) := Prod.ext he.1 this
    rw [← hp2]
    exact hp
  · intro h
    exact ⟨(c, s), h, rfl⟩

/-- An iteration of the main loop of `onestep` on local variables with
`choosing` cleared does what it does on the local variables themselves, when
the instructions neither read nor write `choosing`. -/
theorem onestep_iter_clear (g : global) (cb : collab) (choice : hvalue) (infloop_detect : Bool)
    (multiplicity : Nat)
    (hch : ∀ ins ∈ g.instrs, ∀ (s : state) (c : context),
      (ins.op s c).1.choosing = s.choosing ∧
      ins.op { s with choosing := 0 } c = ({ (ins.op s c).1 with choosing := 0 }, (ins.op s c).2))
    (x : hvalue) (ls : loop_state) (hI : choosing_is x ls) :
    onestep_iter g cb choice infloop_detect multiplicity (loop_state_clear ls) =
      loop_step_clear (onestep_iter g cb choice infloop_detect multiplicity ls) ∧
    ∀ l1, onestep_iter g cb choice infloop_detect multiplicity ls = .again l1 →
      choosing_is x l1 := by
  obtain ⟨he, hinv⟩ := onestep_exec_clear g cb choice multiplicity hch ls
  unfold onestep_iter
  rw [he]
  have hpc : (loop_state_clear ls).ctx.pc = ls.ctx.pc := rfl
  rw [hpc]
  cases hex : onestep_exec g cb choice multiplicity ls with
  | none => exact ⟨rfl, fun l1 h => by cases h⟩
  | some a =>
    obtain ⟨ha1, ha2⟩ := hinv a hex
    have hIa : choosing_is x a := ⟨by rw [ha1]; exact hI.1, by rw [ha2]; exact hI.2⟩
    simp only [Option.map_some']
    have hctx : (loop_state_clear a).ctx = a.ctx := rfl
    have hcnt : (loop_state_clear a).instrcnt = a.instrcnt := rfl
    have hsc : (loop_state_clear a).sc = clear_choosing a.sc := rfl
    have hinf : (loop_state_clear a).infloop.getD [] =
        (a.infloop.getD []).map (fun p => (p.1, clear_choosing p.2)) := by
      show (a.infloop.map _).getD [] = _
      cases a.infloop <;> rfl
    have hnextI : ∀ (y : loop_state), choosing_is x y → ∀ l1,
        onestep_next g cb ls.ctx.pc y = .again l1 → choosing_is x l1 := by
      intro y hy l1 h
      obtain ⟨e1, _⟩ := (onestep_next_again_iff _ _ _ _ _).mp h
      rw [e1]
      exact hy
    rw [hctx, hcnt, hsc, hinf]
    by_cases h1 : ¬ (a.ctx.pc < g.instrs.length)
    · rw [if_pos h1, if_pos h1]
      exact ⟨rfl, fun l1 h => by cases h⟩
    rw [if_neg h1, if_neg h1]
    by_cases h2 : a.ctx.terminated = true
    · rw [if_pos h2, if_pos h2]
      exact ⟨rfl, fun l1 h => by cases h⟩
    rw [if_neg h2, if_neg h2]
    by_cases h3 : a.ctx.failed = true
    · rw [if_pos h3, if_pos h3]
      exact ⟨rfl, fun l1 h => by cases h⟩
    rw [if_neg h3, if_neg h3]
    by_cases h4 : a.ctx.stopped = true
    · rw [if_pos h4, if_pos h4]
      exact ⟨rfl, fun l1 h => by cases h⟩
    rw [if_neg h4, if_neg h4]
    by_cases h5 : infloop_detect = true ∨ a.instrcnt + 1 > 1000
    · rw [if_pos h5, if_pos h5]
      have hmem := mem_clear_iff x a.ctx a.sc (a.infloop.getD []) hIa.1 hIa.2
      by_cases h6 : (a.ctx, a.sc) ∈ a.infloop.getD []
      · rw [if_pos (hmem.2 h6), if_pos h6]
        by_cases h7 : infloop_detect = true
        · rw [if_pos h7, if_pos h7]
          refine ⟨?_, fun l1 h => by cases h⟩
          simp only [loop_step_clear, loop_state_clear, hinf, Option.map_some',
            Option.getD_some]
        · rw [if_neg h7, if_neg h7]
          refine ⟨?_, fun l1 h => by cases h⟩
          simp only [loop_step_clear, loop_state_clear, hinf, Option.map_some',
            Option.getD_some]
      · rw [if_neg (fun h => h6 (hmem.1 h)), if_neg h6]
        constructor
        · rw [← onestep_next_clear]
          congr 1
        · intro l1 h
          refine hnextI { a with
            instrcnt := a.instrcnt + 1
            infloop := some ((a.ctx, a.sc) :: a.infloop.getD []) } ⟨hIa.1, ?_⟩ l1 h
          intro p hp
          have hp2 : p ∈ (a.ctx, a.sc) :: a.infloop.getD [] := hp
          rcases List.mem_cons.1 hp2 with hp3 | hp3
          · rw [hp3]; exact hIa.1
          · exact hIa.2 p hp3
    · rw [if_neg h5, if_neg h5]
      constructor
      · rw [← onestep_next_clear]
        rfl
      · intro l1 h
        exact hnextI { a with instrcnt := a.instrcnt + 1 } hIa l1 h

theorem onestep_loop_clear (g : global) (cb : collab) (choice : hvalue) (infloop_detect : Bool)
    (multiplicity : Nat)
    (hch : ∀ ins ∈ g.instrs, ∀ (s : state) (c : context),
      (ins.op s c).1.choosing = s.choosing ∧
      ins.op { s with choosing := 0 } c = ({ (ins.op s c).1 with choosing := 0 }, (ins.op s c).2))
    (x : hvalue) :
    ∀ (fuel : Nat) (ls : loop_state), choosing_is x ls →
      onestep_loop g cb choice infloop_detect multiplicity fuel (loop_state_clear ls) =
        (onestep_loop g cb choice infloop_detect multiplicity fuel ls).map loop_step_clear := by
  intro fuel
  induction fuel with
  | zero => intro ls _; rfl
  | succ f ih =>
    intro ls hI
    obtain ⟨h1, h2⟩ := onestep_iter_clear g cb choice infloop_detect multiplicity hch x ls hI
    rw [onestep_loop, onestep_loop, h1]
    cases hit : onestep_iter g cb choice infloop_detect multiplicity ls with
    | again l1 => exact ih l1 (h2 l1 hit)
    | abort => rfl
    | restart l1 => rfl
    | done l1 fl => rfl

/-- C3: for every edge `e` that a call of `onestep` from node `n` produces,
the replay `twostep2(n, e.ctx, e.choice, e.interrupt, e.nsteps)` returns and
stores the handle `e.after`, whichever way `onestep` ended the macrostep
(termination, failure, stop, choose point, breakable instruction, lazy-atomic
rollback, choose failure or infinite-loop detection).  The VM instructions are
deterministic (they are functions), and only an `AtomicInc` executed outside
an atomic section enters one lazily.  `onestep` is called as `make_step` calls
it: with the copy of the context `ctx`, and with a copy of the state of the
node in which `choosing` is cleared (the first call) or not (the call that is
repeated with the infinite-loop detection on); for a copy in which `choosing`
is not cleared, the instructions neither read nor write that field. -/
theorem twostep2_replays_onestep (fuel : Nat) (g : global) (cb : collab) (w : worker)
    (node : Nat) (n : Harmony.node) (sc : state) (ctx : hvalue) (st : step) (choice : hvalue)
    (interrupt infloop_detect : Bool) (multiplicity : Nat) (w1 : worker) (st1 : step)
    (h : onestep fuel g cb w node sc ctx st choice interrupt infloop_detect multiplicity
      = .ret (true, w1, st1))
    (hn : w.nodes[node]? = some n)
    (hsc : { sc with choosing := 0 } = { n.state with choosing := 0 })
    (hst : st.ctx = cb.value_get_context ctx)
    (hops : ∀ ins ∈ g.instrs, ∀ (s : state) (c : context), lazy_atomic (ins.op s c).2 →
      lazy_atomic c ∨ (ins.atomicinc = true ∧ c.atomic = 0 ∧ c.atomicFlag = false))
    (hch : sc.choosing ≠ 0 → ∀ ins ∈ g.instrs, ∀ (s : state) (c : context),
      (ins.op s c).1.choosing = s.choosing ∧
      ins.op { s with choosing := 0 } c =
        ({ (ins.op s c).1 with choosing := 0 }, (ins.op s c).2)) :
    ∃ e, w1.edges = w.edges ++ [e] ∧ e.src = node ∧ e.ctx = ctx ∧ e.choice = choice ∧
      e.interrupt = interrupt ∧
      ∀ fuel2, e.nsteps < fuel2 →
        twostep2 fuel2 g cb n.state e.ctx e.choice e.interrupt e.nsteps = .ret e.after := by
  have _ := hn
  obtain ⟨ls, fl, _, e, hloop, _, hedges, g1, g2, g3, g4, _, hafter, hnsteps, _⟩ :=
    onestep_true_spec fuel g cb w node sc ctx st choice interrupt infloop_detect multiplicity
      w1 st1 h
  have hsnap0 : ¬ (fl.rollback = true ∧ ls.as_state = none) := by
    rcases onestep_ret fuel g cb w node sc ctx st choice interrupt infloop_detect multiplicity
      true w1 st1 h with ⟨hb, _⟩ | ⟨_, ls2, fl2, _, hloop2, _, hs, _⟩
    · cases hb
    · rw [hloop] at hloop2
      cases hloop2
      exact hs
  obtain ⟨hen1, hen2⟩ := onestep_entry fuel g cb w node sc ctx st choice interrupt
    infloop_detect multiplicity _ h
  refine ⟨e, hedges, g1, g2, g3, g4, ?_⟩
  rw [g2, g3, g4, hafter, hnsteps]
  by_cases hz : sc.choosing = 0
  · have hsc1 : sc = { n.state with choosing := 0 } := by
      rw [← hsc]
      cases sc
      simp only at hz
      subst hz
      rfl
    exact twostep2_replays_loop fuel g cb n.state sc ctx st choice interrupt infloop_detect
      multiplicity ls fl hloop hsnap0 hen1 hen2 hsc1 hst hops
  · have hI : choosing_is sc.choosing (onestep_start cb sc st interrupt) :=
      ⟨rfl, fun p hp => by cases hp⟩
    have hl := onestep_loop_clear g cb choice infloop_detect multiplicity (hch hz) sc.choosing
      fuel _ hI
    rw [hloop] at hl
    have hs2 : ¬ (fl.rollback = true ∧ (loop_state_clear ls).as_state = none) := by
      rintro ⟨r1, r2⟩
      exact hsnap0 ⟨r1, Option.map_eq_none'.1 r2⟩
    exact twostep2_replays_loop fuel g cb n.state (clear_choosing sc) ctx st choice interrupt
      infloop_detect multiplicity (loop_state_clear ls) fl hl hs2 hen1 hen2 hsc hst hops

/-- In the program with the `Choose` no instruction changes the atomic count
or the `atomicFlag`. -/
theorem retry_demo_lazy : ∀ ins ∈ retry_demo_global.instrs, ∀ (s : state) (c : context),
    lazy_atomic (ins.op s c).2 →
    lazy_atomic c ∨ (ins.atomicinc = true ∧ c.atomic = 0 ∧ c.atomicFlag = false) := by
  intro ins hmem s c hl
  simp only [retry_demo_global, List.mem_cons, List.mem_singleton, List.not_mem_nil,
    or_false] at hmem
  rcases hmem with rfl | rfl | rfl
  all_goals exact Or.inl hl

/-- In the program with the `Choose` no instruction reads or writes the field
`choosing` of the state. -/
theorem retry_demo_choosing : ∀ ins ∈ retry_demo_global.instrs, ∀ (s : state) (c : context),
    (ins.op s c).1.choosing = s.choosing ∧
    ins.op { s with choosing := 0 } c =
      ({ (ins.op s c).1 with choosing := 0 }, (ins.op s c).2) := by
  intro ins hmem s c
  simp only [retry_demo_global, List.mem_cons, List.mem_singleton, List.not_mem_nil,
    or_false] at hmem
  rcases hmem with rfl | rfl | rfl
  all_goals exact ⟨rfl, rfl⟩

/-- The call of `onestep` that `make_step` repeats with the infinite-loop
detection on, from the choosing node of the program with the `Choose`: the
state passed is the state of the node, with `choosing` set. -/
theorem retry_demo_step : ∃ w1 st1,
    onestep 2000 retry_demo_global retry_demo_collab retry_demo_worker 0 retry_demo_state 1
      { ctx := retry_demo_collab.value_get_context 1, ai := [] } 2 false true 1
      = .ret (true, w1, st1) :=
  outcome_ret_of_fst _ _ (by decide!)

/-- C3, instances: the call that `make_step` repeats with the infinite-loop
detection on, from a choosing node (the state passed has `choosing` set), and
the macrostep of the thread at pc 15, which ends with a rollback. -/
theorem twostep2_replays_onestep_witness :
    (∃ w1 st1 e,
      onestep 2000 retry_demo_global retry_demo_collab retry_demo_worker 0 retry_demo_state 1
        { ctx := retry_demo_collab.value_get_context 1, ai := [] } 2 false true 1
        = .ret (true, w1, st1) ∧
      retry_demo_state.choosing ≠ 0 ∧
      w1.edges = retry_demo_worker.edges ++ [e] ∧ e.src = 0 ∧ e.ctx = 1 ∧
      e.choice = 2 ∧ e.interrupt = false ∧
      ∀ fuel2, e.nsteps < fuel2 →
        twostep2 fuel2 retry_demo_global retry_demo_collab (node_zero retry_demo_state).state
          e.ctx e.choice e.interrupt e.nsteps = .ret e.after) ∧
    ∃ w1 st1 e, demo_onestep 15 false = .ret (true, w1, st1) ∧
      w1.edges = (explore_init demo_collab 16 0).w.edges ++ [e] ∧ e.src = 0 ∧ e.ctx = 16 ∧
      e.choice = 0 ∧ e.interrupt = false ∧
      ∀ fuel2, e.nsteps < fuel2 →
        twostep2 fuel2 demo_global demo_collab (node_zero (demo_state 15)).state
          e.ctx e.choice e.interrupt e.nsteps = .ret e.after := by
  constructor
  · obtain ⟨w1, st1, h⟩ := retry_demo_step
    obtain ⟨e, he⟩ := twostep2_replays_onestep 2000 retry_demo_global retry_demo_collab
      retry_demo_worker 0 (node_zero retry_demo_state) retry_demo_state 1
      { ctx := retry_demo_collab.value_get_context 1, ai := [] } 2 false true 1 w1 st1 h rfl rfl
      rfl retry_demo_lazy (fun _ => retry_demo_choosing)
    exact ⟨w1, st1, e, h, by decide, he⟩
  · obtain ⟨w1, st1, h⟩ := demo_rollback_step
    obtain ⟨e, he⟩ := twostep2_replays_onestep 2000 demo_global demo_collab
      (explore_init demo_collab 16 0).w 0 (node_zero (demo_state 15)) (demo_state 15) 16
      (demo_step 15) 0 false false 1 w1 st1 h rfl rfl rfl demo_global_lazy
      (fun hne => absurd rfl hne)
    exact ⟨w1, st1, e, h, he⟩

/-- The repeated call from the choosing node and the replay of its edge,
evaluated: the `Choose` and two jumps, then the detector finds the pair of
the first jump again; the edge has 3 instructions and ends in the failed
context at pc 1 (handle 102). -/
theorem retry_demo_replay :
    (onestep 2000 retry_demo_global retry_demo_collab retry_demo_worker 0 retry_demo_state 1
        { ctx := retry_demo_collab.value_get_context 1, ai := [] } 2 false true 1).toOption.map
      (fun r => r.2.1.edges.map (fun e => (e.ctx, e.choice, e.after, e.nsteps)))
      = some [(1, 2, 102, 3)] ∧
    (onestep 2000 retry_demo_global retry_demo_collab retry_demo_worker 0 retry_demo_state 1
        { ctx := retry_demo_collab.value_get_context 1, ai := [] } 2 false true 1).toOption.map
      (fun r => r.2.1.failures.map (fun f => f.type)) = some [.FAIL_TERMINATION] ∧
    twostep2 5 retry_demo_global retry_demo_collab retry_demo_state 1 2 false 3 = .ret 102 :=
  ⟨by decide!, by decide!, by decide!⟩

/-- The function `make_step` on the choosing node of the program with the
`Choose`: the first call of `onestep` returns false, and the call that is
repeated with the state of the node as it is produces the edge. -/
theorem retry_demo_make_step :
    (onestep 2000 retry_demo_global retry_demo_collab retry_demo_worker 0
        { retry_demo_state with choosing := 0 } 1
        { ctx := retry_demo_collab.value_get_context 1, ai := [] } 2 false false 1).toOption.map
      (fun r => r.1) = some false ∧
    (make_step 2000 retry_demo_global retry_demo_collab retry_demo_worker 0 1 2 1).toOption.map
      (fun w => w.edges.map (fun e => (e.ctx, e.choice, e.after, e.nsteps)))
      = some [(1, 2, 102, 3)] :=
  ⟨by decide!, by decide!⟩

/-! ## Theorems: charm.c, trimming of the trace -/

/-- The inner loop of the first pass finds an exit at a node exactly when one
of its forward edges leads to a node of another component. -/
theorem has_exit_iff (nodes : List node) (edges : List edge) (n : node) :
    has_exit nodes edges n = true ↔
      ∃ e ∈ n.fwd, ∃ ed d, edges[e]? = some ed ∧ nodes[ed.dst]? = some d ∧
        d.component ≠ n.component := by
  unfold has_exit
  rw [List.any_eq_true]
  constructor
  · rintro ⟨e, he, h⟩
    cases hed : edges[e]? with
    | none => rw [hed] at h; simp at h
    | some ed =>
      rw [hed] at h
      simp only [Option.some_bind] at h
      cases hd : nodes[ed.dst]? with
      | none => rw [hd] at h; simp at h
      | some d =>
        rw [hd] at h
        exact ⟨e, he, ed, d, hed, hd, by simpa using h⟩
  · rintro ⟨e, he, ed, d, hed, hd, hne⟩
    refine ⟨e, he, ?_⟩
    rw [hed]
    simp only [Option.some_bind]
    rw [hd]
    simpa using hne

theorem scan_has_exit_iff (nodes : List node) (edges : List edge) (graph : List Nat) (k : Nat) :
    scan_has_exit nodes edges graph k = true ↔ spec_component_has_exit nodes edges graph k := by
  unfold scan_has_exit spec_component_has_exit
  rw [List.any_eq_true]
  constructor
  · rintro ⟨q, hq, h⟩
    cases hm : nodes[q]? with
    | none => rw [hm] at h; simp at h
    | some m =>
      rw [hm] at h
      simp only [Bool.and_eq_true, beq_iff_eq] at h
      obtain ⟨e, he, ed, d, h1, h2, h3⟩ := (has_exit_iff nodes edges m).1 h.2
      exact ⟨q, hq, m, hm, h.1, e, he, ed, d, h1, h2, by rw [← h.1]; exact h3⟩
  · rintro ⟨q, hq, m, hm, hk, e, he, ed, d, h1, h2, h3⟩
    refine ⟨q, hq, ?_⟩
    rw [hm]
    simp only [Bool.and_eq_true, beq_iff_eq]
    exact ⟨hk, (has_exit_iff nodes edges m).2 ⟨e, he, ed, d, h1, h2, by rw [hk]; exact h3⟩⟩

theorem scan_all_same_iff (env : analysis_collab) (nodes : List node) (graph : List Nat)
    (k : Nat) :
    scan_all_same env nodes graph k = true ↔ spec_component_all_same env nodes graph k := by
  unfold scan_all_same spec_component_all_same
  rw [List.all_eq_true]
  constructor
  · intro h q hq m hm hk
    have h1 := h q hq
    rw [hm] at h1
    simp only [Bool.or_eq_true, bne_iff_ne, ne_eq, Bool.and_eq_true, List.all_eq_true] at h1
    rcases h1 with h1 | ⟨h1, h2⟩
    · exact absurd hk h1
    · unfold all_eternal at h1
      simp only [Bool.and_eq_true] at h1
      refine ⟨h1.1, h1.2, ?_⟩
      intro q2 hq2 m2 hm2 hk2
      have h3 := h2 q2 hq2
      rw [hm2] at h3
      simp only [Bool.or_eq_true, bne_iff_ne, ne_eq, beq_iff_eq] at h3
      rcases h3 with h3 | h3
      · exact absurd hk2 h3
      · exact h3
  · intro h q hq
    cases hm : nodes[q]? with
    | none => rfl
    | some m =>
      simp only [Bool.or_eq_true, bne_iff_ne, ne_eq, Bool.and_eq_true, List.all_eq_true]
      by_cases hk : m.component = k
      · right
        obtain ⟨h1, h2, h3⟩ := h q hq m hm hk
        refine ⟨by unfold all_eternal; simp [h1, h2], ?_⟩
        intro q2 hq2
        cases hm2 : nodes[q2]? with
        | none => rfl
        | some m2 =>
          simp only [Bool.or_eq_true, bne_iff_ne, ne_eq, beq_iff_eq]
          by_cases hk2 : m2.component = k
          · exact Or.inr (h3 q2 hq2 m2 hm2 hk2)
          · exact Or.inl hk2
      · exact Or.inl hk

/-- C14: after the component analysis a node of the graph table is marked
final if and only if its component has no edge to a node of another component
and is all-same.  For a graph table whose entries point to nodes with a
component identifier below `ncomponents`, every component below `ncomponents`
having a node, and no node marked final beforehand, the three passes of the
analysis return; each node keeps all its other fields; its `final` flag is set
exactly when no node of its component has a forward edge to a node of another
component and every node of its component has only eternal contexts in bag and
stopbag and the same vars.  The nodes that `analysis` returns are these. -/
theorem analysis_final_iff (env : analysis_collab) (nodes : List node) (edges : List edge)
    (graph : List Nat) (ncomponents : Nat) (hwf : analysis_wf nodes graph ncomponents)
    (hfinal : ∀ p ∈ graph, ∀ n, nodes[p]? = some n → n.final = false) :
    ∃ comps0 comps nodes1 fs1,
      analysis_mark env nodes edges graph (List.replicate ncomponents {}) = some comps0 ∧
      analysis_finalize comps0 = some comps ∧
      analysis_final_nodes env comps graph nodes [] = some (nodes1, fs1) ∧
      (∀ fuel cflag r, analysis fuel env nodes edges graph ncomponents cflag = some r →
        r.1 = nodes1) ∧
      ∀ p ∈ graph, ∃ n n1, nodes[p]? = some n ∧ nodes1[p]? = some n1 ∧
        n1 = { n with final := n1.final } ∧
        (n1.final = true ↔
          (¬ spec_component_has_exit nodes edges graph n.component ∧
            spec_component_all_same env nodes graph n.component)) := by
  obtain ⟨comps0, comps, nodes1, fs1, e0, e1, e2, e3, e4⟩ :=
    analysis_final_scan env nodes edges graph ncomponents hwf hfinal
  refine ⟨comps0, comps, nodes1, fs1, e0, e1, e2, e3, ?_⟩
  intro p hp
  obtain ⟨n, n1, h1, h2, h3, h4⟩ := e4 p hp
  refine ⟨n, n1, h1, h2, h3, ?_⟩
  rw [h4, ← scan_has_exit_iff, ← scan_all_same_iff]
  simp

/-- C14, instance: the example graph of four nodes in three components. -/
theorem analysis_final_iff_witness :
    analysis_wf analysis_demo_nodes [0, 1, 2, 3] 3 ∧
    (∀ p ∈ [0, 1, 2, 3], ∀ n, analysis_demo_nodes[p]? = some n → n.final = false) ∧
    ∃ comps0 comps nodes1 fs1,
      analysis_mark analysis_demo_env analysis_demo_nodes analysis_demo_edges [0, 1, 2, 3]
        (List.replicate 3 {}) = some comps0 ∧
      analysis_finalize comps0 = some comps ∧
      analysis_final_nodes analysis_demo_env comps [0, 1, 2, 3] analysis_demo_nodes [] =
        some (nodes1, fs1) ∧
      (∀ fuel cflag r, analysis fuel analysis_demo_env analysis_demo_nodes analysis_demo_edges
        [0, 1, 2, 3] 3 cflag = some r → r.1 = nodes1) ∧
      ∀ p ∈ [0, 1, 2, 3], ∃ n n1, analysis_demo_nodes[p]? = some n ∧ nodes1[p]? = some n1 ∧
        n1 = { n with final := n1.final } ∧
        (n1.final = true ↔
          (¬ spec_component_has_exit analysis_demo_nodes analysis_demo_edges [0, 1, 2, 3]
              n.component ∧
            spec_component_all_same analysis_demo_env analysis_demo_nodes [0, 1, 2, 3]
              n.component)) :=
  ⟨analysis_demo_wf, by decide,
    analysis_final_iff analysis_demo_env analysis_demo_nodes analysis_demo_edges [0, 1, 2, 3] 3
      analysis_demo_wf (by decide)⟩

/-- C15: without a behavior DFA, the analysis records exactly one Termination
failure for every entry of the graph table whose component has no edge to a
node of another component and is not final, its edge being the `to_parent` of
the node, and no other Termination failure: the failures are those of the
entries `p` of the table with `bad p`, in reverse table order, and `bad` holds
of an entry exactly when its component has no exit and is not final.  With
the busy-wait detection switched off the analysis returns exactly these
failures; whenever the analysis returns, its Termination failures are exactly
these. -/
theorem analysis_termination_failures (env : analysis_collab) (nodes : List node)
    (edges : List edge) (graph : List Nat) (ncomponents : Nat)
    (hwf : analysis_wf nodes graph ncomponents) (hdfa : env.dfa_is_final = none) :
    ∃ bad : Nat → Bool,
      (∀ p ∈ graph, ∀ n, nodes[p]? = some n →
        (bad p = true ↔
          (¬ spec_component_has_exit nodes edges graph n.component ∧
            ¬ spec_component_final env nodes edges graph n.component))) ∧
      (∀ fuel, ∃ nodes1, analysis fuel env nodes edges graph ncomponents true =
        some (nodes1, ((graph.filter bad).map (fun p =>
          (⟨.FAIL_TERMINATION, (nodes[p]?).bind node.to_parent⟩ : node_failure))).reverse)) ∧
      ∀ fuel cflag r, analysis fuel env nodes edges graph ncomponents cflag = some r →
        r.2.filter (fun f => f.type == .FAIL_TERMINATION) =
          ((graph.filter bad).map (fun p =>
            (⟨.FAIL_TERMINATION, (nodes[p]?).bind node.to_parent⟩ : node_failure))).reverse := by
  obtain ⟨h1, h2⟩ := analysis_termination_scan env nodes edges graph ncomponents hwf hdfa
  refine ⟨fun p =>
    match nodes[p]? with
    | some n =>
      !scan_has_exit nodes edges graph n.component &&
        !scan_final env nodes edges graph n.component
    | none => false, ?_, h1, h2⟩
  intro p _ n hn
  simp only [hn]
  unfold spec_component_final scan_final
  rw [← scan_has_exit_iff, ← scan_all_same_iff]
  cases scan_has_exit nodes edges graph n.component <;>
    cases scan_all_same env nodes graph n.component <;> simp

/-- C15, instance: the example graph of four nodes in three components,
without a DFA. -/
theorem analysis_termination_failures_witness :
    analysis_wf analysis_demo_nodes [0, 1, 2, 3] 3 ∧ analysis_demo_env.dfa_is_final = none ∧
    ∃ bad : Nat → Bool,
      (∀ p ∈ [0, 1, 2, 3], ∀ n, analysis_demo_nodes[p]? = some n →
        (bad p = true ↔
          (¬ spec_component_has_exit analysis_demo_nodes analysis_demo_edges [0, 1, 2, 3]
              n.component ∧
            ¬ spec_component_final analysis_demo_env analysis_demo_nodes analysis_demo_edges
              [0, 1, 2, 3] n.component))) ∧
      (∀ fuel, ∃ nodes1, analysis fuel analysis_demo_env analysis_demo_nodes analysis_demo_edges
          [0, 1, 2, 3] 3 true =
        some (nodes1, (([0, 1, 2, 3].filter bad).map (fun p =>
          (⟨.FAIL_TERMINATION, (analysis_demo_nodes[p]?).bind node.to_parent⟩ :
            node_failure))).reverse)) ∧
      ∀ fuel cflag r, analysis fuel analysis_demo_env analysis_demo_nodes analysis_demo_edges
          [0, 1, 2, 3] 3 cflag = some r →
        r.2.filter (fun f => f.type == .FAIL_TERMINATION) =
          (([0, 1, 2, 3].filter bad).map (fun p =>
            (⟨.FAIL_TERMINATION, (analysis_demo_nodes[p]?).bind node.to_parent⟩ :
              node_failure))).reverse :=
  ⟨analysis_demo_wf, rfl,
    analysis_termination_failures analysis_demo_env analysis_demo_nodes analysis_demo_edges
      [0, 1, 2, 3] 3 analysis_demo_wf rfl⟩

/-! ## Theorems: hashtab.c, unsigned arithmetic in ht_grow_prepare -/

theorem ht_grow_loop_zero (nobjects : Nat) (h : 0 < u32 (nobjects * 10)) :
    ∀ fuel, ht_grow_loop nobjects fuel 0 = none := by
  intro fuel
  induction fuel with
  | zero => rfl
  | succ f ih =>
    rw [ht_grow_loop, if_pos h]
    exact ih

/-- C11: `ht_grow_prepare` computes in `unsigned int`, and for large tables
the products and the sum wrap.  (1) With `2 ^ 31` insertions counted for a
table of 1024 buckets, `nobjects * 2` is 0: no array is swapped in although
`nbuckets < 2 * nobjects`, and `nbuckets >= 2 * nobjects` does not hold
afterwards.  (2) With `nobjects = 2 ^ 32 - 1` and 2 insertions counted,
`nobjects` becomes 1 instead of the sum.  (3) With `2 ^ 29` buckets and
`2 ^ 28 + 1` objects the table has to grow, `nbuckets * 8` is 0, and the
doubling loop `while (nbuckets < nobjects * 10) nbuckets *= 2` never ends. -/
theorem ht_grow_prepare_wraps :
    ((ht_grow_prepare { ht_new 8 0 1 false with concurrent := true, counts := [2 ^ 31] }).map
        (fun h => (h.nobjects, h.nbuckets, h.old_buckets.isSome, h.old_nbuckets, h.counts))
      = some (2 ^ 31, 1024, false, 0, [0]) ∧
      1024 < 2 * 2 ^ 31) ∧
    (ht_grow_prepare
        { ht_new 8 0 1 false with concurrent := true, nobjects := 2 ^ 32 - 1, counts := [2] }).map
        (fun h => (h.nobjects, h.nbuckets, h.old_buckets.isSome))
      = some (1, 1024, false) ∧
    (ht_grow_prepare
        { ht_new 8 0 1 false with
          concurrent := true, nbuckets := 2 ^ 29, nobjects := 2 ^ 28, counts := [1] } = none ∧
      2 ^ 29 < 2 * (2 ^ 28 + 1) ∧ u32 (2 ^ 29 * 8) = 0 ∧
      ∀ fuel, ht_grow_loop (2 ^ 28 + 1) fuel (u32 (2 ^ 29 * 8)) = none) := by
  refine ⟨⟨by decide, by norm_num⟩, by decide, by decide, by norm_num, by decide, ?_⟩
  intro fuel
  have h0 : u32 (2 ^ 29 * 8) = 0 := by decide
  rw [h0]
  exact ht_grow_loop_zero _ (by decide) fuel

end Harmony
